import Mathlib

/-!
# Sequitur: grammar induction and arithmetic coding

A shallow embedding of the grammar engine (`classes.h`, `classes.cc`,
`sequitur.cc`), the Fenwick-tree statistics module (`stats.c`) and the
arithmetic coder (`arith.c`).
-/

namespace Sequitur

/-- Ways in which a run stops without producing a result. -/
inductive Fault where
  | outOfFuel
  | diverge
  | badPointer
  | assertFail
  | abort
deriving DecidableEq, Repr

deriving instance DecidableEq for Except

/-- Results of the embedded operations. -/
abbrev M := Except Fault

/-- Size of `unsigned long`: arithmetic on raw values is modulo `W`. -/
def W : Nat := 2 ^ 64

/-- A `symbols` object: `n`, `p` are the neighbour pointers (0 is the null
pointer), `s` the raw value. -/
structure symbols where
  n : Nat
  p : Nat
  s : Nat
deriving DecidableEq, Repr

/-- A `rules` object. -/
structure rules where
  guard : Nat
  count : Int
  Usage : Int
  number : Int
deriving DecidableEq, Repr

/-- Run-time parameters: the size of the digram table, the code variable `K`
(one less than the occurrence threshold), the delimiter (`-1`: none) and the
address the allocator gives to the n-th `rules` object. -/
structure Config where
  table_size : Nat
  K : Nat
  delimiter : Int
  addr : Nat → Nat

/-- The heap and the globals of the grammar engine.  Symbol objects are named
by pointers `≥ 2`, rule objects by their address, which is the raw value of
the non-terminals referring to them.  Table cells hold 0 (null), 1 (tombstone)
or a symbol pointer. -/
structure Grammar where
  sym : Nat → Option symbols
  rule : Nat → Option rules
  table : Nat → Nat
  nextSym : Nat
  nextRule : Nat
  num_rules : Int
  num_symbols : Int
  occupied : Int
  max_rule_len : Int
  compression_initialized : Bool

/-- The state before `main` runs. -/
def Grammar.init : Grammar :=
  { sym := fun _ => none, rule := fun _ => none, table := fun _ => 0,
    nextSym := 2, nextRule := 0, num_rules := 0, num_symbols := 0,
    occupied := 0, max_rule_len := 2, compression_initialized := false }

def deref (g : Grammar) (x : Nat) : M symbols :=
  match g.sym x with
  | some v => pure v
  | none => throw Fault.badPointer

def derefRule (g : Grammar) (a : Nat) : M rules :=
  match g.rule a with
  | some v => pure v
  | none => throw Fault.badPointer

def setSym (g : Grammar) (x : Nat) (v : symbols) : Grammar :=
  { g with sym := Function.update g.sym x (some v) }

def setRule (g : Grammar) (a : Nat) (v : rules) : Grammar :=
  { g with rule := Function.update g.rule a (some v) }

def setCell (g : Grammar) (i : Nat) (v : Nat) : Grammar :=
  { g with table := Function.update g.table i v }

def symbols.non_terminal (v : symbols) : Bool := v.s % 2 == 0 && v.s != 0

def symbols.value (v : symbols) : Nat := v.s / 2

def symbols.raw_value (v : symbols) : Nat := v.s

/-- Pointer to the first symbol of the rule at address `r`. -/
def first (g : Grammar) (r : Nat) : M Nat := do
  let R ← derefRule g r
  let gd ← deref g R.guard
  pure gd.n

/-- Pointer to the last symbol of the rule at address `r`. -/
def last (g : Grammar) (r : Nat) : M Nat := do
  let R ← derefRule g r
  let gd ← deref g R.guard
  pure gd.p

def is_guard (g : Grammar) (x : Nat) : M Bool := do
  let v ← deref g x
  if v.non_terminal then
    let f ← first g v.s
    let fv ← deref g f
    pure (fv.p == x)
  else pure false

/-- The delimiter converted to `unsigned long` for the comparison with
`value()`. -/
def delimU (cfg : Config) : Nat := (cfg.delimiter % (2 ^ 64 : Int)).toNat

def hashIndex (cfg : Config) (one two : Nat) : Nat :=
  let combined := (((one <<< 16) % W) ||| (one >>> 16)) ^^^ two
  (((combined * (combined + 3)) % W) % cfg.table_size) * cfg.K

/-- The probe loop of `find_digram`.  The index sequence is periodic with a
period of at most `table_size`, so a loop that has not returned after
`table_size + 1` cells never returns. -/
def probe (cfg : Config) (g : Grammar) (one two jump : Nat) :
    Nat → Nat → Option Nat → M Nat
  | 0, _, _ => throw Fault.diverge
  | fuel + 1, i, insert =>
    let m := g.table i
    if m = 0 then pure (insert.getD i)
    else if m = 1 then probe cfg g one two jump fuel ((i + jump) % cfg.table_size) (some i)
    else do
      let mv ← deref g m
      let mn ← deref g mv.n
      if mv.s = one ∧ mn.s = two then pure i
      else probe cfg g one two jump fuel ((i + jump) % cfg.table_size) insert

/-- Search the table for the digram starting at `s`: `none` is the null
result, `some i` the address of cell `i`. -/
def find_digram (cfg : Config) (g : Grammar) (s : Nat) : M (Option Nat) := do
  let sv ← deref g s
  let nv ← deref g sv.n
  let one := sv.s
  let two := nv.s
  if cfg.delimiter ≠ -1 ∧ (sv.value = delimU cfg ∨ nv.value = delimU cfg) then
    pure none
  else
    let jump := (17 - one % 17) * cfg.K
    let i ← probe cfg g one two jump (cfg.table_size + 1) (hashIndex cfg one two) none
    pure (some i)

/-- The loop `for (i = 0; i < K; i ++) if (m[i] == this) { m[i] = 1; occupied --; }`. -/
def clear_cells (x m : Nat) : Nat → Nat → Grammar → Grammar
  | 0, _, g => g
  | k + 1, i, g =>
    let g1 := if g.table (m + i) = x then
        { setCell g (m + i) 1 with occupied := g.occupied - 1 } else g
    clear_cells x m k (i + 1) g1

def delete_digram (cfg : Config) (g : Grammar) (x : Nat) : M Grammar := do
  let b ← is_guard g x
  if b then pure g
  else
    let v ← deref g x
    let b2 ← is_guard g v.n
    if b2 then pure g
    else
      match ← find_digram cfg g x with
      | none => pure g
      | some m => pure (clear_cells x m cfg.K 0 g)

/-- The first triple patch of `join`, for the right neighbour. -/
def join_patch_right (cfg : Config) (g : Grammar) (right : Nat) : M Grammar := do
  let rv ← deref g right
  if rv.p ≠ 0 ∧ rv.n ≠ 0 then
    let pv ← deref g rv.p
    let nv ← deref g rv.n
    if rv.value = pv.value ∧ rv.value = nv.value then
      match ← find_digram cfg g right with
      | none => throw Fault.assertFail
      | some r => pure { setCell g r right with occupied := g.occupied + 1 }
    else pure g
  else pure g

/-- The second triple patch of `join`, for the left neighbour. -/
def join_patch_left (cfg : Config) (g : Grammar) (left : Nat) : M Grammar := do
  let lv ← deref g left
  if lv.p ≠ 0 ∧ lv.n ≠ 0 then
    let nv ← deref g lv.n
    let pv ← deref g lv.p
    if lv.value = nv.value ∧ lv.value = pv.value then
      match ← find_digram cfg g lv.p with
      | none => pure g
      | some i => pure { setCell g i lv.p with occupied := g.occupied + 1 }
    else pure g
  else pure g

def join (cfg : Config) (g : Grammar) (left right : Nat) : M Grammar := do
  let lv ← deref g left
  let g1 ← if lv.n ≠ 0 then do
        let g ← delete_digram cfg g left
        let g ← join_patch_right cfg g right
        join_patch_left cfg g left
      else pure g
  let lv ← deref g1 left
  let g2 := setSym g1 left { lv with n := right }
  let rv ← deref g2 right
  pure (setSym g2 right { rv with p := left })

/-- The constructor `symbols(ulong sym)`. -/
def new_terminal (g : Grammar) (sym : Nat) : Nat × Grammar :=
  (g.nextSym,
   { setSym g g.nextSym { n := 0, p := 0, s := (sym * 2 + 1) % W } with
     nextSym := g.nextSym + 1, num_symbols := g.num_symbols + 1 })

/-- The constructor `symbols(rules *r)`. -/
def new_non_terminal (g : Grammar) (r : Nat) : M (Nat × Grammar) := do
  let R ← derefRule g r
  let g1 := setRule g r { R with count := R.count + 1 }
  pure (g1.nextSym,
   { setSym g1 g1.nextSym { n := 0, p := 0, s := r } with
     nextSym := g1.nextSym + 1, num_symbols := g1.num_symbols + 1 })

/-- The destructor `~symbols()` followed by the release of the object. -/
def delete_symbol (cfg : Config) (g : Grammar) (x : Nat) : M Grammar := do
  let v ← deref g x
  let g ← join cfg g v.p v.n
  let b ← is_guard g x
  let g ← if b then pure g else do
      let g ← delete_digram cfg g x
      let v ← deref g x
      if v.non_terminal then
        let R ← derefRule g v.s
        pure (setRule g v.s { R with count := R.count - 1 })
      else pure g
  pure { g with sym := Function.update g.sym x none, num_symbols := g.num_symbols - 1 }

def insert_after (cfg : Config) (g : Grammar) (x y : Nat) : M Grammar := do
  let v ← deref g x
  let g ← join cfg g y v.n
  join cfg g x y

/-- The constructor `rules()`; the new object is at address `cfg.addr nextRule`. -/
def new_rule (cfg : Config) (g : Grammar) : M (Nat × Grammar) := do
  let a := cfg.addr g.nextRule
  let g := { g with nextRule := g.nextRule + 1, num_rules := g.num_rules + 1 }
  let gd := g.nextSym
  let g := { setSym g gd { n := 0, p := 0, s := a } with
             nextSym := g.nextSym + 1, num_symbols := g.num_symbols + 1 }
  let g := setRule g a { guard := gd, count := 0, Usage := 0, number := 0 }
  let g ← join cfg g gd gd
  pure (a, g)

/-- The destructor `~rules()` followed by the release of the object. -/
def delete_rule (cfg : Config) (g : Grammar) (r : Nat) : M Grammar := do
  let R ← derefRule g r
  let g := { g with num_rules := g.num_rules - 1 }
  let g ← delete_symbol cfg g R.guard
  pure { g with rule := Function.update g.rule r none }

/-- Number of non-guard symbols met from `s` on, until `stop` is reached
(the `do ... while (s != this)` loop of `expand`). -/
def count_ring (g : Grammar) (stop : Nat) : Nat → Nat → Int → M Int
  | 0, _, _ => throw Fault.outOfFuel
  | fuel + 1, s, i => do
    let b ← is_guard g s
    let i := if b then i else i + 1
    let v ← deref g s
    if v.n = stop then pure i else count_ring g stop fuel v.n i

/-- Number of symbols from `s` to the next guard. -/
def count_body (g : Grammar) : Nat → Nat → Int → M Int
  | 0, _, _ => throw Fault.outOfFuel
  | fuel + 1, s, i => do
    let b ← is_guard g s
    if b then pure i
    else
      let v ← deref g s
      count_body g fuel v.n (i + 1)

def expand (cfg : Config) (fuel : Nat) (g : Grammar) (x : Nat) : M Grammar := do
  let v ← deref g x
  let left := v.p
  let right := v.n
  let f ← first g v.s
  let l ← last g v.s
  let g ← if g.compression_initialized then pure g else do
      let i ← count_ring g x fuel v.n 0
      let i ← count_body g fuel f i
      pure (if i > g.max_rule_len then { g with max_rule_len := i } else g)
  match ← find_digram cfg g x with
  | none => pure g
  | some m =>
    let g ← delete_rule cfg g v.s
    let g := clear_cells x m cfg.K 0 g
    let v ← deref g x
    let g := setSym g x { v with s := 0 }
    let g ← delete_symbol cfg g x
    let g ← join cfg g left f
    let g ← join cfg g l right
    match ← find_digram cfg g l with
    | none => throw Fault.badPointer
    | some i => pure { setCell g i l with occupied := g.occupied + 1 }

/-- The test `r->first()->non_terminal() && r->first()->rule()->freq() == 1`
followed by `r->first()->expand()`. -/
def expand_underused (cfg : Config) (fuel : Nat) (g : Grammar) (r : Nat) : M Grammar := do
  let f ← first g r
  let fv ← deref g f
  if fv.non_terminal then
    let R ← derefRule g fv.s
    if R.count = 1 then expand cfg fuel g f else pure g
  else pure g

/-- The body of `symbols::substitute`, with `check` passed in. -/
def substitute_with (cfg : Config) (chk : Grammar → Nat → M (Bool × Grammar))
    (g : Grammar) (x r : Nat) : M Grammar := do
  let v ← deref g x
  let q := v.p
  let qv ← deref g q
  let g ← delete_symbol cfg g qv.n
  let qv ← deref g q
  let g ← delete_symbol cfg g qv.n
  let (y, g) ← new_non_terminal g r
  let g ← insert_after cfg g q y
  let (c, g) ← chk g q
  if !c then
    let qv ← deref g q
    let (_, g) ← chk g qv.n
    pure g
  else pure g

/-- The first loop of `check`: store `x` in the first free cell of the group. -/
def store_free (g : Grammar) (x m : Nat) : Nat → Nat → Option Grammar
  | 0, _ => none
  | k + 1, i =>
    if g.table (m + i) ≤ 1 then
      some { setCell g (m + i) x with occupied := g.occupied + 1 }
    else store_free g x m k (i + 1)

/-- The second loop of `check`: does a stored occurrence overlap `x`? -/
def overlaps (g : Grammar) (x m : Nat) : Nat → Nat → M Bool
  | 0, _ => pure false
  | k + 1, i => do
    let e ← deref g (g.table (m + i))
    let v ← deref g x
    if e.n = x ∨ v.n = g.table (m + i) then pure true
    else overlaps g x m k (i + 1)

/-- The third loop of `check`: the first stored occurrence that is the whole
body of a rule, with that rule. -/
def find_reuse (g : Grammar) (m : Nat) : Nat → Nat → M (Option Nat)
  | 0, _ => pure none
  | k + 1, i => do
    let e ← deref g (g.table (m + i))
    let b1 ← is_guard g e.p
    let b2 ← if b1 then do
        let en ← deref g e.n
        is_guard g en.n
      else pure false
    if b1 && b2 then
      let pv ← deref g e.p
      pure (some pv.s)
    else find_reuse g m k (i + 1)

/-- The cells `m[0..K-1]`. -/
def read_cells (g : Grammar) (m : Nat) (K : Nat) : List Nat :=
  (List.range K).map fun i => g.table (m + i)

/-- The loop of `check` that substitutes the stored occurrences. -/
def substitute_stored (cfg : Config) (chk : Grammar → Nat → M (Bool × Grammar))
    (m r : Nat) : List Nat → Grammar → M Grammar
  | [], g => pure g
  | y :: ys, g => do
    let f ← first g r
    if y = f then substitute_stored cfg chk m r ys g
    else if (read_cells g m cfg.K).all (fun c => c != y) then
      substitute_stored cfg chk m r ys g
    else
      let g ← substitute_with cfg chk g y r
      substitute_stored cfg chk m r ys g

/-- Append a copy of the symbol `v` to the rule at address `r`. -/
def append_copy (cfg : Config) (g : Grammar) (r : Nat) (v : symbols) : M Grammar := do
  let l ← last g r
  let (y, g) ← if v.non_terminal then new_non_terminal g v.s
               else pure (new_terminal g v.value)
  insert_after cfg g l y

/-- The method `symbols::check`; the result is the return value and the new
state.  `fuel` bounds the depth of the recursion through `substitute`. -/
def check (cfg : Config) : Nat → Grammar → Nat → M (Bool × Grammar)
  | 0, _, _ => throw Fault.outOfFuel
  | fuel + 1, g, x => do
    let b ← is_guard g x
    if b then pure (false, g)
    else
      let v ← deref g x
      let b2 ← is_guard g v.n
      if b2 then pure (false, g)
      else
        match ← find_digram cfg g x with
        | none => pure (false, g)
        | some m =>
          match store_free g x m cfg.K 0 with
          | some g1 => pure (false, g1)
          | none =>
            let o ← overlaps g x m cfg.K 0
            if o then pure (false, g)
            else
              match ← find_reuse g m cfg.K 0 with
              | some r =>
                let g ← substitute_with cfg (check cfg fuel) g x r
                let g ← expand_underused cfg fuel g r
                pure (true, g)
              | none =>
                let y := read_cells g m cfg.K
                let (r, g) ← new_rule cfg g
                let g ← append_copy cfg g r v
                let nv ← deref g v.n
                let g ← append_copy cfg g r nv
                let g ← substitute_stored cfg (check cfg fuel) m r y g
                let f ← first g r
                let g := { setCell g m f with occupied := g.occupied + 1 }
                let g ← substitute_with cfg (check cfg fuel) g x r
                let g ← expand_underused cfg fuel g r
                pure (true, g)

def substitute (cfg : Config) (fuel : Nat) (g : Grammar) (x r : Nat) : M Grammar :=
  substitute_with cfg (check cfg fuel) g x r

/-- An `int` read from the input, converted to `unsigned long`. -/
def toUlong (i : Int) : Nat := (i % (2 ^ 64 : Int)).toNat

/-- The statement pair `S->last()->insert_after(new symbols(i));
S->last()->prev()->check();` of the input loop. -/
def append_symbol (cfg : Config) (fuel : Nat) (S : Nat) (g : Grammar) (i : Int) : M Grammar := do
  let l ← last g S
  let (y, g) := new_terminal g (toUlong i)
  let g ← insert_after cfg g l y
  let l ← last g S
  let lv ← deref g l
  let (_, g) ← check cfg fuel g lv.p
  pure g

def append_all (cfg : Config) (fuel : Nat) (S : Nat) : List Int → Grammar → M Grammar
  | [], g => pure g
  | i :: is, g => do
    let g ← append_symbol cfg fuel S g i
    append_all cfg fuel S is g

/-- The grammar-building part of `main` without forgetting: the start rule is
created, the first symbol is put in unchecked (for an empty input `cin.get()`
yields `EOF`, which is -1), then every further symbol is appended and checked.
The result is the address of the start rule and the final state. -/
def build (cfg : Config) (fuel : Nat) (input : List Int) : M (Nat × Grammar) := do
  let (S, g) ← new_rule cfg Grammar.init
  let i0 := input.headD (-1)
  let l ← last g S
  let (y, g) := new_terminal g (toUlong i0)
  let g ← insert_after cfg g l y
  let g ← append_all cfg fuel S input.tail g
  pure (S, g)

/-- The output of `rules::reproduce` for the symbols from `s` to the guard:
the values of the terminals of the full expansion.  `fuel` bounds the number
of symbols visited. -/
def reproduce_from (g : Grammar) : Nat → Nat → M (List Nat)
  | 0, _ => throw Fault.outOfFuel
  | fuel + 1, s => do
    let b ← is_guard g s
    if b then pure []
    else
      let v ← deref g s
      let here ← if v.non_terminal then do
          let f ← first g v.s
          reproduce_from g fuel f
        else pure [v.value]
      let rest ← reproduce_from g fuel v.n
      pure (here ++ rest)

def reproduce (g : Grammar) (fuel : Nat) (r : Nat) : M (List Nat) := do
  let f ← first g r
  reproduce_from g fuel f

/-- The pointers of the symbols from `s` to the next guard. -/
def body_from (g : Grammar) : Nat → Nat → M (List Nat)
  | 0, _ => throw Fault.outOfFuel
  | fuel + 1, s => do
    let b ← is_guard g s
    if b then pure []
    else
      let v ← deref g s
      let rest ← body_from g fuel v.n
      pure (s :: rest)

/-- The pointers of the body of the rule at address `r`, first to last. -/
def body (g : Grammar) (fuel : Nat) (r : Nat) : M (List Nat) := do
  let f ← first g r
  body_from g fuel f

/-- The raw values of the symbols `xs`. -/
def raw_values (g : Grammar) : List Nat → M (List Nat)
  | [] => pure []
  | x :: xs => do
    let v ← deref g x
    let rest ← raw_values g xs
    pure (v.s :: rest)

/-- The live rules among the allocations `ks`, each as address, use count and
raw values of its body. -/
def snapshot_from (cfg : Config) (g : Grammar) (fuel : Nat) :
    List Nat → M (List (Nat × Int × List Nat))
  | [] => pure []
  | k :: ks =>
    match g.rule (cfg.addr k) with
    | none => snapshot_from cfg g fuel ks
    | some R => do
      let b ← body g fuel (cfg.addr k)
      let vs ← raw_values g b
      let rest ← snapshot_from cfg g fuel ks
      pure ((cfg.addr k, R.count, vs) :: rest)

/-- The whole grammar: every live rule in allocation order. -/
def snapshot (cfg : Config) (g : Grammar) (fuel : Nat) : M (List (Nat × Int × List Nat)) :=
  snapshot_from cfg g fuel (List.range g.nextRule)

/-- Is `(x, x.n)` a digram: neither symbol is a guard. -/
def is_digram (g : Grammar) (x : Nat) : M Bool := do
  let b ← is_guard g x
  if b then pure false
  else
    let v ← deref g x
    let b2 ← is_guard g v.n
    pure (!b2)

/-- Are the digrams at `x` and `y` two distinct, non-overlapping occurrences
with the same pair of raw values. -/
def digram_clash (g : Grammar) (x y : Nat) : M Bool := do
  let dx ← is_digram g x
  let dy ← is_digram g y
  let vx ← deref g x
  let vy ← deref g y
  let nx ← deref g vx.n
  let ny ← deref g vy.n
  pure (dx && dy && x != y && vx.n != y && vy.n != x && vx.s == vy.s && nx.s == ny.s)

/-- The configuration of a default run: `memory_to_use` is 1000000000, so with
8-byte pointers and `K = 1` the table gets 124999991 cells (the first candidate
below 125000000 that passes the primality loop of `find_digram`); no delimiter;
the n-th `rules` object lies at `0x55555556aeb0 + 64 * n`. -/
def default_config : Config :=
  { table_size := 124999991, K := 1, delimiter := -1,
    addr := fun n => 0x55555556aeb0 + 64 * n }

/-- A numeric input (option `-d`) on which two table keys share a cell. -/
def clash_input : List Int :=
  [1, 1, 74166399, 2, 1, 1, 74166399, 2, 1, 74166399, 1, 1, 74166399]

/-- A numeric input (option `-d`) that leaves a rule used once. -/
def underused_input : List Int :=
  [74166399, 2, 1, 1, 1, 74166399, 1, 3, 74166399, 74166399, 2, 1, 3, 74166399,
   1, 74166399, 74166399, 1, 1, 74166399, 1]

/-- Build the grammar of `input` and take its snapshot. -/
def grammar_of (cfg : Config) (fuel : Nat) (input : List Int) :
    M (List (Nat × Int × List Nat)) := do
  let (_, g) ← build cfg fuel input
  snapshot cfg g fuel

/-- Is the digram at `s` covered by the index in the sense of the coverage
invariant: it contains the delimiter, or its cell holds `s`, or its cell holds
another live occurrence `c` of the same key that overlaps `s`. -/
def index_covers (cfg : Config) (g : Grammar) (s : Nat) : M Bool := do
  match ← find_digram cfg g s with
  | none => pure true
  | some i =>
    let c := g.table i
    if c = s then pure true
    else if c ≤ 1 then pure false
    else
      let cv ← deref g c
      let cn ← deref g cv.n
      let sv ← deref g s
      let sn ← deref g sv.n
      pure (cv.s == sv.s && cn.s == sn.s && (cv.n == s || sv.n == c))


/-- The key `find_digram` compares: the raw values of the symbol at `x` and of
its successor. -/
def key_of (g : Grammar) (x : Nat) : M (Nat × Nat) := do
  let v ← deref g x
  let n ← deref g v.n
  pure (v.s, n.s)

/-- The index the probe loop of `find_digram` holds after `k` passes, started
at `i`: each pass ends with `i = (i + jump) % table_size`. -/
def probe_path (cfg : Config) (jump : Nat) : Nat → Nat → Nat
  | i, 0 => i
  | i, k + 1 => probe_path cfg jump ((i + jump) % cfg.table_size) k

/-- The first index of the probe loop for the digram at `s`. -/
def probe_start (cfg : Config) (g : Grammar) (s : Nat) : M Nat := do
  let ky ← key_of g s
  pure (hashIndex cfg ky.1 ky.2)

/-- The value of `jump` for the digram at `s`. -/
def probe_jump (cfg : Config) (g : Grammar) (s : Nat) : M Nat := do
  let ky ← key_of g s
  pure ((17 - ky.1 % 17) * cfg.K)

/-- Does the digram at `s` involve the delimiter, so that `find_digram` returns
the null result. -/
def has_delimiter (cfg : Config) (g : Grammar) (s : Nat) : M Bool := do
  let sv ← deref g s
  let nv ← deref g sv.n
  pure (decide (cfg.delimiter ≠ -1 ∧ (sv.value = delimU cfg ∨ nv.value = delimU cfg)))

/-- The state in which `check` calls `find_digram` for a new last digram:
`input` has been processed, the symbol `i` has been put in after the last
symbol `l` of the start rule and is not checked yet.  The result is `l` and the
state. -/
def before_check (cfg : Config) (fuel : Nat) (input : List Int) (i : Int) :
    M (Nat × Grammar) := do
  let (S, g) ← build cfg fuel input
  let l ← last g S
  let (y, g) := new_terminal g (toUlong i)
  let g ← insert_after cfg g l y
  pure (l, g)

/-- A numeric input (option `-d`) after which the cells 32264389 and 32264403,
the first two of the probe path of the digram `(1, 2)`, are tombstones. -/
def tombstone_input : List Int :=
  [154028813, 3, 4, 26435838, 3, 4, 1]

/-- The configuration of a run with `-k 3`: `K` is 2 and the table gets
`62499971 * 2` cells. -/
def wide_config : Config :=
  { table_size := 62499971, K := 2, delimiter := -1,
    addr := fun n => 0x55555556aeb0 + 64 * n }

/-- The value of `insert` after `n` passes of the probe loop that did not
return, started at index `i` with `insert = ins`. -/
def last_insert (cfg : Config) (g : Grammar) (jump : Nat) : Nat → Nat → Option Nat → Option Nat
  | _, 0, ins => ins
  | i, n + 1, ins =>
    last_insert cfg g jump ((i + jump) % cfg.table_size) n (if g.table i = 1 then some i else ins)

/-- The probe loop passes over a cell with content `c` when looking for `ky`:
`c` is the tombstone, or a pointer to a digram with another key. -/
def passes_cell (g : Grammar) (ky : Nat × Nat) (c : Nat) : Prop :=
  c = 1 ∨ (2 ≤ c ∧ ∃ ky', key_of g c = Except.ok ky' ∧ ky' ≠ ky)

/-- The cell content `c` is a pointer to a digram with the key `ky`. -/
def matches_cell (g : Grammar) (ky : Nat × Nat) (c : Nat) : Prop :=
  2 ≤ c ∧ key_of g c = Except.ok ky

/-- The state in which the digram `(1, 2)` is looked up after `tombstone_input`;
the queried symbol is 14. -/
def tombstone_state : Grammar :=
  match before_check default_config 64 tombstone_input 2 with
  | Except.ok lg => lg.2
  | Except.error _ => Grammar.init

/-- The state in which the second digram `(1, 2)` of the input `1 2 3 1 2` is
looked up; the queried symbol is 6. -/
def lookup_state : Grammar :=
  match before_check default_config 64 [1, 2, 3, 1] 2 with
  | Except.ok lg => lg.2
  | Except.error _ => Grammar.init

/-- The cell content `c` is not null, and if it is a pointer, it points to a
digram of allocated symbols. -/
def valid_cell (g : Grammar) (c : Nat) : Prop :=
  c ≠ 0 ∧ (2 ≤ c → ∃ ky, key_of g c = Except.ok ky)
/-! ## The size of the digram table (`find_digram`, first call) -/

/-- The loop `for (int i = 3; i < max_factor; i += 2)` of `find_digram`: is
there an `i` with `table_size % i == 0`.  `fuel` bounds the number of passes. -/
def has_factor (table_size max_factor : Nat) : Nat → Nat → Bool
  | 0, _ => false
  | fuel + 1, i =>
    if i < max_factor then
      if table_size % i = 0 then true else has_factor table_size max_factor fuel (i + 2)
    else false

/-- The loop `while (1)` of `find_digram`: step down by 2 until a candidate
passes the test.  `fuel` bounds the number of candidates tried. -/
def search_size (max_factor : Nat) : Nat → Nat → Nat
  | 0, table_size => table_size
  | fuel + 1, table_size =>
    if has_factor table_size max_factor max_factor 3 then
      search_size max_factor fuel (table_size - 2)
    else table_size

/-- The first candidate: `memory_to_use / (K * sizeof(symbols *))`, made odd. -/
def first_size (memory_to_use K : Nat) : Nat :=
  let t := memory_to_use / (K * 8)
  if t % 2 = 0 then t - 1 else t

/-- The table size `find_digram` computes, where `max_factor` is the value of
`int(sqrt(float(table_size)))` for the first candidate. -/
def table_size_of (max_factor memory_to_use K : Nat) : Nat :=
  search_size max_factor (first_size memory_to_use K) (first_size memory_to_use K)

/-! ## The effect of `forget` on the grammar -/

/-- The loop `while (r->first()->next() != r->first()) delete r->first();` of
`forget`. -/
def forget_delete_loop (cfg : Config) : Nat → Grammar → Nat → M Grammar
  | 0, _, _ => throw Fault.outOfFuel
  | fuel + 1, g, r => do
    let f ← first g r
    let fv ← deref g f
    if fv.n = f then pure g
    else
      let g ← delete_symbol cfg g f
      forget_delete_loop cfg fuel g r

/-- The function `forget` of `compress.cc` as it acts on the grammar: the
symbol is deleted, and a rule that has lost its last use is deleted with its
body.  The calls of the coder and the numbering of the rules are left out. -/
def forget_grammar (cfg : Config) (fuel : Nat) (g : Grammar) (s : Nat) : M Grammar := do
  let v ← deref g s
  if v.non_terminal then
    let r := v.s
    let g ← delete_symbol cfg g s
    let R ← derefRule g r
    if R.count > 0 then pure g
    else
      let g ← forget_delete_loop cfg fuel g r
      delete_rule cfg g r
  else delete_symbol cfg g s

/-- The configuration of a default run with the option `-e x`: the delimiter
is the character `x` (120). -/
def delimiter_config : Config :=
  { table_size := 124999991, K := 1, delimiter := 120,
    addr := fun n => 0x55555556aeb0 + 64 * n }

/-- The input `xxx`. -/
def delimiter_triple : List Int := [120, 120, 120]

/-- The input `abababababab`. -/
def six_pairs : List Int := [97, 98, 97, 98, 97, 98, 97, 98, 97, 98, 97, 98]

/-- The state at the end of a run with `-k 3` on `abababababab`: the start rule
is `R2 R1 a b R2`, its first symbol is 26, a non-terminal of the rule `R2`,
which has use count 2. -/
def pairs_state : Grammar :=
  match build wide_config 64 six_pairs with
  | Except.ok Sg => Sg.2
  | Except.error _ => Grammar.init

/-! ## Trial division, used to certify that the default table size is prime -/

/-- Checks that none of the `2 ^ d` numbers starting at `lo` divides `n`, by halving the range. -/
def no_divisor_range (n lo : Nat) : Nat → Bool
  | 0 => n % lo != 0
  | d + 1 => no_divisor_range n lo d && no_divisor_range n (lo + 2 ^ d) d

/-! ## A run in which the probe loop of `find_digram` stays on one cell -/

/-- The configuration of a run with `-k 354 -m 1`: `K` is 353, `memory_to_use`
is 1000000, so the first candidate for the table size is 354, made odd 353,
which passes the primality loop: the table has 353 groups of 353 cells. -/
def narrow_config : Config :=
  { table_size := 353, K := 353, delimiter := -1,
    addr := fun n => 0x55555556aeb0 + 64 * n }

/-- The input `GJW` (bytes 71, 74, 87). -/
def stuck_input : List Int := [71, 74, 87]

/-- The state in which `check` looks up the digram `(J, W)` of the input `GJW`:
`G` and `J` have been processed, `W` has been put in after `J`; the queried
symbol is 4, the symbol `J`. -/
def stuck_state : Grammar :=
  match before_check narrow_config 64 [71, 74] 87 with
  | Except.ok lg => lg.2
  | Except.error _ => Grammar.init

/-! ## A run with `-k 3` in which a table group is shared by two digrams -/

/-- The configuration of a run with `-k 3 -m 3`: `K` is 2, `memory_to_use` is
3000000, so the first candidate for the table size is 187500, made odd 187499,
and the primality loop (with `max_factor` 433) stops at 187489, which is
433 * 433: the table has 187489 groups of 2 cells. -/
def small_wide_config : Config :=
  { table_size := 187489, K := 2, delimiter := -1,
    addr := fun n => 0x55555556aeb0 + 64 * n }

/-- The input `zdfdfzdzducuc`. -/
def crossed_input : List Int :=
  [122, 100, 102, 100, 102, 122, 100, 122, 100, 117, 99, 117, 99]

/-- The state after the first eleven bytes `zdfdfzdzduc` of `crossed_input`. -/
def crossed_state : Grammar :=
  match build small_wide_config 64 (crossed_input.take 11) with
  | Except.ok Sg => Sg.2
  | Except.error _ => Grammar.init

/-- The input `bbbabaaaaabbbabab`. -/
def plain_input : List Int :=
  [98, 98, 98, 97, 98, 97, 97, 97, 97, 97, 98, 98, 98, 97, 98, 97, 98]

/-- The output of `rules::reproduce` for the start rule of the grammar built
from `input`. -/
def expansion_of (cfg : Config) (fuel : Nat) (input : List Int) : M (List Nat) := do
  let (S, g) ← build cfg fuel input
  reproduce g fuel S
/-! ## The statistics module (`stats.c`) -/

/-- The macro `BACK(i)`: `i & (i - 1)`. -/
def BACK (i : Nat) : Nat := i &&& (i - 1)

/-- The macro `FORW(i)`: `i + (i & -i)` on a 32-bit `int`. -/
def FORW (i : Nat) : Nat := i + (i &&& (2 ^ 32 - i))

/-- The value `STATIC` of a context type. -/
def STATIC : Nat := 0

/-- The value `DYNAMIC` of a context type. -/
def DYNAMIC : Nat := 1

/-- The return value `NOT_KNOWN`. -/
def NOT_KNOWN : Int := -1

/-- The return value `TOO_MANY_SYMBOLS`. -/
def TOO_MANY_SYMBOLS : Int := -1

/-- The constant `MIN_INCR`. -/
def MIN_INCR : Nat := 1

/-- The struct `context`.  The `freq_value` fields and the cells of `tree` are
`unsigned long`, kept below `W`. -/
structure context where
  initial_size : Nat
  max_length : Nat
  length : Nat
  nSingletons : Nat
  type : Nat
  nSymbols : Nat
  total : Nat
  tree : Nat → Nat
  incr : Nat
  most_freq_symbol : Int
  most_freq_count : Nat
  most_freq_pos : Nat

/-- The constant `Max_frequency`, `1 << F_bits`. -/
def Max_frequency (F : Nat) : Nat := 2 ^ F

/-- Unsigned addition. -/
def uadd (a b : Nat) : Nat := (a + b) % W

/-- Unsigned subtraction. -/
def usub (a b : Nat) : Nat := (a + (W - b % W)) % W

/-- The loop of `INCR_SYMBOL_PROB_ACTUAL`: add `inc` to the cells `i`,
`FORW(i)`, ... while the index is below `max`.  An index below `2 ^ 32` gains a
bit at every step, so a loop of more than 64 steps does not end. -/
def incr_loop (max inc : Nat) : Nat → (Nat → Nat) → Nat → M (Nat → Nat)
  | 0, _, _ => throw Fault.diverge
  | fuel + 1, t, i =>
    let t1 := Function.update t i (uadd (t i) inc)
    if FORW i < max then incr_loop max inc fuel t1 (FORW i) else pure t1

/-- The macro `INCR_SYMBOL_PROB_ACTUAL`. -/
def incr_symbol_prob_actual (c : context) (symbol inc : Nat) : M context := do
  let t ← incr_loop c.max_length inc 64 c.tree symbol
  pure { c with tree := t, total := uadd c.total inc }

/-- The macro `INCR_SYMBOL_PROB_MPS`. -/
def incr_symbol_prob_mps (c : context) (symbol low high inc : Nat) : context :=
  if (symbol : Int) = c.most_freq_symbol then
    { c with most_freq_count := uadd c.most_freq_count inc }
  else if uadd (usub high low) inc > c.most_freq_count then
    { c with most_freq_symbol := symbol, most_freq_count := uadd (usub high low) inc,
             most_freq_pos := low }
  else if (symbol : Int) < c.most_freq_symbol then
    { c with most_freq_pos := uadd c.most_freq_pos inc }
  else c

/-- The macro `INCR_SYMBOL_PROB` (with `MOST_PROB_AT_END` defined). -/
def incr_symbol_prob (c : context) (symbol low high inc : Nat) : M context := do
  let c ← incr_symbol_prob_actual c symbol inc
  pure (incr_symbol_prob_mps c symbol low high inc)

/-- The macro `adjust_zero_freq`. -/
def adjust_zero_freq (c : context) : M context :=
  let diff := usub c.nSingletons (c.tree 1)
  if diff ≠ 0 then incr_symbol_prob c 1 0 (c.tree 1) diff else pure c

/-- The function `init_zero_freq`. -/
def init_zero_freq (c : context) : context :=
  if c.type = DYNAMIC then { c with nSingletons := uadd c.nSingletons c.incr }
  else { c with nSingletons := 0 }

/-- The loop `while (size < length) size = size << 1`. -/
def round_up (length : Nat) : Nat → Nat → Nat
  | 0, size => size
  | fuel + 1, size => if size < length then round_up length fuel (size * 2) else size

/-- The function `create_context`, for `length ≥ 0`. -/
def create_context (F : Nat) (length type : Nat) : M context :=
  let size := round_up (length + 2) (length + 2) 1
  adjust_zero_freq (init_zero_freq
    { initial_size := size, max_length := size, length := 1, nSingletons := 0,
      type := type, nSymbols := 1, total := 0, tree := fun _ => 0,
      incr := 2 ^ F % W, most_freq_symbol := -1, most_freq_count := 0,
      most_freq_pos := 0 })

/-- The first loop of `get_interval`: sum the cells from `symbol` down to
`parent`. -/
def low_path (t : Nat → Nat) (parent : Nat) : Nat → Nat → Nat → M (Nat × Nat)
  | 0, _, _ => throw Fault.diverge
  | fuel + 1, symbol, low =>
    if symbol ≠ parent then low_path t parent fuel (BACK symbol) (uadd low (t symbol))
    else pure (symbol, low)

/-- The second loop of `get_interval`: sum the cells on the way to the root. -/
def shared_path (t : Nat → Nat) : Nat → Nat → Nat → M Nat
  | 0, _, _ => throw Fault.diverge
  | fuel + 1, symbol, shared =>
    if symbol > 0 then shared_path t fuel (BACK symbol) (uadd shared (t symbol))
    else pure shared

/-- The function `get_interval`; the result is `(low, high)`.  Slot 0 makes the
code read cell `-1`, a slot from `max_length` on a cell behind the tree. -/
def get_interval (c : context) (symbol : Nat) : M (Nat × Nat) := do
  if symbol = 0 ∨ symbol ≥ c.max_length then throw Fault.badPointer
  else
    let high := c.tree symbol
    let parent := BACK symbol
    let (s, low) ← low_path c.tree parent 64 (symbol - 1) 0
    let shared ← shared_path c.tree 64 s 0
    pure (uadd shared low, uadd shared high)

/-- The loop `for (temp = i; !(temp&1); temp >>= 1) zero_count++`. -/
def zero_count : Nat → Nat → Nat
  | 0, _ => 0
  | fuel + 1, temp => if temp % 2 = 0 then zero_count fuel (temp / 2) + 1 else 0

/-- The loop `for (temp = zero_count-1; temp >= 0; temp--)` summing the first
`k` cells of `a`. -/
def sum_below (a : Nat → Nat) : Nat → Nat
  | 0 => 0
  | k + 1 => uadd (sum_below a k) (a k)

/-- The state of the main loop of `halve_context`. -/
structure halve_state where
  tree : Nat → Nat
  total : Nat
  nSingletons : Nat
  old_values : Nat → Nat
  new_values : Nat → Nat

/-- One pass of the body of the main loop of `halve_context`, for index `i`. -/
def halve_step (incr : Nat) (h : halve_state) (i : Nat) : halve_state :=
  let zc := zero_count 64 i
  let old_values := Function.update h.old_values zc (h.tree i)
  let sum_old := sum_below old_values zc
  let sum_new := sum_below h.new_values zc
  let v := usub (h.tree i) sum_old
  let total := usub h.total (v / 2)
  let v1 := usub v (v / 2)
  let nS := if v1 = incr ∧ i ≠ 1 then uadd h.nSingletons incr else h.nSingletons
  let v2 := uadd v1 sum_new
  { tree := Function.update h.tree i v2, total := total, nSingletons := nS,
    old_values := old_values, new_values := Function.update h.new_values zc v2 }

/-- The main loop of `halve_context`: indices `i`, `i + 1`, ..., `i + n - 1`. -/
def halve_steps (incr : Nat) : Nat → Nat → halve_state → halve_state
  | 0, _, h => h
  | n + 1, i, h => halve_steps incr n (i + 1) (halve_step incr h i)

/-- The function `halve_context`. -/
def halve_context (c : context) : M context := do
  let incr0 := (c.incr + MIN_INCR) / 2
  let incr := if incr0 < MIN_INCR then MIN_INCR else incr0
  let h := halve_steps incr (c.max_length - 1) 1
    { tree := c.tree, total := c.total, nSingletons := incr,
      old_values := fun _ => 0, new_values := fun _ => 0 }
  let c := { c with incr := incr, tree := h.tree, total := h.total,
                    nSingletons := if c.type = STATIC then 0 else h.nSingletons }
  let c ← if c.most_freq_symbol ≠ -1 then do
        let (low, high) ← get_interval c c.most_freq_symbol.toNat
        pure { c with most_freq_count := usub high low, most_freq_pos := low }
      else pure c
  adjust_zero_freq c

/-- The loop `while (total > Max_frequency) halve_context(pContext)`. -/
def halve_loop (F : Nat) : Nat → context → M context
  | 0, _ => throw Fault.outOfFuel
  | fuel + 1, c =>
    if c.total > Max_frequency F then do
      let c ← halve_context c
      halve_loop F fuel c
    else pure c

/-- One pass of the growth loop of `install_symbol`: the tree doubles, the new
half is cleared and its first cell gets `total`. -/
def grow_once (c : context) : context :=
  { c with
    tree := Function.update
      (fun i => if c.max_length ≤ i ∧ i < 2 * c.max_length then 0 else c.tree i)
      c.max_length c.total,
    max_length := c.max_length * 2 }

/-- The loop of `install_symbol` that doubles the tree until `symbol` fits. -/
def grow (symbol : Nat) : Nat → context → M context
  | 0, _ => throw Fault.diverge
  | fuel + 1, c =>
    if symbol ≥ c.max_length then grow symbol fuel (grow_once c) else pure c

/-- The part of `install_symbol` before the halving loop (allocation never
fails); the result is `none` when the cap on the number of symbols is hit, and
the updated context otherwise.  The first component is the context after the
growth of the tree.  A negative slot makes the code index the tree below its
start. -/
def install_core (F : Nat) (c : context) (symbol : Int) : M (context × Option context) := do
  let slot := symbol + 2
  if slot < 0 then throw Fault.badPointer
  else
    let s := slot.toNat
    let c ← grow s 64 c
    if (c.nSymbols + 1) * 2 ≥ Max_frequency F then pure (c, none)
    else
      let c1 := if s > c.length then { c with length := s } else c
      let c1 := { c1 with nSymbols := c1.nSymbols + 1 }
      let (low, high) ← get_interval c1 s
      let c1 ← incr_symbol_prob c1 s low high c1.incr
      let c1 := if c1.type = DYNAMIC then
          { c1 with nSingletons := uadd c1.nSingletons c1.incr } else c1
      let c1 ← adjust_zero_freq c1
      pure (c, some c1)

/-- The function `install_symbol`; the result is the return value and the new
context. -/
def install_symbol (F : Nat) (fuel : Nat) (c : context) (symbol : Int) :
    M (Int × context) := do
  let r ← install_core F c symbol
  match r with
  | (c0, none) => pure (TOO_MANY_SYMBOLS, c0)
  | (_, some c1) => do
    let c2 ← halve_loop F fuel c1
    pure (0, c2)

/-- The function `delete_symbol`. -/
def delete_symbol_ctx (c : context) (symbol : Int) : M context := do
  let slot := symbol + 2
  if slot < 0 then throw Fault.badPointer
  else
    let s := slot.toNat
    let (low, high) ← get_interval c s
    incr_symbol_prob c s low high (usub low high)

/-- The interval of `symbol` as `encode` finds it: from the cache when it is the
most frequent symbol, from the tree otherwise. -/
def cached_interval (c : context) (symbol : Nat) : M (Nat × Nat) :=
  if c.most_freq_symbol = symbol then
    pure (c.most_freq_pos, uadd c.most_freq_pos c.most_freq_count)
  else get_interval c symbol

/-- The interval handed to the coder (`MOST_PROB_AT_END`): the most frequent
symbol is moved to the end of the range. -/
def remap (c : context) (symbol low high : Nat) : Nat × Nat :=
  if (symbol : Int) > c.most_freq_symbol then
    (usub low c.most_freq_count, usub high c.most_freq_count)
  else if (symbol : Int) = c.most_freq_symbol then
    (usub c.total c.most_freq_count, c.total)
  else (low, high)

/-- What `encode` does before the halving loop: the slot that is coded, the
arguments `(low_w, high_w, total)` of `arithmetic_encode`, and the context
after the update and `adjust_zero_freq`. -/
structure coded where
  slot : Nat
  low_w : Nat
  high_w : Nat
  total : Nat
  ctx : context

/-- The update `encode` and `decode` make after the coder call. -/
def update_coded (c : context) (symbol low high : Nat) : M context := do
  let c ← if symbol ≠ 1 then do
        let c := if c.type = DYNAMIC ∧ usub high low = c.incr then
            { c with nSingletons := usub c.nSingletons c.incr } else c
        incr_symbol_prob c symbol low high c.incr
      else pure c
  adjust_zero_freq c

/-- The part of `encode` before the halving loop. -/
def encode_core (c : context) (symbol : Int) : M coded := do
  let slot := symbol + 2
  let (low, high) ← if slot > 0 ∧ slot < c.max_length then cached_interval c slot.toNat
                    else pure (0, 0)
  let (s, low, high) ← if low = high then do
        if c.nSingletons = 0 then throw Fault.abort
        else
          let (l, h) ← cached_interval c 1
          pure (1, l, h)
      else pure (slot.toNat, low, high)
  let (low_w, high_w) := remap c s low high
  let c1 ← update_coded c s low high
  pure { slot := s, low_w := low_w, high_w := high_w, total := c.total, ctx := c1 }

/-- The function `encode`; the result is the return value, the arguments of
`arithmetic_encode` and the new context. -/
def encode (F : Nat) (fuel : Nat) (c : context) (symbol : Int) :
    M (Int × (Nat × Nat × Nat) × context) := do
  let r ← encode_core c symbol
  let c1 ← halve_loop F fuel r.ctx
  pure (if r.slot = 1 then NOT_KNOWN else 0, (r.low_w, r.high_w, r.total), c1)

/-- The descent of `decode`: `(symbol, low)` after the loop over `mid`. -/
def descend (t : Nat → Nat) (target : Nat) : Nat → Nat → Nat → Nat → Nat × Nat
  | 0, _, symbol, low => (symbol, low)
  | fuel + 1, mid, symbol, low =>
    if mid > 0 then
      if uadd (t (symbol + mid)) low ≤ target then
        descend t target fuel (mid / 2) (symbol + mid) (uadd low (t (symbol + mid)))
      else descend t target fuel (mid / 2) symbol low
    else (symbol, low)

/-- The loop of `decode` that subtracts the cells from `sym_1` down to
`parent`. -/
def high_path (t : Nat → Nat) (parent : Nat) : Nat → Nat → Nat → M Nat
  | 0, _, _ => throw Fault.diverge
  | fuel + 1, sym_1, high =>
    let high := usub high (t sym_1)
    if BACK sym_1 ≠ parent then high_path t parent fuel (BACK sym_1) high
    else pure high

/-- The part of `decode` before the halving loop, for the value `target`
returned by `arithmetic_decode_target(total)`: the slot, the arguments of
`arithmetic_decode` and the context after the update. -/
def decode_core (c : context) (target : Nat) : M coded := do
  let total := c.total
  if target ≥ usub total c.most_freq_count then
    let s := c.most_freq_symbol.toNat
    let low := c.most_freq_pos
    let high := uadd low c.most_freq_count
    let c1 ← update_coded c s low high
    pure { slot := s, low_w := usub total c.most_freq_count, high_w := total,
           total := total, ctx := c1 }
  else
    let target := if target ≥ c.most_freq_pos then uadd target c.most_freq_count else target
    let (s0, low) := descend c.tree target 64 (c.max_length / 2) 0 0
    let s := s0 + 1
    let high ← if s % 2 = 1 then pure (uadd low (c.tree s))
               else do
                 let h ← high_path c.tree (BACK s) 64 (s - 1) low
                 pure (uadd h (c.tree s))
    let (low_w, high_w) := if low ≥ c.most_freq_pos then
        (usub low c.most_freq_count, usub high c.most_freq_count) else (low, high)
    let c1 ← update_coded c s low high
    pure { slot := s, low_w := low_w, high_w := high_w, total := total, ctx := c1 }

/-- The function `decode`; the result is the return value, the arguments of
`arithmetic_decode` and the new context. -/
def decode (F : Nat) (fuel : Nat) (c : context) (target : Nat) :
    M (Int × (Nat × Nat × Nat) × context) := do
  let r ← decode_core c target
  let c1 ← halve_loop F fuel r.ctx
  pure (if r.slot = 1 then NOT_KNOWN else (r.slot : Int) - 2, (r.low_w, r.high_w, r.total), c1)

/-! ## Reading a context: cumulative and individual counts -/

/-- The lowest set bit of `n`, the part `BACK` removes. -/
def lowbit (n : Nat) : Nat := n - BACK n

/-- The exact sum of the cells on the `BACK` path from `n` to the root; `fuel`
bounds the length of the path. -/
def psum_aux (t : Nat → Nat) : Nat → Nat → Nat
  | 0, _ => 0
  | fuel + 1, n => if n = 0 then 0 else t n + psum_aux t fuel (BACK n)

/-- The exact sum of the cells on the `BACK` path from `n` to the root. -/
def psum (t : Nat → Nat) (n : Nat) : Nat := psum_aux t n n

/-- The cumulative count of the slots `1..n`, as an `unsigned long`. -/
def cum (c : context) (n : Nat) : Nat := psum c.tree n % W

/-- The individual count of slot `i`, as an `unsigned long`. -/
def count (c : context) (i : Nat) : Nat := usub (cum c i) (cum c (i - 1))


/-! ## Reading a halving pass -/

/-- A count after a halving pass: `v - (v >> 1)`, the half rounded up. -/
def halved (v : Nat) : Nat := usub v (v / 2)

/-- The exact sum of the halved counts of the slots `1..n`. -/
def hsum (c : context) : Nat → Nat
  | 0 => 0
  | n + 1 => hsum c n + halved (count c (n + 1))

/-- The exact sum of what a halving pass takes from the slots `1..n`. -/
def dsum (c : context) : Nat → Nat
  | 0 => 0
  | n + 1 => dsum c n + count c (n + 1) / 2

/-- The value `incr * (1 + k)` for `k` the number of slots in `2..n` whose
halved count is `incr`. -/
def nsing (c : context) (incr : Nat) : Nat → Nat
  | 0 => incr
  | n + 1 =>
    if halved (count c (n + 1)) = incr ∧ n + 1 ≠ 1 then nsing c incr n + incr
    else nsing c incr n

/-- The sum of the cells `i - 1`, `i - 2`, `i - 4`, ..., `i - 2 ^ (k - 1)`. -/
def path_sum (t : Nat → Nat) (i : Nat) : Nat → Nat
  | 0 => 0
  | k + 1 => path_sum t i k + t (i - 2 ^ k)

/-- The loop invariant of `halve_context` before index `i`: the cells below
`i` hold the halved counts, the cells from `i` on are untouched, the two arrays
hold the old and new values of the last cell of each alignment, and `total` and
`nSingletons` follow. -/
def halve_inv (c : context) (incr : Nat) (i : Nat) (h : halve_state) : Prop :=
  (∀ n, n < i → psum h.tree n % W = hsum c n % W) ∧
  (∀ j, i ≤ j → h.tree j = c.tree j) ∧
  (∀ t j, 0 < j → j < i → zero_count 64 j = t → i ≤ j + 2 ^ (t + 1) →
      h.old_values t = c.tree j ∧ h.new_values t = h.tree j) ∧
  (h.total + dsum c (i - 1)) % W = c.total % W ∧
  h.nSingletons % W = nsing c incr (i - 1) % W

/-- The context `halve_context` has built when its main loop is over, before
the cache of the most frequent symbol and the escape slot are brought up to
date. -/
def halve_main (c : context) : context :=
  let incr0 := (c.incr + MIN_INCR) / 2
  let incr := if incr0 < MIN_INCR then MIN_INCR else incr0
  let h := halve_steps incr (c.max_length - 1) 1
    { tree := c.tree, total := c.total, nSingletons := incr,
      old_values := fun _ => 0, new_values := fun _ => 0 }
  { c with incr := incr, tree := h.tree, total := h.total,
           nSingletons := if c.type = STATIC then 0 else h.nSingletons }

/-- The exact sum of the counts of the slots `1..n`. -/
def csum (c : context) : Nat → Nat
  | 0 => 0
  | n + 1 => csum c n + count c (n + 1)

/-- What `halve_context` leaves, in terms of the context after its main loop. -/
def halve_post (c0 c1 : context) : Prop :=
  c1.incr = c0.incr ∧ c1.max_length = c0.max_length ∧ c1.nSymbols = c0.nSymbols ∧
    c1.type = c0.type ∧ c1.length = c0.length ∧ c1.nSingletons = c0.nSingletons ∧
    (∀ j, 1 < j → j < c0.max_length → count c1 j = count c0 j) ∧
    count c1 1 = c0.nSingletons % W ∧
    c1.total % W = uadd c0.total (usub c0.nSingletons (c0.tree 1)) ∧
    (∀ n, 0 < n → n < c0.max_length →
      cum c1 n = uadd (cum c0 n) (usub c0.nSingletons (c0.tree 1)))

/-- The field `total` agrees with the cumulative count of the whole tree. -/
def total_ok (c : context) : Prop := c.total % W = cum c (c.max_length - 1)

instance total_ok_decidable (c : context) : Decidable (total_ok c) := by
  unfold total_ok
  infer_instance

/-- The fields of a context other than the tree and its size are the same. -/
def same_scalars (c c1 : context) : Prop :=
  c1.total = c.total ∧ c1.nSymbols = c.nSymbols ∧ c1.nSingletons = c.nSingletons ∧
    c1.incr = c.incr ∧ c1.type = c.type ∧ c1.length = c.length ∧
    c1.most_freq_symbol = c.most_freq_symbol ∧ c1.most_freq_count = c.most_freq_count ∧
    c1.most_freq_pos = c.most_freq_pos

/-- The bookkeeping of `install_symbol` before the count is added: `length`
follows the slot and `nSymbols` grows by one. -/
def install_prep (c : context) (s : Nat) : context :=
  let c1 := if s > c.length then { c with length := s } else c
  { c1 with nSymbols := c1.nSymbols + 1 }

/-- The bookkeeping of `install_symbol` after the count is added: a dynamic
context counts one more singleton. -/
def install_bump (c : context) : context :=
  if c.type = DYNAMIC then { c with nSingletons := uadd c.nSingletons c.incr } else c

/-! ## Reading what `encode` and `decode` hand to the coder -/

/-- The cache of the most frequent symbol agrees with the tree, or is empty. -/
def mps_ok (c : context) : Prop :=
  (c.most_freq_symbol = -1 ∧ c.most_freq_count = 0) ∨
  (1 ≤ c.most_freq_symbol ∧ c.most_freq_symbol < c.max_length ∧
    c.most_freq_pos = cum c (c.most_freq_symbol.toNat - 1) ∧
    c.most_freq_count = count c c.most_freq_symbol.toNat)

/-- The cumulative counts do not wrap around. -/
def cum_mono (c : context) : Prop :=
  ∀ j, 0 < j → j < c.max_length → cum c (j - 1) ≤ cum c j

/-- The interval of slot `s` as `encode` hands it to the coder. -/
def remapped (c : context) (s : Nat) : Nat × Nat := remap c s (cum c (s - 1)) (cum c s)

/-- The slot and the three arguments of the coder call. -/
def coded.args (e : coded) : Nat × Nat × Nat × Nat := (e.slot, e.low_w, e.high_w, e.total)

/-! ## The invariant of the contexts the code builds -/

/-- What every operation on a context keeps: the tree has a power of two as
size, `total` is the sum of the counts, and the cache of the most frequent
symbol agrees with the tree. -/
def ctx_inv (c : context) : Prop :=
  (∃ k, c.max_length = 2 ^ k) ∧ 1 < c.max_length ∧ c.max_length ≤ 2 ^ 32 ∧ c.total < W ∧
    total_ok c ∧ mps_ok c

/-- What `decode` does with the target `t`: it selects slot `s`, hands the
remapped interval of `s` to the coder and updates the context for `s`. -/
def decoded_as (c : context) (t s : Nat) : Prop :=
  ∃ e low high, decode_core c t = Except.ok e ∧
    e.args = (s, (remapped c s).1, (remapped c s).2, c.total) ∧
    update_coded c s low high = Except.ok e.ctx ∧
    low = cum c (s - 1) ∧ usub high low = count c s

/-- The contexts the code can build with `F_bits = F`: made by `create_context`
and changed by the operations of `stats.c`, each called within the range of its
arguments (a slot that fits an `int`, a target below `total`). -/
inductive reachable (F : Nat) : context → Prop
  | create (length type : Nat) (c : context) :
      length + 2 ≤ 2 ^ 31 → create_context F length type = Except.ok c → reachable F c
  | install (fuel : Nat) (c c1 : context) (symbol r : Int) :
      reachable F c → 0 < symbol + 2 → symbol + 2 < 2 ^ 31 →
      install_symbol F fuel c symbol = Except.ok (r, c1) → reachable F c1
  | encode (fuel : Nat) (c c1 : context) (symbol r : Int) (a : Nat × Nat × Nat) :
      reachable F c → encode F fuel c symbol = Except.ok (r, a, c1) → reachable F c1
  | decode (fuel : Nat) (c c1 : context) (t : Nat) (r : Int) (a : Nat × Nat × Nat) :
      reachable F c → cum_mono c → t < c.total →
      decode F fuel c t = Except.ok (r, a, c1) → reachable F c1
  | delete (c c1 : context) (symbol : Int) :
      reachable F c → delete_symbol_ctx c symbol = Except.ok c1 → reachable F c1
  | halve (c c1 : context) :
      reachable F c → halve_context c = Except.ok c1 → reachable F c1
  | adjust (c c1 : context) :
      reachable F c → adjust_zero_freq c = Except.ok c1 → reachable F c1
/-- A dynamic context as `create_context(3, DYNAMIC)` leaves it for
`F_bits = 27`: eight cells, the escape slot alone with count `2 ^ 27`. -/
def fresh_context : context :=
  { initial_size := 8, max_length := 8, length := 1, nSingletons := 2 ^ 27, type := DYNAMIC,
    nSymbols := 1, total := 2 ^ 27,
    tree := fun i => if i = 1 ∨ i = 2 ∨ i = 4 then 2 ^ 27 else 0,
    incr := 2 ^ 27, most_freq_symbol := 1, most_freq_count := 2 ^ 27, most_freq_pos := 0 }

/-- The individual count of slot `i` as `get_interval` reports it. -/
def interval_width (c : context) (i : Nat) : M Nat := do
  let (low, high) ← get_interval c i
  pure (usub high low)

/-- A context of four cells with counts 2, 5 and 3 in the slots 1, 2 and 3;
slot 2 is the most frequent symbol. -/
def small_context : context :=
  { initial_size := 4, max_length := 4, length := 3, nSingletons := 2, type := DYNAMIC,
    nSymbols := 3, total := 10,
    tree := fun i => if i = 1 then 2 else if i = 2 then 7 else if i = 3 then 3 else 0,
    incr := 1, most_freq_symbol := 2, most_freq_count := 5, most_freq_pos := 2 }


/-- A static context with the symbols 0, 1, 2, 3 installed and the symbols 0,
1, 2 deleted again. -/
def after_deletes (F : Nat) : M context := do
  let c ← create_context F 5 STATIC
  let (_, c) ← install_symbol F 64 c 0
  let (_, c) ← install_symbol F 64 c 1
  let (_, c) ← install_symbol F 64 c 2
  let (_, c) ← install_symbol F 64 c 3
  let c ← delete_symbol_ctx c 0
  let c ← delete_symbol_ctx c 1
  delete_symbol_ctx c 2
/-! ## Measuring the halving loop -/

/-- The number of user slots among `2..n` whose count is not zero. -/
def nonzero_slots (c : context) : Nat → Nat
  | 0 => 0
  | n + 1 =>
    if 2 ≤ n + 1 ∧ count c (n + 1) ≠ 0 then nonzero_slots c n + 1 else nonzero_slots c n

/-- The sum over the user slots `2..n` of the count less one. -/
def excess (c : context) : Nat → Nat
  | 0 => 0
  | n + 1 => if 2 ≤ n + 1 then excess c n + (count c (n + 1) - 1) else excess c n
/-! ## Reading the escape slot -/

/-- The number of user slots among `2..n` whose count equals `incr`. -/
def single_slots (c : context) : Nat → Nat
  | 0 => 0
  | n + 1 =>
    if 2 ≤ n + 1 ∧ count c (n + 1) = c.incr then single_slots c n + 1 else single_slots c n

/-- The contexts the code can build with `F_bits = F` when `install_symbol` and
`delete_symbol` are called for user symbols (index at least 0) only. -/
inductive user_reachable (F : Nat) : context → Prop
  | create (length type : Nat) (c : context) :
      length + 2 ≤ 2 ^ 31 → create_context F length type = Except.ok c → user_reachable F c
  | install (fuel : Nat) (c c1 : context) (symbol r : Int) :
      user_reachable F c → 0 ≤ symbol → symbol + 2 < 2 ^ 31 →
      install_symbol F fuel c symbol = Except.ok (r, c1) → user_reachable F c1
  | encode (fuel : Nat) (c c1 : context) (symbol r : Int) (a : Nat × Nat × Nat) :
      user_reachable F c → encode F fuel c symbol = Except.ok (r, a, c1) → user_reachable F c1
  | decode (fuel : Nat) (c c1 : context) (t : Nat) (r : Int) (a : Nat × Nat × Nat) :
      user_reachable F c → cum_mono c → t < c.total →
      decode F fuel c t = Except.ok (r, a, c1) → user_reachable F c1
  | delete (c c1 : context) (symbol : Int) :
      user_reachable F c → 0 ≤ symbol → delete_symbol_ctx c symbol = Except.ok c1 →
      user_reachable F c1
  | halve (c c1 : context) :
      user_reachable F c → halve_context c = Except.ok c1 → user_reachable F c1

/-- The context of `create_context(3, DYNAMIC)` with `F = 27` after
`install_symbol` and `delete_symbol` of the symbol 0. -/
def deleted_singleton : M context :=
  (install_symbol 27 8 fresh_context 0).bind (fun p => delete_symbol_ctx p.2 0)

/-- What the escape slot of a context has to satisfy: its count is
`nSingletons`, which is 0 in a static context. -/
def escape_ok (c : context) : Prop :=
  count c 1 = c.nSingletons ∧ (c.type = STATIC → c.nSingletons = 0) ∧ c.incr < W

/-- The number of user slots with a count is below `nSymbols`, and `nSymbols`
has passed the cap test of `install_symbol`. -/
def slots_ok (F : Nat) (c : context) : Prop :=
  nonzero_slots c (c.max_length - 1) < c.nSymbols ∧ 2 * c.nSymbols < 2 ^ F

/-! ## The counts of the user slots as the calls define them

The counts below are kept apart from the tree: they start at zero and follow
the calls (`install_symbol` and a coded symbol add `incr` to a slot,
`delete_symbol` clears a slot, a halving pass halves every slot). -/

/-- Add `d` to the count of slot `s`. -/
def bump (f : Nat → Nat) (s d : Nat) : Nat → Nat :=
  fun j => if j = s then uadd (f j) d else f j

/-- One halving pass over the user slots below `n`: a count `v` becomes
`v - (v >> 1)`. -/
def halve_counts (n : Nat) (f : Nat → Nat) : Nat → Nat :=
  fun j => if 1 < j ∧ j < n then halved (f j) else f j

/-- The counts along the loop `while (total > Max_frequency) halve_context`:
one halving pass of the counts for every pass of the loop. -/
def halve_loop_counts (F : Nat) : Nat → context → (Nat → Nat) → M (Nat → Nat)
  | 0, _, _ => throw Fault.outOfFuel
  | fuel + 1, c, f =>
    if c.total > Max_frequency F then do
      let c1 ← halve_context c
      halve_loop_counts F fuel c1 (halve_counts c.max_length f)
    else pure f

/-- The counts after `install_symbol`: unchanged when the call returns
`TOO_MANY_SYMBOLS`; else the slot of the symbol gains `incr`, and the halving
loop follows. -/
def install_counts (F fuel : Nat) (c : context) (f : Nat → Nat) (symbol : Int) :
    M (Nat → Nat) := do
  let r ← install_core F c symbol
  match r with
  | (_, none) => pure f
  | (_, some c1) => halve_loop_counts F fuel c1 (bump f (symbol + 2).toNat c.incr)

/-- The counts after `encode` or `decode` has coded the slot `e.slot`: a user
slot gains `incr`, the escape changes no user slot, and the halving loop
follows. -/
def coded_counts (F fuel : Nat) (c : context) (f : Nat → Nat) (e : coded) : M (Nat → Nat) :=
  halve_loop_counts F fuel e.ctx (if e.slot = 1 then f else bump f e.slot c.incr)

/-- The counts after `encode`. -/
def encode_counts (F fuel : Nat) (c : context) (f : Nat → Nat) (symbol : Int) :
    M (Nat → Nat) := do
  let e ← encode_core c symbol
  coded_counts F fuel c f e

/-- The counts after `decode`. -/
def decode_counts (F fuel : Nat) (c : context) (f : Nat → Nat) (target : Nat) :
    M (Nat → Nat) := do
  let e ← decode_core c target
  coded_counts F fuel c f e

/-- The counts after `delete_symbol`. -/
def delete_counts (f : Nat → Nat) (symbol : Int) : Nat → Nat :=
  fun j => if j = (symbol + 2).toNat then 0 else f j

/-- The count of slot `j`: the escape slot 1 carries `nSingletons`, a user slot
its count. -/
def slot_count (c : context) (f : Nat → Nat) (j : Nat) : Nat :=
  if j = 1 then c.nSingletons else f j

/-- The sum of the counts of the slots `1..n`. -/
def slot_sum (c : context) (f : Nat → Nat) : Nat → Nat
  | 0 => 0
  | n + 1 => slot_sum c f n + slot_count c f (n + 1)

/-- The contexts the code builds with `F_bits = F`, each with the counts of its
user slots: `create_context` starts with no count, and `install_symbol`,
`encode`, `decode`, `delete_symbol` and `halve_context` change the context and
the counts side by side. -/
inductive counted (F : Nat) : context → (Nat → Nat) → Prop
  | create (length type : Nat) (c : context) :
      length + 2 ≤ 2 ^ 31 → create_context F length type = Except.ok c →
      counted F c (fun _ => 0)
  | install (fuel : Nat) (c c1 : context) (symbol r : Int) (f f1 : Nat → Nat) :
      counted F c f → 0 ≤ symbol → symbol + 2 < 2 ^ 31 →
      install_symbol F fuel c symbol = Except.ok (r, c1) →
      install_counts F fuel c f symbol = Except.ok f1 → counted F c1 f1
  | encode (fuel : Nat) (c c1 : context) (symbol r : Int) (a : Nat × Nat × Nat)
      (f f1 : Nat → Nat) :
      counted F c f → encode F fuel c symbol = Except.ok (r, a, c1) →
      encode_counts F fuel c f symbol = Except.ok f1 → counted F c1 f1
  | decode (fuel : Nat) (c c1 : context) (t : Nat) (r : Int) (a : Nat × Nat × Nat)
      (f f1 : Nat → Nat) :
      counted F c f → cum_mono c → t < c.total →
      decode F fuel c t = Except.ok (r, a, c1) →
      decode_counts F fuel c f t = Except.ok f1 → counted F c1 f1
  | delete (c c1 : context) (symbol : Int) (f : Nat → Nat) :
      counted F c f → 0 ≤ symbol → delete_symbol_ctx c symbol = Except.ok c1 →
      counted F c1 (delete_counts f symbol)
  | halve (c c1 : context) (f : Nat → Nat) :
      counted F c f → halve_context c = Except.ok c1 →
      counted F c1 (halve_counts c.max_length f)

/-- The tree holds the counts `f` in its user slots, and `f` has no count
outside the tree. -/
def counts_agree (c : context) (f : Nat → Nat) : Prop :=
  (∀ j, 1 < j → j < c.max_length → count c j = f j) ∧ (∀ j, c.max_length ≤ j → f j = 0)

/-- The result of `x`, or `d` when `x` is a fault. -/
def result_or {α : Type} (x : M α) (d : α) : α :=
  match x with
  | Except.ok p => p
  | Except.error _ => d

/-- The context of `create_context(3, DYNAMIC)` with `F = 27` after
`install_symbol` of the symbol 0. -/
def installed_context : context :=
  (result_or (install_symbol 27 8 fresh_context 0) (0, fresh_context)).2

/-- The counts of the user slots of `installed_context`. -/
def installed_counts : Nat → Nat :=
  result_or (install_counts 27 8 fresh_context (fun _ => 0) 0) (fun _ => 0)
/-! ## The arithmetic coder of `arith.c` (the `MULT_DIV` code) -/

/-- The narrowing step of `arithmetic_encode`, before `ENCODE_RENORMALISE`: the
new `(out_L, out_R)` for the interval `[low, high)` out of `total`.  The
variables are `unsigned long`. -/
def arithmetic_encode_narrow (out_L out_R low high total : Nat) : Nat × Nat :=
  let out_r := out_R / total
  let temp := (out_r * low) % W
  let out_L1 := uadd out_L temp
  let out_R1 := if high < total then (out_r * usub high low) % W else usub out_R temp
  (out_L1, out_R1)

/-- The code values of the range `[out_L, out_L + out_R)`. -/
def in_code_range (p : Nat × Nat) (x : Nat) : Prop := p.1 ≤ x ∧ x < p.1 + p.2

instance in_code_range_decidable (p : Nat × Nat) (x : Nat) : Decidable (in_code_range p x) := by
  unfold in_code_range
  infer_instance

/-- Cut points of `[0, 3)` into the intervals `[0, 1)` and `[1, 3)`. -/
def sample_cuts (j : Nat) : Nat := if j = 0 then 0 else if j = 1 then 1 else 3

/-- The constant `Half`, `1 << (B_bits - 1)`. -/
def Half (B : Nat) : Nat := 2 ^ (B - 1)

/-- The constant `Quarter`, `1 << (B_bits - 2)`. -/
def Quarter (B : Nat) : Nat := 2 ^ (B - 2)

/-- The constant `MAX_BITS_OUTSTANDING`. -/
def MAX_BITS_OUTSTANDING : Nat := 2 ^ 31

/-- The output state of the coder: `out_L`, `out_R`, `out_bits_outstanding`
and the bits written by `OUTPUT_BIT` so far, first bit first. -/
structure encoder where
  out_L : Nat
  out_R : Nat
  out_bits_outstanding : Nat
  output : List Bool

/-- The macro `BIT_PLUS_FOLLOW` (without `FRUGAL_BITS`): the bit, then the
outstanding opposite bits. -/
def BIT_PLUS_FOLLOW (e : encoder) (b : Bool) : encoder :=
  { e with output := e.output ++ b :: List.replicate e.out_bits_outstanding (!b),
           out_bits_outstanding := 0 }

/-- The macro `ENCODE_RENORMALISE`. -/
def ENCODE_RENORMALISE (B : Nat) : Nat → encoder → M encoder
  | 0, _ => throw Fault.diverge
  | fuel + 1, e =>
    if e.out_R ≤ Quarter B then
      let e1 :=
        if e.out_L ≥ Half B then
          { BIT_PLUS_FOLLOW e true with out_L := usub e.out_L (Half B) }
        else if uadd e.out_L e.out_R ≤ Half B then BIT_PLUS_FOLLOW e false
        else { e with out_bits_outstanding := uadd e.out_bits_outstanding 1,
                      out_L := usub e.out_L (Quarter B) }
      ENCODE_RENORMALISE B fuel
        { e1 with out_L := (e1.out_L * 2) % W, out_R := (e1.out_R * 2) % W }
    else pure e

/-- The function `arithmetic_encode`; a zero `total` makes the code divide by
zero, too many outstanding bits make it exit. -/
def arithmetic_encode (B fuel : Nat) (e : encoder) (low high total : Nat) : M encoder := do
  if total = 0 then throw Fault.abort
  else
    let p := arithmetic_encode_narrow e.out_L e.out_R low high total
    let e ← ENCODE_RENORMALISE B fuel { e with out_L := p.1, out_R := p.2 }
    if e.out_bits_outstanding > MAX_BITS_OUTSTANDING then throw Fault.abort else pure e

/-- The function `start_encode`. -/
def start_encode (B : Nat) : encoder :=
  { out_L := 0, out_R := Half B, out_bits_outstanding := 0, output := [] }

/-- The loop of `finish_encode`: `n` more passes, the next one for index `i`. -/
def finish_loop (B bits : Nat) : Nat → Nat → encoder → encoder
  | 0, _, e => e
  | n + 1, i, e =>
    finish_loop B bits n (i + 1) (BIT_PLUS_FOLLOW e (decide ((bits >>> (B - i)) % 2 = 1)))

/-- The function `finish_encode` (without `FRUGAL_BITS`). -/
def finish_encode (B : Nat) (e : encoder) : encoder := finish_loop B e.out_L B 1 e

/-- The input state of the coder: `in_R`, `in_D`, `in_r` and the bits not yet
read. -/
structure decoder where
  in_R : Nat
  in_D : Nat
  in_r : Nat
  input : List Bool

/-- The macro `ADD_NEXT_INPUT_BIT(v, 0)`; reading past the end of the input
makes the code exit. -/
def ADD_NEXT_INPUT_BIT (v : Nat) (input : List Bool) : M (Nat × List Bool) :=
  match input with
  | [] => throw Fault.abort
  | b :: rest => pure (uadd ((v * 2) % W) (if b then 1 else 0), rest)

/-- The macro `DECODE_RENORMALISE` (without `FRUGAL_BITS`). -/
def DECODE_RENORMALISE (B : Nat) : Nat → decoder → M decoder
  | 0, _ => throw Fault.diverge
  | fuel + 1, d =>
    if d.in_R ≤ Quarter B then do
      let (v, rest) ← ADD_NEXT_INPUT_BIT d.in_D d.input
      DECODE_RENORMALISE B fuel { d with in_R := (d.in_R * 2) % W, in_D := v, input := rest }
    else pure d

/-- The loop of `start_decode` that fills `in_D`. -/
def fill_D : Nat → Nat → List Bool → M (Nat × List Bool)
  | 0, v, input => pure (v, input)
  | n + 1, v, input => do
    let (v1, rest) ← ADD_NEXT_INPUT_BIT v input
    fill_D n v1 rest

/-- The function `start_decode` (without `FRUGAL_BITS`). -/
def start_decode (B : Nat) (input : List Bool) : M decoder := do
  let (v, rest) ← fill_D B 0 input
  if v ≥ Half B then throw Fault.abort
  else pure { in_R := Half B, in_D := v, in_r := 0, input := rest }

/-- The function `arithmetic_decode_target`; the result is the target and the
state with `in_r` set.  A zero divisor makes the code divide by zero. -/
def arithmetic_decode_target (d : decoder) (total : Nat) : M (Nat × decoder) :=
  if total = 0 then throw Fault.abort
  else
    let in_r := d.in_R / total
    if in_r = 0 then throw Fault.abort
    else
      let target := d.in_D / in_r
      pure (if target ≥ total then usub total 1 else target, { d with in_r := in_r })

/-- The function `arithmetic_decode`. -/
def arithmetic_decode (B fuel : Nat) (d : decoder) (low high total : Nat) : M decoder :=
  let temp := (d.in_r * low) % W
  let in_R := if high < total then (d.in_r * usub high low) % W else usub d.in_R temp
  DECODE_RENORMALISE B fuel { d with in_D := usub d.in_D temp, in_R := in_R }

/-- The encoder run on a sequence of triples `(low, high, total)`. -/
def encode_all (B fuel : Nat) : encoder → List (Nat × Nat × Nat) → M encoder
  | e, [] => pure e
  | e, (low, high, total) :: rest => do
    let e1 ← arithmetic_encode B fuel e low high total
    encode_all B fuel e1 rest

/-- The decoder run on a sequence of triples: before each `arithmetic_decode`
the target of `arithmetic_decode_target` is recorded. -/
def decode_all (B fuel : Nat) : decoder → List (Nat × Nat × Nat) → M (List Nat)
  | _, [] => pure []
  | d, (low, high, total) :: rest => do
    let (t, d1) ← arithmetic_decode_target d total
    let d2 ← arithmetic_decode B fuel d1 low high total
    let ts ← decode_all B fuel d2 rest
    pure (t :: ts)

/-- The whole exchange: encode the triples, finish, hand the bits written
(followed by `pad`) to a fresh decoder and decode with the same triples. -/
def round_trip (B fuel : Nat) (triples : List (Nat × Nat × Nat)) (pad : List Bool) :
    M (List Nat) := do
  let e ← encode_all B fuel (start_encode B) triples
  let d ← start_decode B ((finish_encode B e).output ++ pad)
  decode_all B fuel d triples

/-- The number a list of bits spells, first bit first. -/
def bits_val : List Bool → Nat
  | [] => 0
  | b :: rest => (if b then 1 else 0) * 2 ^ rest.length + bits_val rest

/-- The lower bound of the code interval as a number of
`output.length + out_bits_outstanding + B` bits. -/
def absval (B : Nat) (e : encoder) : Nat :=
  bits_val e.output * 2 ^ (e.out_bits_outstanding + B) +
    (2 ^ e.out_bits_outstanding - 1) * 2 ^ (B - 1) + e.out_L

/-- The number of times the code interval has been doubled. -/
def nshift (e : encoder) : Nat := e.output.length + e.out_bits_outstanding

/-- One pass of the loop of `ENCODE_RENORMALISE`. -/
def encode_step (B : Nat) (e : encoder) : encoder :=
  let e1 :=
    if e.out_L ≥ Half B then
      { BIT_PLUS_FOLLOW e true with out_L := usub e.out_L (Half B) }
    else if uadd e.out_L e.out_R ≤ Half B then BIT_PLUS_FOLLOW e false
    else { e with out_bits_outstanding := uadd e.out_bits_outstanding 1,
                  out_L := usub e.out_L (Quarter B) }
  { e1 with out_L := (e1.out_L * 2) % W, out_R := (e1.out_R * 2) % W }

/-- The state of the encoder between two calls: the range is above `Quarter`
and at most `Half`, the interval ends at most at `2 ^ B`, and the counter of
outstanding bits is within its limit. -/
def enc_ok (B : Nat) (e : encoder) : Prop :=
  Quarter B < e.out_R ∧ e.out_R ≤ Half B ∧ e.out_L + e.out_R ≤ 2 ^ B ∧
    e.out_bits_outstanding ≤ MAX_BITS_OUTSTANDING

/-- The offset and the width of the part of a range `R` given to the interval
`[low, high)` out of `total`. -/
def sub_range (R low high total : Nat) : Nat × Nat :=
  (R / total * low, if high < total then R / total * (high - low) else R - R / total * low)


/-- The function `binary_arithmetic_encode` (the `MULT_DIV` code): the least
probable symbol gets the range `rLPS`, at the top of the interval. -/
def binary_arithmetic_encode (B fuel : Nat) (e : encoder) (c0 c1 : Nat) (bit : Int) :
    M encoder := do
  let LPS : Int := if c0 < c1 then 0 else 1
  let cLPS := if c0 < c1 then c0 else c1
  if uadd c0 c1 = 0 then throw Fault.abort
  else
    let out_r := e.out_R / uadd c0 c1
    let rLPS := (out_r * cLPS) % W
    let e1 :=
      if bit = LPS then { e with out_L := uadd e.out_L (usub e.out_R rLPS), out_R := rLPS }
      else { e with out_R := usub e.out_R rLPS }
    let e2 ← ENCODE_RENORMALISE B fuel e1
    if e2.out_bits_outstanding > MAX_BITS_OUTSTANDING then throw Fault.abort else pure e2

/-- The shift/add loop of `arithmetic_encode` (`for (i = nShifts;; i--)`): the
arguments are `i`, `A`, `temp` and `temp2`; the result is `(A, temp, temp2)`
at the `break`. -/
def encode_shift_loop (M low high : Nat) : Nat → Nat → Nat → Nat → Nat × Nat × Nat
  | 0, A, temp, temp2 =>
    if A ≥ M then (usub A M, uadd temp low, uadd temp2 high) else (A, temp, temp2)
  | i + 1, A, temp, temp2 =>
    if A ≥ M then
      encode_shift_loop M low high i ((usub A M * 2) % W) ((uadd temp low * 2) % W)
        ((uadd temp2 high * 2) % W)
    else encode_shift_loop M low high i ((A * 2) % W) ((temp * 2) % W) ((temp2 * 2) % W)

/-- The values `temp` and `temp2` of the shift/add code of `arithmetic_encode`
(with `VARY_NBITS`), for `F_bits + 2 ≤ B_bits`. -/
def encode_shift_temps (B F out_R low high total : Nat) : Nat × Nat :=
  let nShifts := B - F - 1
  let M := (total * 2 ^ nShifts) % W
  let r := encode_shift_loop M low high nShifts out_R 0 0
  (r.2.1, r.2.2)

/-- The narrowing step of the shift/add code of `arithmetic_encode`. -/
def arithmetic_encode_shift_narrow (B F out_L out_R low high total : Nat) : Nat × Nat :=
  let t := encode_shift_temps B F out_R low high total
  (uadd out_L t.1, if high < total then usub t.2 t.1 else usub out_R t.1)

/-- The shift/add division loops of `arithmetic_decode_target`: the arguments
are `i`, `A` and the quotient so far; the result is the quotient at the
`break`. -/
def divide_shift_loop (M : Nat) : Nat → Nat → Nat → Nat
  | 0, A, q => if A ≥ M then uadd q 1 else q
  | i + 1, A, q =>
    if A ≥ M then divide_shift_loop M i ((usub A M * 2) % W) ((uadd q 1 * 2) % W)
    else divide_shift_loop M i ((A * 2) % W) ((q * 2) % W)

/-- The shift/add code of `arithmetic_decode_target` (with `VARY_NBITS`), for
`1 ≤ F_bits` and `F_bits + 2 ≤ B_bits`: the result is the target and the state
with `in_r` set. -/
def arithmetic_decode_target_shift (B F : Nat) (d : decoder) (total : Nat) : Nat × decoder :=
  let nShifts := B - F - 1
  let M := (total * 2 ^ nShifts) % W
  let in_r := divide_shift_loop M nShifts d.in_R 0
  let nShifts2 := if in_r < 2 ^ (B - F - 1) then F else F - 1
  let M2 := (in_r * 2 ^ nShifts2) % W
  let target := divide_shift_loop M2 nShifts2 d.in_D 0
  (if target ≥ total then usub total 1 else target, { d with in_r := in_r })

/-- The search loop of `finish_encode` with `FRUGAL_BITS`, for `B_bits ≤ 32`
(then `(1 << (B_bits - nbits)) - 1` is `2 ^ (B_bits - nbits) - 1`): `n` more
passes, the next one for `nbits`; the result is `nbits` and `bits` after the
loop. -/
def frugal_loop (B out_L out_R : Nat) : Nat → Nat → Nat → Nat × Nat
  | 0, nbits, bits => (nbits, bits)
  | n + 1, nbits, _ =>
    let roundup := 2 ^ (B - nbits) - 1
    let bits := uadd out_L roundup >>> (B - nbits)
    let value := (bits <<< (B - nbits)) % W
    if out_L ≤ value ∧ uadd value roundup ≤ uadd out_L (usub out_R 1) then (nbits, bits)
    else frugal_loop B out_L out_R n (nbits + 1) bits

/-- The values of `nbits` and `bits` after the search loop of `finish_encode`
with `FRUGAL_BITS`. -/
def frugal_bits (B out_L out_R : Nat) : Nat × Nat := frugal_loop B out_L out_R B 1 0

/-- Is there an aligned block of `2 ^ (B - n)` code values, named by a prefix
`p` of `n` bits, inside `[L, L + R - 1]`. -/
def has_prefix (B L R n : Nat) : Prop :=
  ∃ p, L ≤ p * 2 ^ (B - n) ∧ p * 2 ^ (B - n) + 2 ^ (B - n) - 1 ≤ L + R - 1

/-- The encoder states a coding run reaches: `start_encode`, then calls of
`arithmetic_encode` with `low < high ≤ total ≤ 2 ^ F` and of
`binary_arithmetic_encode` with `1 ≤ c0`, `1 ≤ c1`, `c0 + c1 ≤ 2 ^ F` that
return. -/
inductive enc_reachable (B F : Nat) : encoder → Prop
  | start : enc_reachable B F (start_encode B)
  | encode (e e1 : encoder) (low high total fuel : Nat) : enc_reachable B F e →
      low < high → high ≤ total → total ≤ 2 ^ F →
      arithmetic_encode B fuel e low high total = Except.ok e1 → enc_reachable B F e1
  | binary (e e1 : encoder) (c0 c1 : Nat) (bit : Int) (fuel : Nat) : enc_reachable B F e →
      1 ≤ c0 → 1 ≤ c1 → c0 + c1 ≤ 2 ^ F →
      binary_arithmetic_encode B fuel e c0 c1 bit = Except.ok e1 → enc_reachable B F e1

/-- The state of the encoder between two calls, with the position of the code
interval: it lies in the lower half of the code space, scaled by the doublings
so far. -/
def enc_inv (B : Nat) (e : encoder) : Prop :=
  enc_ok B e ∧ absval B e + e.out_R ≤ Half B * 2 ^ nshift e

/-- The decoder state `d` follows the encoder state `e` on the stream `S`
(followed by `pad`): the ranges agree, `in_D` is the distance of the bits read
so far from the lower bound of the code interval, and the input is the rest of
the stream. -/
def follows (B : Nat) (S pad : List Bool) (e : encoder) (d : decoder) : Prop :=
  d.in_R = e.out_R ∧ d.in_D + absval B e = bits_val (S.take (B + nshift e)) ∧
    d.input = S.drop (B + nshift e) ++ pad

/-- The triples `(low, high, total)` are valid calls for `F` frequency bits. -/
def valid_triples (F : Nat) (triples : List (Nat × Nat × Nat)) : Prop :=
  ∀ tr, tr ∈ triples → tr.1 < tr.2.1 ∧ tr.2.1 ≤ tr.2.2 ∧ tr.2.2 ≤ 2 ^ F

/-- The targets `ts` fall into the intervals of the triples, one by one. -/
def targets_match : List Nat → List (Nat × Nat × Nat) → Prop
  | [], [] => True
  | t :: ts, tr :: triples => tr.1 ≤ t ∧ t < tr.2.1 ∧ targets_match ts triples
  | _, _ => False
/-! ## The binary contexts of `stats.c` -/

/-- A `binary_context`: the two counts and the increment. -/
structure binary_context where
  c0 : Nat
  c1 : Nat
  incr : Nat
deriving DecidableEq

/-- The function `create_binary_context`: `incr = 1 << (F_bits - 1)`, and both
counts start at `incr`. -/
def create_binary_context (F : Nat) : binary_context :=
  { c0 := 2 ^ (F - 1) % W, c1 := 2 ^ (F - 1) % W, incr := 2 ^ (F - 1) % W }

/-- The statements of `binary_encode` and of `binary_decode` that follow the
call of the coder: the count of `bit` grows by `incr`, and when the sum is
above `Max_frequency` the counts and the increment are halved. -/
def binary_update (F : Nat) (c : binary_context) (bit : Int) : binary_context :=
  let c1 : binary_context :=
    if bit = 0 then { c with c0 := uadd c.c0 c.incr } else { c with c1 := uadd c.c1 c.incr }
  if uadd c1.c0 c1.c1 > Max_frequency F then
    { c0 := uadd c1.c0 1 / 2, c1 := uadd c1.c1 1 / 2, incr := uadd c1.incr MIN_INCR / 2 }
  else c1

/-- The function `binary_arithmetic_decode` (the `MULT_DIV` code); the result
is the bit and the new state. -/
def binary_arithmetic_decode (B fuel : Nat) (d : decoder) (c0 c1 : Nat) : M (Int × decoder) := do
  let LPS : Int := if c0 < c1 then 0 else 1
  let cLPS := if c0 < c1 then c0 else c1
  if uadd c0 c1 = 0 then throw Fault.abort
  else
    let in_r := d.in_R / uadd c0 c1
    let rLPS := (in_r * cLPS) % W
    if d.in_D ≥ usub d.in_R rLPS then do
      let d2 ← DECODE_RENORMALISE B fuel
        { d with in_r := in_r, in_D := usub d.in_D (usub d.in_R rLPS), in_R := rLPS }
      pure (LPS, d2)
    else do
      let d2 ← DECODE_RENORMALISE B fuel { d with in_r := in_r, in_R := usub d.in_R rLPS }
      pure (1 - LPS, d2)

/-- The function `binary_encode`: the new states of the coder and of the
context. -/
def binary_encode (B F fuel : Nat) (e : encoder) (c : binary_context) (bit : Int) :
    M (encoder × binary_context) := do
  let e1 ← binary_arithmetic_encode B fuel e c.c0 c.c1 bit
  pure (e1, binary_update F c bit)

/-- The function `binary_decode`: the bit and the new states of the coder and
of the context. -/
def binary_decode (B F fuel : Nat) (d : decoder) (c : binary_context) :
    M (Int × decoder × binary_context) := do
  let (bit, d1) ← binary_arithmetic_decode B fuel d c.c0 c.c1
  pure (bit, d1, binary_update F c bit)

/-- The binary contexts that calls of `binary_encode` and `binary_decode`
produce from the result of `create_binary_context`. -/
inductive binary_reachable (B F : Nat) : binary_context → Prop
  | create : binary_reachable B F (create_binary_context F)
  | encode (fuel : Nat) (e e1 : encoder) (c c1 : binary_context) (bit : Int) :
      binary_reachable B F c → binary_encode B F fuel e c bit = Except.ok (e1, c1) →
      binary_reachable B F c1
  | decode (fuel : Nat) (d d1 : decoder) (c c1 : binary_context) (bit : Int) :
      binary_reachable B F c → binary_decode B F fuel d c = Except.ok (bit, d1, c1) →
      binary_reachable B F c1

/-- The invariant of a binary context. -/
def binary_ok (F : Nat) (c : binary_context) : Prop :=
  1 ≤ c.c0 ∧ 1 ≤ c.c1 ∧ MIN_INCR ≤ c.incr ∧ 2 ^ (F - 1) < c.c0 + c.c1 ∧ c.c0 + c.c1 ≤ 2 ^ F

/-- The context after the count of `bit` has grown by `incr`. -/
def binary_grown (c : binary_context) (bit : Int) : binary_context :=
  if bit = 0 then { c with c0 := c.c0 + c.incr } else { c with c1 := c.c1 + c.incr }

/-- The context with counts and increment halved, rounding up. -/
def binary_halved (c : binary_context) : binary_context :=
  { c0 := (c.c0 + 1) / 2, c1 := (c.c1 + 1) / 2, incr := (c.incr + 1) / 2 }
/-! ## The coding of the grammar (`compress.cc`)

The three contexts and the coder are seen through the codes that go through
them: each call of `encode` or `arithmetic_encode` of the compressor writes one
code, each call of `decode` or `arithmetic_decode_target` of the decompressor
reads one. -/

/-- The special symbol `START_RULE`. -/
def START_RULE : Int := 0

/-- The special symbol `END_OF_FILE`. -/
def END_OF_FILE : Int := 1

/-- The special symbol `STOP_FORGETTING`. -/
def STOP_FORGETTING : Int := 2

/-- The code of the first rule, `FIRST_RULE`. -/
def FIRST_RULE : Int := 4

/-- The keep index `KEEPI_NO`. -/
def KEEPI_NO : Int := 0

/-- The keep index `KEEPI_YES`. -/
def KEEPI_YES : Int := 1

/-- The keep index `KEEPI_DUMMY`. -/
def KEEPI_DUMMY : Int := 2

/-- The size `KEEPI_LENGTH` of the `keep` context. -/
def KEEPI_LENGTH : Int := 3

/-- The macro `TERM_TO_CODE`. -/
def TERM_TO_CODE (i : Int) : Int := i * 2 + 3

/-- A symbol of a rule body: a terminal with its value, or a non-terminal with
the name of its rule. -/
inductive gsym where
  | term (value : Nat)
  | nonterm (rule : Nat)
  deriving DecidableEq

/-- A code in the compressed stream, with the way it is coded: in the context
`symbol`, `lengths` or `keep`, or directly by `arithmetic_encode`. -/
inductive code where
  | symbol (i : Int)
  | lengths (l : Int)
  | keep (k : Int)
  | direct (x : Int)
  deriving DecidableEq

/-- Is the code one of the `keep` context. -/
def code.is_keep : code → Bool
  | code.keep _ => true
  | _ => false

/-- The state of the compressor: for each rule its `index()`, `freq()` and
body; the symbols installed in the contexts `symbol` and `lengths` and whether
these are dynamic; `current_rule` and `forgetting`. -/
structure compressor where
  index : Nat → Int
  freq : Nat → Int
  body : Nat → List gsym
  known : Int → Bool
  known_length : Int → Bool
  dynamic : Bool
  current_rule : Int
  forgetting : Bool

/-- What `encode` codes for `x` in a context with the installed symbols
`known`: `x`, or the escape `NOT_KNOWN` in a dynamic context; a static context
makes it abort on a symbol that is not installed. -/
def coded_as (dynamic : Bool) (known : Int → Bool) (x : Int) : M Int :=
  if known x then pure x
  else if dynamic then pure NOT_KNOWN
  else throw Fault.abort

/-- The function `encode_rule`: the state after it and the codes written. -/
def encode_rule (st : compressor) (r : Nat) (keepi : Int) : M (compressor × List code) := do
  let c ← coded_as st.dynamic st.known (st.index r)
  if keepi < KEEPI_LENGTH ∧ st.forgetting then
    let st1 := if keepi = KEEPI_NO ∨ keepi = KEEPI_DUMMY then
        { st with known := Function.update st.known (st.index r) false } else st
    pure (st1, [code.symbol c, code.keep keepi])
  else pure (st, [code.symbol c])

/-- The function `encode_symbol`. -/
def encode_symbol (st : compressor) (s : Nat) : M (compressor × List code) := do
  let s := TERM_TO_CODE s
  let c ← coded_as st.dynamic st.known s
  if c = NOT_KNOWN then
    pure ({ st with known := Function.update st.known s true }, [code.symbol c, code.direct s])
  else pure (st, [code.symbol c])

/-- The loop over the body in `rules::output2`; `out` is the recursive call. -/
def output2_body (out : compressor → Nat → M (compressor × List code)) :
    compressor → List gsym → M (compressor × List code)
  | st, [] => pure (st, [])
  | st, s :: rest => do
    let (st1, cs) ← match s with
      | gsym.nonterm r => if st.index r = 0 then out st r else encode_rule st r KEEPI_LENGTH
      | gsym.term v => encode_symbol st v
    let (st2, cs2) ← output2_body out st1 rest
    pure (st2, cs ++ cs2)

/-- The function `rules::output2` for the rule `r`; `fuel` bounds the depth of
the recursion. -/
def output2 : Nat → compressor → Nat → M (compressor × List code)
  | 0, _, _ => throw Fault.outOfFuel
  | fuel + 1, st, r => do
    let number := st.current_rule
    let st := { st with index := Function.update st.index r number,
                        current_rule := st.current_rule + 2 }
    let c ← coded_as st.dynamic st.known START_RULE
    let st := { st with known := Function.update st.known number true }
    let l : Int := (st.body r).length
    let cl ← coded_as st.dynamic st.known_length l
    let cs1 := if cl = NOT_KNOWN then [code.lengths cl, code.direct l] else [code.lengths cl]
    let (st1, cs2) ← output2_body (output2 fuel) st (st.body r)
    pure (st1, code.symbol c :: cs1 ++ cs2)

/-- The deletion of the symbols of a body: each non-terminal gives up a use of
its rule. -/
def release_body (freq : Nat → Int) : List gsym → Nat → Int
  | [] => freq
  | gsym.nonterm r :: rest => release_body (Function.update freq r (freq r - 1)) rest
  | gsym.term _ :: rest => release_body freq rest

/-- The deletion of the rule `r` at the end of `forget`. -/
def delete_body (st : compressor) (r : Nat) : compressor :=
  { st with freq := release_body st.freq (st.body r), body := Function.update st.body r [] }

/-- The part of `forget` for a non-terminal after `delete s`: `r` is the rule
of the deleted symbol. -/
def forget_rule (fuel : Nat) (st : compressor) (r : Nat) : M (compressor × List code) :=
  if st.freq r > 0 then
    if st.index r = 0 then output2 fuel st r
    else encode_rule st r KEEPI_YES
  else do
    let (st1, cs) ← if st.index r = 0 then do
        let (st1, cs) ← output2 fuel st r
        if st1.forgetting then do
          let (st2, cs2) ← encode_rule st1 r KEEPI_DUMMY
          pure (st2, cs ++ cs2)
        else pure (st1, cs)
      else encode_rule st r KEEPI_NO
    pure (delete_body st1 r, cs)

/-- The function `forget` for a symbol of the start rule: the state after it
and the codes written.  The deletion of a non-terminal takes a use from its
rule. -/
def forget (fuel : Nat) (st : compressor) (s : gsym) : M (compressor × List code) :=
  match s with
  | gsym.nonterm r =>
    forget_rule fuel { st with freq := Function.update st.freq r (st.freq r - 1) } r
  | gsym.term v => encode_symbol st v

/-- The state of the decompressor that decides what is read: `current_rule`
and `forgetting`. -/
structure decompressor where
  current_rule : Int
  forgetting : Bool
  deriving DecidableEq

/-- The statements of the decompressor that read a terminal not yet known:
`arithmetic_decode_target` and `arithmetic_decode`.  The result is `none` when
the next code was not written directly. -/
def read_direct : List code → Option (Int × List code)
  | code.direct x :: rest => some (x, rest)
  | _ => none

/-- The loop over the body in `get_symbol`; `get` is the recursive call. -/
def get_body (get : decompressor → List code → Option (Int × decompressor × List code)) :
    Nat → decompressor → List code → Option (decompressor × List code)
  | 0, d, cs => some (d, cs)
  | l + 1, d, cs => do
    let (x, d1, cs1) ← get d cs
    let cs2 ← if x % 2 = 0 then some cs1
      else if x = NOT_KNOWN then (read_direct cs1).map (fun p => p.2)
      else some cs1
    get_body get l d1 cs2

/-- The function `get_symbol`: the code returned, the state and the codes left.
The result is `none` when a code is read in another way than it was written,
or when `fuel`, which bounds the depth of the recursion, runs out. -/
def get_symbol : Nat → decompressor → List code → Option (Int × decompressor × List code)
  | 0, _, _ => none
  | fuel + 1, d, cs =>
    match cs with
    | code.symbol i :: rest =>
      if i = START_RULE then
        let n := d.current_rule
        let d1 := { d with current_rule := d.current_rule + 2 }
        match rest with
        | code.lengths l :: rest1 => do
          let (l1, rest2) ← if l = NOT_KNOWN then read_direct rest1 else some (l, rest1)
          let (d2, rest3) ← get_body (get_symbol fuel) l1.toNat d1 rest2
          some (n, d2, rest3)
        | _ => none
      else some (i, d, rest)
    | _ => none

/-- One pass of the loop of `uncompress`: whether the loop goes on, whether a
keep index was read (at the end of the pass), the state and the codes left. -/
def uncompress_pass (fuel : Nat) (d : decompressor) (cs : List code) :
    Option (Bool × Bool × decompressor × List code) := do
  let current := d.current_rule
  let (i, d1, cs1) ← get_symbol fuel d cs
  if i = END_OF_FILE then some (false, false, d1, cs1)
  else if i = STOP_FORGETTING then some (true, false, { d1 with forgetting := false }, cs1)
  else if i = NOT_KNOWN then (read_direct cs1).map (fun p => (true, false, d1, p.2))
  else if i % 2 = 1 then some (true, false, d1, cs1)
  else if i < current ∧ d1.forgetting then
    match cs1 with
    | code.keep _ :: rest => some (true, true, d1, rest)
    | _ => none
  else some (true, false, d1, cs1)

/-- The loop of `uncompress` for `n` passes over `cs`, of which `pos` codes
were read before: the positions in the stream at which a keep index was read,
the state and the codes left. -/
def uncompress_passes (fuel : Nat) :
    Nat → Nat → decompressor → List code → Option (List Nat × decompressor × List code)
  | 0, _, d, cs => some ([], d, cs)
  | n + 1, pos, d, cs => do
    let (_, k, d1, cs1) ← uncompress_pass fuel d cs
    let pos1 := pos + (cs.length - cs1.length)
    let (ps, d2, cs2) ← uncompress_passes fuel n pos1 d1 cs1
    some (if k then (pos1 - 1) :: ps else ps, d2, cs2)

/-- The positions of the codes of the `keep` context in a stream that starts
at position `pos`. -/
def keep_positions : Nat → List code → List Nat
  | _, [] => []
  | pos, c :: cs => if c.is_keep then pos :: keep_positions (pos + 1) cs
                    else keep_positions (pos + 1) cs

/-- The codes of the rules in `U` are in order: `current_rule` is even and at
least `FIRST_RULE`, `START_RULE` is installed, and the index of a rule that has
one is even, at least `FIRST_RULE`, below `current_rule` and installed. -/
def codes_ok (U : Nat → Prop) (st : compressor) : Prop :=
  4 ≤ st.current_rule ∧ st.current_rule % 2 = 0 ∧ st.known START_RULE = true ∧
    ∀ r, U r → st.index r ≠ 0 →
      4 ≤ st.index r ∧ st.index r < st.current_rule ∧ st.index r % 2 = 0 ∧
        st.known (st.index r) = true

/-- The bodies of the rules in `U` refer to rules in `U`. -/
def body_closed (U : Nat → Prop) (body : Nat → List gsym) : Prop :=
  ∀ r, U r → ∀ r', gsym.nonterm r' ∈ body r → U r'

/-- A state of the compressor while forgetting: the rule 1 with body `a b` has
been sent with index 4; the rule 2 with body `1 c` has not been sent; both are
used twice; the terminal `c` is not installed. -/
def sample_compressor : compressor :=
  { index := fun r => if r = 1 then 4 else 0,
    freq := fun _ => 2,
    body := fun r => if r = 1 then [gsym.term 97, gsym.term 98]
      else if r = 2 then [gsym.nonterm 1, gsym.term 99] else [],
    known := fun x => decide (x = 0 ∨ x = 1 ∨ x = 2 ∨ x = 4 ∨ x = 197 ∨ x = 199),
    known_length := fun l => decide (2 ≤ l ∧ l ≤ 10),
    dynamic := true,
    current_rule := 6,
    forgetting := true }

/-- What the codes written by `forget` and the decompressor depend on: the
codes, `current_rule` and `forgetting` after the call. -/
def forget_codes (fuel : Nat) (st : compressor) (s : gsym) : M (List code × Int × Bool) :=
  (forget fuel st s).map (fun p => (p.2, p.1.current_rule, p.1.forgetting))

/-- What the calls within one `forget` keep or let grow: the bodies and
`forgetting` stay, `current_rule` does not go down, an index once given stays,
and the codes stay in order. -/
def codes_kept (U : Nat → Prop) (st st1 : compressor) : Prop :=
  codes_ok U st1 ∧ st1.body = st.body ∧ st1.forgetting = st.forgetting ∧
    st1.dynamic = st.dynamic ∧ st.current_rule ≤ st1.current_rule ∧
    ∀ r, st.index r ≠ 0 → st1.index r = st.index r

/-- No code of the `keep` context is among `cs`. -/
def no_keep (cs : List code) : Prop := ∀ c, c ∈ cs → c.is_keep = false
/-! ## Lemmas on `BACK`, `FORW` and the lowest set bit -/

theorem and_eq_of_halves {a b x : Nat} (h2 : a / 2 &&& b / 2 = x / 2)
    (h1 : (a % 2 = 1 ∧ b % 2 = 1) ↔ x % 2 = 1) : a &&& b = x := by
  have hd : (a &&& b) / 2 = x / 2 := by rw [Nat.and_div_two, h2]
  have hm : (a &&& b) % 2 = x % 2 := by
    have := @Nat.and_mod_two_eq_one a b
    rcases Nat.mod_two_eq_zero_or_one (a &&& b) with h | h <;>
      rcases Nat.mod_two_eq_zero_or_one x with h' | h' <;> simp_all
  omega

theorem BACK_zero : BACK 0 = 0 := by
  simp [BACK]

theorem BACK_odd (m : Nat) : BACK (2 * m + 1) = 2 * m := by
  unfold BACK
  apply and_eq_of_halves
  · have h1 : (2 * m + 1) / 2 = m := by omega
    have h2 : (2 * m + 1 - 1) / 2 = m := by omega
    have h3 : 2 * m / 2 = m := by omega
    rw [h1, h2, h3, Nat.and_self]
  · constructor
    · rintro ⟨_, h⟩
      omega
    · intro h
      omega

theorem BACK_even (m : Nat) (hm : 0 < m) : BACK (2 * m) = 2 * BACK m := by
  unfold BACK
  apply and_eq_of_halves
  · have h1 : 2 * m / 2 = m := by omega
    have h2 : (2 * m - 1) / 2 = m - 1 := by omega
    have h3 : 2 * (m &&& (m - 1)) / 2 = m &&& (m - 1) := by omega
    rw [h1, h2, h3]
  · constructor
    · rintro ⟨h, _⟩
      omega
    · intro h
      omega

theorem BACK_le (n : Nat) : BACK n ≤ n := Nat.and_le_left

theorem BACK_lt : ∀ n : Nat, 0 < n → BACK n < n := by
  intro n
  induction n using Nat.strong_induction_on with
  | _ n ih =>
    intro hn
    rcases Nat.even_or_odd' n with ⟨m, rfl | rfl⟩
    · have hm : 0 < m := by omega
      rw [BACK_even m hm]
      have := ih m (by omega) hm
      omega
    · rw [BACK_odd]
      omega

theorem lowbit_odd (m : Nat) : lowbit (2 * m + 1) = 1 := by
  unfold lowbit
  rw [BACK_odd]
  omega

theorem lowbit_even (m : Nat) (hm : 0 < m) : lowbit (2 * m) = 2 * lowbit m := by
  unfold lowbit
  rw [BACK_even m hm]
  have := BACK_le m
  omega

theorem lowbit_pos (n : Nat) (hn : 0 < n) : 0 < lowbit n := by
  unfold lowbit
  have := BACK_lt n hn
  omega

theorem lowbit_le (n : Nat) : lowbit n ≤ n := by
  unfold lowbit
  omega

theorem BACK_add_lowbit (n : Nat) : BACK n + lowbit n = n := by
  unfold lowbit
  have := BACK_le n
  omega

theorem and_compl (k : Nat) : ∀ m : Nat, m < 2 ^ k → m &&& (2 ^ k - (m + 1)) = 0 := by
  intro m hm
  apply Nat.eq_of_testBit_eq
  intro i
  rw [Nat.testBit_and, Nat.testBit_two_pow_sub_succ hm]
  cases h : m.testBit i <;> simp

theorem and_neg (k : Nat) : ∀ n : Nat, 0 < n → n < 2 ^ k → n &&& (2 ^ k - n) = lowbit n := by
  induction k with
  | zero =>
    intro n h1 h2
    simp at h2
    omega
  | succ k ih =>
    intro n h1 h2
    have hp : 2 ^ (k + 1) = 2 * 2 ^ k := by rw [pow_succ]; ring
    rcases Nat.even_or_odd' n with ⟨m, rfl | rfl⟩
    · have hm : 0 < m := by omega
      have hm2 : m < 2 ^ k := by omega
      rw [lowbit_even m hm]
      apply and_eq_of_halves
      · have e1 : 2 * m / 2 = m := by omega
        have e2 : (2 ^ (k + 1) - 2 * m) / 2 = 2 ^ k - m := by omega
        have e3 : 2 * lowbit m / 2 = lowbit m := by omega
        rw [e1, e2, e3]
        exact ih m hm hm2
      · constructor
        · rintro ⟨h, _⟩
          omega
        · intro h
          omega
    · have hm2 : m < 2 ^ k := by omega
      rw [lowbit_odd]
      apply and_eq_of_halves
      · have e1 : (2 * m + 1) / 2 = m := by omega
        have e2 : (2 ^ (k + 1) - (2 * m + 1)) / 2 = 2 ^ k - (m + 1) := by omega
        rw [e1, e2]
        exact and_compl k m hm2
      · constructor
        · intro _
          rfl
        · intro _
          constructor <;> omega

theorem FORW_eq (n : Nat) (h1 : 0 < n) (h2 : n < 2 ^ 32) : FORW n = n + lowbit n := by
  unfold FORW
  rw [and_neg 32 n h1 h2]

/-- Adding the lowest bit at least doubles it. -/
theorem lowbit_add_lowbit : ∀ j : Nat, 0 < j → 2 * lowbit j ≤ lowbit (j + lowbit j) := by
  intro j
  induction j using Nat.strong_induction_on with
  | _ j ih =>
    intro hj
    rcases Nat.even_or_odd' j with ⟨m, rfl | rfl⟩
    · have hm : 0 < m := by omega
      rw [lowbit_even m hm]
      have e : 2 * m + 2 * lowbit m = 2 * (m + lowbit m) := by ring
      rw [e, lowbit_even (m + lowbit m) (by omega)]
      have := ih m (by omega) hm
      omega
    · rw [lowbit_odd]
      have e : 2 * m + 1 + 1 = 2 * (m + 1) := by ring
      rw [e, lowbit_even (m + 1) (by omega)]
      have := lowbit_pos (m + 1) (by omega)
      omega

/-- A slot strictly inside the range of `j` moves up to at most `j`. -/
theorem add_lowbit_le : ∀ j i : Nat, BACK j < i → i < j → i + lowbit i ≤ j := by
  intro j
  induction j using Nat.strong_induction_on with
  | _ j ih =>
    intro i h1 h2
    rcases Nat.even_or_odd' j with ⟨m, rfl | rfl⟩
    · have hm : 0 < m := by omega
      rw [BACK_even m hm] at h1
      rcases Nat.even_or_odd' i with ⟨a, rfl | rfl⟩
      · have ha : 0 < a := by omega
        rw [lowbit_even a ha]
        have := ih m (by omega) a (by omega) (by omega)
        omega
      · rw [lowbit_odd]
        omega
    · rw [BACK_odd] at h1
      omega

/-- The ranges `(BACK j, j]` are nested or disjoint. -/
theorem BACK_mono_in_range : ∀ i s : Nat, BACK i < s → s < i → BACK i ≤ BACK s := by
  intro i
  induction i using Nat.strong_induction_on with
  | _ i ih =>
    intro s h1 h2
    rcases Nat.even_or_odd' i with ⟨m, rfl | rfl⟩
    · have hm : 0 < m := by omega
      rw [BACK_even m hm] at h1 ⊢
      rcases Nat.even_or_odd' s with ⟨a, rfl | rfl⟩
      · have ha : 0 < a := by omega
        rw [BACK_even a ha]
        have := ih m (by omega) a (by omega) (by omega)
        omega
      · rw [BACK_odd]
        omega
    · rw [BACK_odd] at h1
      omega

/-- The root of the range of `FORW j` lies below the range of `j`. -/
theorem BACK_add_lowbit_le (j : Nat) (hj : 0 < j) : BACK (j + lowbit j) ≤ BACK j := by
  have h1 := lowbit_add_lowbit j hj
  have h2 := BACK_add_lowbit (j + lowbit j)
  have h3 := BACK_add_lowbit j
  omega

/-! ## Lemmas on the Fenwick tree: path sums, `get_interval`, updates -/

theorem psum_aux_fuel (t : Nat → Nat) :
    ∀ f1 f2 n : Nat, n ≤ f1 → n ≤ f2 → psum_aux t f1 n = psum_aux t f2 n := by
  intro f1
  induction f1 with
  | zero =>
    intro f2 n h1 _
    have hn : n = 0 := by omega
    subst hn
    cases f2 <;> simp [psum_aux]
  | succ f1 ih =>
    intro f2 n h1 h2
    cases f2 with
    | zero =>
      have hn : n = 0 := by omega
      subst hn
      simp [psum_aux]
    | succ f2 =>
      by_cases hn : n = 0
      · simp [psum_aux, hn]
      · have hb := BACK_lt n (by omega)
        simp only [psum_aux, hn, if_false]
        rw [ih f2 (BACK n) (by omega) (by omega)]

theorem psum_zero (t : Nat → Nat) : psum t 0 = 0 := by
  simp [psum, psum_aux]

theorem psum_pos (t : Nat → Nat) (n : Nat) (hn : 0 < n) :
    psum t n = t n + psum t (BACK n) := by
  have hb := BACK_lt n hn
  unfold psum
  cases n with
  | zero => omega
  | succ k =>
    simp only [psum_aux, Nat.succ_ne_zero, if_false]
    rw [psum_aux_fuel t k (BACK (k + 1)) (BACK (k + 1)) (by omega) (le_refl _)]

/-- The length of the `BACK` path of an even number. -/
theorem blen_even : ∀ m : Nat, psum (fun _ => 1) (2 * m) = psum (fun _ => 1) m := by
  intro m
  induction m using Nat.strong_induction_on with
  | _ m ih =>
    by_cases hm : m = 0
    · subst hm
      rfl
    · have hm' : 0 < m := by omega
      rw [psum_pos _ (2 * m) (by omega), psum_pos _ m hm', BACK_even m hm',
        ih (BACK m) (BACK_lt m hm')]

theorem blen_odd (m : Nat) : psum (fun _ => 1) (2 * m + 1) = 1 + psum (fun _ => 1) m := by
  rw [psum_pos _ (2 * m + 1) (by omega), BACK_odd, blen_even]

/-- A `BACK` path from below `2 ^ k` has at most `k` steps. -/
theorem blen_le (k : Nat) : ∀ n : Nat, n < 2 ^ k → psum (fun _ => 1) n ≤ k := by
  induction k with
  | zero =>
    intro n hn
    have h0 : n = 0 := by
      simp at hn
      omega
    subst h0
    simp [psum_zero]
  | succ k ih =>
    intro n hn
    have hp : 2 ^ (k + 1) = 2 * 2 ^ k := by rw [pow_succ]; ring
    rcases Nat.even_or_odd' n with ⟨m, rfl | rfl⟩
    · rw [blen_even]
      have := ih m (by omega)
      omega
    · rw [blen_odd]
      have := ih m (by omega)
      omega

theorem uadd_lt (a b : Nat) : uadd a b < W := Nat.mod_lt _ (by decide)

theorem shared_path_eq (t : Nat → Nat) :
    ∀ fuel s acc : Nat, acc < W → psum (fun _ => 1) s < fuel →
      shared_path t fuel s acc = Except.ok ((acc + psum t s) % W) := by
  intro fuel
  induction fuel with
  | zero =>
    intro s acc _ h
    omega
  | succ fuel ih =>
    intro s acc hacc hf
    by_cases hs : s > 0
    · have h1 : psum (fun _ => 1) s = 1 + psum (fun _ => 1) (BACK s) := psum_pos _ s hs
      have h2 := psum_pos t s hs
      simp only [shared_path, hs, if_true]
      rw [ih (BACK s) (uadd acc (t s)) (uadd_lt _ _) (by omega), h2]
      unfold uadd
      congr 1
      rw [Nat.add_mod, Nat.mod_mod, ← Nat.add_mod, Nat.add_assoc]
    · have h0 : s = 0 := by omega
      subst h0
      simp [shared_path, psum_zero, Nat.mod_eq_of_lt hacc]
      rfl

theorem low_path_eq (t : Nat → Nat) (i : Nat) :
    ∀ fuel s low : Nat, BACK i ≤ s → s < i → low < W → psum (fun _ => 1) s < fuel →
      ∃ d, low_path t (BACK i) fuel s low = Except.ok (BACK i, (low + d) % W) ∧
        psum t s = d + psum t (BACK i) := by
  intro fuel
  induction fuel with
  | zero =>
    intro s low _ _ _ h
    omega
  | succ fuel ih =>
    intro s low h1 h2 hlow hf
    by_cases hs : s = BACK i
    · refine ⟨0, ?_, by rw [hs]; omega⟩
      simp [low_path, hs, Nat.mod_eq_of_lt hlow]
      rfl
    · have hpos : 0 < s := by omega
      have hb := BACK_mono_in_range i s (by omega) h2
      have hlt := BACK_lt s hpos
      have e1 : psum (fun _ => 1) s = 1 + psum (fun _ => 1) (BACK s) := psum_pos _ s hpos
      have e2 := psum_pos t s hpos
      obtain ⟨d, hd1, hd2⟩ := ih (BACK s) (uadd low (t s)) hb (by omega) (uadd_lt _ _) (by omega)
      refine ⟨t s + d, ?_, by omega⟩
      simp only [low_path, ne_eq, hs, not_false_eq_true, if_true]
      rw [hd1]
      unfold uadd
      congr 2
      rw [Nat.add_mod, Nat.mod_mod, ← Nat.add_mod, Nat.add_assoc]

/-- The function `get_interval` returns the cumulative counts below and up to
the slot. -/
theorem get_interval_eq (c : context) (i : Nat) (h1 : 0 < i) (h2 : i < c.max_length)
    (h3 : i ≤ 2 ^ 63) :
    get_interval c i = Except.ok (cum c (i - 1), cum c i) := by
  have hb := BACK_lt i h1
  have hl1 := blen_le 63 (i - 1) (by omega)
  obtain ⟨d, hd1, hd2⟩ := low_path_eq c.tree i 64 (i - 1) 0 (by omega) (by omega)
    (by decide) (by omega)
  have hl2 := blen_le 63 (BACK i) (by omega)
  have hs := shared_path_eq c.tree 64 (BACK i) 0 (by decide) (by omega)
  have hne : ¬ (i = 0 ∨ i ≥ c.max_length) := by omega
  simp only [get_interval, hne, if_false, hd1, hs, bind, Except.bind, pure, Except.pure]
  unfold cum uadd
  rw [psum_pos c.tree i h1, hd2]
  congr 2
  · simp only [Nat.zero_add]
    rw [← Nat.add_mod, Nat.add_comm]
  · simp only [Nat.zero_add]
    rw [Nat.add_mod (c.tree i), Nat.add_mod (psum c.tree (BACK i) % W), Nat.mod_mod,
      Nat.add_comm]

/-! ## Lemmas on the update loop of `INCR_SYMBOL_PROB_ACTUAL` -/

/-- The effect of the update loop started at `j0`: exactly the cells below
`max` whose range contains `j0` gain `inc`. -/
theorem incr_loop_eq (max inc : Nat) (hmax : max ≤ 2 ^ 32) :
    ∀ fuel j0 : Nat, ∀ t : Nat → Nat, 0 < j0 → j0 < max → max ≤ lowbit j0 * 2 ^ fuel →
      ∃ t1, incr_loop max inc (fuel + 1) t j0 = Except.ok t1 ∧
        ∀ j, t1 j = if BACK j < j0 ∧ j0 ≤ j ∧ j < max then uadd (t j) inc else t j := by
  intro fuel
  induction fuel with
  | zero =>
    intro j0 t h0 h1 h2
    have hF := FORW_eq j0 h0 (by omega)
    have hstop : ¬ FORW j0 < max := by
      rw [hF]
      simp at h2
      omega
    refine ⟨Function.update t j0 (uadd (t j0) inc), by simp [incr_loop, hstop]; rfl, ?_⟩
    intro j
    by_cases hj : j = j0
    · subst hj
      have := BACK_lt j h0
      simp [this, h1]
    · simp only [Function.update, hj, dite_false]
      have : ¬ (BACK j < j0 ∧ j0 ≤ j ∧ j < max) := by
        rintro ⟨a, b, c⟩
        have := add_lowbit_le j j0 a (by omega)
        omega
      simp [this]
  | succ fuel ih =>
    intro j0 t h0 h1 h2
    have hF := FORW_eq j0 h0 (by omega)
    by_cases hgo : FORW j0 < max
    · have hl := lowbit_add_lowbit j0 h0
      have hlp := lowbit_pos j0 h0
      have hfuel : max ≤ lowbit (FORW j0) * 2 ^ fuel := by
        rw [hF]
        calc max ≤ lowbit j0 * 2 ^ (fuel + 1) := h2
          _ = 2 * lowbit j0 * 2 ^ fuel := by rw [pow_succ]; ring
          _ ≤ lowbit (j0 + lowbit j0) * 2 ^ fuel := Nat.mul_le_mul_right _ hl
      obtain ⟨t1, ht1, hspec⟩ := ih (FORW j0) (Function.update t j0 (uadd (t j0) inc))
        (by omega) hgo hfuel
      refine ⟨t1, ?_, ?_⟩
      · rw [incr_loop]
        simp only [hgo, if_true]
        exact ht1
      · intro j
        rw [hspec j]
        by_cases hj : j = j0
        · subst hj
          have hb := BACK_lt j h0
          have : ¬ (BACK j < FORW j ∧ FORW j ≤ j ∧ j < max) := by
            rintro ⟨_, b, _⟩
            omega
          rw [if_neg this]
          simp [hb, h1]
        · simp only [Function.update, hj, dite_false]
          by_cases hc : BACK j < j0 ∧ j0 ≤ j ∧ j < max
          · obtain ⟨a, b, c⟩ := hc
            have h5 := add_lowbit_le j j0 a (by omega)
            have : BACK j < FORW j0 ∧ FORW j0 ≤ j ∧ j < max := by
              refine ⟨by omega, by omega, c⟩
            simp [this, a, b, c]
          · have : ¬ (BACK j < FORW j0 ∧ FORW j0 ≤ j ∧ j < max) := by
              rintro ⟨a, b, c⟩
              apply hc
              refine ⟨?_, by omega, c⟩
              have h6 := BACK_add_lowbit_le j0 h0
              have h7 := BACK_lt j0 h0
              by_cases he : FORW j0 = j
              · rw [← he, hF]
                omega
              · have h8 := BACK_mono_in_range j (FORW j0) a (by omega)
                rw [hF] at h8
                omega
            simp [this, hc]
    · refine ⟨Function.update t j0 (uadd (t j0) inc), by simp [incr_loop, hgo]; rfl, ?_⟩
      intro j
      by_cases hj : j = j0
      · subst hj
        have := BACK_lt j h0
        simp [this, h1]
      · simp only [Function.update, hj, dite_false]
        have : ¬ (BACK j < j0 ∧ j0 ≤ j ∧ j < max) := by
          rintro ⟨a, b, c⟩
          have := add_lowbit_le j j0 a (by omega)
          omega
        simp [this]

/-- The update loop as `INCR_SYMBOL_PROB_ACTUAL` calls it, with 64 steps. -/
theorem incr_loop_64 (max inc : Nat) (hmax : max ≤ 2 ^ 32) (t : Nat → Nat) (i : Nat)
    (h0 : 0 < i) (h1 : i < max) :
    ∃ t1, incr_loop max inc 64 t i = Except.ok t1 ∧
      ∀ j, t1 j = if BACK j < i ∧ i ≤ j ∧ j < max then uadd (t j) inc else t j := by
  have hl := lowbit_pos i h0
  have h2 : max ≤ lowbit i * 2 ^ 63 := by
    calc max ≤ 2 ^ 32 := hmax
      _ ≤ 1 * 2 ^ 63 := by decide
      _ ≤ lowbit i * 2 ^ 63 := Nat.mul_le_mul_right _ hl
  exact incr_loop_eq max inc hmax 63 i t h0 h1 h2

/-- Path sums after an update: the sums from slot `i` on gain `inc`. -/
theorem psum_update (max inc i : Nat) (t t1 : Nat → Nat) (hi0 : 0 < i)
    (hspec : ∀ j, t1 j = if BACK j < i ∧ i ≤ j ∧ j < max then uadd (t j) inc else t j) :
    ∀ n : Nat, n < max →
      psum t1 n % W = (psum t n + (if i ≤ n then inc else 0)) % W := by
  intro n
  induction n using Nat.strong_induction_on with
  | _ n ih =>
    intro hn
    by_cases h0 : n = 0
    · subst h0
      have hi : ¬ i ≤ 0 := by omega
      simp [psum_zero, hi]
    · have hpos : 0 < n := by omega
      have hb := BACK_lt n hpos
      have ihb := ih (BACK n) hb (by omega)
      rw [psum_pos t1 n hpos, psum_pos t n hpos, hspec n]
      by_cases hc : BACK n < i ∧ i ≤ n ∧ n < max
      · obtain ⟨a, b, _⟩ := hc
        have hnb : ¬ i ≤ BACK n := by omega
        simp only [hnb, if_false, Nat.add_zero] at ihb
        simp only [a, b, hn, and_self, if_true]
        unfold uadd
        rw [Nat.add_mod, Nat.mod_mod, ihb, ← Nat.add_mod]
        congr 1
        omega
      · simp only [hc, if_false]
        by_cases hin : i ≤ n
        · have hib : i ≤ BACK n := by
            by_contra hcon
            exact hc ⟨by omega, hin, hn⟩
          simp only [hib, if_true] at ihb
          simp only [hin, if_true]
          rw [Nat.add_mod, ihb, ← Nat.add_mod]
          congr 1
          omega
        · have hib : ¬ i ≤ BACK n := by omega
          simp only [hib, if_false, Nat.add_zero] at ihb
          simp only [hin, if_false, Nat.add_zero]
          rw [Nat.add_mod, ihb, ← Nat.add_mod]

/-! ## Lemmas on unsigned arithmetic and on updates of a context -/

theorem usub_lt (a b : Nat) : usub a b < W := Nat.mod_lt _ (by decide)

theorem usub_uadd_uadd (a b inc : Nat) : usub (uadd a inc) (uadd b inc) = usub a b := by
  simp only [usub, uadd, W]
  omega

theorem usub_uadd_left (a b inc : Nat) : usub (uadd a inc) b = uadd (usub a b) inc := by
  simp only [usub, uadd, W]
  omega

theorem usub_self (a : Nat) : usub a a = 0 := by
  simp only [usub, W]
  omega

theorem uadd_usub_cancel (a b : Nat) (ha : a < W) : uadd b (usub a b) = a := by
  simp only [usub, uadd, W] at *
  omega

theorem uadd_mod (a b : Nat) : uadd (a % W) b = uadd a b := by
  simp only [uadd, W]
  omega

theorem cum_lt (c : context) (n : Nat) : cum c n < W := Nat.mod_lt _ (by decide)

/-- The macro `INCR_SYMBOL_PROB_ACTUAL` on a slot of the tree: it succeeds, the
cumulative counts from the slot on and `total` gain `inc`, nothing else
changes. -/
theorem incr_actual_spec (c : context) (i inc : Nat) (h0 : 0 < i) (h1 : i < c.max_length)
    (hmax : c.max_length ≤ 2 ^ 32) :
    ∃ c1, incr_symbol_prob_actual c i inc = Except.ok c1 ∧
      c1.total = uadd c.total inc ∧ c1.max_length = c.max_length ∧
      c1.nSymbols = c.nSymbols ∧ c1.nSingletons = c.nSingletons ∧ c1.incr = c.incr ∧
      c1.type = c.type ∧ c1.length = c.length ∧ c1.initial_size = c.initial_size ∧
      c1.most_freq_symbol = c.most_freq_symbol ∧ c1.most_freq_count = c.most_freq_count ∧
      c1.most_freq_pos = c.most_freq_pos ∧
      (∀ j, c1.tree j = if BACK j < i ∧ i ≤ j ∧ j < c.max_length then uadd (c.tree j) inc
        else c.tree j) ∧
      (∀ n, n < c.max_length → cum c1 n = if i ≤ n then uadd (cum c n) inc else cum c n) := by
  obtain ⟨t1, ht1, hspec⟩ := incr_loop_64 c.max_length inc hmax c.tree i h0 h1
  refine ⟨{ c with tree := t1, total := uadd c.total inc }, ?_, rfl, rfl, rfl, rfl, rfl, rfl,
    rfl, rfl, rfl, rfl, rfl, hspec, ?_⟩
  · simp [incr_symbol_prob_actual, ht1, bind, Except.bind, pure, Except.pure]
  · intro n hn
    have h := psum_update c.max_length inc i c.tree t1 h0 hspec n hn
    unfold cum
    simp only []
    rw [h]
    by_cases hin : i ≤ n
    · simp only [hin, if_true]
      rw [uadd_mod]
      rfl
    · simp only [hin, if_false, Nat.add_zero]

/-- The individual counts after `INCR_SYMBOL_PROB_ACTUAL`: only slot `i`
changes, by `inc`. -/
theorem count_after_cum (c c1 : context) (i inc : Nat) (h0 : 0 < i)
    (hcum : ∀ n, n < c.max_length → cum c1 n = if i ≤ n then uadd (cum c n) inc else cum c n)
    (j : Nat) (hj0 : 0 < j) (hj : j < c.max_length) :
    count c1 j = if j = i then uadd (count c j) inc else count c j := by
  unfold count
  rw [hcum j hj, hcum (j - 1) (by omega)]
  by_cases h1 : j = i
  · subst h1
    have : ¬ j ≤ j - 1 := by omega
    simp only [le_refl, if_true, this, if_false]
    exact usub_uadd_left _ _ _
  · by_cases h2 : i ≤ j
    · have h3 : i ≤ j - 1 := by omega
      simp only [h1, h2, h3, if_true, if_false]
      exact usub_uadd_uadd _ _ _
    · have h3 : ¬ i ≤ j - 1 := by omega
      simp only [h1, h2, h3, if_false]

theorem usub_of_le (a b : Nat) (hb : b ≤ a) (ha : a < W) : usub a b = a - b := by
  have hbW : b < W := by omega
  simp only [usub, W] at *
  rw [Nat.mod_eq_of_lt hbW]
  have e : a + (2 ^ 64 - b) = (a - b) + 2 ^ 64 := by omega
  rw [e, Nat.add_mod_right, Nat.mod_eq_of_lt (by omega)]

theorem uadd_of_lt (a b : Nat) (h : a + b < W) : uadd a b = a + b := by
  simp only [uadd]
  exact Nat.mod_eq_of_lt h
/-! ## Lemmas on `INCR_SYMBOL_PROB`, the growth of the tree and the halving loop -/

/-- The macro `INCR_SYMBOL_PROB` on a slot of the tree: tree and `total` change
as in `INCR_SYMBOL_PROB_ACTUAL`; only the cache of the most frequent symbol
changes besides. -/
theorem incr_symbol_prob_spec (c : context) (i low high inc : Nat) (h0 : 0 < i)
    (h1 : i < c.max_length) (hmax : c.max_length ≤ 2 ^ 32) :
    ∃ c1, incr_symbol_prob c i low high inc = Except.ok c1 ∧
      c1.total = uadd c.total inc ∧ c1.max_length = c.max_length ∧
      c1.nSymbols = c.nSymbols ∧ c1.nSingletons = c.nSingletons ∧ c1.incr = c.incr ∧
      c1.type = c.type ∧ c1.length = c.length ∧
      (∀ n, n < c.max_length → cum c1 n = if i ≤ n then uadd (cum c n) inc else cum c n) ∧
      (∀ j, 0 < j → j < c.max_length →
        count c1 j = if j = i then uadd (count c j) inc else count c j) := by
  obtain ⟨c1, hc1, ht, hm, hs, hsg, hi, hty, hlen, _, _, _, _, _, hcum⟩ :=
    incr_actual_spec c i inc h0 h1 hmax
  have hcum2 : ∀ n, n < c.max_length →
      cum (incr_symbol_prob_mps c1 i low high inc) n =
        if i ≤ n then uadd (cum c n) inc else cum c n := by
    intro n hn
    rw [← hcum n hn]
    unfold cum incr_symbol_prob_mps
    split_ifs <;> rfl
  refine ⟨incr_symbol_prob_mps c1 i low high inc, ?_, ?_, ?_, ?_, ?_, ?_, ?_, ?_, hcum2, ?_⟩
  · simp [incr_symbol_prob, hc1, bind, Except.bind, pure, Except.pure]
  · rw [← ht]; unfold incr_symbol_prob_mps; split_ifs <;> rfl
  · rw [← hm]; unfold incr_symbol_prob_mps; split_ifs <;> rfl
  · rw [← hs]; unfold incr_symbol_prob_mps; split_ifs <;> rfl
  · rw [← hsg]; unfold incr_symbol_prob_mps; split_ifs <;> rfl
  · rw [← hi]; unfold incr_symbol_prob_mps; split_ifs <;> rfl
  · rw [← hty]; unfold incr_symbol_prob_mps; split_ifs <;> rfl
  · rw [← hlen]; unfold incr_symbol_prob_mps; split_ifs <;> rfl
  · intro j hj0 hj
    exact count_after_cum c _ i inc h0 hcum2 j hj0 hj

theorem psum_congr (t t1 : Nat → Nat) :
    ∀ n : Nat, (∀ j, j ≤ n → t1 j = t j) → psum t1 n = psum t n := by
  intro n
  induction n using Nat.strong_induction_on with
  | _ n ih =>
    intro h
    by_cases h0 : n = 0
    · subst h0
      simp [psum_zero]
    · have hpos : 0 < n := by omega
      have hb := BACK_lt n hpos
      rw [psum_pos t1 n hpos, psum_pos t n hpos, h n (le_refl _),
        ih (BACK n) hb (fun j hj => h j (by omega))]

/-- The growth loop of `install_symbol`: it ends, the tree has room for the
slot, and nothing but cells from the old `max_length` on changes. -/
theorem grow_spec (s : Nat) :
    ∀ fuel : Nat, ∀ c : context, 0 < c.max_length → s < c.max_length * 2 ^ fuel →
      ∃ c1, grow s (fuel + 1) c = Except.ok c1 ∧ s < c1.max_length ∧
        c.max_length ≤ c1.max_length ∧
        c1.total = c.total ∧ c1.nSymbols = c.nSymbols ∧ c1.nSingletons = c.nSingletons ∧
        c1.incr = c.incr ∧ c1.type = c.type ∧ c1.length = c.length ∧
        (∀ j, j < c.max_length → c1.tree j = c.tree j) := by
  intro fuel
  induction fuel with
  | zero =>
    intro c h0 h1
    have hs : ¬ s ≥ c.max_length := by
      simp at h1
      omega
    exact ⟨c, by simp [grow, hs]; rfl, by omega, le_refl _, rfl, rfl, rfl, rfl, rfl, rfl,
      fun _ _ => rfl⟩
  | succ fuel ih =>
    intro c h0 h1
    by_cases hs : s ≥ c.max_length
    · have hp : c.max_length * 2 ^ (fuel + 1) = c.max_length * 2 * 2 ^ fuel := by
        rw [pow_succ]; ring
      have hm : (grow_once c).max_length = c.max_length * 2 := rfl
      obtain ⟨c1, hc1, h2, h3, h4, h5, h6, h7, h8, h9, h10⟩ := ih (grow_once c)
        (by rw [hm]; omega) (by rw [hm]; omega)
      refine ⟨c1, ?_, h2, ?_, h4, h5, h6, h7, h8, h9, ?_⟩
      · rw [grow]
        simp only [hs, if_true]
        exact hc1
      · rw [hm] at h3
        omega
      · intro j hj
        rw [h10 j (by rw [hm]; omega)]
        have hne : j ≠ c.max_length := by omega
        have hnot : ¬ (c.max_length ≤ j ∧ j < 2 * c.max_length) := by omega
        simp [grow_once, Function.update, hne, hnot]
    · exact ⟨c, by simp [grow, hs]; rfl, by omega, le_refl _, rfl, rfl, rfl, rfl, rfl, rfl,
        fun _ _ => rfl⟩

/-- When the halving loop returns, `total` is at most `Max_frequency`. -/
theorem halve_loop_total (F : Nat) :
    ∀ fuel : Nat, ∀ c c1 : context, halve_loop F fuel c = Except.ok c1 →
      c1.total ≤ Max_frequency F := by
  intro fuel
  induction fuel with
  | zero =>
    intro c c1 h
    simp [halve_loop] at h
  | succ fuel ih =>
    intro c c1 h
    rw [halve_loop] at h
    by_cases ht : c.total > Max_frequency F
    · simp only [ht, if_true] at h
      cases hh : halve_context c with
      | error e =>
        rw [hh] at h
        simp [bind, Except.bind] at h
      | ok c2 =>
        rw [hh] at h
        simp only [bind, Except.bind] at h
        exact ih c2 c1 h
    · simp only [ht, if_false] at h
      cases h
      omega

theorem count_congr (c c1 : context) (j : Nat) (h : ∀ k, k ≤ j → c1.tree k = c.tree k) :
    count c1 j = count c j := by
  unfold count cum
  rw [psum_congr c1.tree c.tree j (fun k hk => (h k hk).symm),
    psum_congr c1.tree c.tree (j - 1) (fun k hk => (h k (by omega)).symm)]

/-! ## The bookkeeping of `halve_context` -/

theorem zero_count_two_pow_mul (q : Nat) :
    ∀ fuel a : Nat, a ≤ fuel → zero_count fuel (2 ^ a * (2 * q + 1)) = a := by
  intro fuel
  induction fuel with
  | zero =>
    intro a ha
    have : a = 0 := by omega
    subst this
    simp [zero_count]
  | succ f ih =>
    intro a ha
    cases a with
    | zero =>
      have : (2 ^ 0 * (2 * q + 1)) % 2 ≠ 0 := by simp; omega
      simp only [zero_count, this, if_false]
    | succ b =>
      have h1 : 2 ^ (b + 1) * (2 * q + 1) = 2 * (2 ^ b * (2 * q + 1)) := by ring
      have h2 : (2 * (2 ^ b * (2 * q + 1))) % 2 = 0 := by omega
      have h3 : 2 * (2 ^ b * (2 * q + 1)) / 2 = 2 ^ b * (2 * q + 1) := by omega
      rw [h1]
      simp only [zero_count, h2, if_true, h3]
      rw [ih b (by omega)]

theorem lowbit_two_pow_mul (q : Nat) : ∀ a : Nat, lowbit (2 ^ a * (2 * q + 1)) = 2 ^ a := by
  intro a
  induction a with
  | zero =>
    have : 2 ^ 0 * (2 * q + 1) = 2 * q + 1 := by simp
    rw [this, lowbit_odd]
    simp
  | succ b ih =>
    have h1 : 2 ^ (b + 1) * (2 * q + 1) = 2 * (2 ^ b * (2 * q + 1)) := by ring
    have hp : 0 < 2 ^ b * (2 * q + 1) := by positivity
    rw [h1, lowbit_even _ hp, ih]
    ring

theorem BACK_two_pow_mul (a q : Nat) : BACK (2 ^ a * (2 * q + 1)) = 2 ^ a * (2 * q + 1) - 2 ^ a := by
  have h := lowbit_two_pow_mul q a
  have hle := BACK_le (2 ^ a * (2 * q + 1))
  unfold lowbit at h
  omega

theorem exists_two_pow_mul (i : Nat) (hi : 0 < i) : ∃ a q, i = 2 ^ a * (2 * q + 1) := by
  obtain ⟨k, m, hm, h⟩ := Nat.exists_eq_two_pow_mul_odd (Nat.pos_iff_ne_zero.mp hi)
  obtain ⟨q, hq⟩ := hm
  exact ⟨k, q, by rw [h, hq]⟩

theorem sub_two_pow (a q t : Nat) (ht : t < a) :
    2 ^ a * (2 * q + 1) - 2 ^ t = 2 ^ t * (2 * (2 ^ (a - t - 1) * (2 * q + 1) - 1) + 1) := by
  have h1 : 2 ^ a = 2 ^ t * (2 * 2 ^ (a - t - 1)) := by
    rw [← pow_succ', ← pow_add]
    congr 1
    omega
  have hp : 0 < 2 ^ (a - t - 1) * (2 * q + 1) := by positivity
  have h2 : 2 * (2 ^ (a - t - 1) * (2 * q + 1) - 1) + 1 = 2 * (2 ^ (a - t - 1) * (2 * q + 1)) - 1 := by
    omega
  rw [h2, h1, Nat.mul_sub, mul_one]
  congr 1
  ring

theorem path_sum_eq (t : Nat → Nat) (a q : Nat) :
    ∀ k : Nat, k ≤ a →
      psum t (2 ^ a * (2 * q + 1) - 1) =
        path_sum t (2 ^ a * (2 * q + 1)) k + psum t (2 ^ a * (2 * q + 1) - 2 ^ k) := by
  intro k
  induction k with
  | zero =>
    intro _
    simp [path_sum]
  | succ k ih =>
    intro hk
    rw [ih (by omega)]
    have hs := sub_two_pow a q k (by omega)
    have hpos : 0 < 2 ^ a * (2 * q + 1) - 2 ^ k := by
      rw [hs]
      positivity
    rw [psum_pos t _ hpos]
    have hb : BACK (2 ^ a * (2 * q + 1) - 2 ^ k) = 2 ^ a * (2 * q + 1) - 2 ^ (k + 1) := by
      rw [hs, BACK_two_pow_mul, ← hs, pow_succ]
      omega
    rw [hb]
    simp only [path_sum]
    omega

theorem path_sum_BACK (t : Nat → Nat) (a q : Nat) :
    psum t (2 ^ a * (2 * q + 1) - 1) =
      path_sum t (2 ^ a * (2 * q + 1)) a + psum t (BACK (2 ^ a * (2 * q + 1))) := by
  rw [BACK_two_pow_mul]
  exact path_sum_eq t a q a (le_refl _)

theorem sum_below_update (a : Nat → Nat) (x : Nat) :
    ∀ k z : Nat, k ≤ z → sum_below (Function.update a z x) k = sum_below a k := by
  intro k
  induction k with
  | zero => intro z _; rfl
  | succ k ih =>
    intro z hz
    simp only [sum_below]
    rw [ih z (by omega), Function.update_noteq (by omega)]

theorem sum_below_eq (a f : Nat → Nat) (i : Nat) :
    ∀ k : Nat, (∀ t, t < k → a t = f (i - 2 ^ t)) → sum_below a k = path_sum f i k % W := by
  intro k
  induction k with
  | zero => intro _; simp [sum_below, path_sum]
  | succ k ih =>
    intro h
    simp only [sum_below, path_sum]
    rw [ih (fun t ht => h t (by omega)), h k (by omega)]
    simp only [uadd, W]
    omega

theorem two_pow_le_of_mul (a q i : Nat) (h : i = 2 ^ a * (2 * q + 1)) : 2 ^ a ≤ i := by
  rw [h]
  exact Nat.le_mul_of_pos_right _ (by omega)

theorem exp_lt_of_lt (a i : Nat) (h1 : 2 ^ a ≤ i) (h2 : i < 2 ^ 32) : a < 32 := by
  by_contra hc
  have : 2 ^ 32 ≤ 2 ^ a := Nat.pow_le_pow_right (by norm_num) (by omega)
  omega

theorem same_alignment_gap (a q q1 : Nat) (h : 2 ^ a * (2 * q1 + 1) < 2 ^ a * (2 * q + 1)) :
    2 ^ a * (2 * q1 + 1) + 2 ^ (a + 1) ≤ 2 ^ a * (2 * q + 1) := by
  have h1 : 2 * q1 + 1 < 2 * q + 1 := Nat.lt_of_mul_lt_mul_left h
  have h2 : 2 * q1 + 3 ≤ 2 * q + 1 := by omega
  have h3 := Nat.mul_le_mul_left (2 ^ a) h2
  have h4 : 2 ^ a * (2 * q1 + 1) + 2 ^ (a + 1) = 2 ^ a * (2 * q1 + 3) := by ring
  rw [h4]
  exact h3

/-- The value the main loop of `halve_context` reads back at index `i` is the
count of slot `i`. -/
theorem halve_read (c : context) (i a q : Nat) (hi : i = 2 ^ a * (2 * q + 1)) :
    usub (c.tree i) (path_sum c.tree i a % W) = count c i := by
  have hpos : 0 < i := by rw [hi]; positivity
  have h1 := psum_pos c.tree i hpos
  have h2 := path_sum_BACK c.tree a q
  rw [← hi] at h2
  unfold count cum
  rw [h1, h2]
  generalize c.tree i = A
  generalize path_sum c.tree i a = P
  generalize psum c.tree (BACK i) = B
  simp only [usub, W]
  omega

theorem halve_step_eq (c : context) (incr i : Nat) (h : halve_state)
    (hinv : halve_inv c incr i h) (a q : Nat) (hq : i = 2 ^ a * (2 * q + 1)) (hi : i < 2 ^ 32) :
    halve_step incr h i =
      { tree := Function.update h.tree i
          (uadd (halved (count c i)) (path_sum h.tree i a % W)),
        total := usub h.total (count c i / 2),
        nSingletons := if halved (count c i) = incr ∧ i ≠ 1 then uadd h.nSingletons incr
          else h.nSingletons,
        old_values := Function.update h.old_values a (h.tree i),
        new_values := Function.update h.new_values a
          (uadd (halved (count c i)) (path_sum h.tree i a % W)) } := by
  obtain ⟨_, I2, I3, _, _⟩ := hinv
  have hle := two_pow_le_of_mul a q i hq
  have ha := exp_lt_of_lt a i hle hi
  have hz : zero_count 64 i = a := by
    rw [hq]
    exact zero_count_two_pow_mul q 64 a (by omega)
  have hold : ∀ t, t < a →
      h.old_values t = c.tree (i - 2 ^ t) ∧ h.new_values t = h.tree (i - 2 ^ t) := by
    intro t ht
    have hpt : 2 ^ t < 2 ^ a := Nat.pow_lt_pow_right (by norm_num) ht
    have hp0 : 0 < 2 ^ t := by positivity
    have hpos : 0 < i - 2 ^ t := by omega
    have hlt : i - 2 ^ t < i := by omega
    have hgap : i ≤ i - 2 ^ t + 2 ^ (t + 1) := by
      rw [pow_succ]
      omega
    have hzt : zero_count 64 (i - 2 ^ t) = t := by
      have hs := sub_two_pow a q t ht
      rw [← hq] at hs
      rw [hs]
      exact zero_count_two_pow_mul _ 64 t (by omega)
    exact I3 t (i - 2 ^ t) hpos hlt hzt hgap
  have hso : sum_below (Function.update h.old_values a (h.tree i)) a
      = path_sum c.tree i a % W := by
    rw [sum_below_update _ _ a a (le_refl _)]
    exact sum_below_eq _ _ i a (fun t ht => (hold t ht).1)
  have hsn : sum_below h.new_values a = path_sum h.tree i a % W :=
    sum_below_eq _ _ i a (fun t ht => (hold t ht).2)
  have hv : usub (h.tree i) (sum_below (Function.update h.old_values a (h.tree i)) a)
      = count c i := by
    rw [hso, I2 i (le_refl _)]
    exact halve_read c i a q hq
  simp only [halve_step, hz, hv, hsn, halved]

theorem halve_step_inv (c : context) (incr i : Nat) (h : halve_state)
    (hinv : halve_inv c incr i h) (hi0 : 0 < i) (hi : i < 2 ^ 32) :
    halve_inv c incr (i + 1) (halve_step incr h i) := by
  obtain ⟨a, q, hq⟩ := exists_two_pow_mul i hi0
  rw [halve_step_eq c incr i h hinv a q hq hi]
  obtain ⟨I1, I2, I3, I4, I5⟩ := hinv
  have hle := two_pow_le_of_mul a q i hq
  have ha := exp_lt_of_lt a i hle hi
  have hz : zero_count 64 i = a := by
    rw [hq]
    exact zero_count_two_pow_mul q 64 a (by omega)
  obtain ⟨k, hk⟩ : ∃ k, i = k + 1 := ⟨i - 1, by omega⟩
  have hk1 : i - 1 = k := by omega
  refine ⟨?_, ?_, ?_, ?_, ?_⟩
  · intro n hn
    simp only
    by_cases hni : n = i
    · rw [hni, psum_pos _ i hi0, Function.update_same]
      have hb := BACK_lt i hi0
      rw [psum_congr h.tree _ (BACK i) (fun j hj => Function.update_noteq (by omega) _ _)]
      have hP := path_sum_BACK h.tree a q
      rw [← hq] at hP
      have e1 := I1 (i - 1) (by omega)
      have e2 := I1 (BACK i) hb
      rw [hP] at e1
      have e3 : hsum c i = hsum c (i - 1) + halved (count c i) := by
        rw [hk1, hk]
        rfl
      rw [e3]
      generalize hsum c (i - 1) = H1 at *
      generalize hsum c (BACK i) = H2 at *
      generalize psum h.tree (BACK i) = PB at *
      generalize path_sum h.tree i a = PS at *
      generalize halved (count c i) = hv at *
      simp only [uadd, W] at *
      omega
    · rw [psum_congr h.tree _ n (fun j hj => Function.update_noteq (by omega) _ _)]
      exact I1 n (by omega)
  · intro j hj
    simp only
    rw [Function.update_noteq (by omega)]
    exact I2 j (by omega)
  · intro t j hj0 hj hzj hgap
    simp only
    by_cases hji : j = i
    · subst hji
      have hta : t = a := by rw [← hzj, hz]
      subst hta
      simp only [Function.update_same]
      exact ⟨I2 j (le_refl _), trivial⟩
    · have hjlt : j < i := by omega
      have hta : t ≠ a := by
        intro hta
        obtain ⟨b, q1, hq1⟩ := exists_two_pow_mul j hj0
        have hb := exp_lt_of_lt b j (two_pow_le_of_mul b q1 j hq1) (by omega)
        have hzb : zero_count 64 j = b := by
          rw [hq1]
          exact zero_count_two_pow_mul q1 64 b (by omega)
        have hba : b = a := by omega
        subst hba
        have hg := same_alignment_gap b q q1 (by rw [← hq1, ← hq]; exact hjlt)
        rw [← hq1, ← hq] at hg
        subst hta
        omega
      rw [Function.update_noteq hta, Function.update_noteq hta, Function.update_noteq hji]
      exact I3 t j hj0 hjlt hzj (by omega)
  · simp only
    have e3 : dsum c (i + 1 - 1) = dsum c (i - 1) + count c i / 2 := by
      rw [hk1, hk]
      rfl
    rw [e3]
    generalize dsum c (i - 1) = D at *
    generalize count c i / 2 = d at *
    simp only [usub, W] at *
    omega
  · simp only
    have e3 : nsing c incr (i + 1 - 1) =
        if halved (count c i) = incr ∧ i ≠ 1 then nsing c incr (i - 1) + incr
        else nsing c incr (i - 1) := by
      rw [hk1, hk]
      rfl
    rw [e3]
    by_cases hc : halved (count c i) = incr ∧ i ≠ 1
    · rw [if_pos hc, if_pos hc]
      simp only [uadd]
      rw [Nat.mod_mod, Nat.add_mod, I5, ← Nat.add_mod]
    · rw [if_neg hc, if_neg hc]
      exact I5

theorem halve_steps_inv (c : context) (incr : Nat) :
    ∀ n i : Nat, ∀ h : halve_state, halve_inv c incr i h → 0 < i → i + n ≤ 2 ^ 32 →
      halve_inv c incr (i + n) (halve_steps incr n i h) := by
  intro n
  induction n with
  | zero =>
    intro i h hinv _ _
    simpa [halve_steps] using hinv
  | succ n ih =>
    intro i h hinv hi0 hi
    simp only [halve_steps]
    have h1 := ih (i + 1) (halve_step incr h i)
      (halve_step_inv c incr i h hinv hi0 (by omega)) (by omega) (by omega)
    rw [show i + (n + 1) = i + 1 + n by omega]
    exact h1

theorem halve_inv_init (c : context) (incr : Nat) :
    halve_inv c incr 1
      { tree := c.tree, total := c.total, nSingletons := incr,
        old_values := fun _ => 0, new_values := fun _ => 0 } := by
  refine ⟨?_, ?_, ?_, ?_, ?_⟩
  · intro n hn
    have : n = 0 := by omega
    subst this
    simp [psum_zero, hsum]
  · intro j _
    rfl
  · intro t j hj0 hj
    omega
  · simp [dsum]
  · simp [nsing]

/-- The main loop of `halve_context` run over the whole tree. -/
theorem halve_pass_inv (c : context) (incr : Nat) (hm : 0 < c.max_length)
    (hmax : c.max_length ≤ 2 ^ 32) :
    halve_inv c incr c.max_length
      (halve_steps incr (c.max_length - 1) 1
        { tree := c.tree, total := c.total, nSingletons := incr,
          old_values := fun _ => 0, new_values := fun _ => 0 }) := by
  have h := halve_steps_inv c incr (c.max_length - 1) 1 _ (halve_inv_init c incr) (by omega)
    (by omega)
  rw [show 1 + (c.max_length - 1) = c.max_length by omega] at h
  exact h

theorem halved_lt (v : Nat) : halved v < W := usub_lt _ _

theorem halved_eq (v : Nat) (hv : v < W) : halved v = v - v / 2 := by
  simp only [halved, usub, W] at *
  omega

theorem count_lt (c : context) (i : Nat) : count c i < W := usub_lt _ _

/-- Counts read from cumulative counts that are sums of `f`. -/
theorem count_of_cum (c : context) (f : Nat → Nat) (S : Nat → Nat) (j : Nat)
    (hS : S j = S (j - 1) + f j) (h1 : cum c j = S j % W) (h2 : cum c (j - 1) = S (j - 1) % W)
    (hf : f j < W) : count c j = f j := by
  unfold count
  rw [h1, h2, hS]
  generalize S (j - 1) = A
  generalize f j = B at *
  simp only [usub, W] at *
  omega

theorem halve_context_eq (c : context) :
    halve_context c = (do
      let c1 ← if (halve_main c).most_freq_symbol ≠ -1 then do
          let (low, high) ← get_interval (halve_main c) (halve_main c).most_freq_symbol.toNat
          pure { halve_main c with most_freq_count := usub high low, most_freq_pos := low }
        else pure (halve_main c)
      adjust_zero_freq c1) := rfl

theorem halve_main_spec (c : context) (hm : 0 < c.max_length) (hmax : c.max_length ≤ 2 ^ 32) :
    (halve_main c).incr =
        (if (c.incr + MIN_INCR) / 2 < MIN_INCR then MIN_INCR else (c.incr + MIN_INCR) / 2) ∧
      (halve_main c).max_length = c.max_length ∧ (halve_main c).nSymbols = c.nSymbols ∧
      (halve_main c).type = c.type ∧ (halve_main c).length = c.length ∧
      (halve_main c).most_freq_symbol = c.most_freq_symbol ∧
      (∀ n, n < c.max_length → cum (halve_main c) n = hsum c n % W) ∧
      (∀ j, 0 < j → j < c.max_length → count (halve_main c) j = halved (count c j)) ∧
      ((halve_main c).total + dsum c (c.max_length - 1)) % W = c.total % W ∧
      (c.type ≠ STATIC →
        (halve_main c).nSingletons % W =
          nsing c (halve_main c).incr (c.max_length - 1) % W) ∧
      (c.type = STATIC → (halve_main c).nSingletons = 0) := by
  obtain ⟨I1, _, _, I4, I5⟩ := halve_pass_inv c
    (if (c.incr + MIN_INCR) / 2 < MIN_INCR then MIN_INCR else (c.incr + MIN_INCR) / 2) hm hmax
  have hcum : ∀ n, n < c.max_length → cum (halve_main c) n = hsum c n % W := by
    intro n hn
    exact I1 n hn
  refine ⟨rfl, rfl, rfl, rfl, rfl, rfl, hcum, ?_, I4, ?_, ?_⟩
  · intro j hj0 hj
    obtain ⟨k, hk⟩ : ∃ k, j = k + 1 := ⟨j - 1, by omega⟩
    refine count_of_cum (halve_main c) (fun j => halved (count c j)) (hsum c) j ?_
      (hcum j hj) (hcum (j - 1) (by omega)) (halved_lt _)
    subst hk
    rfl
  · intro ht
    simp only [halve_main, ht, if_false]
    exact I5
  · intro ht
    simp only [halve_main, ht, if_true]

theorem cum_zero (c : context) : cum c 0 = 0 := by
  simp [cum, psum_zero]

theorem cum_one (c : context) : cum c 1 = c.tree 1 % W := by
  have h := psum_pos c.tree 1 (by omega)
  have hb : BACK 1 = 0 := by decide
  rw [hb, psum_zero] at h
  simp [cum, h]

theorem count_one (c : context) : count c 1 = c.tree 1 % W := by
  unfold count
  rw [cum_one, cum_zero]
  simp only [usub, W]
  omega

theorem adjust_zero_freq_spec (c : context) (h1 : 1 < c.max_length)
    (hmax : c.max_length ≤ 2 ^ 32) :
    ∃ c1, adjust_zero_freq c = Except.ok c1 ∧
      c1.total % W = uadd c.total (usub c.nSingletons (c.tree 1)) ∧
      c1.max_length = c.max_length ∧ c1.nSymbols = c.nSymbols ∧
      c1.nSingletons = c.nSingletons ∧ c1.incr = c.incr ∧ c1.type = c.type ∧
      c1.length = c.length ∧
      (∀ n, 0 < n → n < c.max_length →
        cum c1 n = uadd (cum c n) (usub c.nSingletons (c.tree 1))) ∧
      cum c1 0 = 0 ∧
      count c1 1 = c.nSingletons % W ∧
      (∀ j, 1 < j → j < c.max_length → count c1 j = count c j) := by
  by_cases hd : usub c.nSingletons (c.tree 1) ≠ 0
  · obtain ⟨c1, hc1, ht, hml, hns, hsg, hin, hty, hlen, hcum, hcount⟩ :=
      incr_symbol_prob_spec c 1 0 (c.tree 1) (usub c.nSingletons (c.tree 1)) (by omega) h1 hmax
    refine ⟨c1, ?_, ?_, hml, hns, hsg, hin, hty, hlen, ?_, cum_zero c1, ?_, ?_⟩
    · simp only [adjust_zero_freq]
      rw [if_pos hd]
      exact hc1
    · rw [ht]
      simp only [uadd, Nat.mod_mod]
    · intro n hn0 hn
      rw [hcum n hn]
      simp [show 1 ≤ n from hn0]
    · rw [hcount 1 (by omega) h1, count_one]
      simp only [if_true, usub, uadd, W]
      omega
    · intro j hj1 hj
      rw [hcount j (by omega) hj]
      simp [show j ≠ 1 by omega]
  · have hd0 : usub c.nSingletons (c.tree 1) = 0 := by
      by_contra hne
      exact hd hne
    refine ⟨c, ?_, ?_, rfl, rfl, rfl, rfl, rfl, rfl, ?_, cum_zero c, ?_, ?_⟩
    · simp only [adjust_zero_freq]
      rw [if_neg hd]
      rfl
    · rw [hd0]
      simp [uadd]
    · intro n _ _
      rw [hd0]
      have := cum_lt c n
      simp only [uadd, W] at *
      omega
    · rw [count_one]
      simp only [usub, W] at *
      omega
    · intro j _ _
      rfl

theorem cum_congr_tree (c c2 : context) (h : c2.tree = c.tree) (n : Nat) : cum c2 n = cum c n := by
  unfold cum
  rw [h]

theorem count_congr_tree (c c2 : context) (h : c2.tree = c.tree) (n : Nat) :
    count c2 n = count c n := by
  unfold count
  rw [cum_congr_tree c c2 h, cum_congr_tree c c2 h]

theorem halve_context_tail (c0 c2 c1 : context) (h : adjust_zero_freq c2 = Except.ok c1)
    (hm : 1 < c0.max_length) (hmax : c0.max_length ≤ 2 ^ 32)
    (e1 : c2.tree = c0.tree) (e2 : c2.total = c0.total) (e3 : c2.nSingletons = c0.nSingletons)
    (e4 : c2.max_length = c0.max_length) (e5 : c2.incr = c0.incr) (e6 : c2.nSymbols = c0.nSymbols)
    (e7 : c2.type = c0.type) (e8 : c2.length = c0.length) : halve_post c0 c1 := by
  obtain ⟨c3, hc3, ht, hml, hns, hsg, hin, hty, hlen, hcum, _, hc1, hcount⟩ :=
    adjust_zero_freq_spec c2 (by omega) (by omega)
  rw [hc3] at h
  cases h
  refine ⟨by rw [hin, e5], by rw [hml, e4], by rw [hns, e6], by rw [hty, e7], by rw [hlen, e8],
    by rw [hsg, e3], ?_, by rw [hc1, e3], by rw [ht, e2, e3, e1], ?_⟩
  · intro j hj1 hj
    rw [hcount j hj1 (by omega), count_congr_tree c0 c2 e1]
  · intro n hn0 hn
    rw [hcum n hn0 (by omega), cum_congr_tree c0 c2 e1, e3, e1]

theorem halve_context_post (c c1 : context) (h : halve_context c = Except.ok c1)
    (hm : 1 < c.max_length) (hmax : c.max_length ≤ 2 ^ 32) : halve_post (halve_main c) c1 := by
  rw [halve_context_eq] at h
  by_cases hmps : (halve_main c).most_freq_symbol ≠ -1
  · rw [if_pos hmps] at h
    revert h
    generalize get_interval (halve_main c) (halve_main c).most_freq_symbol.toNat = g
    cases g with
    | error e =>
      intro h
      cases h
    | ok lh =>
      intro h
      exact halve_context_tail (halve_main c) _ c1 h hm hmax rfl rfl rfl rfl rfl rfl rfl rfl
  · rw [if_neg hmps] at h
    exact halve_context_tail (halve_main c) _ c1 h hm hmax rfl rfl rfl rfl rfl rfl rfl rfl

/-! ## Growth of the tree -/

theorem BACK_pow (k : Nat) : BACK (2 ^ k) = 0 := by
  have h := BACK_two_pow_mul k 0
  simpa using h

theorem BACK_pow_add (k r : Nat) (hr0 : 0 < r) (hr : r < 2 ^ k) :
    BACK (2 ^ k + r) = 2 ^ k + BACK r := by
  obtain ⟨a, q, hq⟩ := exists_two_pow_mul r hr0
  have hle := two_pow_le_of_mul a q r hq
  have hak : a < k := by
    by_contra hc
    have : 2 ^ k ≤ 2 ^ a := Nat.pow_le_pow_right (by norm_num) (by omega)
    omega
  have h1 : 2 ^ k = 2 ^ a * (2 * 2 ^ (k - a - 1)) := by
    rw [← pow_succ', ← pow_add]
    congr 1
    omega
  have h2 : 2 ^ k + r = 2 ^ a * (2 * (2 ^ (k - a - 1) + q) + 1) := by
    rw [hq, h1]
    ring
  have h3 := BACK_two_pow_mul a (2 ^ (k - a - 1) + q)
  have h4 := BACK_two_pow_mul a q
  rw [← h2] at h3
  rw [← hq] at h4
  omega

theorem psum_grow (t1 : Nat → Nat) (k T : Nat) (h0 : t1 (2 ^ k) = T)
    (hz : ∀ i, 2 ^ k < i → i < 2 ^ (k + 1) → t1 i = 0) :
    ∀ n, 2 ^ k ≤ n → n < 2 ^ (k + 1) → psum t1 n = T := by
  intro n
  induction n using Nat.strong_induction_on with
  | _ n ih =>
    intro h1 h2
    have hp : 0 < 2 ^ k := by positivity
    rw [psum_pos t1 n (by omega)]
    by_cases hn : n = 2 ^ k
    · rw [hn, BACK_pow, psum_zero, h0, Nat.add_zero]
    · have hr : n = 2 ^ k + (n - 2 ^ k) := by omega
      have hb := BACK_pow_add k (n - 2 ^ k) (by omega) (by rw [pow_succ] at h2; omega)
      rw [← hr] at hb
      have hlt := BACK_lt n (by omega)
      rw [hz n (by omega) h2, ih (BACK n) hlt (by omega) (by omega)]
      omega

theorem grow_once_spec (c : context) (k : Nat) (hM : c.max_length = 2 ^ k) :
    (grow_once c).max_length = 2 ^ (k + 1) ∧
      (∀ j, j < 2 ^ k → (grow_once c).tree j = c.tree j) ∧
      (∀ n, 2 ^ k ≤ n → n < 2 ^ (k + 1) → cum (grow_once c) n = c.total % W) := by
  refine ⟨?_, ?_, ?_⟩
  · simp only [grow_once, hM, pow_succ]
  · intro j hj
    simp only [grow_once, hM]
    rw [Function.update_noteq (by omega)]
    rw [if_neg (by omega)]
  · intro n h1 h2
    unfold cum
    rw [psum_grow (grow_once c).tree k c.total ?_ ?_ n h1 h2]
    · simp only [grow_once, hM, Function.update_same]
    · intro i hi1 hi2
      simp only [grow_once, hM]
      rw [Function.update_noteq (by omega)]
      rw [if_pos ⟨by omega, by rw [pow_succ] at hi2; omega⟩]

theorem grow_once_total_ok (c : context) (k : Nat) (hM : c.max_length = 2 ^ k) :
    total_ok (grow_once c) := by
  obtain ⟨h1, _, h3⟩ := grow_once_spec c k hM
  have hp : 0 < 2 ^ k := by positivity
  unfold total_ok
  rw [h1, h3 (2 ^ (k + 1) - 1) (by rw [pow_succ]; omega) (by rw [pow_succ]; omega)]
  rfl

theorem grow_once_count (c : context) (k : Nat) (hM : c.max_length = 2 ^ k) (hok : total_ok c) :
    ∀ j, 2 ^ k ≤ j → j < 2 ^ (k + 1) → count (grow_once c) j = 0 := by
  obtain ⟨_, h2, h3⟩ := grow_once_spec c k hM
  have hp : 0 < 2 ^ k := by positivity
  intro j hj1 hj2
  unfold count
  rw [h3 j hj1 hj2]
  by_cases hj : j = 2 ^ k
  · have e : cum (grow_once c) (j - 1) = cum c (j - 1) := by
      unfold cum
      rw [psum_congr c.tree (grow_once c).tree (j - 1) (fun i hi => h2 i (by omega))]
    rw [e, hj, ← hM, ← hok]
    exact usub_self _
  · rw [h3 (j - 1) (by omega) (by omega)]
    exact usub_self _

theorem same_scalars_refl (c : context) : same_scalars c c :=
  ⟨rfl, rfl, rfl, rfl, rfl, rfl, rfl, rfl, rfl⟩

theorem same_scalars_trans (c c1 c2 : context) (h1 : same_scalars c c1)
    (h2 : same_scalars c1 c2) : same_scalars c c2 := by
  obtain ⟨a1, a2, a3, a4, a5, a6, a7, a8, a9⟩ := h1
  obtain ⟨b1, b2, b3, b4, b5, b6, b7, b8, b9⟩ := h2
  exact ⟨b1.trans a1, b2.trans a2, b3.trans a3, b4.trans a4, b5.trans a5, b6.trans a6,
    b7.trans a7, b8.trans a8, b9.trans a9⟩

/-- The growth loop of `install_symbol` on a tree whose size is a power of two:
it returns, the old cells are kept, and the new slots have count zero. -/
theorem grow_pow2 (s : Nat) :
    ∀ fuel : Nat, ∀ c : context, ∀ k : Nat, c.max_length = 2 ^ k → total_ok c →
      s < 2 ^ k * 2 ^ fuel →
      ∃ c1 k1, grow s (fuel + 1) c = Except.ok c1 ∧ c1.max_length = 2 ^ k1 ∧ s < 2 ^ k1 ∧
        (s < 2 ^ k → c1 = c) ∧ (2 ^ k ≤ s → 2 ^ k1 ≤ 2 * s) ∧ total_ok c1 ∧
        same_scalars c c1 ∧ (∀ j, j < 2 ^ k → c1.tree j = c.tree j) ∧
        (∀ j, 2 ^ k ≤ j → j < 2 ^ k1 → count c1 j = 0) := by
  intro fuel
  induction fuel with
  | zero =>
    intro c k hM hok hs
    have hs1 : s < 2 ^ k := by simpa using hs
    have hn : ¬ s ≥ c.max_length := by omega
    refine ⟨c, k, ?_, hM, hs1, fun _ => rfl, fun h => by omega, hok, same_scalars_refl c,
      fun _ _ => rfl, fun j h1 h2 => by omega⟩
    simp only [grow, hn, if_false]
    rfl
  | succ f ih =>
    intro c k hM hok hs
    by_cases hlt : s < 2 ^ k
    · have hn : ¬ s ≥ c.max_length := by omega
      refine ⟨c, k, ?_, hM, hlt, fun _ => rfl, fun h => by omega, hok, same_scalars_refl c,
        fun _ _ => rfl, fun j h1 h2 => by omega⟩
      simp only [grow, hn, if_false]
      rfl
    · have hge : s ≥ c.max_length := by omega
      obtain ⟨g1, g2, g3⟩ := grow_once_spec c k hM
      have hs2 : s < 2 ^ (k + 1) * 2 ^ f := by
        have : 2 ^ (k + 1) * 2 ^ f = 2 ^ k * 2 ^ (f + 1) := by ring
        omega
      obtain ⟨c1, k1, r1, r2, r3, r4, r5, r6, r7, r8, r9⟩ :=
        ih (grow_once c) (k + 1) g1 (grow_once_total_ok c k hM) hs2
      have hk1 : 2 ^ (k + 1) ≤ 2 ^ k1 := by
        by_cases h : s < 2 ^ (k + 1)
        · rw [← r2, r4 h, g1]
        · omega
      have hpk : 2 ^ (k + 1) = 2 * 2 ^ k := by ring
      refine ⟨c1, k1, ?_, r2, r3, fun h => by omega, fun _ => ?_, r6,
        same_scalars_trans c (grow_once c) c1 (same_scalars_refl c) r7, ?_, ?_⟩
      · rw [grow, if_pos hge]
        exact r1
      · by_cases h : s < 2 ^ (k + 1)
        · rw [← r2, r4 h, g1]
          omega
        · exact r5 (by omega)
      · intro j hj
        rw [r8 j (by omega), g2 j hj]
      · intro j hj1 hj2
        by_cases h : j < 2 ^ (k + 1)
        · rw [count_congr (grow_once c) c1 j (fun i hi => r8 i (by omega))]
          exact grow_once_count c k hM hok j hj1 h
        · exact r9 j (by omega) hj2

/-! ## The steps of `install_symbol` -/

theorem install_core_eq (F : Nat) (c : context) (symbol : Int) :
    install_core F c symbol =
      (if symbol + 2 < 0 then throw Fault.badPointer
       else do
        let cg ← grow (symbol + 2).toNat 64 c
        if (cg.nSymbols + 1) * 2 ≥ Max_frequency F then pure (cg, none)
        else do
          let lh ← get_interval (install_prep cg (symbol + 2).toNat) (symbol + 2).toNat
          let c1 ← incr_symbol_prob (install_prep cg (symbol + 2).toNat) (symbol + 2).toNat
            lh.1 lh.2 (install_prep cg (symbol + 2).toNat).incr
          let c2 ← adjust_zero_freq (install_bump c1)
          pure (cg, some c2)) := rfl

theorem install_prep_fields (c : context) (s : Nat) :
    (install_prep c s).tree = c.tree ∧ (install_prep c s).max_length = c.max_length ∧
      (install_prep c s).total = c.total ∧ (install_prep c s).incr = c.incr ∧
      (install_prep c s).type = c.type ∧ (install_prep c s).nSingletons = c.nSingletons ∧
      (install_prep c s).nSymbols = c.nSymbols + 1 := by
  unfold install_prep
  by_cases h : s > c.length
  · simp [h]
  · simp [h]

theorem install_bump_fields (c : context) :
    (install_bump c).tree = c.tree ∧ (install_bump c).max_length = c.max_length ∧
      (install_bump c).total = c.total ∧ (install_bump c).incr = c.incr ∧
      (install_bump c).type = c.type ∧ (install_bump c).nSymbols = c.nSymbols ∧
      (install_bump c).nSingletons =
        (if c.type = DYNAMIC then uadd c.nSingletons c.incr else c.nSingletons) := by
  unfold install_bump
  by_cases h : c.type = DYNAMIC
  · simp [h]
  · simp [h]

theorem total_ok_congr (c c1 : context) (h1 : c1.tree = c.tree)
    (h2 : c1.max_length = c.max_length) (h3 : c1.total = c.total) (h : total_ok c) :
    total_ok c1 := by
  unfold total_ok at *
  rw [h3, h2, cum_congr_tree c c1 h1]
  exact h

theorem incr_total_ok (c c1 : context) (i : Nat) (inc : Nat) (hi : i < c.max_length)
    (ht : c1.total = uadd c.total inc) (hm : c1.max_length = c.max_length)
    (hcum : ∀ n, n < c.max_length →
      cum c1 n = if i ≤ n then uadd (cum c n) inc else cum c n)
    (h : total_ok c) : total_ok c1 := by
  unfold total_ok at *
  rw [ht, hm, hcum _ (by omega), if_pos (by omega), ← h]
  simp only [uadd, W]
  omega

theorem adjust_total_ok (c c1 : context) (h1 : 1 < c.max_length) (hmax : c.max_length ≤ 2 ^ 32)
    (ha : adjust_zero_freq c = Except.ok c1) (h : total_ok c) : total_ok c1 := by
  obtain ⟨c2, hc2, ht, hml, _, _, _, _, _, hcum, _, _, _⟩ := adjust_zero_freq_spec c h1 hmax
  rw [hc2] at ha
  cases ha
  unfold total_ok at *
  rw [ht, hml, hcum _ (by omega) (by omega), ← h]
  simp only [uadd, W]
  omega

theorem install_core_spec (F : Nat) (c : context) (symbol : Int) (k : Nat)
    (hsym : 0 ≤ symbol) (hs : symbol + 2 < 2 ^ 31) (hM : c.max_length = 2 ^ k)
    (h1 : 1 < c.max_length) (hmax : c.max_length ≤ 2 ^ 32) (hok : total_ok c)
    (hcap : ¬ (c.nSymbols + 1) * 2 ≥ Max_frequency F) :
    ∃ cg c1 k1, install_core F c symbol = Except.ok (cg, some c1) ∧
      c1.max_length = 2 ^ k1 ∧ c.max_length ≤ c1.max_length ∧ c1.max_length ≤ 2 ^ 32 ∧
      (symbol + 2).toNat < c1.max_length ∧
      c1.incr = c.incr ∧ c1.type = c.type ∧ c1.nSymbols = c.nSymbols + 1 ∧ total_ok c1 ∧
      c1.nSingletons =
        (if c.type = DYNAMIC then uadd c.nSingletons c.incr else c.nSingletons) ∧
      count c1 1 = c1.nSingletons % W ∧
      (∀ j, 1 < j → j < c.max_length →
        count c1 j = if j = (symbol + 2).toNat then uadd (count c j) c.incr else count c j) ∧
      (∀ j, c.max_length ≤ j → j < c1.max_length →
        count c1 j = if j = (symbol + 2).toNat then c.incr % W else 0) := by
  have hneg : ¬ symbol + 2 < 0 := by omega
  have hs1 : 1 < (symbol + 2).toNat := by omega
  have hs31 : (symbol + 2).toNat < 2 ^ 31 := by omega
  rw [install_core_eq, if_neg hneg]
  generalize (symbol + 2).toNat = s at *
  have hpk : 0 < 2 ^ k := by positivity
  have hfuel : s < 2 ^ k * 2 ^ 63 := by
    have h3 : 1 * 2 ^ 63 ≤ 2 ^ k * 2 ^ 63 := Nat.mul_le_mul_right _ hpk
    omega
  obtain ⟨cg, k1, hg, hgM, hsg, hid, hdbl, hokg, hsc, htree, hzero⟩ :=
    grow_pow2 s 63 c k hM hok hfuel
  obtain ⟨_, sc2, sc3, sc4, sc5, _, _, _, _⟩ := hsc
  have hgmax : cg.max_length ≤ 2 ^ 32 := by
    by_cases h : s < 2 ^ k
    · rw [hid h]
      exact hmax
    · rw [hgM]
      have := hdbl (by omega)
      omega
  have hgle : c.max_length ≤ cg.max_length := by
    by_cases h : s < 2 ^ k
    · rw [hid h]
    · omega
  have hsg1 : s < cg.max_length := by omega
  obtain ⟨p1, p2, p3, p4, p5, p6, p7⟩ := install_prep_fields cg s
  have hgi := get_interval_eq (install_prep cg s) s (by omega) (by omega) (by omega)
  obtain ⟨c3, hc3, t3, m3, n3, g3, i3, ty3, _, cum3, cnt3⟩ :=
    incr_symbol_prob_spec (install_prep cg s) s (cum (install_prep cg s) (s - 1))
      (cum (install_prep cg s) s) (install_prep cg s).incr (by omega) (by omega) (by omega)
  obtain ⟨b1, b2, b3, b4, b5, b6, b7⟩ := install_bump_fields c3
  obtain ⟨c5, hc5, t5, m5, n5, g5, i5, ty5, _, cum5, _, one5, cnt5⟩ :=
    adjust_zero_freq_spec (install_bump c3) (by omega) (by omega)
  have hcap1 : ¬ (cg.nSymbols + 1) * 2 ≥ Max_frequency F := by
    rw [sc2]
    exact hcap
  have hok3 : total_ok c3 :=
    incr_total_ok (install_prep cg s) c3 s _ (by omega) t3 m3 cum3
      (total_ok_congr cg (install_prep cg s) p1 p2 p3 hokg)
  have hok5 : total_ok c5 :=
    adjust_total_ok (install_bump c3) c5 (by omega) (by omega) hc5
      (total_ok_congr c3 (install_bump c3) b1 b2 b3 hok3)
  have hcnt : ∀ j, 1 < j → j < cg.max_length →
      count c5 j = if j = s then uadd (count cg j) c.incr else count cg j := by
    intro j hj1 hj
    rw [cnt5 j hj1 (by omega), count_congr_tree c3 (install_bump c3) b1,
      cnt3 j (by omega) (by omega), count_congr_tree cg (install_prep cg s) p1, p4, sc4]
  refine ⟨cg, c5, k1, ?_, by omega, by omega, by omega, by omega, by rw [i5, b4, i3, p4, sc4],
    by rw [ty5, b5, ty3, p5, sc5], by rw [n5, b6, n3, p7, sc2], hok5, ?_, ?_, ?_, ?_⟩
  · simp only [hg, bind, Except.bind, if_neg hcap1, hgi, hc3, hc5, pure, Except.pure]
  · rw [g5, b7, ty3, p5, sc5, g3, p6, sc3, i3, p4, sc4]
  · rw [one5, g5]
  · intro j hj1 hj
    rw [hcnt j hj1 (by omega), count_congr c cg j (fun i hi => htree i (by omega))]
  · intro j hj1 hj
    rw [hcnt j (by omega) (by omega), hzero j (by omega) (by omega)]
    simp only [uadd, Nat.zero_add]

/-! ## The loop that halves until `total` fits -/

theorem halve_loop_induct (F : Nat) (P : context → Prop)
    (hP : ∀ c c1, P c → halve_context c = Except.ok c1 → P c1) :
    ∀ fuel : Nat, ∀ c c1 : context, halve_loop F fuel c = Except.ok c1 → P c → P c1 := by
  intro fuel
  induction fuel with
  | zero =>
    intro c c1 h _
    simp [halve_loop, throw, throwThe, MonadExceptOf.throw] at h
  | succ f ih =>
    intro c c1 h hc
    by_cases ht : c.total > Max_frequency F
    · simp only [halve_loop, ht, if_true, bind, Except.bind] at h
      revert h
      generalize hg : halve_context c = g
      cases g with
      | error e =>
        intro h
        cases h
      | ok c2 =>
        intro h
        exact ih c2 c1 h (hP c c2 hc hg)
    · simp only [halve_loop, ht, if_false, pure, Except.pure] at h
      cases h
      exact hc

/-- A slot whose count is the increment keeps that property through a halving
pass. -/
theorem halve_keeps_incr (s : Nat) (c c1 : context)
    (hc : 1 < c.max_length ∧ c.max_length ≤ 2 ^ 32 ∧ 1 < s ∧ s < c.max_length ∧
      1 ≤ c.incr ∧ c.incr < W ∧ count c s = c.incr)
    (h : halve_context c = Except.ok c1) :
    1 < c1.max_length ∧ c1.max_length ≤ 2 ^ 32 ∧ 1 < s ∧ s < c1.max_length ∧
      1 ≤ c1.incr ∧ c1.incr < W ∧ count c1 s = c1.incr := by
  obtain ⟨h1, hmax, hs1, hs, hi1, hiW, hcnt⟩ := hc
  obtain ⟨q1, q2, _, _, _, _, q7, _, _, _⟩ := halve_context_post c c1 h h1 hmax
  obtain ⟨m1, m2, _, _, _, _, _, m8, _, _, _⟩ := halve_main_spec c (by omega) hmax
  have hinc : c1.incr = (c.incr + 1) / 2 := by
    rw [q1, m1]
    simp only [MIN_INCR]
    rw [if_neg (by omega)]
  have hc1 : count c1 s = c.incr - c.incr / 2 := by
    rw [q7 s hs1 (by rw [m2]; exact hs), m8 s (by omega) hs, hcnt, halved_eq _ hiW]
  rw [q2, m2]
  refine ⟨h1, hmax, hs1, hs, by omega, by omega, by omega⟩

theorem install_cap_yes (F fuel : Nat) (c c1 : context) (symbol : Int)
    (hneg : ¬ symbol + 2 < 0) (hg : grow (symbol + 2).toNat 64 c = Except.ok c1)
    (hc : (c1.nSymbols + 1) * 2 ≥ Max_frequency F) :
    install_symbol F fuel c symbol = Except.ok (TOO_MANY_SYMBOLS, c1) := by
  simp only [install_symbol, install_core, hneg, if_false, hg, bind, Except.bind, hc, if_true,
    pure, Except.pure]

theorem install_symbol_ok (F fuel : Nat) (c cg c1 : context) (symbol : Int)
    (h : install_core F c symbol = Except.ok (cg, some c1)) :
    install_symbol F fuel c symbol =
      Except.map (fun c2 => ((0 : Int), c2)) (halve_loop F fuel c1) := by
  simp only [install_symbol, h, bind, Except.bind]
  cases halve_loop F fuel c1 with
  | error e => rfl
  | ok c2 => rfl

/-! ## Partition of the code range -/

theorem chain_le (b : Nat → Nat) (m : Nat) (hb : ∀ j, j < m → b j < b (j + 1)) :
    ∀ j i, i ≤ j → j ≤ m → b i ≤ b j := by
  intro j
  induction j with
  | zero =>
    intro i hi _
    have : i = 0 := by omega
    rw [this]
  | succ j ih =>
    intro i hi hj
    by_cases h : i = j + 1
    · rw [h]
    · have h1 := ih i (by omega) (by omega)
      have h2 := hb j (by omega)
      omega

theorem chain_cover (b : Nat → Nat) :
    ∀ m : Nat, (∀ j, j < m → b j < b (j + 1)) → ∀ x, b 0 ≤ x → x < b m →
      ∃ j, j < m ∧ b j ≤ x ∧ x < b (j + 1) := by
  intro m
  induction m with
  | zero =>
    intro _ x h1 h2
    omega
  | succ m ih =>
    intro hb x h1 h2
    by_cases h : x < b m
    · obtain ⟨j, hj, h3, h4⟩ := ih (fun j hj => hb j (by omega)) x h1 h
      exact ⟨j, by omega, h3, h4⟩
    · exact ⟨m, by omega, by omega, h2⟩

theorem chain_unique (b : Nat → Nat) (m : Nat) (hb : ∀ j, j < m → b j < b (j + 1))
    (i j x : Nat) (hi : i < m) (hj : j < m) (h1 : b i ≤ x) (h2 : x < b (i + 1))
    (h3 : b j ≤ x) (h4 : x < b (j + 1)) : i = j := by
  by_contra hne
  by_cases h : i < j
  · have := chain_le b m hb j (i + 1) (by omega) (by omega)
    omega
  · have := chain_le b m hb i (j + 1) (by omega) (by omega)
    omega

/-- The narrowing step without wrap-around: the new range starts at
`L + r * low` and ends at `L + r * high`, or at `L + R` for the last interval. -/
theorem narrow_eq (L R low high total : Nat) (ht : 1 ≤ total) (htR : total ≤ R)
    (hR : R < W) (hLR : L + R ≤ W) (hlh : low < high) (hh : high ≤ total) :
    arithmetic_encode_narrow L R low high total =
      (L + R / total * low,
        (if high < total then L + R / total * high else L + R) - (L + R / total * low)) ∧
    L + R / total * low < (if high < total then L + R / total * high else L + R) := by
  have hr : 1 ≤ R / total := (Nat.le_div_iff_mul_le (by omega)).mpr (by omega)
  have hrt : R / total * total ≤ R := Nat.div_mul_le_self R total
  have h1 : R / total * low < R / total * high := Nat.mul_lt_mul_of_pos_left hlh (by omega)
  have h2 : R / total * high ≤ R / total * total := Nat.mul_le_mul_left _ hh
  have h3 : R / total * (high - low) = R / total * high - R / total * low := Nat.mul_sub _ _ _
  have h4 : R / total * high ≤ R := by omega
  have hW : high < W := by
    simp only [W] at *
    omega
  have hu : usub high low = high - low := by
    simp only [usub, W] at *
    omega
  simp only [arithmetic_encode_narrow, hu, h3]
  clear hrt h2 h3 hu hr
  generalize R / total * low = A at *
  generalize R / total * high = B at *
  by_cases hc : high < total
  · simp only [hc, if_true, uadd, usub, W] at *
    refine ⟨Prod.ext ?_ ?_, ?_⟩
    · simp only
      omega
    · simp only
      omega
    · omega
  · simp only [hc, if_false, uadd, usub, W] at *
    refine ⟨Prod.ext ?_ ?_, ?_⟩
    · simp only
      omega
    · simp only
      omega
    · omega

/-! ## The descent of `decode` -/

theorem descend_zero (t : Nat → Nat) (target fuel symbol low : Nat) :
    descend t target fuel 0 symbol low = (symbol, low) := by
  cases fuel with
  | zero => rfl
  | succ f => simp [descend]

theorem cum_step (c : context) (e q : Nat) :
    cum c (2 ^ (e + 1) * q + 2 ^ e) = uadd (c.tree (2 ^ (e + 1) * q + 2 ^ e)) (cum c (2 ^ (e + 1) * q)) := by
  have h1 : 2 ^ (e + 1) * q + 2 ^ e = 2 ^ e * (2 * q + 1) := by ring
  have hb := BACK_two_pow_mul e q
  have hp : 0 < 2 ^ e * (2 * q + 1) := by positivity
  have h2 : 2 ^ e * (2 * q + 1) - 2 ^ e = 2 ^ (e + 1) * q := by
    have : 2 ^ e * (2 * q + 1) = 2 ^ (e + 1) * q + 2 ^ e := by ring
    omega
  unfold cum
  rw [h1, psum_pos _ _ hp, hb, h2]
  simp only [uadd, W]
  omega

/-- The loop of `decode` over `mid` stops at the last slot whose cumulative
count is at most `target`. -/
theorem descend_spec (c : context) (target : Nat) :
    ∀ e fuel q : Nat, e < fuel → 2 ^ (e + 1) * q + 2 ^ (e + 1) ≤ c.max_length →
      cum c (2 ^ (e + 1) * q) ≤ target →
      (2 ^ (e + 1) * q + 2 ^ (e + 1) < c.max_length →
        target < cum c (2 ^ (e + 1) * q + 2 ^ (e + 1))) →
      ∃ s0, descend c.tree target fuel (2 ^ e) (2 ^ (e + 1) * q) (cum c (2 ^ (e + 1) * q))
            = (s0, cum c s0) ∧
        s0 + 1 ≤ c.max_length ∧ cum c s0 ≤ target ∧
        (s0 + 1 < c.max_length → target < cum c (s0 + 1)) := by
  intro e
  induction e with
  | zero =>
    intro fuel q hf hM h1 h2
    obtain ⟨f, hf1⟩ : ∃ f, fuel = f + 1 := ⟨fuel - 1, by omega⟩
    subst hf1
    have hs := cum_step c 0 q
    simp only [Nat.zero_add, pow_one, pow_zero] at hs hM h1 h2 ⊢
    by_cases hc : uadd (c.tree (2 * q + 1)) (cum c (2 * q)) ≤ target
    · refine ⟨2 * q + 1, ?_, by omega, by rw [hs]; exact hc, ?_⟩
      · simp only [descend, Nat.lt_one_iff, Nat.one_pos, if_true, hc, Nat.reduceDiv,
          descend_zero]
        rw [hs]
        simp only [uadd, Nat.add_comm]
      · intro h
        exact h2 h
    · refine ⟨2 * q, ?_, by omega, h1, ?_⟩
      · simp only [descend, Nat.one_pos, if_true, hc, if_false, Nat.reduceDiv, descend_zero]
      · intro _
        rw [hs]
        omega
  | succ e ih =>
    intro fuel q hf hM h1 h2
    obtain ⟨f, hf1⟩ : ∃ f, fuel = f + 1 := ⟨fuel - 1, by omega⟩
    subst hf1
    have hs := cum_step c (e + 1) q
    have hp : 0 < 2 ^ (e + 1) := by positivity
    have hp2 : 2 ^ (e + 1 + 1) = 2 * 2 ^ (e + 1) := by ring
    have hhalf : 2 ^ (e + 1) / 2 = 2 ^ e := by
      rw [pow_succ]
      omega
    have ea : 2 ^ (e + 1 + 1) * q + 2 ^ (e + 1) = 2 ^ (e + 1) * (2 * q + 1) := by ring
    have eb : 2 ^ (e + 1 + 1) * q = 2 ^ (e + 1) * (2 * q) := by ring
    by_cases hc : uadd (c.tree (2 ^ (e + 1 + 1) * q + 2 ^ (e + 1))) (cum c (2 ^ (e + 1 + 1) * q))
        ≤ target
    · have hlow : uadd (cum c (2 ^ (e + 1 + 1) * q)) (c.tree (2 ^ (e + 1 + 1) * q + 2 ^ (e + 1)))
          = cum c (2 ^ (e + 1) * (2 * q + 1)) := by
        rw [← ea, hs]
        simp only [uadd, Nat.add_comm]
      obtain ⟨s0, r1, r2, r3, r4⟩ := ih f (2 * q + 1) (by omega)
        (by rw [← ea]; omega) (by rw [← ea, hs]; exact hc)
        (by
          intro h
          have := h2 (by rw [← ea] at h; omega)
          rw [← ea]
          rw [show 2 ^ (e + 1 + 1) * q + 2 ^ (e + 1) + 2 ^ (e + 1)
            = 2 ^ (e + 1 + 1) * q + 2 ^ (e + 1 + 1) by omega]
          exact this)
      refine ⟨s0, ?_, r2, r3, r4⟩
      rw [descend, if_pos hp, if_pos hc, hhalf, hlow, ea]
      exact r1
    · obtain ⟨s0, r1, r2, r3, r4⟩ := ih f (2 * q) (by omega)
        (by rw [← eb]; omega) (by rw [← eb]; exact h1)
        (by
          intro _
          rw [← eb, hs]
          omega)
      refine ⟨s0, ?_, r2, r3, r4⟩
      rw [descend, if_pos hp, if_neg hc, hhalf, eb]
      exact r1

theorem usub_usub (a x d : Nat) : usub (usub a x) d = usub a (x + d) := by
  simp only [usub, W]
  omega

theorem high_path_eq (t : Nat → Nat) (i : Nat) :
    ∀ fuel s high : Nat, BACK i < s → s < i → psum (fun _ => 1) s ≤ fuel →
      ∃ d, high_path t (BACK i) fuel s high = Except.ok (usub high d) ∧
        psum t s = d + psum t (BACK i) := by
  intro fuel
  induction fuel with
  | zero =>
    intro s high h1 _ hf
    have e1 : psum (fun _ => 1) s = 1 + psum (fun _ => 1) (BACK s) := psum_pos _ s (by omega)
    omega
  | succ fuel ih =>
    intro s high h1 h2 hf
    have hpos : 0 < s := by omega
    have e1 : psum (fun _ => 1) s = 1 + psum (fun _ => 1) (BACK s) := psum_pos _ s hpos
    have e2 := psum_pos t s hpos
    have hb := BACK_mono_in_range i s h1 h2
    have hlt := BACK_lt s hpos
    by_cases hs : BACK s = BACK i
    · refine ⟨t s, ?_, by rw [e2, hs]⟩
      simp only [high_path, hs, ne_eq, not_true_eq_false, if_false]
      rfl
    · obtain ⟨d, hd1, hd2⟩ := ih (BACK s) (usub high (t s)) (by omega) (by omega) (by omega)
      refine ⟨t s + d, ?_, by omega⟩
      simp only [high_path, ne_eq, hs, not_false_eq_true, if_true]
      rw [hd1, usub_usub]

/-- The upper bound `decode` computes for the slot it has found. -/
theorem decode_high (c : context) (s : Nat) (hs : 0 < s) (hs32 : s < 2 ^ 32) :
    (if s % 2 = 1 then pure (uadd (cum c (s - 1)) (c.tree s))
     else do
       let h ← high_path c.tree (BACK s) 64 (s - 1) (cum c (s - 1))
       pure (uadd h (c.tree s))) = (Except.ok (cum c s) : M Nat) := by
  have e2 := psum_pos c.tree s hs
  by_cases hodd : s % 2 = 1
  · rw [if_pos hodd]
    obtain ⟨m, hm⟩ : ∃ m, s = 2 * m + 1 := ⟨s / 2, by omega⟩
    have hb : BACK s = s - 1 := by
      rw [hm, BACK_odd]
      omega
    rw [hb] at e2
    unfold cum
    rw [e2]
    simp only [uadd, pure, Except.pure, W]
    congr 1
    omega
  · rw [if_neg hodd]
    have hb1 : BACK s < s - 1 := by
      obtain ⟨m, hm⟩ : ∃ m, s = 2 * m := ⟨s / 2, by omega⟩
      have := BACK_even m (by omega)
      have := BACK_lt m (by omega)
      rw [hm]
      omega
    have hlen : psum (fun _ => 1) (s - 1) ≤ 64 := by
      have := blen_le 32 (s - 1) (by omega)
      omega
    obtain ⟨d, hd1, hd2⟩ := high_path_eq c.tree s 64 (s - 1) (cum c (s - 1)) hb1 (by omega) hlen
    simp only [hd1, bind, Except.bind, pure, Except.pure]
    congr 1
    unfold cum
    rw [e2, hd2]
    generalize psum c.tree (BACK s) = B
    generalize c.tree s = T
    simp only [uadd, usub, W]
    omega

/-! ## What `encode` and `decode` hand to the coder -/

theorem cum_le (c : context) (h : cum_mono c) :
    ∀ j i, i ≤ j → j < c.max_length → cum c i ≤ cum c j := by
  intro j
  induction j with
  | zero =>
    intro i hi _
    have : i = 0 := by omega
    rw [this]
  | succ j ih =>
    intro i hi hj
    by_cases hij : i = j + 1
    · rw [hij]
    · have h1 := ih i (by omega) (by omega)
      have h2 := h (j + 1) (by omega) hj
      simp only [Nat.add_sub_cancel] at h2
      omega

theorem count_eq_sub (c : context) (h : cum_mono c) (j : Nat) (hj0 : 0 < j)
    (hj : j < c.max_length) : count c j = cum c j - cum c (j - 1) := by
  have h1 := h j hj0 hj
  have h2 := cum_lt c j
  unfold count
  simp only [usub, W] at *
  omega

theorem cached_interval_eq (c : context) (s : Nat) (hs0 : 0 < s) (hs : s < c.max_length)
    (hmax : c.max_length ≤ 2 ^ 32) (hmps : mps_ok c) :
    cached_interval c s = Except.ok (cum c (s - 1), cum c s) := by
  unfold cached_interval
  by_cases h : c.most_freq_symbol = (s : Int)
  · rw [if_pos h]
    rcases hmps with ⟨h1, _⟩ | ⟨_, _, h3, h4⟩
    · omega
    · have e : c.most_freq_symbol.toNat = s := by omega
      rw [e] at h3 h4
      rw [h3, h4]
      unfold count
      rw [uadd_usub_cancel _ _ (cum_lt c s)]
      rfl
  · rw [if_neg h]
    exact get_interval_eq c s hs0 hs (by omega)

theorem update_coded_ok (c : context) (s low high : Nat) (hs0 : 0 < s) (hs : s < c.max_length)
    (h1 : 1 < c.max_length) (hmax : c.max_length ≤ 2 ^ 32) :
    ∃ c1, update_coded c s low high = Except.ok c1 := by
  unfold update_coded
  by_cases h : s ≠ 1
  · rw [if_pos h]
    have hxm : (if c.type = DYNAMIC ∧ usub high low = c.incr then
        { c with nSingletons := usub c.nSingletons c.incr } else c).max_length = c.max_length := by
      split <;> rfl
    generalize (if c.type = DYNAMIC ∧ usub high low = c.incr then
        { c with nSingletons := usub c.nSingletons c.incr } else c) = x at hxm
    obtain ⟨c2, hc2, _, hm2, _⟩ := incr_symbol_prob_spec x s low high x.incr hs0
      (by rw [hxm]; exact hs) (by rw [hxm]; exact hmax)
    obtain ⟨c3, hc3, _⟩ := adjust_zero_freq_spec c2 (by rw [hm2, hxm]; exact h1)
      (by rw [hm2, hxm]; exact hmax)
    refine ⟨c3, ?_⟩
    simp only [bind, Except.bind, pure, Except.pure, hc2, hc3]
  · rw [if_neg h]
    obtain ⟨c3, hc3, _⟩ := adjust_zero_freq_spec c h1 hmax
    exact ⟨c3, by simp only [bind, Except.bind, pure, Except.pure, hc3]⟩

theorem encode_core_args (c : context) (s : Nat) (hs0 : 0 < s) (hs : s < c.max_length)
    (h1 : 1 < c.max_length) (hmax : c.max_length ≤ 2 ^ 32) (hmps : mps_ok c)
    (hcnt : cum c (s - 1) ≠ cum c s) :
    Except.map coded.args (encode_core c ((s : Int) - 2)) =
      Except.ok (s, (remapped c s).1, (remapped c s).2, c.total) := by
  have e1 : (s : Int) - 2 + 2 = s := by omega
  have e2 : (s : Int) > 0 ∧ (s : Int) < c.max_length := by omega
  obtain ⟨c1, hc1⟩ := update_coded_ok c s (cum c (s - 1)) (cum c s) hs0 hs h1 hmax
  simp only [encode_core, e1, e2, and_self, if_true, Int.toNat_ofNat,
    cached_interval_eq c s hs0 hs hmax hmps, bind, Except.bind, hcnt, if_false, pure,
    Except.pure, hc1, Except.map, coded.args, remapped]

theorem descend_find (c : context) (k : Nat) (hM : c.max_length = 2 ^ (k + 1)) (hk : k < 32)
    (hmono : cum_mono c) (s target : Nat) (hs0 : 0 < s) (hs : s < c.max_length)
    (h1 : cum c (s - 1) ≤ target) (h2 : target < cum c s) :
    descend c.tree target 64 (c.max_length / 2) 0 0 = (s - 1, cum c (s - 1)) := by
  obtain ⟨s0, r1, r2, r3, r4⟩ := descend_spec c target k 64 0 (by omega)
    (by rw [hM]; omega) (by simp [cum_zero]) (by intro h; rw [hM] at h; omega)
  simp only [Nat.mul_zero, cum_zero] at r1
  have hhalf : c.max_length / 2 = 2 ^ k := by
    rw [hM, pow_succ]
    omega
  have hs0eq : s0 = s - 1 := by
    by_contra hne
    by_cases hlt : s0 + 1 < s
    · have h3 := cum_le c hmono (s - 1) (s0 + 1) (by omega) (by omega)
      have h4 := r4 (by omega)
      omega
    · have h3 := cum_le c hmono s0 s (by omega) (by omega)
      omega
  rw [hhalf, r1, hs0eq]

/-- The slow path of `decode`: the target, moved back behind the most frequent
symbol, lies in the interval of slot `s`. -/
theorem decode_slow_ctx (c : context) (k : Nat) (hM : c.max_length = 2 ^ (k + 1)) (hk : k < 32)
    (hmono : cum_mono c) (s t : Nat) (hs0 : 0 < s) (hs : s < c.max_length)
    (hnm : ¬ t ≥ usub c.total c.most_freq_count)
    (h1 : cum c (s - 1) ≤ (if t ≥ c.most_freq_pos then uadd t c.most_freq_count else t))
    (h2 : (if t ≥ c.most_freq_pos then uadd t c.most_freq_count else t) < cum c s)
    (hw : (if cum c (s - 1) ≥ c.most_freq_pos then
        (usub (cum c (s - 1)) c.most_freq_count, usub (cum c s) c.most_freq_count)
        else (cum c (s - 1), cum c s)) = remapped c s) :
    decoded_as c t s := by
  have hp : 0 < 2 ^ k := by positivity
  have hmax : c.max_length ≤ 2 ^ 32 := by
    rw [hM]
    exact Nat.pow_le_pow_right (by norm_num) (by omega)
  have hone : 1 < c.max_length := by
    rw [hM, pow_succ]
    omega
  have hd := descend_find c k hM hk hmono s _ hs0 hs h1 h2
  have hs1 : s - 1 + 1 = s := by omega
  have hh := decode_high c s hs0 (by omega)
  obtain ⟨c1, hc1⟩ := update_coded_ok c s (cum c (s - 1)) (cum c s) hs0 hs hone hmax
  refine ⟨{ slot := s, low_w := (remapped c s).1, high_w := (remapped c s).2, total := c.total,
            ctx := c1 }, cum c (s - 1), cum c s, ?_, rfl, hc1, rfl, rfl⟩
  simp only [decode_core, hnm, if_false, hd, hs1]
  by_cases hodd : s % 2 = 1
  · rw [if_pos hodd] at hh
    have hy : uadd (cum c (s - 1)) (c.tree s) = cum c s := by
      simpa [pure, Except.pure] using hh
    rw [if_pos hodd]
    simp only [bind, Except.bind, pure, Except.pure, hy, hc1]
    rw [← hw]
  · rw [if_neg hodd] at hh
    rw [if_neg hodd]
    revert hh
    cases high_path c.tree (BACK s) 64 (s - 1) (cum c (s - 1)) with
    | error e =>
      intro hh
      cases hh
    | ok v =>
      intro hh
      have hy : uadd v (c.tree s) = cum c s := by
        simpa [bind, Except.bind, pure, Except.pure] using hh
      simp only [bind, Except.bind, pure, Except.pure, hy, hc1]
      rw [← hw]

theorem total_eq_cum (c : context) (hok : total_ok c) (hW : c.total < W) :
    c.total = cum c (c.max_length - 1) := by
  unfold total_ok at hok
  rw [← hok]
  exact (Nat.mod_eq_of_lt hW).symm

/-- The shortcut of `decode` for the most frequent symbol. -/
theorem decode_mps_ctx (c : context) (t : Nat) (h1 : 1 < c.max_length)
    (hmax : c.max_length ≤ 2 ^ 32) (hm1 : 1 ≤ c.most_freq_symbol)
    (hm2 : c.most_freq_symbol < c.max_length)
    (hm3 : c.most_freq_pos = cum c (c.most_freq_symbol.toNat - 1))
    (hm4 : c.most_freq_count = count c c.most_freq_symbol.toNat)
    (ht : t ≥ usub c.total c.most_freq_count) :
    decoded_as c t c.most_freq_symbol.toNat := by
  obtain ⟨c1, hc1⟩ := update_coded_ok c c.most_freq_symbol.toNat c.most_freq_pos
    (uadd c.most_freq_pos c.most_freq_count) (by omega) (by omega) h1 hmax
  have hr : remapped c c.most_freq_symbol.toNat = (usub c.total c.most_freq_count, c.total) := by
    simp only [remapped, remap]
    rw [if_neg (by omega), if_pos (by omega)]
  refine ⟨{ slot := c.most_freq_symbol.toNat, low_w := usub c.total c.most_freq_count,
            high_w := c.total, total := c.total, ctx := c1 }, c.most_freq_pos,
    uadd c.most_freq_pos c.most_freq_count, ?_, ?_, hc1, hm3, ?_⟩
  · simp only [decode_core, ht, if_true, bind, Except.bind, pure, Except.pure, hc1]
  · rw [hr]
    rfl
  · have hlt := count_lt c c.most_freq_symbol.toNat
    rw [← hm4] at hlt ⊢
    simp only [usub, uadd, W] at *
    omega

theorem decode_core_ctx (c : context) (k : Nat) (hM : c.max_length = 2 ^ (k + 1)) (hk : k < 32)
    (hmono : cum_mono c) (hok : total_ok c) (hW : c.total < W) (hmps : mps_ok c)
    (s t : Nat) (hs0 : 0 < s) (hs : s < c.max_length)
    (ht1 : (remapped c s).1 ≤ t) (ht2 : t < (remapped c s).2) :
    decoded_as c t s := by
  have hp : 0 < 2 ^ k := by positivity
  have hmax : c.max_length ≤ 2 ^ 32 := by
    rw [hM]
    exact Nat.pow_le_pow_right (by norm_num) (by omega)
  have hone : 1 < c.max_length := by
    rw [hM, pow_succ]
    omega
  have hT := total_eq_cum c hok hW
  have hlo := hmono s hs0 hs
  have hhi : cum c s ≤ c.total := by
    rw [hT]
    exact cum_le c hmono _ s (by omega) (by omega)
  have hhiW := cum_lt c s
  rcases hmps with ⟨m1, m2⟩ | ⟨m1, m2, m3, m4⟩
  · have hr : remapped c s = (cum c (s - 1), cum c s) := by
      simp only [remapped, remap, m1, m2]
      rw [if_pos (by omega)]
      simp only [usub, W] at *
      refine Prod.ext ?_ ?_
      · simp only
        omega
      · simp only
        omega
    rw [hr] at ht1 ht2
    simp only at ht1 ht2
    refine decode_slow_ctx c k hM hk hmono s t hs0 hs ?_ ?_ ?_ ?_
    · rw [m2]
      simp only [usub, W] at *
      omega
    · rw [m2]
      split
      · simp only [uadd, W] at *
        omega
      · exact ht1
    · rw [m2]
      split
      · simp only [uadd, W] at *
        omega
      · exact ht2
    · rw [hr, m2]
      split
      · simp only [usub, W] at *
        refine Prod.ext ?_ ?_
        · simp only
          omega
        · simp only
          omega
      · rfl
  · have hmlt : c.most_freq_symbol.toNat < c.max_length := by omega
    have hm0 : 0 < c.most_freq_symbol.toNat := by omega
    have hcm := count_eq_sub c hmono _ hm0 hmlt
    have hmm := hmono _ hm0 hmlt
    have hmT : cum c c.most_freq_symbol.toNat ≤ c.total := by
      rw [hT]
      exact cum_le c hmono _ _ (by omega) (by omega)
    rw [← m4, ← m3] at hcm
    rw [← m3] at hmm
    by_cases hsm : (s : Int) = c.most_freq_symbol
    · have hr : remapped c s = (usub c.total c.most_freq_count, c.total) := by
        simp only [remapped, remap]
        rw [if_neg (by omega), if_pos hsm]
      rw [hr] at ht1
      simp only at ht1
      have hms : c.most_freq_symbol.toNat = s := by omega
      have hd := decode_mps_ctx c t hone hmax m1 m2 m3 m4 ht1
      rw [hms] at hd
      exact hd
    · by_cases hgt : (s : Int) > c.most_freq_symbol
      · have hr : remapped c s =
            (usub (cum c (s - 1)) c.most_freq_count, usub (cum c s) c.most_freq_count) := by
          simp only [remapped, remap]
          rw [if_pos hgt]
        have hge := cum_le c hmono (s - 1) c.most_freq_symbol.toNat (by omega) (by omega)
        rw [hr] at ht1 ht2
        simp only at ht1 ht2
        refine decode_slow_ctx c k hM hk hmono s t hs0 hs ?_ ?_ ?_ ?_
        · simp only [usub, W] at *
          omega
        · rw [if_pos (by simp only [usub, W] at *; omega)]
          simp only [usub, uadd, W] at *
          omega
        · rw [if_pos (by simp only [usub, W] at *; omega)]
          simp only [usub, uadd, W] at *
          omega
        · rw [hr, if_pos (by omega)]
      · have hr : remapped c s = (cum c (s - 1), cum c s) := by
          simp only [remapped, remap]
          rw [if_neg hgt, if_neg hsm]
        have hle := cum_le c hmono (c.most_freq_symbol.toNat - 1) s (by omega) (by omega)
        rw [hr] at ht1 ht2
        simp only at ht1 ht2
        refine decode_slow_ctx c k hM hk hmono s t hs0 hs ?_ ?_ ?_ ?_
        · simp only [usub, W] at *
          omega
        · rw [if_neg (by omega)]
          exact ht1
        · rw [if_neg (by omega)]
          exact ht2
        · rw [hr, if_neg (by omega)]

theorem decode_core_args (c : context) (k : Nat) (hM : c.max_length = 2 ^ (k + 1)) (hk : k < 32)
    (hmono : cum_mono c) (hok : total_ok c) (hW : c.total < W) (hmps : mps_ok c)
    (s t : Nat) (hs0 : 0 < s) (hs : s < c.max_length)
    (ht1 : (remapped c s).1 ≤ t) (ht2 : t < (remapped c s).2) :
    Except.map coded.args (decode_core c t) =
      Except.ok (s, (remapped c s).1, (remapped c s).2, c.total) := by
  obtain ⟨e, _, _, he, ha, _⟩ := decode_core_ctx c k hM hk hmono hok hW hmps s t hs0 hs ht1 ht2
  rw [he]
  simp only [Except.map, ha]

theorem step_cover (b : Nat → Nat) :
    ∀ m x : Nat, b 0 ≤ x → x < b m → ∃ j, j < m ∧ b j ≤ x ∧ x < b (j + 1) := by
  intro m
  induction m with
  | zero =>
    intro x h1 h2
    omega
  | succ m ih =>
    intro x h1 h2
    by_cases h : x < b m
    · obtain ⟨j, hj, h3, h4⟩ := ih x h1 h
      exact ⟨j, by omega, h3, h4⟩
    · exact ⟨m, by omega, by omega, h2⟩

theorem count_ne_zero_iff (c : context) (s : Nat) : count c s ≠ 0 ↔ cum c (s - 1) ≠ cum c s := by
  have h1 := cum_lt c s
  have h2 := cum_lt c (s - 1)
  unfold count
  simp only [usub, W] at *
  omega

/-- A value below `total` lies in the cumulative interval of a slot. -/
theorem slot_of_target (c : context) (hone : 1 < c.max_length) (hok : total_ok c)
    (hW : c.total < W) (x : Nat) (hx : x < c.total) :
    ∃ s, 0 < s ∧ s < c.max_length ∧ cum c (s - 1) ≤ x ∧ x < cum c s := by
  have hT := total_eq_cum c hok hW
  obtain ⟨j, hj, h1, h2⟩ := step_cover (cum c) (c.max_length - 1) x
    (by rw [cum_zero]; omega) (by rw [← hT]; exact hx)
  exact ⟨j + 1, by omega, by omega, by simpa using h1, h2⟩

/-- The intervals handed to the coder cover `[0, total)`. -/
theorem remapped_cover (c : context) (hone : 1 < c.max_length) (hmono : cum_mono c)
    (hok : total_ok c) (hW : c.total < W) (hmps : mps_ok c) (t : Nat) (ht : t < c.total) :
    ∃ s, 0 < s ∧ s < c.max_length ∧ (remapped c s).1 ≤ t ∧ t < (remapped c s).2 := by
  have hT := total_eq_cum c hok hW
  rcases hmps with ⟨m1, m2⟩ | ⟨m1, m2, m3, m4⟩
  · obtain ⟨s, hs0, hs, h1, h2⟩ := slot_of_target c hone hok hW t ht
    refine ⟨s, hs0, hs, ?_⟩
    have hhiW := cum_lt c s
    simp only [remapped, remap, m1, m2]
    rw [if_pos (by omega)]
    simp only [usub, W] at *
    omega
  · have hmlt : c.most_freq_symbol.toNat < c.max_length := by omega
    have hm0 : 0 < c.most_freq_symbol.toNat := by omega
    have hcm := count_eq_sub c hmono _ hm0 hmlt
    have hmm := hmono _ hm0 hmlt
    have hmT : cum c c.most_freq_symbol.toNat ≤ c.total := by
      rw [hT]
      exact cum_le c hmono _ _ (by omega) (by omega)
    rw [← m4, ← m3] at hcm
    rw [← m3] at hmm
    by_cases hmpsb : t ≥ usub c.total c.most_freq_count
    · refine ⟨c.most_freq_symbol.toNat, hm0, hmlt, ?_⟩
      simp only [remapped, remap]
      rw [if_neg (by omega), if_pos (by omega)]
      exact ⟨hmpsb, ht⟩
    · by_cases hpos : t ≥ c.most_freq_pos
      · obtain ⟨s, hs0, hs, h1, h2⟩ := slot_of_target c hone hok hW (t + c.most_freq_count)
          (by simp only [usub, W] at *; omega)
        have hsm : c.most_freq_symbol.toNat < s := by
          by_contra hle
          have := cum_le c hmono c.most_freq_symbol.toNat s (by omega) (by omega)
          omega
        refine ⟨s, hs0, hs, ?_⟩
        have hhiW := cum_lt c s
        have hge := cum_le c hmono (s - 1) c.most_freq_symbol.toNat (by omega) (by omega)
        simp only [remapped, remap]
        rw [if_pos (by omega)]
        simp only [usub, W] at *
        omega
      · obtain ⟨s, hs0, hs, h1, h2⟩ := slot_of_target c hone hok hW t ht
        have hsm : s < c.most_freq_symbol.toNat := by
          by_contra hle
          have := cum_le c hmono (s - 1) (c.most_freq_symbol.toNat - 1) (by omega) (by omega)
          omega
        refine ⟨s, hs0, hs, ?_⟩
        simp only [remapped, remap]
        rw [if_neg (by omega), if_neg (by omega)]
        exact ⟨h1, h2⟩

theorem remapped_bounds (c : context) (hmono : cum_mono c) (hok : total_ok c)
    (hW : c.total < W) (hmps : mps_ok c) (s : Nat) (hs0 : 0 < s) (hs : s < c.max_length)
    (hcnt : cum c (s - 1) ≠ cum c s) :
    (remapped c s).1 < (remapped c s).2 ∧ (remapped c s).2 ≤ c.total := by
  have hT := total_eq_cum c hok hW
  have hlo := hmono s hs0 hs
  have hhi : cum c s ≤ c.total := by
    rw [hT]
    exact cum_le c hmono _ s (by omega) (by omega)
  rcases hmps with ⟨m1, m2⟩ | ⟨m1, m2, m3, m4⟩
  · simp only [remapped, remap, m1, m2]
    rw [if_pos (by omega)]
    simp only [usub, W] at *
    omega
  · have hmlt : c.most_freq_symbol.toNat < c.max_length := by omega
    have hm0 : 0 < c.most_freq_symbol.toNat := by omega
    have hcm := count_eq_sub c hmono _ hm0 hmlt
    have hmm := hmono _ hm0 hmlt
    have hmT : cum c c.most_freq_symbol.toNat ≤ c.total := by
      rw [hT]
      exact cum_le c hmono _ _ (by omega) (by omega)
    rw [← m4, ← m3] at hcm
    rw [← m3] at hmm
    by_cases hsm : (s : Int) = c.most_freq_symbol
    · have e : c.most_freq_symbol.toNat = s := by omega
      rw [e] at hcm hmm hmT m3
      simp only [remapped, remap]
      rw [if_neg (by omega), if_pos hsm]
      simp only [usub, W] at *
      omega
    · by_cases hgt : (s : Int) > c.most_freq_symbol
      · have hge := cum_le c hmono (s - 1) c.most_freq_symbol.toNat (by omega) (by omega)
        simp only [remapped, remap]
        rw [if_pos hgt]
        simp only [usub, W] at *
        omega
      · simp only [remapped, remap]
        rw [if_neg hgt, if_neg hsm]
        simp only
        omega

theorem remapped_nonempty (c : context) (hW : c.total < W) (hmps : mps_ok c) (s : Nat)
    (h : (remapped c s).1 < (remapped c s).2) : cum c (s - 1) ≠ cum c s := by
  intro he
  rcases hmps with ⟨m1, m2⟩ | ⟨m1, m2, m3, m4⟩
  · simp only [remapped, remap, m1, m2, he] at h
    split at h <;> simp at h
  · by_cases hsm : (s : Int) = c.most_freq_symbol
    · have e : c.most_freq_symbol.toNat = s := by omega
      have hc : c.most_freq_count = 0 := by
        rw [m4, e]
        unfold count
        rw [he]
        exact usub_self _
      simp only [remapped, remap, hc] at h
      rw [if_neg (by omega), if_pos hsm] at h
      simp only [usub, W] at *
      omega
    · simp only [remapped, remap, he] at h
      by_cases hgt : (s : Int) > c.most_freq_symbol
      · rw [if_pos hgt] at h
        simp at h
      · rw [if_neg hgt, if_neg hsm] at h
        simp at h

/-! ## The update `encode` and `decode` make -/

theorem update_coded_spec (c : context) (s low high : Nat) (hs0 : 0 < s) (hs : s < c.max_length)
    (h1 : 1 < c.max_length) (hmax : c.max_length ≤ 2 ^ 32) :
    ∃ c1, update_coded c s low high = Except.ok c1 ∧ c1.max_length = c.max_length ∧
      c1.incr = c.incr ∧
      ∀ j, 1 < j → j < c.max_length →
        count c1 j = if j = s then uadd (count c j) c.incr else count c j := by
  unfold update_coded
  by_cases h : s ≠ 1
  · rw [if_pos h]
    have hx : (if c.type = DYNAMIC ∧ usub high low = c.incr then
        { c with nSingletons := usub c.nSingletons c.incr } else c).max_length = c.max_length ∧
        (if c.type = DYNAMIC ∧ usub high low = c.incr then
        { c with nSingletons := usub c.nSingletons c.incr } else c).incr = c.incr ∧
        (if c.type = DYNAMIC ∧ usub high low = c.incr then
        { c with nSingletons := usub c.nSingletons c.incr } else c).tree = c.tree := by
      split <;> exact ⟨rfl, rfl, rfl⟩
    generalize (if c.type = DYNAMIC ∧ usub high low = c.incr then
        { c with nSingletons := usub c.nSingletons c.incr } else c) = x at hx
    obtain ⟨hxm, hxi, hxt⟩ := hx
    obtain ⟨c2, hc2, _, hm2, _, _, hi2, _, _, _, hcnt2⟩ :=
      incr_symbol_prob_spec x s low high x.incr hs0 (by rw [hxm]; exact hs)
        (by rw [hxm]; exact hmax)
    obtain ⟨c3, hc3, _, hm3, _, _, hi3, _, _, _, _, _, hcnt3⟩ :=
      adjust_zero_freq_spec c2 (by rw [hm2, hxm]; exact h1) (by rw [hm2, hxm]; exact hmax)
    refine ⟨c3, ?_, by rw [hm3, hm2, hxm], by rw [hi3, hi2, hxi], ?_⟩
    · simp only [bind, Except.bind, pure, Except.pure, hc2, hc3]
    · intro j hj1 hj
      rw [hcnt3 j hj1 (by rw [hm2, hxm]; exact hj), hcnt2 j (by omega) (by rw [hxm]; exact hj),
        count_congr_tree c x hxt, hxi]
  · rw [if_neg h]
    have hs1 : s = 1 := by omega
    obtain ⟨c3, hc3, _, hm3, _, _, hi3, _, _, _, _, _, hcnt3⟩ := adjust_zero_freq_spec c h1 hmax
    refine ⟨c3, by simp only [bind, Except.bind, pure, Except.pure, hc3], hm3, hi3, ?_⟩
    intro j hj1 hj
    rw [hcnt3 j hj1 hj, if_neg (by omega)]

/-- The escape path of `encode`: the slot cannot be coded, so the escape slot
is. -/
theorem encode_core_escape (c : context) (symbol : Int) (h1 : 1 < c.max_length)
    (hmax : c.max_length ≤ 2 ^ 32) (hmps : mps_ok c) (hns : c.nSingletons ≠ 0)
    (hout : ¬ (symbol + 2 > 0 ∧ symbol + 2 < c.max_length) ∨
      cum c ((symbol + 2).toNat - 1) = cum c (symbol + 2).toNat) :
    ∃ e, encode_core c symbol = Except.ok e ∧ e.slot = 1 ∧ e.total = c.total ∧
      (e.low_w, e.high_w) = remapped c 1 ∧
      (∀ j, 1 < j → j < c.max_length → count e.ctx j = count c j) ∧
      update_coded c 1 (cum c (1 - 1)) (cum c 1) = Except.ok e.ctx := by
  obtain ⟨c1, hc1, _, _, hcnt⟩ := update_coded_spec c 1 (cum c (1 - 1)) (cum c 1) (by omega) h1
    h1 hmax
  have hci := cached_interval_eq c 1 (by omega) h1 hmax hmps
  refine ⟨{ slot := 1, low_w := (remapped c 1).1, high_w := (remapped c 1).2,
            total := c.total, ctx := c1 }, ?_, rfl, rfl, rfl, ?_⟩
  · by_cases hin : symbol + 2 > 0 ∧ symbol + 2 < c.max_length
    · have heq : cum c ((symbol + 2).toNat - 1) = cum c (symbol + 2).toNat := by
        rcases hout with h | h
        · exact absurd hin h
        · exact h
      have hci2 := cached_interval_eq c (symbol + 2).toNat (by omega) (by omega) hmax hmps
      simp only [encode_core, hin, and_self, if_true, hci2, bind, Except.bind, heq, hns, if_false,
        hci, pure, Except.pure, hc1, remapped]
    · simp only [encode_core, hin, if_false, bind, Except.bind, if_true, hns, hci, pure,
        Except.pure, hc1, remapped]
  · exact ⟨fun j hj1 hj => by rw [hcnt j hj1 hj, if_neg (by omega)], hc1⟩

/-- The normal path of `encode`: the slot has a count and is coded. -/
theorem encode_core_known (c : context) (symbol : Int) (h1 : 1 < c.max_length)
    (hmax : c.max_length ≤ 2 ^ 32) (hmps : mps_ok c)
    (hin : symbol + 2 > 0 ∧ symbol + 2 < c.max_length)
    (hne : cum c ((symbol + 2).toNat - 1) ≠ cum c (symbol + 2).toNat) :
    ∃ e, encode_core c symbol = Except.ok e ∧ e.slot = (symbol + 2).toNat ∧ e.total = c.total ∧
      (e.low_w, e.high_w) = remapped c (symbol + 2).toNat ∧
      (∀ j, 1 < j → j < c.max_length →
        count e.ctx j = if j = (symbol + 2).toNat then uadd (count c j) c.incr else count c j) ∧
      update_coded c (symbol + 2).toNat (cum c ((symbol + 2).toNat - 1))
        (cum c (symbol + 2).toNat) = Except.ok e.ctx := by
  obtain ⟨c1, hc1, _, _, hcnt⟩ := update_coded_spec c (symbol + 2).toNat
    (cum c ((symbol + 2).toNat - 1)) (cum c (symbol + 2).toNat) (by omega) (by omega) h1 hmax
  have hci2 := cached_interval_eq c (symbol + 2).toNat (by omega) (by omega) hmax hmps
  refine ⟨{ slot := (symbol + 2).toNat, low_w := (remapped c (symbol + 2).toNat).1,
            high_w := (remapped c (symbol + 2).toNat).2, total := c.total, ctx := c1 },
    ?_, rfl, rfl, rfl, hcnt, hc1⟩
  simp only [encode_core, hin, and_self, if_true, hci2, bind, Except.bind, hne, if_false,
    pure, Except.pure, hc1, remapped]

/-- Without an escape count `encode` cannot code a slot of count zero. -/
theorem encode_core_abort (c : context) (symbol : Int) (hmax : c.max_length ≤ 2 ^ 32)
    (hmps : mps_ok c) (hns : c.nSingletons = 0)
    (hout : ¬ (symbol + 2 > 0 ∧ symbol + 2 < c.max_length) ∨
      cum c ((symbol + 2).toNat - 1) = cum c (symbol + 2).toNat) :
    encode_core c symbol = Except.error Fault.abort := by
  by_cases hin : symbol + 2 > 0 ∧ symbol + 2 < c.max_length
  · have heq : cum c ((symbol + 2).toNat - 1) = cum c (symbol + 2).toNat := by
      rcases hout with h | h
      · exact absurd hin h
      · exact h
    have hci2 := cached_interval_eq c (symbol + 2).toNat (by omega) (by omega) hmax hmps
    simp only [encode_core, hin, and_self, if_true, hci2, bind, Except.bind, heq, hns]
  · simp only [encode_core, hin, if_false, bind, Except.bind, if_true, hns, pure, Except.pure]

theorem encode_eq (F fuel : Nat) (c : context) (symbol : Int) (e : coded)
    (h : encode_core c symbol = Except.ok e) :
    encode F fuel c symbol =
      Except.map (fun c1 => (if e.slot = 1 then NOT_KNOWN else 0, (e.low_w, e.high_w, e.total), c1))
        (halve_loop F fuel e.ctx) := by
  simp only [encode, h, bind, Except.bind]
  cases halve_loop F fuel e.ctx with
  | error x => rfl
  | ok c2 => rfl

/-! ## The cache of the most frequent symbol -/

theorem incr_mps_ok (c c1 : context) (i low high inc : Nat) (h0 : 0 < i)
    (h1 : i < c.max_length) (hmax : c.max_length ≤ 2 ^ 32) (hmps : mps_ok c)
    (hl : low = cum c (i - 1)) (hh : usub high low = count c i)
    (h : incr_symbol_prob c i low high inc = Except.ok c1) : mps_ok c1 := by
  obtain ⟨c2, hc2, _, hm, _, _, _, _, _, _, e1, e2, e3, _, hcum⟩ :=
    incr_actual_spec c i inc h0 h1 hmax
  have hcount := count_after_cum c c2 i inc h0 hcum
  simp only [incr_symbol_prob, hc2, bind, Except.bind, pure, Except.pure, Except.ok.injEq] at h
  have hcum1 : ∀ n, cum c1 n = cum c2 n := by
    intro n
    rw [← h]
    unfold cum incr_symbol_prob_mps
    split_ifs <;> rfl
  have hcnt1 : ∀ n, count c1 n = count c2 n := by
    intro n
    unfold count
    rw [hcum1, hcum1]
  have hm1 : c1.max_length = c.max_length := by
    rw [← h, ← hm]
    unfold incr_symbol_prob_mps
    split_ifs <;> rfl
  have hci : count c2 i = uadd (count c i) inc := by
    rw [hcount i h0 h1, if_pos rfl]
  have hlow : cum c2 (i - 1) = cum c (i - 1) := by
    rw [hcum (i - 1) (by omega), if_neg (by omega)]
  unfold mps_ok
  rw [hm1]
  simp only [hcum1, hcnt1]
  by_cases ha : (i : Int) = c2.most_freq_symbol
  · have e : c1 = { c2 with most_freq_count := uadd c2.most_freq_count inc } := by
      rw [← h]
      simp only [incr_symbol_prob_mps, ha, if_true]
    rcases hmps with ⟨m1, _⟩ | ⟨m1, m2, m3, m4⟩
    · omega
    · right
      rw [e]
      simp only
      have hi : c2.most_freq_symbol.toNat = i := by omega
      rw [hi, hlow, hci, e2, e3, m3, m4, e1] at *
      have hi2 : c.most_freq_symbol.toNat = i := by omega
      rw [hi2]
      exact ⟨by omega, by omega, rfl, rfl⟩
  · by_cases hb : uadd (usub high low) inc > c2.most_freq_count
    · right
      subst h
      simp only [incr_symbol_prob_mps, ha, if_false, hb, if_true, Int.toNat_ofNat]
      rw [hlow, hci, hh, hl]
      exact ⟨by omega, by omega, rfl, rfl⟩
    · by_cases hc : (i : Int) < c2.most_freq_symbol
      · rcases hmps with ⟨m1, _⟩ | ⟨m1, m2, m3, m4⟩
        · omega
        · right
          subst h
          simp only [incr_symbol_prob_mps, ha, if_false, hb, hc, if_true]
          rw [e1, e2, e3, hcum _ (by omega), if_pos (by omega),
            hcount _ (by omega) (by omega), if_neg (by omega), m3, m4]
          exact ⟨m1, m2, rfl, rfl⟩
      · subst h
        simp only [incr_symbol_prob_mps, ha, if_false, hb, hc]
        rw [e1, e2, e3]
        rcases hmps with ⟨m1, m2⟩ | ⟨m1, m2, m3, m4⟩
        · exact Or.inl ⟨m1, m2⟩
        · right
          rw [hcum _ (by omega), if_neg (by omega), hcount _ (by omega) (by omega),
            if_neg (by omega), m3, m4]
          exact ⟨m1, m2, rfl, rfl⟩

theorem adjust_mps_ok (c c1 : context) (h1 : 1 < c.max_length) (hmax : c.max_length ≤ 2 ^ 32)
    (hmps : mps_ok c) (h : adjust_zero_freq c = Except.ok c1) : mps_ok c1 := by
  unfold adjust_zero_freq at h
  by_cases hd : usub c.nSingletons (c.tree 1) ≠ 0
  · rw [if_pos hd] at h
    refine incr_mps_ok c c1 1 0 (c.tree 1) _ (by omega) h1 hmax hmps (by simp [cum_zero]) ?_ h
    rw [count_one]
    simp only [usub, W]
    omega
  · rw [if_neg hd] at h
    cases h
    exact hmps

/-! ## The operations keep the invariant -/

theorem cum_succ (c : context) (n : Nat) : cum c (n + 1) = uadd (cum c n) (count c (n + 1)) := by
  unfold count
  simp only [Nat.add_sub_cancel]
  exact (uadd_usub_cancel _ _ (cum_lt c (n + 1))).symm

theorem cum_eq_csum (c : context) : ∀ n, cum c n = csum c n % W := by
  intro n
  induction n with
  | zero => simp [cum_zero, csum]
  | succ n ih =>
    rw [cum_succ, ih]
    simp only [csum, uadd, W]
    omega

theorem csum_split (c : context) : ∀ n, csum c n = hsum c n + dsum c n := by
  intro n
  induction n with
  | zero => rfl
  | succ n ih =>
    have h := halved_eq (count c (n + 1)) (count_lt c (n + 1))
    simp only [csum, hsum, dsum, ih, h]
    omega

theorem halve_steps_total_lt (incr : Nat) :
    ∀ n i : Nat, ∀ h : halve_state, h.total < W → (halve_steps incr n i h).total < W := by
  intro n
  induction n with
  | zero =>
    intro i h hh
    exact hh
  | succ n ih =>
    intro i h _
    simp only [halve_steps]
    exact ih (i + 1) _ (usub_lt _ _)

theorem halve_main_total_ok (c : context) (hm : 0 < c.max_length) (hmax : c.max_length ≤ 2 ^ 32)
    (hok : total_ok c) : total_ok (halve_main c) := by
  obtain ⟨_, m2, _, _, _, _, m7, _, m9, _, _⟩ := halve_main_spec c hm hmax
  unfold total_ok at *
  rw [m2, m7 _ (by omega)]
  rw [cum_eq_csum, csum_split] at hok
  generalize hsum c (c.max_length - 1) = H at *
  generalize dsum c (c.max_length - 1) = D at *
  simp only [W] at *
  omega

theorem cum_congr_below (c c1 : context) (n : Nat) (h : ∀ j, j ≤ n → c1.tree j = c.tree j) :
    cum c1 n = cum c n := by
  unfold cum
  rw [psum_congr c1.tree c.tree n (fun j hj => (h j hj).symm)]

theorem mps_ok_grow (c c1 : context) (htree : ∀ j, j < c.max_length → c1.tree j = c.tree j)
    (hM : c.max_length ≤ c1.max_length) (e1 : c1.most_freq_symbol = c.most_freq_symbol)
    (e2 : c1.most_freq_count = c.most_freq_count) (e3 : c1.most_freq_pos = c.most_freq_pos)
    (h : mps_ok c) : mps_ok c1 := by
  unfold mps_ok at *
  rw [e1, e2, e3]
  rcases h with ⟨m1, m2⟩ | ⟨m1, m2, m3, m4⟩
  · exact Or.inl ⟨m1, m2⟩
  · right
    refine ⟨m1, by omega, ?_, ?_⟩
    · rw [m3, cum_congr_below c c1 _ (fun j hj => htree j (by omega))]
    · rw [m4, count_congr c c1 _ (fun j hj => htree j (by omega))]

theorem ctx_inv_congr (c c2 : context) (e0 : c2.tree = c.tree)
    (e1 : c2.max_length = c.max_length) (e2 : c2.total = c.total)
    (e3 : c2.most_freq_symbol = c.most_freq_symbol)
    (e4 : c2.most_freq_count = c.most_freq_count) (e5 : c2.most_freq_pos = c.most_freq_pos)
    (h : ctx_inv c) : ctx_inv c2 := by
  obtain ⟨h1, h2, h3, h4, h5, h6⟩ := h
  refine ⟨by rw [e1]; exact h1, by rw [e1]; exact h2, by rw [e1]; exact h3,
    by rw [e2]; exact h4, total_ok_congr c c2 e0 e1 e2 h5, ?_⟩
  exact mps_ok_grow c c2 (fun j _ => by rw [e0]) (by rw [e1]) e3 e4 e5 h6

theorem incr_inv (c c1 : context) (i low high inc : Nat) (h0 : 0 < i) (h1 : i < c.max_length)
    (hl : low = cum c (i - 1)) (hh : usub high low = count c i) (hinv : ctx_inv c)
    (h : incr_symbol_prob c i low high inc = Except.ok c1) : ctx_inv c1 := by
  obtain ⟨p1, p2, p3, p4, p5, p6⟩ := hinv
  obtain ⟨c2, hc2, ht, hm, _, _, _, _, _, hcum, _⟩ :=
    incr_symbol_prob_spec c i low high inc h0 h1 p3
  have e : c2 = c1 := by
    rw [hc2] at h
    exact Except.ok.inj h
  subst e
  refine ⟨by rw [hm]; exact p1, by rw [hm]; exact p2, by rw [hm]; exact p3,
    by rw [ht]; exact uadd_lt _ _, incr_total_ok c c2 i inc h1 ht hm hcum p5,
    incr_mps_ok c c2 i low high inc h0 h1 p3 p6 hl hh hc2⟩

theorem adjust_inv (c c1 : context) (hinv : ctx_inv c) (h : adjust_zero_freq c = Except.ok c1) :
    ctx_inv c1 := by
  unfold adjust_zero_freq at h
  by_cases hd : usub c.nSingletons (c.tree 1) ≠ 0
  · rw [if_pos hd] at h
    refine incr_inv c c1 1 0 (c.tree 1) _ (by omega) hinv.2.1 (by simp [cum_zero]) ?_ hinv h
    rw [count_one]
    simp only [usub, W]
    omega
  · rw [if_neg hd] at h
    cases h
    exact hinv

theorem bind_ok {α β : Type} (x : M α) (f : α → M β) (b : β)
    (h : (x >>= f) = Except.ok b) : ∃ a, x = Except.ok a ∧ f a = Except.ok b := by
  cases x with
  | error e => cases h
  | ok a => exact ⟨a, rfl, h⟩

theorem update_coded_inv (c c1 : context) (s low high : Nat) (hs0 : 0 < s)
    (hs : s < c.max_length) (hl : low = cum c (s - 1)) (hh : usub high low = count c s)
    (hinv : ctx_inv c) (h : update_coded c s low high = Except.ok c1) : ctx_inv c1 := by
  unfold update_coded at h
  by_cases hne : s ≠ 1
  · simp only [if_pos hne] at h
    obtain ⟨c2, h2, h3⟩ := bind_ok _ _ _ h
    refine adjust_inv c2 c1 ?_ h3
    have hx : (if c.type = DYNAMIC ∧ usub high low = c.incr then
        { c with nSingletons := usub c.nSingletons c.incr } else c).max_length = c.max_length ∧
        (if c.type = DYNAMIC ∧ usub high low = c.incr then
        { c with nSingletons := usub c.nSingletons c.incr } else c).tree = c.tree ∧
        ctx_inv (if c.type = DYNAMIC ∧ usub high low = c.incr then
        { c with nSingletons := usub c.nSingletons c.incr } else c) := by
      split
      · exact ⟨rfl, rfl, ctx_inv_congr c _ rfl rfl rfl rfl rfl rfl hinv⟩
      · exact ⟨rfl, rfl, hinv⟩
    generalize (if c.type = DYNAMIC ∧ usub high low = c.incr then
        { c with nSingletons := usub c.nSingletons c.incr } else c) = x at hx h2
    obtain ⟨hxm, hxt, hxi⟩ := hx
    refine incr_inv x c2 s low high x.incr hs0 (by rw [hxm]; exact hs) ?_ ?_ hxi h2
    · rw [hl, cum_congr_tree c x hxt]
    · rw [hh, count_congr_tree c x hxt]
  · simp only [if_neg hne] at h
    obtain ⟨c2, h2, h3⟩ := bind_ok _ _ _ h
    cases h2
    exact adjust_inv c c1 hinv h3

theorem halve_context_inv (c c1 : context) (hinv : ctx_inv c)
    (h : halve_context c = Except.ok c1) : ctx_inv c1 := by
  obtain ⟨p1, p2, p3, p4, p5, p6⟩ := hinv
  obtain ⟨_, m2, _, _, _, m6, _, _, _, _, _⟩ := halve_main_spec c (by omega) p3
  have hok := halve_main_total_ok c (by omega) p3 p5
  have hlt : (halve_main c).total < W := halve_steps_total_lt _ _ _ _ p4
  rw [halve_context_eq] at h
  by_cases hm : (halve_main c).most_freq_symbol ≠ -1
  · simp only [if_pos hm] at h
    obtain ⟨lh, h2, h4⟩ := bind_ok _ _ _ h
    obtain ⟨c2, h5, h3⟩ := bind_ok _ _ _ h4
    refine adjust_inv c2 c1 ?_ h3
    have hv : 1 ≤ c.most_freq_symbol ∧ c.most_freq_symbol < c.max_length := by
      rcases p6 with ⟨a, _⟩ | ⟨a, b, _, _⟩
      · rw [m6] at hm
        exact absurd a hm
      · exact ⟨a, b⟩
    rw [m6] at h2
    have hg := get_interval_eq (halve_main c) c.most_freq_symbol.toNat (by omega)
      (by rw [m2]; omega) (by omega)
    rw [hg] at h2
    cases h2
    cases h5
    refine ⟨p1, p2, p3, hlt, hok, Or.inr ⟨?_, ?_, rfl, rfl⟩⟩
    · exact hv.1
    · exact hv.2
  · simp only [if_neg hm] at h
    obtain ⟨c2, h2, h3⟩ := bind_ok _ _ _ h
    cases h2
    refine adjust_inv _ c1 ?_ h3
    have hm1 : c.most_freq_symbol = -1 := by
      rw [m6] at hm
      by_contra hne
      exact hm hne
    have hc0 : c.most_freq_count = 0 := by
      rcases p6 with ⟨_, b⟩ | ⟨a, _, _, _⟩
      · exact b
      · omega
    exact ⟨p1, p2, p3, hlt, hok, Or.inl ⟨hm1, hc0⟩⟩

theorem halve_loop_inv (F : Nat) (fuel : Nat) (c c1 : context) (hinv : ctx_inv c)
    (h : halve_loop F fuel c = Except.ok c1) : ctx_inv c1 :=
  halve_loop_induct F ctx_inv (fun a b ha hb => halve_context_inv a b ha hb) fuel c c1 h hinv

theorem grow_inv (c c1 : context) (s : Nat) (hs : s < 2 ^ 31) (hinv : ctx_inv c)
    (h : grow s 64 c = Except.ok c1) : ctx_inv c1 := by
  obtain ⟨⟨k, hk⟩, p2, p3, p4, p5, p6⟩ := hinv
  have hpk : 0 < 2 ^ k := by positivity
  have hfuel : s < 2 ^ k * 2 ^ 63 := by
    have h3 : 1 * 2 ^ 63 ≤ 2 ^ k * 2 ^ 63 := Nat.mul_le_mul_right _ hpk
    omega
  obtain ⟨c2, k1, hg, hgM, hsg, hid, hdbl, hokg, hsc, htree, _⟩ := grow_pow2 s 63 c k hk p5 hfuel
  have e : c2 = c1 := by
    rw [hg] at h
    exact Except.ok.inj h
  subst e
  obtain ⟨s1, _, _, _, _, _, s7, s8, s9⟩ := hsc
  have hle : c.max_length ≤ c2.max_length := by
    by_cases hlt : s < 2 ^ k
    · rw [hid hlt]
    · omega
  refine ⟨⟨k1, hgM⟩, by omega, ?_, by rw [s1]; exact p4, hokg, ?_⟩
  · by_cases hlt : s < 2 ^ k
    · rw [hid hlt]
      exact p3
    · have := hdbl (by omega)
      omega
  · exact mps_ok_grow c c2 (fun j hj => htree j (by omega)) hle s7 s8 s9 p6

theorem install_core_inv (F : Nat) (c cg : context) (o : Option context) (symbol : Int)
    (h0 : 0 < symbol + 2) (h1 : symbol + 2 < 2 ^ 31) (hinv : ctx_inv c)
    (h : install_core F c symbol = Except.ok (cg, o)) :
    ctx_inv cg ∧ ∀ c1, o = some c1 → ctx_inv c1 := by
  have hneg : ¬ symbol + 2 < 0 := by omega
  rw [install_core_eq, if_neg hneg] at h
  obtain ⟨cg1, hg, h2⟩ := bind_ok _ _ _ h
  have hginv := grow_inv c cg1 (symbol + 2).toNat (by omega) hinv hg
  by_cases hcap : (cg1.nSymbols + 1) * 2 ≥ Max_frequency F
  · rw [if_pos hcap] at h2
    cases h2
    exact ⟨hginv, fun c1 hc => by cases hc⟩
  · rw [if_neg hcap] at h2
    obtain ⟨lh, h3, h4⟩ := bind_ok _ _ _ h2
    obtain ⟨c3, h5, h6⟩ := bind_ok _ _ _ h4
    obtain ⟨c4, h7, h8⟩ := bind_ok _ _ _ h6
    cases h8
    refine ⟨hginv, ?_⟩
    intro c1 hc
    rw [← Option.some.inj hc]
    obtain ⟨q1, q2, q3, _, _, _, _⟩ := install_prep_fields cg (symbol + 2).toNat
    have hpinv : ctx_inv (install_prep cg (symbol + 2).toNat) := by
      refine ctx_inv_congr cg _ q1 q2 q3 ?_ ?_ ?_ hginv
      all_goals (unfold install_prep; split <;> rfl)
    by_cases hin : (symbol + 2).toNat < (install_prep cg (symbol + 2).toNat).max_length
    · have hgi := get_interval_eq (install_prep cg (symbol + 2).toNat) (symbol + 2).toNat
        (by omega) hin (by omega)
      rw [hgi] at h3
      cases h3
      have hinv3 := incr_inv _ c3 _ _ _ _ (by omega) hin rfl rfl hpinv h5
      obtain ⟨b1, b2, b3, _, _, _, _⟩ := install_bump_fields c3
      have hbinv : ctx_inv (install_bump c3) := by
        refine ctx_inv_congr c3 _ b1 b2 b3 ?_ ?_ ?_ hinv3
        all_goals (unfold install_bump; split <;> rfl)
      exact adjust_inv _ c4 hbinv h7
    · exfalso
      simp only [get_interval] at h3
      rw [if_pos (Or.inr (by omega))] at h3
      cases h3

theorem install_symbol_inv (F fuel : Nat) (c c1 : context) (symbol r : Int)
    (h0 : 0 < symbol + 2) (h1 : symbol + 2 < 2 ^ 31) (hinv : ctx_inv c)
    (h : install_symbol F fuel c symbol = Except.ok (r, c1)) : ctx_inv c1 := by
  unfold install_symbol at h
  obtain ⟨⟨cg, o⟩, h2, h3⟩ := bind_ok _ _ _ h
  obtain ⟨hg, ho⟩ := install_core_inv F c cg o symbol h0 h1 hinv h2
  cases o with
  | none =>
    simp only [pure, Except.pure, Except.ok.injEq, Prod.mk.injEq] at h3
    rw [← h3.2]
    exact hg
  | some c2 =>
    simp only at h3
    obtain ⟨c3, h4, h5⟩ := bind_ok _ _ _ h3
    simp only [pure, Except.pure, Except.ok.injEq, Prod.mk.injEq] at h5
    rw [← h5.2]
    exact halve_loop_inv F fuel c2 c3 (ho c2 rfl) h4

theorem get_interval_ok (c : context) (s : Nat) (lh : Nat × Nat)
    (h : get_interval c s = Except.ok lh) : 0 < s ∧ s < c.max_length := by
  by_contra hc
  have hbad : s = 0 ∨ s ≥ c.max_length := by omega
  simp only [get_interval] at h
  rw [if_pos hbad] at h
  cases h

theorem delete_symbol_inv (c c1 : context) (symbol : Int) (hinv : ctx_inv c)
    (h : delete_symbol_ctx c symbol = Except.ok c1) : ctx_inv c1 := by
  unfold delete_symbol_ctx at h
  by_cases hneg : symbol + 2 < 0
  · simp only [if_pos hneg] at h
    cases h
  · simp only [if_neg hneg] at h
    obtain ⟨lh, h2, h3⟩ := bind_ok _ _ _ h
    obtain ⟨hs0, hs⟩ := get_interval_ok c _ lh h2
    rw [get_interval_eq c _ hs0 hs (by have := hinv.2.2.1; omega)] at h2
    cases h2
    exact incr_inv c c1 _ _ _ _ hs0 hs rfl rfl hinv h3

theorem encode_core_inv (c : context) (symbol : Int) (e : coded) (hinv : ctx_inv c)
    (h : encode_core c symbol = Except.ok e) : ctx_inv e.ctx := by
  have p2 := hinv.2.1
  have p3 := hinv.2.2.1
  have p6 := hinv.2.2.2.2.2
  by_cases hout : ¬ (symbol + 2 > 0 ∧ symbol + 2 < c.max_length) ∨
      cum c ((symbol + 2).toNat - 1) = cum c (symbol + 2).toNat
  · by_cases hns : c.nSingletons = 0
    · rw [encode_core_abort c symbol p3 p6 hns hout] at h
      cases h
    · obtain ⟨e1, he1, _, _, _, _, hu⟩ := encode_core_escape c symbol p2 p3 p6 hns hout
      have e2 : e1 = e := by
        rw [he1] at h
        exact Except.ok.inj h
      subst e2
      exact update_coded_inv c e1.ctx 1 _ _ (by omega) p2 rfl rfl hinv hu
  · have hin : symbol + 2 > 0 ∧ symbol + 2 < c.max_length := by
      by_contra hc
      exact hout (Or.inl hc)
    have hne : cum c ((symbol + 2).toNat - 1) ≠ cum c (symbol + 2).toNat :=
      fun hc => hout (Or.inr hc)
    obtain ⟨e1, he1, _, _, _, _, hu⟩ := encode_core_known c symbol p2 p3 p6 hin hne
    have e2 : e1 = e := by
      rw [he1] at h
      exact Except.ok.inj h
    subst e2
    exact update_coded_inv c e1.ctx _ _ _ (by omega) (by omega) rfl rfl hinv hu

theorem encode_inv (F fuel : Nat) (c c1 : context) (symbol r : Int) (a : Nat × Nat × Nat)
    (hinv : ctx_inv c) (h : encode F fuel c symbol = Except.ok (r, a, c1)) : ctx_inv c1 := by
  unfold encode at h
  obtain ⟨e, h2, h3⟩ := bind_ok _ _ _ h
  obtain ⟨c2, h4, h5⟩ := bind_ok _ _ _ h3
  simp only [pure, Except.pure, Except.ok.injEq, Prod.mk.injEq] at h5
  rw [← h5.2.2]
  exact halve_loop_inv F fuel e.ctx c2 (encode_core_inv c symbol e hinv h2) h4

theorem decode_core_inv (c : context) (t : Nat) (e : coded) (hinv : ctx_inv c)
    (hmono : cum_mono c) (ht : t < c.total) (h : decode_core c t = Except.ok e) :
    ctx_inv e.ctx := by
  obtain ⟨⟨k, hk⟩, p2, p3, p4, p5, p6⟩ := hinv
  have hk0 : k ≠ 0 := by
    intro h0
    rw [h0] at hk
    simp at hk
    omega
  obtain ⟨k1, hk1⟩ : ∃ k1, k = k1 + 1 := ⟨k - 1, by omega⟩
  have hk32 : k1 < 32 := by
    by_contra hc
    have : 2 ^ 33 ≤ 2 ^ k := Nat.pow_le_pow_right (by norm_num) (by omega)
    omega
  rw [hk1] at hk
  obtain ⟨s, hs0, hs, h1, h2⟩ := remapped_cover c p2 hmono p5 p4 p6 t ht
  obtain ⟨e1, low, high, he1, _, hu, hl, hh⟩ :=
    decode_core_ctx c k1 hk hk32 hmono p5 p4 p6 s t hs0 hs h1 h2
  have e2 : e1 = e := by
    rw [he1] at h
    exact Except.ok.inj h
  subst e2
  exact update_coded_inv c e1.ctx s low high hs0 hs hl hh ⟨⟨k1 + 1, hk⟩, p2, p3, p4, p5, p6⟩ hu

theorem decode_inv (F fuel : Nat) (c c1 : context) (t : Nat) (r : Int) (a : Nat × Nat × Nat)
    (hinv : ctx_inv c) (hmono : cum_mono c) (ht : t < c.total)
    (h : decode F fuel c t = Except.ok (r, a, c1)) : ctx_inv c1 := by
  unfold decode at h
  obtain ⟨e, h2, h3⟩ := bind_ok _ _ _ h
  obtain ⟨c2, h4, h5⟩ := bind_ok _ _ _ h3
  simp only [pure, Except.pure, Except.ok.injEq, Prod.mk.injEq] at h5
  rw [← h5.2.2]
  exact halve_loop_inv F fuel e.ctx c2 (decode_core_inv c t e hinv hmono ht h2) h4

theorem round_up_spec (L : Nat) :
    ∀ fuel size j : Nat, size = 2 ^ j →
      ∃ k, round_up L fuel size = 2 ^ k ∧ size ≤ 2 ^ k ∧ (2 ^ k = size ∨ 2 ^ k < 2 * L) ∧
        (0 < fuel → size < L → size < 2 ^ k) := by
  intro fuel
  induction fuel with
  | zero =>
    intro size j hj
    exact ⟨j, by simp [round_up, hj], by omega, Or.inl hj.symm, fun h => absurd h (by decide)⟩
  | succ f ih =>
    intro size j hj
    have hp : 0 < size := by
      rw [hj]
      positivity
    by_cases hlt : size < L
    · obtain ⟨k, h1, h2, h3, _⟩ := ih (size * 2) (j + 1) (by rw [hj, pow_succ])
      refine ⟨k, ?_, by omega, ?_, fun _ _ => by omega⟩
      · simp only [round_up, hlt, if_true]
        exact h1
      · rcases h3 with h | h
        · right
          omega
        · exact Or.inr h
    · refine ⟨j, ?_, by omega, Or.inl hj.symm, fun _ h => absurd h hlt⟩
      simp only [round_up, hlt, if_false]
      exact hj

theorem psum_const_zero : ∀ n : Nat, psum (fun _ => 0) n = 0 := by
  intro n
  induction n using Nat.strong_induction_on with
  | _ n ih =>
    by_cases hn : n = 0
    · rw [hn, psum_zero]
    · rw [psum_pos _ n (by omega), ih (BACK n) (BACK_lt n (by omega))]

theorem create_context_inv (F length type : Nat) (c : context) (hl : length + 2 ≤ 2 ^ 31)
    (h : create_context F length type = Except.ok c) : ctx_inv c := by
  obtain ⟨k, h1, h2, h3, h4⟩ := round_up_spec (length + 2) (length + 2) 1 0 (by simp)
  unfold create_context at h
  refine adjust_inv _ c ?_ h
  refine ⟨⟨k, ?_⟩, ?_, ?_, ?_, ?_, ?_⟩
  · unfold init_zero_freq
    split <;> exact h1
  · have := h4 (by omega) (by omega)
    unfold init_zero_freq
    split <;> (simp only; omega)
  · unfold init_zero_freq
    split <;> (simp only; omega)
  · unfold init_zero_freq
    split <;> (simp only [W]; omega)
  · unfold total_ok cum init_zero_freq
    split <;> simp [psum_const_zero]
  · left
    unfold init_zero_freq
    split <;> exact ⟨rfl, rfl⟩

/-! ## Every context the code builds satisfies the invariant -/

theorem reachable_inv (F : Nat) (c : context) (h : reachable F c) : ctx_inv c := by
  induction h with
  | create length type c hl hc => exact create_context_inv F length type c hl hc
  | install fuel c c1 symbol r _ h0 h1 hi ih =>
    exact install_symbol_inv F fuel c c1 symbol r h0 h1 ih hi
  | encode fuel c c1 symbol r a _ he ih => exact encode_inv F fuel c c1 symbol r a ih he
  | decode fuel c c1 t r a _ hm ht hd ih => exact decode_inv F fuel c c1 t r a ih hm ht hd
  | delete c c1 symbol _ hd ih => exact delete_symbol_inv c c1 symbol ih hd
  | halve c c1 _ hh ih => exact halve_context_inv c c1 ih hh
  | adjust c c1 _ ha ih => exact adjust_inv c c1 ih ha

theorem fresh_tree (j : Nat) :
    (if BACK j < 1 ∧ 1 ≤ j ∧ j < 8 then uadd 0 (2 ^ 27) else 0) =
      (if j = 1 ∨ j = 2 ∨ j = 4 then 2 ^ 27 else 0) := by
  by_cases hj : j < 8
  · interval_cases j <;> decide
  · rw [if_neg (by omega), if_neg (by omega)]

theorem create_fresh : create_context 27 3 DYNAMIC = Except.ok fresh_context := by
  have hr : round_up (3 + 2) (3 + 2) 1 = 8 := by decide
  have hW : (2 : Nat) ^ 27 % W = 2 ^ 27 := by decide
  have hu : uadd 0 (2 ^ 27) = 2 ^ 27 := by decide
  have hd : usub (2 ^ 27) 0 = 2 ^ 27 := by decide
  have hne : (2 : Nat) ^ 27 ≠ 0 := by decide
  obtain ⟨c1, hc1, ht, hm, hns, hsg, hi, hty, hlen, his, e1, e2, e3, htree, _⟩ :=
    incr_actual_spec
      { initial_size := 8, max_length := 8, length := 1, nSingletons := 2 ^ 27,
        type := DYNAMIC, nSymbols := 1, total := 0, tree := fun _ => 0, incr := 2 ^ 27,
        most_freq_symbol := -1, most_freq_count := 0, most_freq_pos := 0 }
      1 (2 ^ 27) (by decide) (by decide) (by decide)
  simp only [create_context, hr, init_zero_freq, if_true, adjust_zero_freq, hW, hu, hd, hne,
    ne_eq, not_false_eq_true, incr_symbol_prob, hc1, bind, Except.bind, pure, Except.pure]
  congr 1
  have ha : ¬ ((1 : Nat) : Int) = c1.most_freq_symbol := by
    rw [e1]
    decide
  have hb : uadd (usub 0 0) (2 ^ 27) > c1.most_freq_count := by
    rw [e2]
    decide
  simp only [incr_symbol_prob_mps, ha, if_false, hb, if_true]
  cases c1 with
  | mk a1 a2 a3 a4 a5 a6 a7 a8 a9 a10 a11 a12 =>
    simp only at ht hm hns hsg hi hty hlen his htree
    subst ht hm hns hsg hi hty hlen his
    have h8 : a8 = fresh_context.tree := by
      funext j
      rw [htree j]
      exact fresh_tree j
    subst h8
    rfl

/-! ## Bit strings and the code value -/

theorem bits_val_lt : ∀ l : List Bool, bits_val l < 2 ^ l.length := by
  intro l
  induction l with
  | nil => simp [bits_val]
  | cons b rest ih =>
    simp only [bits_val, List.length_cons, pow_succ]
    split <;> omega

theorem bits_val_append : ∀ a b : List Bool,
    bits_val (a ++ b) = bits_val a * 2 ^ b.length + bits_val b := by
  intro a b
  induction a with
  | nil => simp [bits_val]
  | cons x rest ih =>
    show bits_val (x :: (rest ++ b)) = bits_val (x :: rest) * 2 ^ b.length + bits_val b
    rw [bits_val, bits_val, ih, List.length_append, pow_add]
    ring

theorem bits_val_replicate_false : ∀ n : Nat, bits_val (List.replicate n false) = 0 := by
  intro n
  induction n with
  | zero => rfl
  | succ n ih => simp [List.replicate_succ, bits_val, ih]

theorem bits_val_replicate_true : ∀ n : Nat, bits_val (List.replicate n true) = 2 ^ n - 1 := by
  intro n
  induction n with
  | zero => rfl
  | succ n ih =>
    have hp : 0 < 2 ^ n := by positivity
    simp only [List.replicate_succ, bits_val, ih, List.length_replicate, if_true, pow_succ]
    omega

theorem bits_val_take (l : List Bool) (m : Nat) :
    bits_val (l.take m) = bits_val l / 2 ^ (l.length - m) := by
  have h := bits_val_append (l.take m) (l.drop m)
  rw [List.take_append_drop, List.length_drop] at h
  have hlt := bits_val_lt (l.drop m)
  rw [List.length_drop] at hlt
  have hp : 0 < 2 ^ (l.length - m) := by positivity
  rw [h, Nat.add_comm, Nat.add_mul_div_right _ _ hp, Nat.div_eq_of_lt hlt, Nat.zero_add]

theorem bits_val_snoc (l : List Bool) (b : Bool) :
    bits_val (l ++ [b]) = 2 * bits_val l + (if b then 1 else 0) := by
  rw [bits_val_append]
  simp [bits_val]
  ring

theorem follow_true (e : encoder) :
    bits_val (BIT_PLUS_FOLLOW e true).output =
        (2 * bits_val e.output + 1) * 2 ^ e.out_bits_outstanding ∧
      (BIT_PLUS_FOLLOW e true).output.length = e.output.length + 1 + e.out_bits_outstanding := by
  simp only [BIT_PLUS_FOLLOW, bits_val_append, List.length_cons, List.length_replicate, bits_val,
    if_true, Bool.not_true, bits_val_replicate_false, List.length_append, pow_succ]
  constructor
  · ring
  · omega

theorem follow_false (e : encoder) :
    bits_val (BIT_PLUS_FOLLOW e false).output =
        2 * bits_val e.output * 2 ^ e.out_bits_outstanding + (2 ^ e.out_bits_outstanding - 1) ∧
      (BIT_PLUS_FOLLOW e false).output.length = e.output.length + 1 + e.out_bits_outstanding := by
  simp only [BIT_PLUS_FOLLOW, bits_val_append, List.length_cons, List.length_replicate, bits_val,
    Bool.false_eq_true, if_false, Bool.not_false, bits_val_replicate_true, List.length_append,
    pow_succ]
  constructor
  · ring
  · omega

/-! ## The encoder keeps the code value -/

theorem renorm_arith_hi (E O P L : Nat) (hO : 1 ≤ O) (hL : P ≤ L) :
    (2 * E + 1) * O * (2 * P) + 2 * (L - P) = 2 * (E * (O * (2 * P)) + (O - 1) * P + L) := by
  obtain ⟨O1, rfl⟩ : ∃ O1, O = O1 + 1 := ⟨O - 1, by omega⟩
  obtain ⟨L1, rfl⟩ : ∃ L1, L = P + L1 := ⟨L - P, by omega⟩
  simp only [Nat.add_sub_cancel, Nat.add_sub_cancel_left]
  ring

theorem renorm_arith_lo (E O P L : Nat) (hO : 1 ≤ O) :
    (2 * E * O + (O - 1)) * (2 * P) + 2 * L = 2 * (E * (O * (2 * P)) + (O - 1) * P + L) := by
  obtain ⟨O1, rfl⟩ : ∃ O1, O = O1 + 1 := ⟨O - 1, by omega⟩
  simp only [Nat.add_sub_cancel]
  ring

theorem renorm_arith_mid (E O Q L : Nat) (hO : 1 ≤ O) (hL : Q ≤ L) :
    E * (O * 2 * (2 * (2 * Q))) + (O * 2 - 1) * (2 * Q) + 2 * (L - Q) =
      2 * (E * (O * (2 * (2 * Q))) + (O - 1) * (2 * Q) + L) := by
  obtain ⟨O1, rfl⟩ : ∃ O1, O = O1 + 1 := ⟨O - 1, by omega⟩
  obtain ⟨L1, rfl⟩ : ∃ L1, L = Q + L1 := ⟨L - Q, by omega⟩
  have h : (O1 + 1) * 2 - 1 = 2 * O1 + 1 := by omega
  simp only [Nat.add_sub_cancel, Nat.add_sub_cancel_left, h]
  ring

theorem ENCODE_RENORMALISE_succ (B fuel : Nat) (e : encoder) :
    ENCODE_RENORMALISE B (fuel + 1) e =
      if e.out_R ≤ Quarter B then ENCODE_RENORMALISE B fuel (encode_step B e) else pure e := rfl

theorem pow_facts (B : Nat) (hB : 2 ≤ B) (hB64 : B ≤ 64) :
    Half B = 2 * Quarter B ∧ 2 ^ B = 2 * Half B ∧ 0 < Quarter B ∧ 2 ^ B ≤ W := by
  obtain ⟨b, rfl⟩ : ∃ b, B = b + 2 := ⟨B - 2, by omega⟩
  have h1 : (2 : Nat) ^ (b + 2) ≤ 2 ^ 64 := Nat.pow_le_pow_right (by norm_num) hB64
  refine ⟨?_, ?_, by unfold Quarter; positivity, by unfold W; omega⟩
  · simp only [Half, Quarter, Nat.add_sub_cancel]
    rw [show b + 2 - 1 = b + 1 by omega, pow_succ]
    ring
  · simp only [Half]
    rw [show b + 2 - 1 = b + 1 by omega, pow_succ 2 (b + 1)]
    ring

theorem absval_eq (B : Nat) (hB : 2 ≤ B) (hB64 : B ≤ 64) (e : encoder) :
    absval B e =
      bits_val e.output * (2 ^ e.out_bits_outstanding * (2 * Half B)) +
        (2 ^ e.out_bits_outstanding - 1) * Half B + e.out_L := by
  obtain ⟨_, h2, _, _⟩ := pow_facts B hB hB64
  unfold absval
  rw [pow_add, h2]
  rfl

theorem encode_step_spec (B : Nat) (hB : 2 ≤ B) (hB64 : B ≤ 64) (e : encoder)
    (hR : 0 < e.out_R) (hRQ : e.out_R ≤ Quarter B) (hLR : e.out_L + e.out_R ≤ 2 ^ B)
    (ho : e.out_bits_outstanding + 1 < W) :
    absval B (encode_step B e) = 2 * absval B e ∧ (encode_step B e).out_R = 2 * e.out_R ∧
      nshift (encode_step B e) = nshift e + 1 ∧
      (encode_step B e).out_L + (encode_step B e).out_R ≤ 2 ^ B ∧
      (encode_step B e).out_bits_outstanding ≤ e.out_bits_outstanding + 1 := by
  obtain ⟨h1, h2, h3, h4⟩ := pow_facts B hB hB64
  have hO : 1 ≤ 2 ^ e.out_bits_outstanding := Nat.one_le_two_pow
  have hR2 : (e.out_R * 2) % W = 2 * e.out_R := by
    rw [Nat.mod_eq_of_lt (by omega)]
    omega
  by_cases hA : e.out_L ≥ Half B
  · have hL2 : (usub e.out_L (Half B) * 2) % W = 2 * (e.out_L - Half B) := by
      have : usub e.out_L (Half B) = e.out_L - Half B := by
        simp only [usub, W] at *
        omega
      rw [this, Nat.mod_eq_of_lt (by omega)]
      omega
    have hs : encode_step B e =
        { out_L := 2 * (e.out_L - Half B), out_R := 2 * e.out_R, out_bits_outstanding := 0,
          output := (BIT_PLUS_FOLLOW e true).output } := by
      simp only [encode_step, hA, if_true, BIT_PLUS_FOLLOW, hL2, hR2]
    obtain ⟨f1, f2⟩ := follow_true e
    rw [hs, absval_eq B hB hB64, absval_eq B hB hB64 e]
    simp only [f1, nshift, f2, pow_zero, Nat.sub_self, Nat.zero_mul, Nat.add_zero, Nat.one_mul]
    refine ⟨?_, trivial, by omega, by omega, by omega⟩
    exact renorm_arith_hi _ _ _ _ hO hA
  · by_cases hBc : uadd e.out_L e.out_R ≤ Half B
    · have hu : uadd e.out_L e.out_R = e.out_L + e.out_R := by
        simp only [uadd]
        exact Nat.mod_eq_of_lt (by omega)
      have hL2 : (e.out_L * 2) % W = 2 * e.out_L := by
        rw [Nat.mod_eq_of_lt (by omega)]
        omega
      have hs : encode_step B e =
          { out_L := 2 * e.out_L, out_R := 2 * e.out_R, out_bits_outstanding := 0,
            output := (BIT_PLUS_FOLLOW e false).output } := by
        simp only [encode_step, hA, if_false, hBc, if_true, BIT_PLUS_FOLLOW, hL2, hR2]
      obtain ⟨f1, f2⟩ := follow_false e
      rw [hs, absval_eq B hB hB64, absval_eq B hB hB64 e]
      simp only [f1, nshift, f2, pow_zero, Nat.sub_self, Nat.zero_mul, Nat.add_zero, Nat.one_mul]
      refine ⟨?_, trivial, by omega, by omega, by omega⟩
      exact renorm_arith_lo _ _ _ _ hO
    · have hu : uadd e.out_L e.out_R = e.out_L + e.out_R := by
        simp only [uadd]
        exact Nat.mod_eq_of_lt (by omega)
      rw [hu] at hBc
      have hQ : Quarter B ≤ e.out_L := by omega
      have hL2 : (usub e.out_L (Quarter B) * 2) % W = 2 * (e.out_L - Quarter B) := by
        have : usub e.out_L (Quarter B) = e.out_L - Quarter B := by
          simp only [usub, W] at *
          omega
        rw [this, Nat.mod_eq_of_lt (by omega)]
        omega
      have ho1 : uadd e.out_bits_outstanding 1 = e.out_bits_outstanding + 1 := by
        simp only [uadd]
        exact Nat.mod_eq_of_lt ho
      have hs : encode_step B e =
          { out_L := 2 * (e.out_L - Quarter B), out_R := 2 * e.out_R,
            out_bits_outstanding := e.out_bits_outstanding + 1, output := e.output } := by
        simp only [encode_step, hA, if_false, hu, hBc, hL2, hR2, ho1]
      rw [hs, absval_eq B hB hB64, absval_eq B hB hB64 e]
      simp only [nshift, pow_succ, h1]
      refine ⟨?_, trivial, by omega, by omega, by omega⟩
      exact renorm_arith_mid _ _ _ _ hO hQ

/-- While the range is at most `Quarter`, `Half / R` is at least 2 and halves
with each pass. -/
theorem renorm_budget (B : Nat) (e : encoder) (hR : 0 < e.out_R) (hq : 2 * e.out_R ≤ Half B) :
    2 ≤ Half B / e.out_R ∧ Half B / (2 * e.out_R) = Half B / e.out_R / 2 := by
  refine ⟨(Nat.le_div_iff_mul_le hR).2 hq, ?_⟩
  rw [Nat.div_div_eq_div_mul, Nat.mul_comm]

theorem encode_renorm_spec (B : Nat) (hB : 2 ≤ B) (hB64 : B ≤ 64) :
    ∀ fuel : Nat, ∀ e e1 : encoder, ENCODE_RENORMALISE B fuel e = Except.ok e1 →
      0 < e.out_R → e.out_R ≤ Half B → e.out_L + e.out_R ≤ 2 ^ B →
      e.out_bits_outstanding + Half B / e.out_R ≤ W →
      ∃ j, absval B e1 = 2 ^ j * absval B e ∧ e1.out_R = 2 ^ j * e.out_R ∧
        nshift e1 = nshift e + j ∧ e1.out_L + e1.out_R ≤ 2 ^ B ∧ Quarter B < e1.out_R ∧
        e1.out_R ≤ Half B ∧ (∀ i, i < j → 2 ^ i * e.out_R ≤ Quarter B) ∧ j < fuel := by
  obtain ⟨h1, h2, h3, h4⟩ := pow_facts B hB hB64
  intro fuel
  induction fuel with
  | zero =>
    intro e e1 h
    cases h
  | succ f ih =>
    intro e e1 h hR hRH hLR ho
    rw [ENCODE_RENORMALISE_succ] at h
    by_cases hq : e.out_R ≤ Quarter B
    · rw [if_pos hq] at h
      obtain ⟨g1, g2⟩ := renorm_budget B e hR (by omega)
      obtain ⟨s1, s2, s3, s4, s5⟩ := encode_step_spec B hB hB64 e hR hq hLR (by omega)
      obtain ⟨j, r1, r2, r3, r4, r5, r6, r7, r8⟩ :=
        ih (encode_step B e) e1 h (by omega) (by omega) s4 (by rw [s2]; omega)
      refine ⟨j + 1, ?_, ?_, by omega, r4, r5, r6, ?_, by omega⟩
      · rw [r1, s1, pow_succ]
        ring
      · rw [r2, s2, pow_succ]
        ring
      · intro i hi
        cases i with
        | zero => simpa using hq
        | succ i =>
          have := r7 i (by omega)
          rw [s2] at this
          rw [pow_succ]
          calc 2 ^ i * 2 * e.out_R = 2 ^ i * (2 * e.out_R) := by ring
            _ ≤ Quarter B := this
    · rw [if_neg hq] at h
      cases h
      exact ⟨0, by simp, by simp, by simp, hLR, by omega, hRH, fun i hi => by omega, by omega⟩

theorem encode_renorm_total (B : Nat) (hB : 2 ≤ B) (hB64 : B ≤ 64) :
    ∀ k fuel : Nat, ∀ e : encoder, Quarter B < 2 ^ k * e.out_R → k < fuel →
      0 < e.out_R → e.out_R ≤ Half B → e.out_L + e.out_R ≤ 2 ^ B →
      e.out_bits_outstanding + Half B / e.out_R ≤ W →
      ∃ e1, ENCODE_RENORMALISE B fuel e = Except.ok e1 := by
  obtain ⟨h1, h2, h3, h4⟩ := pow_facts B hB hB64
  intro k
  induction k with
  | zero =>
    intro fuel e hk hf hR hRH hLR ho
    obtain ⟨f, rfl⟩ : ∃ f, fuel = f + 1 := ⟨fuel - 1, by omega⟩
    rw [ENCODE_RENORMALISE_succ, if_neg (by simpa using hk)]
    exact ⟨e, rfl⟩
  | succ k ih =>
    intro fuel e hk hf hR hRH hLR ho
    obtain ⟨f, rfl⟩ : ∃ f, fuel = f + 1 := ⟨fuel - 1, by omega⟩
    rw [ENCODE_RENORMALISE_succ]
    by_cases hq : e.out_R ≤ Quarter B
    · rw [if_pos hq]
      obtain ⟨g1, g2⟩ := renorm_budget B e hR (by omega)
      obtain ⟨s1, s2, s3, s4, s5⟩ := encode_step_spec B hB hB64 e hR hq hLR (by omega)
      refine ih f (encode_step B e) ?_ (by omega) (by omega) (by omega) s4 (by rw [s2]; omega)
      rw [s2]
      calc Quarter B < 2 ^ (k + 1) * e.out_R := hk
        _ = 2 ^ k * (2 * e.out_R) := by rw [pow_succ]; ring
    · rw [if_neg hq]
      exact ⟨e, rfl⟩

theorem narrow_sub_range (L R low high total : Nat) (ht : 1 ≤ total) (htR : total ≤ R)
    (hR : R < W) (hLR : L + R ≤ W) (hlh : low < high) (hh : high ≤ total) :
    arithmetic_encode_narrow L R low high total =
        (L + (sub_range R low high total).1, (sub_range R low high total).2) ∧
      0 < (sub_range R low high total).2 ∧
      (sub_range R low high total).1 + (sub_range R low high total).2 ≤ R := by
  obtain ⟨h1, h2⟩ := narrow_eq L R low high total ht htR hR hLR hlh hh
  have hrt : R / total * total ≤ R := Nat.div_mul_le_self R total
  have h3 : R / total * high ≤ R / total * total := Nat.mul_le_mul_left _ hh
  have h4 : R / total * low < R / total * high :=
    Nat.mul_lt_mul_of_pos_left hlh ((Nat.le_div_iff_mul_le (by omega)).mpr (by omega))
  have h5 : R / total * (high - low) = R / total * high - R / total * low := Nat.mul_sub _ _ _
  rw [h1]
  simp only [sub_range]
  by_cases hc : high < total
  · simp only [hc, if_true] at h2 ⊢
    rw [h5]
    refine ⟨?_, by omega, by omega⟩
    congr 1
    omega
  · simp only [hc, if_false] at h2 ⊢
    refine ⟨?_, by omega, by omega⟩
    congr 1
    omega

theorem absval_add (B : Nat) (e : encoder) (x w : Nat) :
    absval B { e with out_L := e.out_L + x, out_R := w } = absval B e + x := by
  simp only [absval]
  omega

theorem arithmetic_encode_spec (B F : Nat) (hB : 2 ≤ B) (hB64 : B ≤ 64) (hF : F + 2 ≤ B)
    (e e1 : encoder) (hok : enc_ok B e) (low high total fuel : Nat) (hlh : low < high)
    (hh : high ≤ total) (ht : total ≤ 2 ^ F)
    (h : arithmetic_encode B fuel e low high total = Except.ok e1) :
    enc_ok B e1 ∧
      0 < (sub_range e.out_R low high total).2 ∧
      (sub_range e.out_R low high total).1 + (sub_range e.out_R low high total).2 ≤ e.out_R ∧
      ∃ j, absval B e1 = 2 ^ j * (absval B e + (sub_range e.out_R low high total).1) ∧
        e1.out_R = 2 ^ j * (sub_range e.out_R low high total).2 ∧
        nshift e1 = nshift e + j ∧
        (∀ i, i < j → 2 ^ i * (sub_range e.out_R low high total).2 ≤ Quarter B) ∧
        j < fuel := by
  obtain ⟨h1, h2, h3, h4⟩ := pow_facts B hB hB64
  obtain ⟨k1, k2, k3, k4⟩ := hok
  have hFQ : 2 ^ F ≤ Quarter B := Nat.pow_le_pow_right (by norm_num) (by omega)
  have hM : MAX_BITS_OUTSTANDING = 2 ^ 31 := rfl
  have hne : ¬ total = 0 := by omega
  obtain ⟨n1, n2, n3⟩ := narrow_sub_range e.out_L e.out_R low high total (by omega) (by omega)
    (by omega) (by omega) hlh hh
  unfold arithmetic_encode at h
  simp only [if_neg hne, n1] at h
  obtain ⟨e2, h5, h6⟩ := bind_ok _ _ _ h
  have hW : e.out_bits_outstanding + Half B / (sub_range e.out_R low high total).2 ≤ W := by
    have := Nat.div_le_self (Half B) (sub_range e.out_R low high total).2
    simp only [W] at *
    omega
  obtain ⟨j, r1, r2, r3, r4, r5, r6, r7, r8⟩ :=
    encode_renorm_spec B hB hB64 fuel _ e2 h5 n2 (by simp only; omega) (by simp only; omega) hW
  by_cases hab : e2.out_bits_outstanding > MAX_BITS_OUTSTANDING
  · rw [if_pos hab] at h6
    cases h6
  · rw [if_neg hab] at h6
    cases h6
    rw [absval_add] at r1
    refine ⟨⟨r5, r6, r4, by omega⟩, n2, n3, j, r1, r2, r3, r7, r8⟩

/-! ## The probe loop of `find_digram` -/

theorem probe_path_add (cfg : Config) (jump : Nat) (a b i : Nat) :
    probe_path cfg jump i (a + b) = probe_path cfg jump (probe_path cfg jump i a) b := by
  induction a generalizing i with
  | zero => simp [probe_path]
  | succ a ih =>
    rw [show a + 1 + b = (a + b) + 1 by omega, probe_path, probe_path, ih]

theorem probe_path_succ (cfg : Config) (jump : Nat) (k i : Nat) :
    probe_path cfg jump i (k + 1) = (probe_path cfg jump i k + jump) % cfg.table_size := by
  rw [probe_path_add cfg jump k 1 i]
  rfl

theorem probe_path_lt (cfg : Config) (jump : Nat) (hts : 0 < cfg.table_size) (k i : Nat) :
    probe_path cfg jump i (k + 1) < cfg.table_size := by
  rw [probe_path_succ]
  exact Nat.mod_lt _ hts

/-- The index sequence repeats within `table_size + 1` passes. -/
theorem probe_path_repeat (cfg : Config) (jump : Nat) (hts : 0 < cfg.table_size) (i : Nat) :
    ∃ a b, 1 ≤ a ∧ a < b ∧ b ≤ cfg.table_size + 1 ∧
      probe_path cfg jump i a = probe_path cfg jump i b := by
  have hcard : (Finset.range cfg.table_size).card < (Finset.Icc 1 (cfg.table_size + 1)).card := by
    simp
  have hmap : ∀ a ∈ Finset.Icc 1 (cfg.table_size + 1),
      probe_path cfg jump i a ∈ Finset.range cfg.table_size := by
    intro a ha
    rw [Finset.mem_Icc] at ha
    rw [Finset.mem_range]
    obtain ⟨a', rfl⟩ : ∃ a', a = a' + 1 := ⟨a - 1, by omega⟩
    exact probe_path_lt cfg jump hts a' i
  obtain ⟨x, hx, y, hy, hne, hxy⟩ :=
    Finset.exists_ne_map_eq_of_card_lt_of_maps_to hcard hmap
  rw [Finset.mem_Icc] at hx hy
  rcases Nat.lt_or_gt_of_ne hne with h | h
  · exact ⟨x, y, hx.1, h, hy.2, hxy⟩
  · exact ⟨y, x, hy.1, h, hx.2, hxy.symm⟩

/-- A cell visited after more than `table_size` passes was visited earlier. -/
theorem probe_path_earlier (cfg : Config) (jump : Nat) (hts : 0 < cfg.table_size) (i k : Nat)
    (hk : cfg.table_size < k) :
    ∃ k', k' < k ∧ probe_path cfg jump i k' = probe_path cfg jump i k := by
  obtain ⟨a, b, _, hab, hb, he⟩ := probe_path_repeat cfg jump hts i
  refine ⟨k - (b - a), by omega, ?_⟩
  have e1 : k - (b - a) = a + (k - b) := by omega
  have e2 : k = b + (k - b) := by omega
  rw [e1, probe_path_add]
  conv_rhs => rw [e2, probe_path_add]
  rw [he]

theorem key_of_ok (g : Grammar) (x : Nat) (ky : Nat × Nat) (h : key_of g x = Except.ok ky) :
    ∃ v n, deref g x = Except.ok v ∧ deref g v.n = Except.ok n ∧ ky = (v.s, n.s) := by
  unfold key_of at h
  cases hv : deref g x with
  | error e => rw [hv] at h; cases h
  | ok v =>
    rw [hv] at h
    cases hn : deref g v.n with
    | error e =>
      simp only [bind, Except.bind, hn] at h
      cases h
    | ok n =>
      simp only [bind, Except.bind, hn, pure, Except.pure] at h
      exact ⟨v, n, rfl, hn, (Except.ok.inj h).symm⟩

theorem key_of_eq (g : Grammar) (x : Nat) (v n : symbols) (hv : deref g x = Except.ok v)
    (hn : deref g v.n = Except.ok n) : key_of g x = Except.ok (v.s, n.s) := by
  unfold key_of
  rw [hv]
  simp only [bind, Except.bind, hn, pure, Except.pure]

/-- One pass of the probe loop over a cell that is not null and does not match. -/
theorem probe_pass (cfg : Config) (g : Grammar) (one two jump fuel i : Nat) (ins : Option Nat)
    (h : passes_cell g (one, two) (g.table i)) :
    probe cfg g one two jump (fuel + 1) i ins =
      probe cfg g one two jump fuel ((i + jump) % cfg.table_size)
        (if g.table i = 1 then some i else ins) := by
  rw [probe]
  rcases h with h1 | ⟨h2, ky', hk, hne⟩
  · simp only [h1, if_true]
    rw [if_neg (by decide)]
  · obtain ⟨v, n, hv, hn, rfl⟩ := key_of_ok g _ _ hk
    have hm0 : g.table i ≠ 0 := by omega
    have hm1 : g.table i ≠ 1 := by omega
    rw [if_neg hm0, if_neg hm1, if_neg hm1, hv]
    simp only [bind, Except.bind, hn]
    have hnm : ¬ (v.s = one ∧ n.s = two) := by
      intro hc
      apply hne
      rw [hc.1, hc.2]
    rw [if_neg hnm]

/-- The probe loop returns the index of a matching cell. -/
theorem probe_match (cfg : Config) (g : Grammar) (one two jump fuel i : Nat) (ins : Option Nat)
    (h : matches_cell g (one, two) (g.table i)) :
    probe cfg g one two jump (fuel + 1) i ins = Except.ok i := by
  rw [probe]
  obtain ⟨h2, hk⟩ := h
  obtain ⟨v, n, hv, hn, he⟩ := key_of_ok g _ _ hk
  have hm0 : g.table i ≠ 0 := by omega
  have hm1 : g.table i ≠ 1 := by omega
  rw [if_neg hm0, if_neg hm1, hv]
  simp only [bind, Except.bind, hn]
  have hnm : v.s = one ∧ n.s = two := by
    have e1 := congrArg Prod.fst he
    have e2 := congrArg Prod.snd he
    simp only at e1 e2
    exact ⟨e1.symm, e2.symm⟩
  rw [if_pos hnm]
  rfl

/-- The probe loop returns the remembered cell, or the null cell, at a null cell. -/
theorem probe_null (cfg : Config) (g : Grammar) (one two jump fuel i : Nat) (ins : Option Nat)
    (h : g.table i = 0) :
    probe cfg g one two jump (fuel + 1) i ins = Except.ok (ins.getD i) := by
  rw [probe]
  simp only [h, if_true]
  rfl

/-- The loop over `n` cells that are passed over. -/
theorem probe_skip (cfg : Config) (g : Grammar) (one two jump : Nat) (n : Nat) :
    ∀ (fuel i : Nat) (ins : Option Nat),
      (∀ j, j < n → passes_cell g (one, two) (g.table (probe_path cfg jump i j))) →
      probe cfg g one two jump (fuel + n) i ins =
        probe cfg g one two jump fuel (probe_path cfg jump i n) (last_insert cfg g jump i n ins) := by
  induction n with
  | zero => intro fuel i ins _; rfl
  | succ n ih =>
    intro fuel i ins h
    rw [show fuel + (n + 1) = (fuel + n) + 1 by omega, probe_pass cfg g one two jump _ i ins (h 0 (by omega))]
    rw [ih fuel _ _ (fun j hj => by
      have := h (j + 1) (by omega)
      rw [probe_path] at this
      exact this)]
    rfl

theorem last_insert_none (cfg : Config) (g : Grammar) (jump : Nat) (n : Nat) :
    ∀ (i : Nat) (ins : Option Nat),
      (∀ j, j < n → g.table (probe_path cfg jump i j) ≠ 1) →
      last_insert cfg g jump i n ins = ins := by
  induction n with
  | zero => intro i ins _; rfl
  | succ n ih =>
    intro i ins h
    have h0 : g.table i ≠ 1 := h 0 (by omega)
    rw [last_insert, if_neg h0]
    exact ih _ _ (fun j hj => by
      have := h (j + 1) (by omega)
      rw [probe_path] at this
      exact this)

/-- After the loop `insert` is the last tombstone passed. -/
theorem last_insert_spec (cfg : Config) (g : Grammar) (jump : Nat) (n : Nat) :
    ∀ (i m : Nat) (ins : Option Nat), m < n → g.table (probe_path cfg jump i m) = 1 →
      (∀ j, m < j → j < n → g.table (probe_path cfg jump i j) ≠ 1) →
      last_insert cfg g jump i n ins = some (probe_path cfg jump i m) := by
  induction n with
  | zero => intro i m ins hm; omega
  | succ n ih =>
    intro i m ins hm ht hlast
    rw [last_insert]
    cases m with
    | zero =>
      rw [probe_path] at ht
      rw [if_pos ht, probe_path]
      exact last_insert_none cfg g jump n _ _ (fun j hj => by
        have := hlast (j + 1) (by omega) (by omega)
        rw [probe_path] at this
        exact this)
    | succ m =>
      rw [probe_path] at ht ⊢
      exact ih _ m _ (by omega) ht (fun j hj1 hj2 => by
        have := hlast (j + 1) (by omega) (by omega)
        rw [probe_path] at this
        exact this)

/-- A remembered cell is a tombstone, so a returned live cell is a match. -/
theorem probe_live (cfg : Config) (g : Grammar) (one two jump : Nat) (fuel : Nat) :
    ∀ (i : Nat) (ins : Option Nat) (r : Nat), (∀ j, ins = some j → g.table j = 1) →
      probe cfg g one two jump fuel i ins = Except.ok r → 2 ≤ g.table r →
      matches_cell g (one, two) (g.table r) := by
  induction fuel with
  | zero => intro i ins r _ h; rw [probe] at h; cases h
  | succ fuel ih =>
    intro i ins r hins h hr
    rw [probe] at h
    by_cases h0 : g.table i = 0
    · rw [if_pos h0] at h
      have e : r = ins.getD i := (Except.ok.inj h).symm
      cases ins with
      | none => simp only [Option.getD] at e; rw [e, h0] at hr; omega
      | some j => simp only [Option.getD] at e; rw [e, hins j rfl] at hr; omega
    · rw [if_neg h0] at h
      by_cases h1 : g.table i = 1
      · rw [if_pos h1] at h
        exact ih _ _ r (fun j hj => by rw [← Option.some.inj hj]; exact h1) h hr
      · rw [if_neg h1] at h
        cases hv : deref g (g.table i) with
        | error e => rw [hv] at h; cases h
        | ok v =>
          rw [hv] at h
          cases hn : deref g v.n with
          | error e => simp only [bind, Except.bind, hn] at h; cases h
          | ok n =>
            simp only [bind, Except.bind, hn] at h
            by_cases hm : v.s = one ∧ n.s = two
            · rw [if_pos hm] at h
              have e : r = i := (Except.ok.inj h).symm
              rw [e]
              refine ⟨by omega, ?_⟩
              rw [key_of_eq g _ v n hv hn, hm.1, hm.2]
            · rw [if_neg hm] at h
              exact ih _ _ r hins h hr

/-- The call of the probe loop in `find_digram`. -/
theorem find_digram_eq (cfg : Config) (g : Grammar) (s : Nat) (ky : Nat × Nat)
    (hk : key_of g s = Except.ok ky) (hd : has_delimiter cfg g s = Except.ok false) :
    find_digram cfg g s =
      (probe cfg g ky.1 ky.2 ((17 - ky.1 % 17) * cfg.K) (cfg.table_size + 1)
        (hashIndex cfg ky.1 ky.2) none).map some := by
  obtain ⟨v, n, hv, hn, rfl⟩ := key_of_ok g s ky hk
  unfold has_delimiter at hd
  rw [hv] at hd
  simp only [bind, Except.bind, hn, pure, Except.pure] at hd
  have hd2 := Except.ok.inj hd
  rw [decide_eq_false_iff_not] at hd2
  unfold find_digram
  rw [hv]
  simp only [bind, Except.bind, hn]
  rw [if_neg hd2]
  cases probe cfg g v.s n.s ((17 - v.s % 17) * cfg.K) (cfg.table_size + 1)
      (hashIndex cfg v.s n.s) none <;> rfl

/-- A result of `find_digram` comes from the probe loop. -/
theorem find_digram_some (cfg : Config) (g : Grammar) (s i : Nat)
    (h : find_digram cfg g s = Except.ok (some i)) :
    ∃ ky, key_of g s = Except.ok ky ∧
      probe cfg g ky.1 ky.2 ((17 - ky.1 % 17) * cfg.K) (cfg.table_size + 1)
        (hashIndex cfg ky.1 ky.2) none = Except.ok i := by
  unfold find_digram at h
  cases hv : deref g s with
  | error e => rw [hv] at h; cases h
  | ok v =>
    rw [hv] at h
    cases hn : deref g v.n with
    | error e => simp only [bind, Except.bind, hn] at h; cases h
    | ok n =>
      simp only [bind, Except.bind, hn] at h
      refine ⟨(v.s, n.s), key_of_eq g s v n hv hn, ?_⟩
      split at h
      · cases h
      · cases hp : probe cfg g v.s n.s ((17 - v.s % 17) * cfg.K) (cfg.table_size + 1)
            (hashIndex cfg v.s n.s) none with
        | error e => rw [hp] at h; cases h
        | ok r =>
          rw [hp] at h
          simp only [pure, Except.pure] at h
          have := Option.some.inj (Except.ok.inj h)
          rw [this]

/-- The probe loop reaches the first cell that ends it within its fuel. -/
theorem probe_reach (cfg : Config) (g : Grammar) (one two jump i n : Nat)
    (hts : 0 < cfg.table_size)
    (hpass : ∀ j, j < n → passes_cell g (one, two) (g.table (probe_path cfg jump i j)))
    (hend : ¬ passes_cell g (one, two) (g.table (probe_path cfg jump i n))) :
    n ≤ cfg.table_size ∧
      probe cfg g one two jump (cfg.table_size + 1) i none =
        probe cfg g one two jump (cfg.table_size - n + 1) (probe_path cfg jump i n)
          (last_insert cfg g jump i n none) := by
  have hn : n ≤ cfg.table_size := by
    by_contra hc
    obtain ⟨k', hk', he⟩ := probe_path_earlier cfg jump hts i n (by omega)
    have := hpass k' hk'
    rw [he] at this
    exact hend this
  refine ⟨hn, ?_⟩
  rw [← probe_skip cfg g one two jump n _ i none hpass]
  congr 1
  omega
/-! ## The shift/add loops of `arith.c` -/

theorem min_shift (x c : Nat) (hc : 0 < c) (hx : c ≤ x) :
    c + min (x - c) (c - 1) = min x (2 * c - 1) := by
  rcases Nat.le_total (x - c) (c - 1) with h | h
  · rw [Nat.min_eq_left h, Nat.min_eq_left (by omega)]; omega
  · rw [Nat.min_eq_right h, Nat.min_eq_right (by omega)]; omega

theorem sub_mul_div_pow (A M k : Nat) (hA : M ≤ A) :
    (A - M) * k / M = A * k / M - k := by
  have e : (A - M) * k = A * k - M * k := Nat.sub_mul A M k
  rw [e, Nat.sub_mul_div]
  exact Nat.mul_le_mul_right k hA

/-- The division loop computes the quotient, capped at the largest value of
`i + 1` bits. -/
theorem divide_shift_loop_spec (M : Nat) (hM : 0 < M) (hM2 : 2 * M ≤ W) :
    ∀ (i A q : Nat), (A < 2 * M ∨ A * 2 ^ i < W) → A < W → q * 2 ^ i + 2 ^ (i + 1) ≤ W →
      divide_shift_loop M i A q = q * 2 ^ i + min (A * 2 ^ i / M) (2 ^ (i + 1) - 1) := by
  intro i
  induction i with
  | zero =>
    intro A q _ hA hq
    rw [divide_shift_loop]
    simp only [pow_zero, mul_one, zero_add, pow_one] at hq ⊢
    by_cases h : A ≥ M
    · rw [if_pos h]
      have h1 : 1 ≤ A / M := (Nat.one_le_div_iff hM).2 h
      rw [Nat.min_eq_right (by omega)]
      simp only [uadd]
      rw [Nat.mod_eq_of_lt (by omega)]
    · rw [if_neg h]
      have h0 : A / M = 0 := Nat.div_eq_of_lt (by omega)
      rw [h0]
      simp
  | succ i ih =>
    intro A q hcond hA hq
    have hp : 0 < 2 ^ i := by positivity
    have hp1 : 2 ^ (i + 1) = 2 * 2 ^ i := by rw [pow_succ]; ring
    have hp2 : 2 ^ (i + 1 + 1) = 4 * 2 ^ i := by rw [pow_succ, pow_succ]; ring
    rw [divide_shift_loop]
    by_cases h : A ≥ M
    · rw [if_pos h]
      have hs : usub A M = A - M := usub_of_le A M h hA
      have hdbl : (A - M) * 2 < W := by
        rcases hcond with hc | hc
        · omega
        · have : A * 2 ≤ A * 2 ^ (i + 1) := by
            rw [hp1]; nlinarith
          omega
      have hq1 : uadd q 1 = q + 1 := by
        simp only [uadd]
        rw [Nat.mod_eq_of_lt]
        have : q ≤ q * 2 ^ (i + 1) := Nat.le_mul_of_pos_right q (by positivity)
        omega
      have hq2 : (q + 1) * 2 < W := by
        have : q * 2 ≤ q * 2 ^ (i + 1) := by rw [hp1]; nlinarith
        omega
      rw [hs, hq1, Nat.mod_eq_of_lt hdbl, Nat.mod_eq_of_lt hq2]
      rw [ih ((A - M) * 2) ((q + 1) * 2) ?_ hdbl ?_]
      · have e1 : (A - M) * 2 * 2 ^ i = (A - M) * 2 ^ (i + 1) := by rw [hp1]; ring
        rw [e1, sub_mul_div_pow A M _ h]
        have hge : 2 ^ (i + 1) ≤ A * 2 ^ (i + 1) / M := by
          rw [Nat.le_div_iff_mul_le hM]
          calc 2 ^ (i + 1) * M = M * 2 ^ (i + 1) := by ring
            _ ≤ A * 2 ^ (i + 1) := Nat.mul_le_mul_right _ h
        have key := min_shift (A * 2 ^ (i + 1) / M) (2 ^ (i + 1)) (by positivity) hge
        have e2 : 2 * 2 ^ (i + 1) - 1 = 2 ^ (i + 1 + 1) - 1 := by rw [hp2, hp1]; omega
        rw [e2] at key
        rw [← key]
        have e3 : (q + 1) * 2 * 2 ^ i = q * 2 ^ (i + 1) + 2 ^ (i + 1) := by rw [hp1]; ring
        rw [e3]
        omega
      · rcases hcond with hc | hc
        · left; omega
        · right
          have e1 : (A - M) * 2 * 2 ^ i = (A - M) * 2 ^ (i + 1) := by rw [hp1]; ring
          rw [e1]
          have : (A - M) * 2 ^ (i + 1) ≤ A * 2 ^ (i + 1) := Nat.mul_le_mul_right _ (by omega)
          omega
      · have e3 : (q + 1) * 2 * 2 ^ i = q * 2 ^ (i + 1) + 2 ^ (i + 1) := by rw [hp1]; ring
        rw [e3]
        omega
    · rw [if_neg h]
      have hA2 : A * 2 < W := by omega
      have hq2 : q * 2 < W := by
        have : q * 2 ≤ q * 2 ^ (i + 1) := by rw [hp1]; nlinarith
        omega
      rw [Nat.mod_eq_of_lt hA2, Nat.mod_eq_of_lt hq2]
      rw [ih (A * 2) (q * 2) (Or.inl (by omega)) hA2 ?_]
      · have e1 : A * 2 * 2 ^ i = A * 2 ^ (i + 1) := by rw [hp1]; ring
        have e3 : q * 2 * 2 ^ i = q * 2 ^ (i + 1) := by rw [hp1]; ring
        rw [e1, e3]
        have hlt : A * 2 ^ (i + 1) / M < 2 ^ (i + 1) := by
          rw [Nat.div_lt_iff_lt_mul hM]
          calc A * 2 ^ (i + 1) < M * 2 ^ (i + 1) := Nat.mul_lt_mul_of_pos_right (by omega) (by positivity)
            _ = 2 ^ (i + 1) * M := by ring
        rw [Nat.min_eq_left (by omega), Nat.min_eq_left (by omega)]
      · have e3 : q * 2 * 2 ^ i = q * 2 ^ (i + 1) := by rw [hp1]; ring
        rw [e3]
        omega

/-- The loop of `arithmetic_encode` multiplies `low` and `high` by the
quotient while it computes it. -/
theorem encode_shift_loop_spec (M low high : Nat) (hM : 0 < M) (hM2 : 2 * M ≤ W) :
    ∀ (i A t t2 : Nat), A < 2 * M → t * 2 ^ i + A * 2 ^ i / M * low < W →
      t2 * 2 ^ i + A * 2 ^ i / M * high < W →
      (encode_shift_loop M low high i A t t2).2 =
        (t * 2 ^ i + A * 2 ^ i / M * low, t2 * 2 ^ i + A * 2 ^ i / M * high) := by
  intro i
  induction i with
  | zero =>
    intro A t t2 hA ht ht2
    rw [encode_shift_loop]
    simp only [pow_zero, mul_one] at ht ht2 ⊢
    by_cases h : A ≥ M
    · rw [if_pos h]
      have h1 : A / M = 1 := by
        apply Nat.div_eq_of_lt_le
        · omega
        · omega
      rw [h1] at ht ht2 ⊢
      simp only [one_mul] at ht ht2 ⊢
      rw [uadd_of_lt _ _ ht, uadd_of_lt _ _ ht2]
    · rw [if_neg h]
      have h0 : A / M = 0 := Nat.div_eq_of_lt (by omega)
      rw [h0]
      simp
  | succ i ih =>
    intro A t t2 hA ht ht2
    have hp : 0 < 2 ^ i := by positivity
    have hp1 : 2 ^ (i + 1) = 2 * 2 ^ i := by rw [pow_succ]; ring
    rw [encode_shift_loop]
    by_cases h : A ≥ M
    · rw [if_pos h]
      have hAW : A < W := by omega
      have hs : usub A M = A - M := usub_of_le A M h hAW
      have hge : 2 ^ (i + 1) ≤ A * 2 ^ (i + 1) / M := by
        rw [Nat.le_div_iff_mul_le hM]
        calc 2 ^ (i + 1) * M = M * 2 ^ (i + 1) := by ring
          _ ≤ A * 2 ^ (i + 1) := Nat.mul_le_mul_right _ h
      have hq : (A - M) * 2 * 2 ^ i / M = A * 2 ^ (i + 1) / M - 2 ^ (i + 1) := by
        have e1 : (A - M) * 2 * 2 ^ i = (A - M) * 2 ^ (i + 1) := by rw [hp1]; ring
        rw [e1, sub_mul_div_pow A M _ h]
      generalize A * 2 ^ (i + 1) / M = Q at ht ht2 hge hq ⊢
      have hl : 2 ^ (i + 1) * low ≤ Q * low := Nat.mul_le_mul_right _ hge
      have hh : 2 ^ (i + 1) * high ≤ Q * high := Nat.mul_le_mul_right _ hge
      have el : (Q - 2 ^ (i + 1)) * low = Q * low - 2 ^ (i + 1) * low := Nat.sub_mul _ _ _
      have eh : (Q - 2 ^ (i + 1)) * high = Q * high - 2 ^ (i + 1) * high := Nat.sub_mul _ _ _
      have tl : (t + low) * 2 * 2 ^ i = t * 2 ^ (i + 1) + 2 ^ (i + 1) * low := by rw [hp1]; ring
      have th : (t2 + high) * 2 * 2 ^ i = t2 * 2 ^ (i + 1) + 2 ^ (i + 1) * high := by
        rw [hp1]; ring
      have h2 : 2 ≤ 2 ^ (i + 1) := by omega
      have b1 : t * 2 ≤ t * 2 ^ (i + 1) := Nat.mul_le_mul_left t h2
      have b2 : t2 * 2 ≤ t2 * 2 ^ (i + 1) := Nat.mul_le_mul_left t2 h2
      have b3 : 2 * low ≤ 2 ^ (i + 1) * low := Nat.mul_le_mul_right low h2
      have b4 : 2 * high ≤ 2 ^ (i + 1) * high := Nat.mul_le_mul_right high h2
      have c1 : t + low < W := by omega
      have c2 : t2 + high < W := by omega
      have c3 : (A - M) * 2 < W := by omega
      have c4 : (t + low) * 2 < W := by omega
      have c5 : (t2 + high) * 2 < W := by omega
      have c6 : (A - M) * 2 < 2 * M := by omega
      have c7 : (t + low) * 2 * 2 ^ i + (A - M) * 2 * 2 ^ i / M * low < W := by
        rw [hq, el, tl]; omega
      have c8 : (t2 + high) * 2 * 2 ^ i + (A - M) * 2 * 2 ^ i / M * high < W := by
        rw [hq, eh, th]; omega
      rw [hs, uadd_of_lt t low c1, uadd_of_lt t2 high c2, Nat.mod_eq_of_lt c3,
        Nat.mod_eq_of_lt c4, Nat.mod_eq_of_lt c5]
      rw [ih ((A - M) * 2) ((t + low) * 2) ((t2 + high) * 2) c6 c7 c8]
      rw [hq, el, eh, tl, th]
      congr 1 <;> omega
    · rw [if_neg h]
      have e1 : A * 2 * 2 ^ i = A * 2 ^ (i + 1) := by rw [hp1]; ring
      have tl : t * 2 * 2 ^ i = t * 2 ^ (i + 1) := by rw [hp1]; ring
      have th : t2 * 2 * 2 ^ i = t2 * 2 ^ (i + 1) := by rw [hp1]; ring
      have h2 : 2 ≤ 2 ^ (i + 1) := by omega
      have b1 : t * 2 ≤ t * 2 ^ (i + 1) := Nat.mul_le_mul_left t h2
      have b2 : t2 * 2 ≤ t2 * 2 ^ (i + 1) := Nat.mul_le_mul_left t2 h2
      have c3 : A * 2 < W := by omega
      have c4 : t * 2 < W := by omega
      have c5 : t2 * 2 < W := by omega
      have c6 : A * 2 < 2 * M := by omega
      have c7 : t * 2 * 2 ^ i + A * 2 * 2 ^ i / M * low < W := by rw [e1, tl]; exact ht
      have c8 : t2 * 2 * 2 ^ i + A * 2 * 2 ^ i / M * high < W := by rw [e1, th]; exact ht2
      rw [Nat.mod_eq_of_lt c3, Nat.mod_eq_of_lt c4, Nat.mod_eq_of_lt c5]
      rw [ih (A * 2) (t * 2) (t2 * 2) c6 c7 c8]
      rw [e1, tl, th]

theorem shift_facts (B F : Nat) (hF1 : 1 ≤ F) (hF : F + 2 ≤ B) (hB : B ≤ 64) :
    2 ^ F = 2 * 2 ^ (F - 1) ∧ Half B = 2 ^ F * 2 ^ (B - F - 1) ∧ Half B = 2 * Quarter B ∧
      2 * Half B ≤ W ∧ 0 < 2 ^ (B - F - 1) ∧ 0 < 2 ^ (F - 1) := by
  refine ⟨?_, ?_, ?_, ?_, by positivity, by positivity⟩
  · rw [← pow_succ']
    congr 1
    omega
  · unfold Half
    rw [← pow_add]
    congr 1
    omega
  · unfold Half Quarter
    rw [← pow_succ']
    congr 1
    omega
  · unfold Half W
    rw [← pow_succ']
    exact Nat.pow_le_pow_right (by decide) (by omega)

/-- The facts about the first division of the shift/add code: the divisor
`total << nShifts` and the quotient `R / total`. -/
theorem shift_divisor (B F R total : Nat) (hF : F + 2 ≤ B) (hB : B ≤ 64)
    (hRQ : Quarter B < R) (hRH : R ≤ Half B) (ht1 : 2 ^ (F - 1) < total) (ht2 : total ≤ 2 ^ F) :
    1 ≤ F ∧ (total * 2 ^ (B - F - 1)) % W = total * 2 ^ (B - F - 1) ∧
      0 < total * 2 ^ (B - F - 1) ∧ 2 * (total * 2 ^ (B - F - 1)) ≤ W ∧
      R < 2 * (total * 2 ^ (B - F - 1)) ∧
      R * 2 ^ (B - F - 1) / (total * 2 ^ (B - F - 1)) = R / total ∧
      1 ≤ R / total ∧ R / total < 2 ^ (B - F - 1 + 1) ∧ R / total * total ≤ R ∧ R < W := by
  have hF1 : 1 ≤ F := by
    by_contra hc
    have h0 : F = 0 := by omega
    rw [h0] at ht1 ht2
    simp at ht1 ht2
    omega
  obtain ⟨e1, e2, e3, e4, hp, hg⟩ := shift_facts B F hF1 hF hB
  have hM : total * 2 ^ (B - F - 1) ≤ Half B := by
    rw [e2]
    exact Nat.mul_le_mul_right _ ht2
  have hM1 : 2 ^ (F - 1) * 2 ^ (B - F - 1) + 2 ^ (B - F - 1) ≤ total * 2 ^ (B - F - 1) := by
    have : (2 ^ (F - 1) + 1) * 2 ^ (B - F - 1) ≤ total * 2 ^ (B - F - 1) :=
      Nat.mul_le_mul_right _ ht1
    rw [Nat.add_mul, one_mul] at this
    exact this
  have hH : Half B = 2 * (2 ^ (F - 1) * 2 ^ (B - F - 1)) := by
    rw [e2, e1]; ring
  have ht0 : 0 < total := by omega
  have hR2 : R < 2 * (total * 2 ^ (B - F - 1)) := by omega
  have hdiv : R / total * total ≤ R := Nat.div_mul_le_self R total
  have hQ : Quarter B = 2 ^ (F - 1) * 2 ^ (B - F - 1) := by omega
  have h2F : 2 ^ F ≤ Quarter B := by
    rw [hQ, e1]
    have h2n : 2 ≤ 2 ^ (B - F - 1) := by
      calc 2 = 2 ^ 1 := by norm_num
        _ ≤ 2 ^ (B - F - 1) := Nat.pow_le_pow_right (by decide) (by omega)
    calc 2 * 2 ^ (F - 1) = 2 ^ (F - 1) * 2 := by ring
      _ ≤ 2 ^ (F - 1) * 2 ^ (B - F - 1) := Nat.mul_le_mul_left _ h2n
  refine ⟨hF1, Nat.mod_eq_of_lt (by omega), Nat.mul_pos ht0 hp, by omega, hR2,
    Nat.mul_div_mul_right R total hp, ?_, ?_, hdiv, by omega⟩
  · exact (Nat.one_le_div_iff ht0).2 (by omega)
  · rw [Nat.div_lt_iff_lt_mul ht0, pow_succ]
    calc R < 2 * (total * 2 ^ (B - F - 1)) := hR2
      _ = 2 ^ (B - F - 1) * 2 * total := by ring

/-- The shift/add loop of `arithmetic_encode` yields `temp = (R / total) * low`
and `temp2 = (R / total) * high`. -/
theorem encode_shift_temps_eq (B F R total low high : Nat) (hF : F + 2 ≤ B) (hB : B ≤ 64)
    (hRQ : Quarter B < R) (hRH : R ≤ Half B) (ht1 : 2 ^ (F - 1) < total) (ht2 : total ≤ 2 ^ F)
    (hlh : low ≤ high) (hh : high ≤ total) :
    encode_shift_temps B F R low high total = (R / total * low, R / total * high) := by
  obtain ⟨_, hmod, hM, hM2, hR2, hq, _, _, hdiv, hRW⟩ :=
    shift_divisor B F R total hF hB hRQ hRH ht1 ht2
  have b1 : R / total * high ≤ R / total * total := Nat.mul_le_mul_left _ hh
  have b2 : R / total * low ≤ R / total * high := Nat.mul_le_mul_left _ hlh
  unfold encode_shift_temps
  simp only
  rw [hmod]
  have key := encode_shift_loop_spec (total * 2 ^ (B - F - 1)) low high hM hM2 (B - F - 1) R 0 0
    hR2 (by rw [hq]; omega) (by rw [hq]; omega)
  rw [hq] at key
  simp only [zero_mul, zero_add] at key
  rw [key]

/-- The first division loop of `arithmetic_decode_target` yields
`in_r = R / total`. -/
theorem divide_shift_r (B F R total : Nat) (hF : F + 2 ≤ B) (hB : B ≤ 64)
    (hRQ : Quarter B < R) (hRH : R ≤ Half B) (ht1 : 2 ^ (F - 1) < total) (ht2 : total ≤ 2 ^ F) :
    divide_shift_loop ((total * 2 ^ (B - F - 1)) % W) (B - F - 1) R 0 = R / total := by
  obtain ⟨_, hmod, hM, hM2, hR2, hq, _, hlt, _, hRW⟩ :=
    shift_divisor B F R total hF hB hRQ hRH ht1 ht2
  rw [hmod, divide_shift_loop_spec _ hM hM2 (B - F - 1) R 0 (Or.inl hR2) hRW ?_, hq]
  · rw [Nat.min_eq_left (by omega)]
    simp
  · rw [zero_mul, zero_add]
    unfold W
    exact Nat.pow_le_pow_right (by decide) (by omega)

theorem clamp_min (x c total : Nat) (hc : total ≤ c + 1) (ht : 1 ≤ total) (htW : total < W) :
    (if min x c ≥ total then usub total 1 else min x c) =
      (if x ≥ total then usub total 1 else x) := by
  have hu : usub total 1 = total - 1 := usub_of_le total 1 ht htW
  rcases Nat.le_total x c with h | h
  · rw [Nat.min_eq_left h]
  · rw [Nat.min_eq_right h]
    have hx : x ≥ total ∨ x = c := by omega
    rcases hx with hx | hx
    · rw [if_pos hx]
      by_cases h2 : c ≥ total
      · rw [if_pos h2]
      · rw [if_neg h2, hu]; omega
    · rw [hx]

/-- The shift/add code of `arithmetic_decode_target` returns what the
multiply/divide code returns. -/
theorem decode_target_shift_eq (B F : Nat) (d : decoder) (total : Nat) (hF : F + 2 ≤ B)
    (hB : B ≤ 64) (hRQ : Quarter B < d.in_R) (hRH : d.in_R ≤ Half B)
    (ht1 : 2 ^ (F - 1) < total) (ht2 : total ≤ 2 ^ F)
    (hD : d.in_D < d.in_R ∨ d.in_D * 2 ^ F < W) :
    arithmetic_decode_target d total = Except.ok (arithmetic_decode_target_shift B F d total) ∧
      (arithmetic_decode_target_shift B F d total).2.in_r = d.in_R / total := by
  obtain ⟨hF1, hmod, hM, hM2, hR2, hq, hr1, hlt, hdiv, hRW⟩ :=
    shift_divisor B F d.in_R total hF hB hRQ hRH ht1 ht2
  obtain ⟨e1, e2, e3, e4, hp, hg⟩ := shift_facts B F hF1 hF hB
  have hr := divide_shift_r B F d.in_R total hF hB hRQ hRH ht1 ht2
  have ht0 : 0 < total := by omega
  have hF0 : 0 < 2 ^ F := by positivity
  have hDW : d.in_D < W := by
    rcases hD with h | h
    · omega
    · have : d.in_D ≤ d.in_D * 2 ^ F := Nat.le_mul_of_pos_right _ hF0
      omega
  have hsucc : d.in_R < (d.in_R / total + 1) * total := by
    have h := Nat.lt_mul_div_succ d.in_R ht0
    rwa [Nat.mul_comm total] at h
  unfold arithmetic_decode_target_shift
  simp only
  rw [hr]
  generalize hrdef : d.in_R / total = r at hr1 hlt hdiv hsucc
  have hk : ∃ k, (if r < 2 ^ (B - F - 1) then F else F - 1) = k ∧ k ≤ F ∧ F ≤ k + 1 ∧
      2 * (r * 2 ^ k) ≤ W ∧ (d.in_D < 2 * (r * 2 ^ k) ∨ d.in_D * 2 ^ k < W) := by
    by_cases hc : r < 2 ^ (B - F - 1)
    · refine ⟨F, if_pos hc, le_refl _, by omega, ?_, ?_⟩
      · have : (r + 1) * 2 ^ F ≤ 2 ^ (B - F - 1) * 2 ^ F := Nat.mul_le_mul_right _ hc
        rw [Nat.add_mul, one_mul] at this
        have e5 : 2 ^ (B - F - 1) * 2 ^ F = Half B := by rw [e2]; ring
        omega
      · rcases hD with h | h
        · left
          have h1 : (r + 1) * total ≤ (r + 1) * 2 ^ F := Nat.mul_le_mul_left _ ht2
          have h2 : (r + 1) * 2 ^ F = r * 2 ^ F + 2 ^ F := by rw [Nat.add_mul, one_mul]
          have h3 : 2 ^ F ≤ r * 2 ^ F := Nat.le_mul_of_pos_left _ hr1
          omega
        · right; exact h
    · refine ⟨F - 1, if_neg hc, by omega, by omega, ?_, ?_⟩
      · have h1 : (r + 1) * 2 ^ F ≤ 2 ^ (B - F - 1 + 1) * 2 ^ F := Nat.mul_le_mul_right _ hlt
        rw [Nat.add_mul, one_mul] at h1
        have e5 : 2 ^ (B - F - 1 + 1) * 2 ^ F = 2 * Half B := by rw [e2, pow_succ]; ring
        have e6 : r * 2 ^ F = 2 * (r * 2 ^ (F - 1)) := by rw [e1]; ring
        omega
      · rcases hD with h | h
        · left
          have h1 : 2 ^ (B - F - 1) * 2 ^ F ≤ r * 2 ^ F := Nat.mul_le_mul_right _ (by omega)
          have e5 : 2 ^ (B - F - 1) * 2 ^ F = Half B := by rw [e2]; ring
          have e6 : r * 2 ^ F = 2 * (r * 2 ^ (F - 1)) := by rw [e1]; ring
          omega
        · right
          have : d.in_D * 2 ^ (F - 1) ≤ d.in_D * 2 ^ F :=
            Nat.mul_le_mul_left _ (Nat.pow_le_pow_right (by decide) (by omega))
          omega
  obtain ⟨k, hkdef, hkF, hFk, hM2k, hDk⟩ := hk
  rw [hkdef]
  have hMk : 0 < r * 2 ^ k := Nat.mul_pos hr1 (by positivity)
  have hmodk : (r * 2 ^ k) % W = r * 2 ^ k := by
    apply Nat.mod_eq_of_lt
    generalize r * 2 ^ k = x at hMk hM2k
    omega
  have hkW : 0 * 2 ^ k + 2 ^ (k + 1) ≤ W := by
    rw [zero_mul, zero_add]
    unfold W
    exact Nat.pow_le_pow_right (by decide) (by omega)
  rw [hmodk, divide_shift_loop_spec _ hMk hM2k k d.in_D 0 hDk hDW hkW,
    Nat.mul_div_mul_right d.in_D r (by positivity : 0 < 2 ^ k)]
  simp only [zero_mul, zero_add]
  have hc : total ≤ 2 ^ (k + 1) - 1 + 1 := by
    have h1 : 2 ^ F ≤ 2 ^ (k + 1) := Nat.pow_le_pow_right (by decide) hFk
    have h2 : 0 < 2 ^ (k + 1) := by positivity
    omega
  have htW : total < W := by
    have : total ≤ r * total := Nat.le_mul_of_pos_left _ hr1
    omega
  refine ⟨?_, trivial⟩
  unfold arithmetic_decode_target
  rw [if_neg (by omega), hrdef]
  simp only
  rw [if_neg (by omega), clamp_min _ _ total hc ht0 htW]
  rfl
/-! ## The search loop of `finish_encode` with `FRUGAL_BITS` -/

/-- The test of the search loop for `nbits = n`, in exact arithmetic. -/
theorem frugal_test_iff (B L R n : Nat) (hB : B ≤ 32) (hR : 1 ≤ R) (hLR : L + R ≤ 2 ^ B) :
    (L ≤ ((uadd L (2 ^ (B - n) - 1) >>> (B - n)) <<< (B - n)) % W ∧
      uadd (((uadd L (2 ^ (B - n) - 1) >>> (B - n)) <<< (B - n)) % W) (2 ^ (B - n) - 1) ≤
        uadd L (usub R 1)) ↔
    ((L + 2 ^ (B - n) - 1) / 2 ^ (B - n) * 2 ^ (B - n) + 2 ^ (B - n) - 1 ≤ L + R - 1) := by
  have hs : 0 < 2 ^ (B - n) := by positivity
  have hsB : 2 ^ (B - n) ≤ 2 ^ B := Nat.pow_le_pow_right (by decide) (by omega)
  have hBW : 2 ^ B ≤ 2 ^ 32 := Nat.pow_le_pow_right (by decide) hB
  have hW : W = 2 ^ 64 := rfl
  have h3264 : (2 : Nat) ^ 32 < 2 ^ 64 := by decide
  rw [Nat.shiftLeft_eq, Nat.shiftRight_eq_div_pow]
  generalize 2 ^ (B - n) = s at hs hsB
  have e1 : uadd L (s - 1) = L + s - 1 := by
    rw [uadd_of_lt _ _ (by omega)]; omega
  have e2 : usub R 1 = R - 1 := usub_of_le R 1 hR (by omega)
  have hdm : (L + s - 1) / s * s ≤ L + s - 1 := Nat.div_mul_le_self _ _
  have hge : L ≤ (L + s - 1) / s * s := by
    have h1 := Nat.div_add_mod (L + s - 1) s
    have h2 := Nat.mod_lt (L + s - 1) hs
    have h3 : s * ((L + s - 1) / s) = (L + s - 1) / s * s := Nat.mul_comm _ _
    omega
  rw [e1, e2]
  generalize (L + s - 1) / s * s = v at hdm hge
  rw [Nat.mod_eq_of_lt (show v < W by omega), uadd_of_lt _ _ (show v + (s - 1) < W by omega),
    uadd_of_lt _ _ (show L + (R - 1) < W by omega)]
  constructor
  · intro h; omega
  · intro h; exact ⟨hge, by omega⟩

/-- The test of the search loop holds exactly when some prefix names a block
inside the interval. -/
theorem has_prefix_iff (B L R n : Nat) :
    has_prefix B L R n ↔
      (L + 2 ^ (B - n) - 1) / 2 ^ (B - n) * 2 ^ (B - n) + 2 ^ (B - n) - 1 ≤ L + R - 1 := by
  have hs : 0 < 2 ^ (B - n) := by positivity
  unfold has_prefix
  generalize 2 ^ (B - n) = s at hs
  have hge : L ≤ (L + s - 1) / s * s := by
    have h1 := Nat.div_add_mod (L + s - 1) s
    have h2 := Nat.mod_lt (L + s - 1) hs
    have h3 : s * ((L + s - 1) / s) = (L + s - 1) / s * s := Nat.mul_comm _ _
    omega
  constructor
  · rintro ⟨p, h1, h2⟩
    have hle : (L + s - 1) / s ≤ p := by
      have : (L + s - 1) / s < p + 1 := by
        rw [Nat.div_lt_iff_lt_mul hs, Nat.add_mul, one_mul]
        omega
      omega
    have hm : (L + s - 1) / s * s ≤ p * s := Nat.mul_le_mul_right _ hle
    omega
  · intro h
    exact ⟨(L + s - 1) / s, hge, h⟩

/-- A block of an eighth of the code space fits into a range above `Quarter`. -/
theorem has_prefix_three (B L R : Nat) (hB2 : 2 ≤ B) (hRQ : Quarter B < R) :
    has_prefix B L R (min 3 B) := by
  rw [has_prefix_iff B L R _]
  have hs : 0 < 2 ^ (B - min 3 B) := by positivity
  have h2 : 2 * 2 ^ (B - min 3 B) ≤ R + 1 := by
    unfold Quarter at hRQ
    by_cases h3 : 3 ≤ B
    · rw [Nat.min_eq_left h3]
      have e : 2 * 2 ^ (B - 3) = 2 ^ (B - 2) := by
        rw [← pow_succ']
        congr 1
        omega
      omega
    · have hB : B = 2 := by omega
      subst hB
      simp at hRQ ⊢
      omega
  generalize 2 ^ (B - min 3 B) = s at hs h2
  have hdm : (L + s - 1) / s * s ≤ L + s - 1 := Nat.div_mul_le_self _ _
  omega

/-- The search loop stops at the first `nbits` that passes the test. -/
theorem frugal_loop_spec (B L R : Nat) (hB : B ≤ 32) (hR : 1 ≤ R) (hLR : L + R ≤ 2 ^ B)
    (n : Nat) (hn : has_prefix B L R n) :
    ∀ (fuel nbits b : Nat), nbits ≤ n → n < nbits + fuel →
      (∀ m, nbits ≤ m → m < n → ¬ has_prefix B L R m) →
      frugal_loop B L R fuel nbits b =
        (n, (L + 2 ^ (B - n) - 1) / 2 ^ (B - n)) := by
  intro fuel
  induction fuel with
  | zero => intro nbits b h1 h2; omega
  | succ fuel ih =>
    intro nbits b h1 h2 hmin
    rw [frugal_loop]
    have hiff := (frugal_test_iff B L R nbits hB hR hLR).trans (has_prefix_iff B L R nbits).symm
    by_cases hc : nbits = n
    · subst hc
      rw [if_pos (hiff.2 hn)]
      congr 1
      rw [Nat.shiftRight_eq_div_pow]
      congr 1
      have hs : 0 < 2 ^ (B - nbits) := by positivity
      have hBW : 2 ^ B ≤ 2 ^ 32 := Nat.pow_le_pow_right (by decide) hB
      have hsB : 2 ^ (B - nbits) ≤ 2 ^ B := Nat.pow_le_pow_right (by decide) (by omega)
      have hW : W = 2 ^ 64 := rfl
      have h3264 : (2 : Nat) ^ 32 < 2 ^ 64 := by decide
      rw [uadd_of_lt _ _ (by omega)]
      omega
    · rw [if_neg (fun h => hmin nbits (le_refl _) (by omega) (hiff.1 h))]
      exact ih (nbits + 1) _ (by omega) (by omega) (fun m hm1 hm2 => hmin m (by omega) hm2)
/-! ## The decoder of `arith.c` -/

theorem half_facts (B : Nat) (hB2 : 2 ≤ B) (hB : B ≤ 64) :
    Half B = 2 * Quarter B ∧ 2 * Half B ≤ W ∧ 0 < Quarter B := by
  refine ⟨?_, ?_, by unfold Quarter; positivity⟩
  · unfold Half Quarter
    rw [← pow_succ']
    congr 1
    omega
  · unfold Half W
    rw [← pow_succ']
    exact Nat.pow_le_pow_right (by decide) (by omega)

theorem DECODE_RENORMALISE_succ (B fuel : Nat) (d : decoder) :
    DECODE_RENORMALISE B (fuel + 1) d =
      if d.in_R ≤ Quarter B then
        (ADD_NEXT_INPUT_BIT d.in_D d.input).bind (fun p =>
          DECODE_RENORMALISE B fuel
            { d with in_R := (d.in_R * 2) % W, in_D := p.1, input := p.2 })
      else pure d := rfl

/-- The loop `DECODE_RENORMALISE` keeps `D < R` and ends with
`Quarter < R ≤ Half`. -/
theorem decode_renorm_spec (B : Nat) (hB2 : 2 ≤ B) (hB : B ≤ 64) :
    ∀ (fuel : Nat) (d d1 : decoder), DECODE_RENORMALISE B fuel d = Except.ok d1 →
      d.in_R ≤ Half B → d.in_D < d.in_R →
      d1.in_D < d1.in_R ∧ Quarter B < d1.in_R ∧ d1.in_R ≤ Half B := by
  obtain ⟨e1, e2, e3⟩ := half_facts B hB2 hB
  intro fuel
  induction fuel with
  | zero => intro d d1 h; rw [DECODE_RENORMALISE] at h; cases h
  | succ fuel ih =>
    intro d d1 h hRH hD
    rw [DECODE_RENORMALISE_succ] at h
    by_cases hq : d.in_R ≤ Quarter B
    · rw [if_pos hq] at h
      cases hin : d.input with
      | nil =>
        simp only [ADD_NEXT_INPUT_BIT, hin] at h
        cases h
      | cons b rest =>
        simp only [ADD_NEXT_INPUT_BIT, hin, pure, Except.pure, Except.bind] at h
        have hR2 : (d.in_R * 2) % W = d.in_R * 2 := Nat.mod_eq_of_lt (by omega)
        have hD2 : uadd ((d.in_D * 2) % W) (if b then 1 else 0) < d.in_R * 2 := by
          rw [Nat.mod_eq_of_lt (by omega)]
          cases b
          · simp only [Bool.false_eq_true, if_false]
            rw [uadd_of_lt _ _ (by omega)]; omega
          · simp only [if_true]
            rw [uadd_of_lt _ _ (by omega)]; omega
        rw [hR2] at h
        exact ih _ d1 h (by simp only; omega) (by simp only; exact hD2)
    · rw [if_neg hq] at h
      have e : d1 = d := (Except.ok.inj h).symm
      rw [e]
      exact ⟨hD, by omega, hRH⟩

/-- The loop `DECODE_RENORMALISE` ends when the input holds enough bits. -/
theorem decode_renorm_total (B : Nat) (hB2 : 2 ≤ B) (hB : B ≤ 64) :
    ∀ (k fuel : Nat) (d : decoder), Quarter B < 2 ^ k * d.in_R → k < fuel →
      k ≤ d.input.length → d.in_R ≤ Half B →
      ∃ d1, DECODE_RENORMALISE B fuel d = Except.ok d1 := by
  obtain ⟨e1, e2, e3⟩ := half_facts B hB2 hB
  intro k
  induction k with
  | zero =>
    intro fuel d hk hf _ _
    obtain ⟨f, rfl⟩ : ∃ f, fuel = f + 1 := ⟨fuel - 1, by omega⟩
    rw [DECODE_RENORMALISE_succ, if_neg (by omega)]
    exact ⟨d, rfl⟩
  | succ k ih =>
    intro fuel d hk hf hlen hRH
    obtain ⟨f, rfl⟩ : ∃ f, fuel = f + 1 := ⟨fuel - 1, by omega⟩
    rw [DECODE_RENORMALISE_succ]
    by_cases hq : d.in_R ≤ Quarter B
    · rw [if_pos hq]
      cases hin : d.input with
      | nil => rw [hin] at hlen; simp at hlen
      | cons b rest =>
        simp only [ADD_NEXT_INPUT_BIT, pure, Except.pure, Except.bind]
        have hR2 : (d.in_R * 2) % W = d.in_R * 2 := Nat.mod_eq_of_lt (by omega)
        rw [hR2]
        apply ih
        · simp only
          rw [pow_succ] at hk
          calc Quarter B < 2 ^ k * 2 * d.in_R := hk
            _ = 2 ^ k * (d.in_R * 2) := by ring
        · omega
        · simp only
          rw [hin] at hlen
          simp only [List.length_cons] at hlen
          omega
        · simp only; omega
    · rw [if_neg hq]
      exact ⟨d, rfl⟩

/-- The target of `arithmetic_decode_target` for a valid state. -/
theorem decode_target_spec (B F : Nat) (hF : F + 2 ≤ B) (hB : B ≤ 64) (d : decoder)
    (total : Nat) (hRQ : Quarter B < d.in_R) (ht0 : 0 < total) (ht : total ≤ 2 ^ F) :
    1 ≤ d.in_R / total ∧ total < W ∧
    arithmetic_decode_target d total =
      Except.ok (if d.in_D / (d.in_R / total) ≥ total then total - 1
        else d.in_D / (d.in_R / total), { d with in_r := d.in_R / total }) := by
  have hFQ : 2 ^ F ≤ Quarter B := by
    unfold Quarter
    exact Nat.pow_le_pow_right (by decide) (by omega)
  obtain ⟨e1, e2, e3⟩ := half_facts B (by omega) hB
  have hr : 1 ≤ d.in_R / total := (Nat.one_le_div_iff ht0).2 (by omega)
  have hQH : Quarter B < W := by omega
  have htW : total < W := by omega
  refine ⟨hr, htW, ?_⟩
  unfold arithmetic_decode_target
  rw [if_neg (by omega)]
  simp only
  rw [if_neg (by omega), usub_of_le total 1 ht0 htW]
  rfl

/-- The narrowing step of `arithmetic_decode` for a target inside
`[low, high)`. -/
theorem decode_narrow_spec (R D total low high t : Nat) (hD : D < R) (hRW : R < W)
    (ht0 : 0 < total) (hr : 1 ≤ R / total)
    (htdef : t = if D / (R / total) ≥ total then total - 1 else D / (R / total))
    (hl : low ≤ t) (hh : t < high) (hht : high ≤ total) :
    R / total * low ≤ D ∧
      usub D ((R / total * low) % W) <
        (if high < total then (R / total * usub high low) % W
          else usub R ((R / total * low) % W)) ∧
      (if high < total then (R / total * usub high low) % W
          else usub R ((R / total * low) % W)) ≤ R := by
  have hdm : R / total * total ≤ R := Nat.div_mul_le_self R total
  have hdm2 : R / total * (D / (R / total)) ≤ D := by
    rw [Nat.mul_comm]; exact Nat.div_mul_le_self D _
  generalize hrdef : R / total = r at *
  have hlq : low ≤ D / r := by
    by_cases hc : D / r ≥ total
    · rw [if_pos hc] at htdef; omega
    · rw [if_neg hc] at htdef; omega
  have htR : total ≤ r * total := Nat.le_mul_of_pos_left _ hr
  have htW : total < W := by omega
  have h1 : r * low ≤ r * (D / r) := Nat.mul_le_mul_left _ hlq
  have h2 : r * low ≤ D := by omega
  have h3 : r * high ≤ r * total := Nat.mul_le_mul_left _ hht
  have h4 : r * (high - low) = r * high - r * low := Nat.mul_sub r high low
  have h5 : r * low ≤ r * high := Nat.mul_le_mul_left _ (by omega)
  refine ⟨h2, ?_, ?_⟩
  · rw [Nat.mod_eq_of_lt (show r * low < W by omega), usub_of_le D _ h2 (by omega)]
    by_cases hc : high < total
    · rw [if_pos hc, usub_of_le high low (by omega) (by omega), h4,
        Nat.mod_eq_of_lt (by omega)]
      have hq : D / r < high := by
        by_cases hc2 : D / r ≥ total
        · rw [if_pos hc2] at htdef; omega
        · rw [if_neg hc2] at htdef; omega
      have hlt : D < r * high := by
        have := (Nat.div_lt_iff_lt_mul (by omega : 0 < r)).1 hq
        rw [Nat.mul_comm] at this
        exact this
      omega
    · rw [if_neg hc, usub_of_le R _ (by omega) hRW]
      omega
  · by_cases hc : high < total
    · rw [if_pos hc, usub_of_le high low (by omega) (by omega), h4,
        Nat.mod_eq_of_lt (by omega)]
      omega
    · rw [if_neg hc, Nat.mod_eq_of_lt (show r * low < W by omega),
        usub_of_le R _ (by omega) hRW]
      omega
/-! ## The end of the code: `finish_encode` -/

theorem follow_plain (e : encoder) (b : Bool) (ho : e.out_bits_outstanding = 0) :
    (BIT_PLUS_FOLLOW e b).output = e.output ++ [b] ∧
      (BIT_PLUS_FOLLOW e b).out_bits_outstanding = 0 := by
  simp [BIT_PLUS_FOLLOW, ho]

theorem follow_outstanding (e : encoder) (b : Bool) :
    (BIT_PLUS_FOLLOW e b).out_bits_outstanding = 0 := rfl

/-- The passes of the loop of `finish_encode` after the first write the low
bits of `bits`. -/
theorem finish_loop_plain (B bits : Nat) :
    ∀ (m i : Nat) (e : encoder), i + m = B + 1 → e.out_bits_outstanding = 0 →
      bits_val (finish_loop B bits m i e).output = bits_val e.output * 2 ^ m + bits % 2 ^ m ∧
        (finish_loop B bits m i e).output.length = e.output.length + m := by
  intro m
  induction m with
  | zero =>
    intro i e _ _
    simp [finish_loop, Nat.mod_one]
  | succ m ih =>
    intro i e hi ho
    rw [finish_loop]
    obtain ⟨f1, f2⟩ := follow_plain e (decide ((bits >>> (B - i)) % 2 = 1)) ho
    obtain ⟨r1, r2⟩ := ih (i + 1) _ (by omega) f2
    rw [r1, r2, f1, bits_val_snoc, List.length_append]
    have hBi : B - i = m := by omega
    rw [hBi, Nat.shiftRight_eq_div_pow, Nat.mod_pow_succ]
    refine ⟨?_, by simp; omega⟩
    have h2 : bits / 2 ^ m % 2 = 0 ∨ bits / 2 ^ m % 2 = 1 := by omega
    rcases h2 with h | h
    · rw [h]
      simp only [show ¬ ((0 : Nat) = 1) by decide, decide_False, Bool.false_eq_true, if_false,
        pow_succ]
      ring
    · rw [h]
      simp only [decide_True, if_true, pow_succ]
      ring

/-- The bits written up to the end of `finish_encode` spell the lower bound of
the code interval. -/
theorem finish_encode_spec (B : Nat) (hB : 2 ≤ B) (e : encoder) (hL : e.out_L < 2 ^ B) :
    bits_val (finish_encode B e).output = absval B e ∧
      (finish_encode B e).output.length = nshift e + B := by
  obtain ⟨b, rfl⟩ : ∃ b, B = b + 1 := ⟨B - 1, by omega⟩
  unfold finish_encode
  rw [finish_loop]
  obtain ⟨r1, r2⟩ := finish_loop_plain (b + 1) e.out_L b 2
    (BIT_PLUS_FOLLOW e (decide ((e.out_L >>> (b + 1 - 1)) % 2 = 1))) (by omega)
    (follow_outstanding _ _)
  rw [r1, r2]
  have hb : b + 1 - 1 = b := by omega
  rw [hb, Nat.shiftRight_eq_div_pow]
  have hp : 0 < 2 ^ b := by positivity
  have hq : e.out_L / 2 ^ b < 2 := by
    rw [Nat.div_lt_iff_lt_mul hp]
    rw [pow_succ] at hL
    omega
  have hdm := Nat.div_add_mod e.out_L (2 ^ b)
  unfold absval nshift
  rw [hb]
  have h2 : e.out_L / 2 ^ b = 0 ∨ e.out_L / 2 ^ b = 1 := by
    clear hdm
    revert hq
    generalize e.out_L / 2 ^ b = q
    intro hq
    omega
  rcases h2 with h | h
  · rw [h] at hdm ⊢
    simp only [Nat.zero_mod, show ¬ ((0 : Nat) = 1) by decide, decide_False]
    obtain ⟨f1, f2⟩ := follow_false e
    rw [f1, f2]
    have hO : 1 ≤ 2 ^ e.out_bits_outstanding := Nat.one_le_two_pow
    obtain ⟨O1, hO1⟩ : ∃ O1, 2 ^ e.out_bits_outstanding = O1 + 1 :=
      ⟨2 ^ e.out_bits_outstanding - 1, by omega⟩
    refine ⟨?_, by omega⟩
    rw [pow_add, pow_succ, hO1]
    simp only [Nat.add_sub_cancel]
    have : e.out_L % 2 ^ b = e.out_L := by omega
    rw [this]
    ring
  · rw [h] at hdm ⊢
    simp only [Nat.one_mod, decide_True]
    obtain ⟨f1, f2⟩ := follow_true e
    rw [f1, f2]
    have hO : 1 ≤ 2 ^ e.out_bits_outstanding := Nat.one_le_two_pow
    obtain ⟨O1, hO1⟩ : ∃ O1, 2 ^ e.out_bits_outstanding = O1 + 1 :=
      ⟨2 ^ e.out_bits_outstanding - 1, by omega⟩
    refine ⟨?_, by omega⟩
    rw [pow_add, pow_succ, hO1]
    simp only [Nat.add_sub_cancel]
    have : e.out_L = 2 ^ b + e.out_L % 2 ^ b := by omega
    conv_rhs => rw [this]
    ring
/-! ## The state of the encoder between calls -/

/-- A call of `ENCODE_RENORMALISE` followed by the test of the outstanding
bits, from a state with a range of `w` at offset `x`. -/
theorem renorm_call_spec (B : Nat) (hB : 2 ≤ B) (hB64 : B ≤ 64) (e e1 : encoder)
    (hok : enc_ok B e) (x w fuel : Nat) (hw : 0 < w) (hxw : x + w ≤ e.out_R)
    (h : (ENCODE_RENORMALISE B fuel { e with out_L := e.out_L + x, out_R := w }).bind
      (fun e2 => if e2.out_bits_outstanding > MAX_BITS_OUTSTANDING
        then Except.error Fault.abort else Except.ok e2) = Except.ok e1) :
    enc_ok B e1 ∧ ∃ j, absval B e1 = 2 ^ j * (absval B e + x) ∧ e1.out_R = 2 ^ j * w ∧
      nshift e1 = nshift e + j ∧ (∀ i, i < j → 2 ^ i * w ≤ Quarter B) ∧ j < fuel := by
  obtain ⟨h1, h2, h3, h4⟩ := pow_facts B hB hB64
  obtain ⟨k1, k2, k3, k4⟩ := hok
  have hM : MAX_BITS_OUTSTANDING = 2 ^ 31 := rfl
  cases hr : ENCODE_RENORMALISE B fuel { e with out_L := e.out_L + x, out_R := w } with
  | error err => rw [hr] at h; cases h
  | ok e2 =>
    rw [hr] at h
    simp only [Except.bind] at h
    have hW : e.out_bits_outstanding + Half B / w ≤ W := by
      have := Nat.div_le_self (Half B) w
      simp only [W] at *
      omega
    obtain ⟨j, r1, r2, r3, r4, r5, r6, r7, r8⟩ :=
      encode_renorm_spec B hB hB64 fuel _ e2 hr hw (by simp only; omega) (by simp only; omega) hW
    by_cases hab : e2.out_bits_outstanding > MAX_BITS_OUTSTANDING
    · rw [if_pos hab] at h
      cases h
    · rw [if_neg hab] at h
      cases h
      rw [absval_add] at r1
      exact ⟨⟨r5, r6, r4, by omega⟩, j, r1, r2, r3, r7, r8⟩

/-- A call of `ENCODE_RENORMALISE` followed by the test of the outstanding
bits returns, or exits at the test. -/
theorem renorm_call_total (B : Nat) (hB : 2 ≤ B) (hB64 : B ≤ 64) (e : encoder)
    (hok : enc_ok B e) (x w fuel : Nat) (hw : 0 < w) (hxw : x + w ≤ e.out_R)
    (hfuel : B ≤ fuel) :
    (∃ e1, (ENCODE_RENORMALISE B fuel { e with out_L := e.out_L + x, out_R := w }).bind
      (fun e2 => if e2.out_bits_outstanding > MAX_BITS_OUTSTANDING
        then Except.error Fault.abort else Except.ok e2) = Except.ok e1) ∨
    (ENCODE_RENORMALISE B fuel { e with out_L := e.out_L + x, out_R := w }).bind
      (fun e2 => if e2.out_bits_outstanding > MAX_BITS_OUTSTANDING
        then Except.error Fault.abort else Except.ok e2) = Except.error Fault.abort := by
  obtain ⟨h1, h2, h3, h4⟩ := pow_facts B hB hB64
  obtain ⟨k1, k2, k3, k4⟩ := hok
  have hM : MAX_BITS_OUTSTANDING = 2 ^ 31 := rfl
  have hW : e.out_bits_outstanding + Half B / w ≤ W := by
    have := Nat.div_le_self (Half B) w
    simp only [W] at *
    omega
  have hq : Quarter B < 2 ^ (B - 1) * w := by
    have hlt : Quarter B < 2 ^ (B - 1) := by
      unfold Quarter
      exact Nat.pow_lt_pow_right (by decide) (by omega)
    calc Quarter B < 2 ^ (B - 1) * 1 := by omega
      _ ≤ 2 ^ (B - 1) * w := Nat.mul_le_mul_left _ hw
  obtain ⟨e2, hr⟩ := encode_renorm_total B hB hB64 (B - 1) fuel
    { e with out_L := e.out_L + x, out_R := w } hq (by omega) hw (by simp only; omega)
    (by simp only; omega) hW
  rw [hr]
  simp only [Except.bind]
  by_cases hab : e2.out_bits_outstanding > MAX_BITS_OUTSTANDING
  · right; rw [if_pos hab]
  · left; rw [if_neg hab]; exact ⟨e2, rfl⟩

/-- The function `arithmetic_encode` as a narrowing followed by the
renormalisation. -/
theorem arithmetic_encode_eq (B F : Nat) (hB : 2 ≤ B) (hB64 : B ≤ 64) (hF : F + 2 ≤ B)
    (e : encoder) (hok : enc_ok B e) (low high total fuel : Nat) (hlh : low < high)
    (hh : high ≤ total) (ht : total ≤ 2 ^ F) :
    ∃ x w, x = (sub_range e.out_R low high total).1 ∧ w = (sub_range e.out_R low high total).2 ∧
      0 < w ∧ x + w ≤ e.out_R ∧
      arithmetic_encode B fuel e low high total =
        (ENCODE_RENORMALISE B fuel { e with out_L := e.out_L + x, out_R := w }).bind
          (fun e2 => if e2.out_bits_outstanding > MAX_BITS_OUTSTANDING
            then Except.error Fault.abort else Except.ok e2) := by
  obtain ⟨h1, h2, h3, h4⟩ := pow_facts B hB hB64
  obtain ⟨k1, k2, k3, k4⟩ := hok
  have hFQ : 2 ^ F ≤ Quarter B := Nat.pow_le_pow_right (by norm_num) (by omega)
  have hne : ¬ total = 0 := by omega
  obtain ⟨n1, n2, n3⟩ := narrow_sub_range e.out_L e.out_R low high total (by omega) (by omega)
    (by omega) (by omega) hlh hh
  refine ⟨_, _, rfl, rfl, n2, n3, ?_⟩
  unfold arithmetic_encode
  simp only [if_neg hne, n1]
  rfl

/-- The offset and the width of the part of a range `R` that
`binary_arithmetic_encode` gives to `bit`. -/
theorem binary_encode_eq (B F : Nat) (hB : 2 ≤ B) (hB64 : B ≤ 64) (hF : F + 2 ≤ B)
    (e : encoder) (hok : enc_ok B e) (c0 c1 : Nat) (bit : Int) (fuel : Nat) (h0 : 1 ≤ c0)
    (h1 : 1 ≤ c1) (hs : c0 + c1 ≤ 2 ^ F) :
    ∃ x w, 0 < w ∧ x + w ≤ e.out_R ∧
      binary_arithmetic_encode B fuel e c0 c1 bit =
        (ENCODE_RENORMALISE B fuel { e with out_L := e.out_L + x, out_R := w }).bind
          (fun e2 => if e2.out_bits_outstanding > MAX_BITS_OUTSTANDING
            then Except.error Fault.abort else Except.ok e2) := by
  obtain ⟨p1, p2, p3, p4⟩ := pow_facts B hB hB64
  obtain ⟨k1, k2, k3, k4⟩ := hok
  have hFQ : 2 ^ F ≤ Quarter B := Nat.pow_le_pow_right (by norm_num) (by omega)
  have hsum : uadd c0 c1 = c0 + c1 := uadd_of_lt _ _ (by omega)
  have hne : ¬ uadd c0 c1 = 0 := by rw [hsum]; omega
  have hr1 : 1 ≤ e.out_R / (c0 + c1) := (Nat.one_le_div_iff (by omega)).2 (by omega)
  have hdm : e.out_R / (c0 + c1) * (c0 + c1) ≤ e.out_R := Nat.div_mul_le_self _ _
  have hc : ∃ c, (if c0 < c1 then c0 else c1) = c ∧ 1 ≤ c ∧ 2 * c ≤ c0 + c1 := by
    by_cases hlt : c0 < c1
    · exact ⟨c0, if_pos hlt, h0, by omega⟩
    · exact ⟨c1, if_neg hlt, h1, by omega⟩
  obtain ⟨c, hcdef, hc1, hc2⟩ := hc
  have hrc : e.out_R / (c0 + c1) * (2 * c) ≤ e.out_R / (c0 + c1) * (c0 + c1) :=
    Nat.mul_le_mul_left _ hc2
  have hrc1 : 1 ≤ e.out_R / (c0 + c1) * c := Nat.mul_pos hr1 hc1
  have hrc2 : e.out_R / (c0 + c1) * (2 * c) = 2 * (e.out_R / (c0 + c1) * c) := by ring
  unfold binary_arithmetic_encode
  simp only [hcdef, hsum]
  rw [if_neg (by omega)]
  generalize e.out_R / (c0 + c1) * c = rLPS at hrc hrc1 hrc2
  have hmod : rLPS % W = rLPS := Nat.mod_eq_of_lt (by omega)
  have hsub : usub e.out_R rLPS = e.out_R - rLPS := usub_of_le _ _ (by omega) (by omega)
  rw [hmod, hsub]
  by_cases hb : bit = (if c0 < c1 then 0 else 1)
  · refine ⟨e.out_R - rLPS, rLPS, by omega, by omega, ?_⟩
    rw [if_pos hb, uadd_of_lt _ _ (by omega)]
    rfl
  · refine ⟨0, e.out_R - rLPS, by omega, by omega, ?_⟩
    rw [if_neg hb]
    rfl

theorem start_encode_inv (B : Nat) (hB : 2 ≤ B) (hB64 : B ≤ 64) : enc_inv B (start_encode B) := by
  obtain ⟨h1, h2, h3, h4⟩ := pow_facts B hB hB64
  refine ⟨⟨?_, ?_, ?_, ?_⟩, ?_⟩
  · show Quarter B < Half B
    omega
  · exact le_refl _
  · show 0 + Half B ≤ 2 ^ B
    omega
  · exact Nat.zero_le _
  · show absval B (start_encode B) + Half B ≤ Half B * 2 ^ nshift (start_encode B)
    simp [absval, nshift, start_encode, bits_val]

/-- A call that narrows and renormalises keeps the invariant. -/
theorem renorm_call_inv (B : Nat) (hB : 2 ≤ B) (hB64 : B ≤ 64) (e e1 : encoder)
    (hinv : enc_inv B e) (x w fuel : Nat) (hw : 0 < w) (hxw : x + w ≤ e.out_R)
    (h : (ENCODE_RENORMALISE B fuel { e with out_L := e.out_L + x, out_R := w }).bind
      (fun e2 => if e2.out_bits_outstanding > MAX_BITS_OUTSTANDING
        then Except.error Fault.abort else Except.ok e2) = Except.ok e1) :
    enc_inv B e1 := by
  obtain ⟨hok, hpos⟩ := hinv
  obtain ⟨hok1, j, r1, r2, r3, _, _⟩ := renorm_call_spec B hB hB64 e e1 hok x w fuel hw hxw h
  refine ⟨hok1, ?_⟩
  rw [r1, r2, r3, pow_add]
  calc 2 ^ j * (absval B e + x) + 2 ^ j * w = 2 ^ j * (absval B e + (x + w)) := by ring
    _ ≤ 2 ^ j * (absval B e + e.out_R) := Nat.mul_le_mul_left _ (by omega)
    _ ≤ 2 ^ j * (Half B * 2 ^ nshift e) := Nat.mul_le_mul_left _ hpos
    _ = Half B * (2 ^ nshift e * 2 ^ j) := by ring

/-- Every state of a coding run satisfies the invariant. -/
theorem enc_reachable_inv (B F : Nat) (hB : 2 ≤ B) (hB64 : B ≤ 64) (hF : F + 2 ≤ B)
    (e : encoder) (hr : enc_reachable B F e) : enc_inv B e := by
  induction hr with
  | start => exact start_encode_inv B hB hB64
  | encode e e1 low high total fuel _ hlh hh ht h ih =>
    obtain ⟨x, w, _, _, hw, hxw, heq⟩ :=
      arithmetic_encode_eq B F hB hB64 hF e ih.1 low high total fuel hlh hh ht
    rw [heq] at h
    exact renorm_call_inv B hB hB64 e e1 ih x w fuel hw hxw h
  | binary e e1 c0 c1 bit fuel _ h0 h1 hs h ih =>
    obtain ⟨x, w, hw, hxw, heq⟩ :=
      binary_encode_eq B F hB hB64 hF e ih.1 c0 c1 bit fuel h0 h1 hs
    rw [heq] at h
    exact renorm_call_inv B hB hB64 e e1 ih x w fuel hw hxw h

/-- The loop of `start_decode` reads the next `n` bits into `in_D`. -/
theorem fill_D_spec : ∀ (n k v : Nat) (input : List Bool), n ≤ input.length → v < 2 ^ k →
    k + n ≤ 64 →
    fill_D n v input = Except.ok (v * 2 ^ n + bits_val (input.take n), input.drop n) := by
  intro n
  induction n with
  | zero => intro k v input _ _ _; simp [fill_D, bits_val, pure, Except.pure]
  | succ n ih =>
    intro k v input hlen hv hk
    cases input with
    | nil => simp at hlen
    | cons b rest =>
      have hkW : 2 ^ (k + 1) ≤ W := Nat.pow_le_pow_right (by decide) (by omega)
      have hp : 2 ^ (k + 1) = 2 * 2 ^ k := by rw [pow_succ]; ring
      have hv2 : v * 2 + (if b then 1 else 0) < 2 ^ (k + 1) := by
        split <;> omega
      rw [fill_D]
      simp only [ADD_NEXT_INPUT_BIT, pure, Except.pure, bind, Except.bind]
      rw [Nat.mod_eq_of_lt (by omega), uadd_of_lt _ _ (by omega)]
      rw [ih (k + 1) _ rest (by simpa using hlen) hv2 (by omega)]
      simp only [List.take_succ_cons, List.drop_succ_cons, bits_val, List.length_take]
      have hl : min n rest.length = n := Nat.min_eq_left (by simpa using hlen)
      rw [hl, pow_succ]
      congr 2
      ring
/-! ## The codes written by `forget` and read by `uncompress` -/

theorem coded_as_ok (dynamic : Bool) (known : Int → Bool) (x c : Int)
    (h : coded_as dynamic known x = Except.ok c) :
    (known x = true ∧ c = x) ∨ (known x = false ∧ c = NOT_KNOWN) := by
  unfold coded_as at h
  by_cases hk : known x = true
  · rw [if_pos hk] at h
    exact Or.inl ⟨hk, (Except.ok.inj h).symm⟩
  · rw [if_neg hk] at h
    by_cases hd : dynamic = true
    · rw [if_pos hd] at h
      exact Or.inr ⟨by simpa using hk, (Except.ok.inj h).symm⟩
    · rw [if_neg hd] at h
      cases h

theorem coded_as_known (dynamic : Bool) (known : Int → Bool) (x : Int) (hk : known x = true) :
    coded_as dynamic known x = Except.ok x := by
  unfold coded_as
  rw [if_pos hk]
  rfl

theorem codes_kept_refl (U : Nat → Prop) (st : compressor) (h : codes_ok U st) :
    codes_kept U st st := ⟨h, rfl, rfl, rfl, le_refl _, fun _ _ => rfl⟩

theorem codes_kept_trans (U : Nat → Prop) (a b c : compressor) (h1 : codes_kept U a b)
    (h2 : codes_kept U b c) : codes_kept U a c :=
  ⟨h2.1, h2.2.1.trans h1.2.1, h2.2.2.1.trans h1.2.2.1, h2.2.2.2.1.trans h1.2.2.2.1,
    le_trans h1.2.2.2.2.1 h2.2.2.2.2.1, fun r hr => by
      have e1 := h1.2.2.2.2.2 r hr
      have e2 := h2.2.2.2.2.2 r (by rw [e1]; exact hr)
      rw [e2, e1]⟩

theorem no_keep_append (a b : List code) (ha : no_keep a) (hb : no_keep b) :
    no_keep (a ++ b) := by
  intro c hc
  rcases List.mem_append.1 hc with h | h
  · exact ha c h
  · exact hb c h

/-- The codes `encode_symbol` writes and how `get_symbol` reads them. -/
theorem encode_symbol_spec (U : Nat → Prop) (st st1 : compressor) (v : Nat) (cs : List code)
    (hinv : codes_ok U st) (h : encode_symbol st v = Except.ok (st1, cs)) :
    codes_kept U st st1 ∧ st1.current_rule = st.current_rule ∧ no_keep cs ∧
      ∃ x, x % 2 = 1 ∧ x ≠ END_OF_FILE ∧ x ≠ START_RULE ∧
        ((x ≠ NOT_KNOWN ∧ cs = [code.symbol x]) ∨
          (x = NOT_KNOWN ∧ ∃ y, cs = [code.symbol x, code.direct y])) := by
  unfold encode_symbol at h
  dsimp only at h
  cases hc : coded_as st.dynamic st.known (TERM_TO_CODE v) with
  | error e => rw [hc] at h; cases h
  | ok c =>
    rw [hc] at h
    simp only [bind, Except.bind] at h
    have hodd : TERM_TO_CODE (v : Int) % 2 = 1 := by unfold TERM_TO_CODE; omega
    have hpos : 3 ≤ TERM_TO_CODE (v : Int) := by unfold TERM_TO_CODE; omega
    rcases coded_as_ok _ _ _ _ hc with ⟨hk, rfl⟩ | ⟨hk, rfl⟩
    · have hne : ¬ TERM_TO_CODE (v : Int) = NOT_KNOWN := by unfold NOT_KNOWN; omega
      rw [if_neg hne] at h
      have e := Except.ok.inj h
      have e1 : st1 = st := (congrArg Prod.fst e).symm
      have e2 : cs = [code.symbol (TERM_TO_CODE v)] := (congrArg Prod.snd e).symm
      subst e1
      refine ⟨codes_kept_refl U _ hinv, rfl, ?_, TERM_TO_CODE v, hodd, ?_, ?_, Or.inl ⟨hne, e2⟩⟩
      · rw [e2]; intro c hc; simp at hc; rw [hc]; rfl
      · unfold END_OF_FILE; omega
      · unfold START_RULE; omega
    · rw [if_pos rfl] at h
      have e := Except.ok.inj h
      have e1 := (congrArg Prod.fst e).symm
      have e2 : cs = [code.symbol NOT_KNOWN, code.direct (TERM_TO_CODE v)] :=
        (congrArg Prod.snd e).symm
      simp only at e1
      refine ⟨?_, by rw [e1], ?_, NOT_KNOWN, by decide, by decide, by decide,
        Or.inr ⟨rfl, _, e2⟩⟩
      · rw [e1]
        refine ⟨⟨hinv.1, hinv.2.1, ?_, ?_⟩, rfl, rfl, rfl, le_refl _, fun _ _ => rfl⟩
        · simp only
          rw [Function.update_apply]
          split
          · rfl
          · exact hinv.2.2.1
        · intro r hr hne
          obtain ⟨a1, a2, a3, a4⟩ := hinv.2.2.2 r hr hne
          refine ⟨a1, a2, a3, ?_⟩
          simp only
          rw [Function.update_apply]
          split
          · rfl
          · exact a4
      · rw [e2]; intro c hc; simp at hc; rcases hc with hc | hc <;> rw [hc] <;> rfl

/-- The codes `encode_rule` writes for a rule that has an index. -/
theorem encode_rule_spec (U : Nat → Prop) (st st1 : compressor) (r : Nat) (keepi : Int)
    (cs : List code) (hinv : codes_ok U st) (hU : U r) (hidx : st.index r ≠ 0)
    (h : encode_rule st r keepi = Except.ok (st1, cs)) :
    st1.current_rule = st.current_rule ∧ st1.forgetting = st.forgetting ∧
      ((keepi < KEEPI_LENGTH ∧ st.forgetting = true ∧
          cs = [code.symbol (st.index r), code.keep keepi]) ∨
        (¬ (keepi < KEEPI_LENGTH ∧ st.forgetting = true) ∧ cs = [code.symbol (st.index r)] ∧
          st1 = st)) := by
  obtain ⟨_, _, _, hk⟩ := (hinv.2.2.2 r hU hidx)
  unfold encode_rule at h
  rw [coded_as_known _ _ _ hk] at h
  simp only [bind, Except.bind] at h
  by_cases hc : keepi < KEEPI_LENGTH ∧ st.forgetting = true
  · rw [if_pos hc] at h
    have e := Except.ok.inj h
    have e1 := (congrArg Prod.fst e).symm
    have e2 := (congrArg Prod.snd e).symm
    simp only at e1 e2
    refine ⟨?_, ?_, Or.inl ⟨hc.1, hc.2, e2⟩⟩
    · rw [e1]; split <;> rfl
    · rw [e1]; split <;> rfl
  · rw [if_neg hc] at h
    have e := Except.ok.inj h
    have e1 : st1 = st := (congrArg Prod.fst e).symm
    have e2 := (congrArg Prod.snd e).symm
    simp only at e2
    subst e1
    exact ⟨rfl, rfl, Or.inr ⟨hc, e2, rfl⟩⟩

theorem get_symbol_plain (f : Nat) (d : decompressor) (i : Int) (rest : List code)
    (hi : i ≠ START_RULE) :
    get_symbol (f + 1) d (code.symbol i :: rest) = some (i, d, rest) := by
  rw [get_symbol]
  simp only
  rw [if_neg hi]

/-- One pass of the loop over the body in `get_symbol`, followed by the rest
of the loop. -/
theorem body_combine (U : Nat → Prop) (f : Nat) (syms : List gsym) (s : gsym)
    (st sta st1 : compressor) (ca cb : List code) (hk : codes_kept U st sta)
    (hnk : no_keep ca)
    (hdec : ∀ (d : decompressor) (rest : List code), d.current_rule = st.current_rule →
      ∃ x cs1, get_symbol (f + 1) d (ca ++ rest) =
          some (x, { d with current_rule := sta.current_rule }, cs1) ∧
        (if x % 2 = 0 then some cs1
          else if x = NOT_KNOWN then (read_direct cs1).map (fun p => p.2)
          else some cs1) = some rest)
    (hrest : codes_kept U sta st1 ∧ no_keep cb ∧
      ∀ (d : decompressor) (rest : List code), d.current_rule = sta.current_rule →
        get_body (get_symbol (f + 1)) syms.length d (cb ++ rest) =
          some ({ d with current_rule := st1.current_rule }, rest)) :
    codes_kept U st st1 ∧ no_keep (ca ++ cb) ∧
      ∀ (d : decompressor) (rest : List code), d.current_rule = st.current_rule →
        get_body (get_symbol (f + 1)) (s :: syms).length d ((ca ++ cb) ++ rest) =
          some ({ d with current_rule := st1.current_rule }, rest) := by
  obtain ⟨r1, r2, r3⟩ := hrest
  refine ⟨codes_kept_trans U _ _ _ hk r1, no_keep_append _ _ hnk r2, ?_⟩
  intro d rest hd
  obtain ⟨x, cs1, g1, g2⟩ := hdec d (cb ++ rest) hd
  rw [List.length_cons, get_body, List.append_assoc, g1]
  simp only [bind, Option.bind]
  by_cases h0 : x % 2 = 0
  · rw [if_pos h0] at g2 ⊢
    rw [Option.some.inj g2, r3 _ rest rfl]
  · rw [if_neg h0] at g2 ⊢
    by_cases h1 : x = NOT_KNOWN
    · rw [if_pos h1] at g2 ⊢
      rw [g2]
      simp only
      rw [r3 _ rest rfl]
    · rw [if_neg h1] at g2 ⊢
      rw [Option.some.inj g2, r3 _ rest rfl]

/-- The loop over the body in `get_symbol` reads what the loop over the body
in `rules::output2` wrote, given that the recursive calls agree. -/
theorem output2_body_sync (U : Nat → Prop) (f : Nat)
    (ih : ∀ (st : compressor) (r : Nat) (st1 : compressor) (cs : List code),
      output2 f st r = Except.ok (st1, cs) → codes_ok U st → body_closed U st.body → U r →
      st.index r = 0 →
      codes_kept U st st1 ∧ st1.index r = st.current_rule ∧ no_keep cs ∧
      ∀ (d : decompressor) (rest : List code),
        d.current_rule = st.current_rule →
        get_symbol (f + 1) d (cs ++ rest) =
          some (st.current_rule, { d with current_rule := st1.current_rule }, rest)) :
    ∀ (syms : List gsym) (st st1 : compressor) (cs : List code),
      output2_body (output2 f) st syms = Except.ok (st1, cs) → codes_ok U st →
      body_closed U st.body → (∀ r', gsym.nonterm r' ∈ syms → U r') →
      codes_kept U st st1 ∧ no_keep cs ∧ ∀ (d : decompressor) (rest : List code),
        d.current_rule = st.current_rule →
        get_body (get_symbol (f + 1)) syms.length d (cs ++ rest) =
          some ({ d with current_rule := st1.current_rule }, rest) := by
  intro syms
  induction syms with
  | nil =>
    intro st st1 cs h hinv _ _
    simp only [output2_body, pure, Except.pure] at h
    have e := Except.ok.inj h
    have e1 : st1 = st := (congrArg Prod.fst e).symm
    have e2 : cs = [] := (congrArg Prod.snd e).symm
    subst e1 e2
    refine ⟨codes_kept_refl U _ hinv, (fun c hc => by cases hc), ?_⟩
    intro d rest hd
    simp only [List.length_nil, get_body, List.nil_append]
    rw [← hd]
  | cons s syms ihs =>
    intro st st1 cs h hinv hcl hU
    have hUs : ∀ r', gsym.nonterm r' ∈ syms → U r' :=
      fun r' hr => hU r' (List.mem_cons_of_mem _ hr)
    cases s with
    | term v =>
      simp only [output2_body, bind, Except.bind] at h
      cases hA : encode_symbol st v with
      | error e => rw [hA] at h; cases h
      | ok p =>
        rw [hA] at h
        simp only at h
        cases hB : output2_body (output2 f) p.1 syms with
        | error e => rw [hB] at h; cases h
        | ok q =>
          rw [hB] at h
          simp only [pure, Except.pure] at h
          have e := Except.ok.inj h
          have e1 : st1 = q.1 := (congrArg Prod.fst e).symm
          have e2 : cs = p.2 ++ q.2 := (congrArg Prod.snd e).symm
          subst e1 e2
          obtain ⟨k1, k2, k3, x, x1, x2, x3, x4⟩ := encode_symbol_spec U st p.1 v p.2 hinv hA
          refine body_combine U f syms _ st p.1 q.1 p.2 q.2 k1 k3 ?_
            (ihs p.1 q.1 q.2 hB k1.1 (by rw [k1.2.1]; exact hcl) hUs)
          intro d rest hd
          rcases x4 with ⟨n1, n2⟩ | ⟨n1, y, n2⟩
          · refine ⟨x, rest, ?_, ?_⟩
            · rw [n2, k2]
              simp only [List.cons_append, List.nil_append]
              rw [get_symbol_plain f d x rest x3]
              cases d
              simp_all
            · rw [if_neg (by omega), if_neg n1]
          · refine ⟨x, code.direct y :: rest, ?_, ?_⟩
            · rw [n2, k2]
              simp only [List.cons_append, List.nil_append]
              rw [get_symbol_plain f d x _ x3]
              cases d
              simp_all
            · rw [if_neg (by omega), if_pos n1]
              rfl
    | nonterm r' =>
      have hUr : U r' := hU r' (List.mem_cons_self _ _)
      simp only [output2_body, bind, Except.bind] at h
      by_cases hidx : st.index r' = 0
      · rw [if_pos hidx] at h
        cases hA : output2 f st r' with
        | error e => rw [hA] at h; cases h
        | ok p =>
          rw [hA] at h
          simp only at h
          cases hB : output2_body (output2 f) p.1 syms with
          | error e => rw [hB] at h; cases h
          | ok q =>
            rw [hB] at h
            simp only [pure, Except.pure] at h
            have e := Except.ok.inj h
            have e1 : st1 = q.1 := (congrArg Prod.fst e).symm
            have e2 : cs = p.2 ++ q.2 := (congrArg Prod.snd e).symm
            subst e1 e2
            obtain ⟨k1, _, k2, k3⟩ := ih st r' p.1 p.2 hA hinv hcl hUr hidx
            refine body_combine U f syms _ st p.1 q.1 p.2 q.2 k1 k2 ?_
              (ihs p.1 q.1 q.2 hB k1.1 (by rw [k1.2.1]; exact hcl) hUs)
            intro d rest hd
            refine ⟨st.current_rule, rest, k3 d rest hd, ?_⟩
            rw [if_pos hinv.2.1]
      · rw [if_neg hidx] at h
        cases hA : encode_rule st r' KEEPI_LENGTH with
        | error e => rw [hA] at h; cases h
        | ok p =>
          rw [hA] at h
          simp only at h
          cases hB : output2_body (output2 f) p.1 syms with
          | error e => rw [hB] at h; cases h
          | ok q =>
            rw [hB] at h
            simp only [pure, Except.pure] at h
            have e := Except.ok.inj h
            have e1 : st1 = q.1 := (congrArg Prod.fst e).symm
            have e2 : cs = p.2 ++ q.2 := (congrArg Prod.snd e).symm
            subst e1 e2
            obtain ⟨a1, a2, a3, a4⟩ := hinv.2.2.2 r' hUr hidx
            obtain ⟨k1, k2, k3⟩ := encode_rule_spec U st p.1 r' KEEPI_LENGTH p.2 hinv hUr hidx hA
            rcases k3 with ⟨hlt, _, _⟩ | ⟨_, hcs, hst⟩
            · exact absurd hlt (by decide)
            · have hk : codes_kept U st p.1 := by rw [hst]; exact codes_kept_refl U _ hinv
              refine body_combine U f syms _ st p.1 q.1 p.2 q.2 hk ?_ ?_
                (ihs p.1 q.1 q.2 hB hk.1 (by rw [hk.2.1]; exact hcl) hUs)
              · rw [hcs]; intro c hc; simp at hc; rw [hc]; rfl
              · intro d rest hd
                refine ⟨st.index r', rest, ?_, ?_⟩
                · rw [hcs, hst]
                  simp only [List.cons_append, List.nil_append]
                  rw [get_symbol_plain f d _ rest (by unfold START_RULE; omega)]
                  cases d
                  simp_all
                · rw [if_pos a3]

theorem get_symbol_start (f : Nat) (d : decompressor) (l : Int) (rest1 : List code) :
    get_symbol (f + 1) d (code.symbol START_RULE :: code.lengths l :: rest1) =
      (if l = NOT_KNOWN then read_direct rest1 else some (l, rest1)).bind (fun p =>
        (get_body (get_symbol f) p.1.toNat { d with current_rule := d.current_rule + 2 } p.2).bind
          (fun q => some (d.current_rule, q.1, q.2))) := by
  rw [get_symbol]
  simp only [if_true]
  split <;> rfl

/-- The state of `rules::output2` when it starts its loop. -/
theorem output2_start_ok (U : Nat → Prop) (st : compressor) (r : Nat) (hinv : codes_ok U st)
    (hU : U r) :
    codes_ok U { st with index := Function.update st.index r st.current_rule,
                         current_rule := st.current_rule + 2,
                         known := Function.update st.known st.current_rule true } := by
  obtain ⟨h1, h2, h3, h4⟩ := hinv
  refine ⟨by simp only; omega, by simp only; omega, ?_, ?_⟩
  · simp only
    rw [Function.update_apply]
    split
    · rfl
    · exact h3
  · intro r2 hr2 hne
    simp only at hne ⊢
    by_cases he : r2 = r
    · subst he
      rw [Function.update_same]
      refine ⟨h1, by omega, h2, ?_⟩
      rw [Function.update_same]
    · rw [Function.update_noteq he] at hne ⊢
      obtain ⟨a1, a2, a3, a4⟩ := h4 r2 hr2 hne
      refine ⟨a1, by omega, a3, ?_⟩
      rw [Function.update_apply]
      split
      · rfl
      · exact a4

/-- The function `get_symbol` reads what `rules::output2` wrote. -/
theorem output2_sync (U : Nat → Prop) :
    ∀ (f : Nat) (st : compressor) (r : Nat) (st1 : compressor) (cs : List code),
      output2 f st r = Except.ok (st1, cs) → codes_ok U st → body_closed U st.body → U r →
      st.index r = 0 →
      codes_kept U st st1 ∧ st1.index r = st.current_rule ∧ no_keep cs ∧
      ∀ (d : decompressor) (rest : List code),
        d.current_rule = st.current_rule →
        get_symbol (f + 1) d (cs ++ rest) =
          some (st.current_rule, { d with current_rule := st1.current_rule }, rest) := by
  intro f
  induction f with
  | zero => intro st r st1 cs h; rw [output2] at h; cases h
  | succ f ih =>
    intro st r st1 cs h hinv hcl hU hidx0
    have hinv2 := output2_start_ok U st r hinv hU
    rw [output2] at h
    simp only [bind, Except.bind] at h
    rw [coded_as_known _ _ _ hinv.2.2.1] at h
    simp only at h
    cases hL : coded_as st.dynamic st.known_length ((st.body r).length : Int) with
    | error e => rw [hL] at h; cases h
    | ok cl =>
      rw [hL] at h
      simp only at h
      cases hB : output2_body (output2 f)
          { st with index := Function.update st.index r st.current_rule,
                    current_rule := st.current_rule + 2,
                    known := Function.update st.known st.current_rule true } (st.body r) with
      | error e => rw [hB] at h; cases h
      | ok q =>
        rw [hB] at h
        simp only [pure, Except.pure] at h
        have e := Except.ok.inj h
        have e1 : st1 = q.1 := (congrArg Prod.fst e).symm
        have e2 := (congrArg Prod.snd e).symm
        simp only at e2
        subst e1
        obtain ⟨k1, k2, k3⟩ := output2_body_sync U f ih (st.body r) _ q.1 q.2 hB hinv2 hcl
          (fun r' hr' => hcl r hU r' hr')
        have hne4 : st.current_rule ≠ 0 := by have := hinv.1; omega
        have hidx1 : q.1.index r = st.current_rule := by
          have := k1.2.2.2.2.2 r (by simp only; rw [Function.update_same]; exact hne4)
          simp only [Function.update_same] at this
          exact this
        have hkept : codes_kept U st q.1 := by
          refine ⟨k1.1, k1.2.1, k1.2.2.1, k1.2.2.2.1, ?_, ?_⟩
          · have := k1.2.2.2.2.1
            simp only at this
            omega
          · intro r2 hr2
            have hne : r2 ≠ r := by
              intro he
              rw [he] at hr2
              exact hr2 hidx0
            have := k1.2.2.2.2.2 r2 (by simp only; rw [Function.update_noteq hne]; exact hr2)
            simp only [Function.update_noteq hne] at this
            exact this
        have hlen : ((st.body r).length : Int).toNat = (st.body r).length := Int.toNat_ofNat _
        have hnn : ¬ ((st.body r).length : Int) = NOT_KNOWN := by unfold NOT_KNOWN; omega
        refine ⟨hkept, hidx1, ?_, ?_⟩
        · rw [e2]
          apply no_keep_append _ _ _ k2
          intro c hc
          rcases List.mem_cons.1 hc with hc | hc
          · rw [hc]; rfl
          · split at hc
            · simp at hc; rcases hc with hc | hc <;> rw [hc] <;> rfl
            · simp at hc; rw [hc]; rfl
        · intro d rest hd
          have hbody := k3 { d with current_rule := d.current_rule + 2 } rest
            (by simp only; rw [hd])
          simp only [hd] at hbody
          rw [e2]
          rcases coded_as_ok _ _ _ _ hL with ⟨_, rfl⟩ | ⟨_, rfl⟩
          · rw [if_neg hnn]
            simp only [List.cons_append, List.nil_append]
            rw [get_symbol_start, if_neg hnn]
            simp only [Option.bind, hlen, hbody, hd]
          · rw [if_pos rfl]
            simp only [List.cons_append, List.nil_append]
            rw [get_symbol_start, if_pos rfl]
            simp only [read_direct, Option.bind, hlen, hbody, hd]

theorem keep_positions_none : ∀ (cs : List code) (pos : Nat), no_keep cs →
    keep_positions pos cs = [] := by
  intro cs
  induction cs with
  | nil => intro pos _; rfl
  | cons c cs ih =>
    intro pos h
    rw [keep_positions, h c (List.mem_cons_self _ _)]
    simp only [Bool.false_eq_true, if_false]
    exact ih _ (fun c' hc' => h c' (List.mem_cons_of_mem _ hc'))

theorem keep_positions_append : ∀ (a b : List code) (pos : Nat),
    keep_positions pos (a ++ b) = keep_positions pos a ++ keep_positions (pos + a.length) b := by
  intro a
  induction a with
  | nil => intro b pos; simp [keep_positions]
  | cons c a ih =>
    intro b pos
    have e := ih b (pos + 1)
    rw [show pos + 1 + a.length = pos + (a.length + 1) by omega] at e
    show keep_positions pos (c :: (a ++ b)) = _
    rw [keep_positions, keep_positions, e, List.length_cons]
    split <;> rfl

/-- A pass of the loop of `uncompress` over the definition of a new rule. -/
theorem pass_new_rule (F : Nat) (d d1 : decompressor) (cs rest : List code) (n : Int)
    (hget : get_symbol F d cs = some (n, d1, rest)) (hn : n = d.current_rule) (h4 : 4 ≤ n)
    (heven : n % 2 = 0) :
    uncompress_pass F d cs = some (true, false, d1, rest) := by
  unfold uncompress_pass
  rw [hget]
  simp only [bind, Option.bind]
  rw [if_neg (by unfold END_OF_FILE; omega), if_neg (by unfold STOP_FORGETTING; omega),
    if_neg (by unfold NOT_KNOWN; omega), if_neg (by omega), if_neg (by omega)]

/-- A pass of the loop of `uncompress` over the index of a rule sent earlier,
while forgetting. -/
theorem pass_index_keep (f : Nat) (d : decompressor) (i k : Int) (rest : List code)
    (h4 : 4 ≤ i) (heven : i % 2 = 0) (hlt : i < d.current_rule) (hf : d.forgetting = true) :
    uncompress_pass (f + 1) d (code.symbol i :: code.keep k :: rest) =
      some (true, true, d, rest) := by
  unfold uncompress_pass
  rw [get_symbol_plain f d i _ (by unfold START_RULE; omega)]
  simp only [bind, Option.bind]
  rw [if_neg (by unfold END_OF_FILE; omega), if_neg (by unfold STOP_FORGETTING; omega),
    if_neg (by unfold NOT_KNOWN; omega), if_neg (by omega), if_pos ⟨hlt, hf⟩]

/-- A pass of the loop of `uncompress` over the index of a rule sent earlier,
after the forgetting has stopped. -/
theorem pass_index_plain (f : Nat) (d : decompressor) (i : Int) (rest : List code)
    (h4 : 4 ≤ i) (heven : i % 2 = 0) (hf : d.forgetting = false) :
    uncompress_pass (f + 1) d (code.symbol i :: rest) = some (true, false, d, rest) := by
  unfold uncompress_pass
  rw [get_symbol_plain f d i _ (by unfold START_RULE; omega)]
  simp only [bind, Option.bind]
  rw [if_neg (by unfold END_OF_FILE; omega), if_neg (by unfold STOP_FORGETTING; omega),
    if_neg (by unfold NOT_KNOWN; omega), if_neg (by omega),
    if_neg (by rw [hf]; simp)]

/-- A pass of the loop of `uncompress` over a terminal. -/
theorem pass_terminal (f : Nat) (d : decompressor) (x : Int) (cs rest : List code)
    (hodd : x % 2 = 1) (h1 : x ≠ END_OF_FILE) (h0 : x ≠ START_RULE)
    (hcs : (x ≠ NOT_KNOWN ∧ cs = [code.symbol x]) ∨
      (x = NOT_KNOWN ∧ ∃ y, cs = [code.symbol x, code.direct y])) :
    uncompress_pass (f + 1) d (cs ++ rest) = some (true, false, d, rest) := by
  unfold uncompress_pass
  rcases hcs with ⟨n1, n2⟩ | ⟨n1, y, n2⟩
  · rw [n2]
    simp only [List.cons_append, List.nil_append]
    rw [get_symbol_plain f d x _ h0]
    simp only [bind, Option.bind]
    rw [if_neg h1, if_neg (by unfold STOP_FORGETTING; omega), if_neg n1, if_pos hodd]
  · rw [n2]
    simp only [List.cons_append, List.nil_append]
    rw [get_symbol_plain f d x _ h0]
    simp only [bind, Option.bind]
    rw [if_neg h1, if_neg (by unfold STOP_FORGETTING; omega), if_pos n1]
    rfl

theorem passes_one (F : Nat) (d d1 : decompressor) (cs rest : List code) (k : Bool)
    (h : uncompress_pass F d (cs ++ rest) = some (true, k, d1, rest)) (pos : Nat) :
    uncompress_passes F 1 pos d (cs ++ rest) =
      some (if k then [pos + cs.length - 1] else [], d1, rest) := by
  rw [uncompress_passes, h]
  simp only [bind, Option.bind, uncompress_passes, List.length_append, Nat.add_sub_cancel]

theorem decompressor_eq (d : decompressor) (a : Int) (b : Bool) (ha : d.current_rule = a)
    (hb : d.forgetting = b) : d = { current_rule := a, forgetting := b } := by
  cases d
  simp only at ha hb
  rw [ha, hb]

/-- The passes over the index of a rule sent earlier, as `encode_rule` writes
it at the end of `forget`. -/
theorem encode_rule_sync (U : Nat → Prop) (f : Nat) (st st1 : compressor) (r : Nat)
    (keepi : Int) (cs : List code) (hinv : codes_ok U st) (hU : U r) (hidx : st.index r ≠ 0)
    (hk : keepi < KEEPI_LENGTH) (h : encode_rule st r keepi = Except.ok (st1, cs))
    (d : decompressor) (rest : List code) (hd : d.current_rule = st.current_rule)
    (hf : d.forgetting = st.forgetting) (pos : Nat) :
    st1.current_rule = st.current_rule ∧ st1.forgetting = st.forgetting ∧
    (st.forgetting = true → cs = [code.symbol (st.index r), code.keep keepi]) ∧
    uncompress_passes (f + 1) 1 pos d (cs ++ rest) = some (keep_positions pos cs, d, rest) := by
  obtain ⟨a1, a2, a3, a4⟩ := hinv.2.2.2 r hU hidx
  obtain ⟨k1, k2, k3⟩ := encode_rule_spec U st st1 r keepi cs hinv hU hidx h
  refine ⟨k1, k2, ?_, ?_⟩
  · intro hft
    rcases k3 with ⟨_, _, e⟩ | ⟨hn, _, _⟩
    · exact e
    · exact absurd ⟨hk, hft⟩ hn
  · rcases k3 with ⟨_, hft, e⟩ | ⟨hn, e, _⟩
    · have hp := pass_index_keep f d (st.index r) keepi rest a1 a3 (by rw [hd]; exact a2)
        (by rw [hf]; exact hft)
      have hp2 : uncompress_pass (f + 1) d (cs ++ rest) = some (true, true, d, rest) := by
        rw [e]; exact hp
      rw [passes_one _ d d cs rest true hp2 pos, e]
      simp [keep_positions, code.is_keep]
    · have hff : d.forgetting = false := by
        rw [hf]
        cases hfo : st.forgetting
        · rfl
        · exact absurd ⟨hk, hfo⟩ hn
      have hp := pass_index_plain f d (st.index r) rest a1 a3 hff
      have hp2 : uncompress_pass (f + 1) d (cs ++ rest) = some (true, false, d, rest) := by
        rw [e]; exact hp
      rw [passes_one _ d d cs rest false hp2 pos, e]
      simp [keep_positions, code.is_keep]

/-- The pass over the definition of a new rule, as `rules::output2` writes it
for `forget`. -/
theorem output2_pass (U : Nat → Prop) (f : Nat) (st st1 : compressor) (r : Nat)
    (cs : List code) (hinv : codes_ok U st) (hcl : body_closed U st.body) (hU : U r)
    (hidx : st.index r = 0) (h : output2 f st r = Except.ok (st1, cs))
    (d : decompressor) (rest : List code) (hd : d.current_rule = st.current_rule) :
    codes_kept U st st1 ∧ st1.index r = st.current_rule ∧ no_keep cs ∧
    uncompress_pass (f + 1) d (cs ++ rest) =
      some (true, false, { d with current_rule := st1.current_rule }, rest) := by
  obtain ⟨k1, k2, k3, k4⟩ := output2_sync U f st r st1 cs h hinv hcl hU hidx
  exact ⟨k1, k2, k3, pass_new_rule (f + 1) d _ (cs ++ rest) rest st.current_rule (k4 d rest hd)
    hd.symm hinv.1 hinv.2.1⟩

/-- The passes of the loop of `uncompress` over the codes written for a
non-terminal. -/
theorem forget_rule_sync (U : Nat → Prop) (fuel : Nat) (st st1 : compressor) (r : Nat)
    (cs : List code) (hinv : codes_ok U st) (hcl : body_closed U st.body) (hU : U r)
    (h : forget_rule fuel st r = Except.ok (st1, cs))
    (d : decompressor) (rest : List code) (hd : d.current_rule = st.current_rule)
    (hf : d.forgetting = st.forgetting) :
    ∃ n, n ≤ 2 ∧ uncompress_passes (fuel + 1) n 0 d (cs ++ rest) =
      some (keep_positions 0 cs,
        { current_rule := st1.current_rule, forgetting := st1.forgetting }, rest) := by
  unfold forget_rule at h
  simp only [bind, Except.bind] at h
  by_cases hp : st.freq r > 0
  · rw [if_pos hp] at h
    by_cases hi : st.index r = 0
    · rw [if_pos hi] at h
      obtain ⟨k1, k2, k3, k4⟩ := output2_pass U fuel st st1 r cs hinv hcl hU hi h d rest hd
      refine ⟨1, by omega, ?_⟩
      rw [passes_one _ d _ cs rest false k4 0, keep_positions_none cs 0 k3]
      simp only [Bool.false_eq_true, if_false]
      rw [hf, ← k1.2.2.1]
    · rw [if_neg hi] at h
      obtain ⟨k1, k2, _, k4⟩ := encode_rule_sync U fuel st st1 r KEEPI_YES cs hinv hU hi
        (by decide) h d rest hd hf 0
      refine ⟨1, by omega, ?_⟩
      rw [k4, ← decompressor_eq d _ _ (hd.trans k1.symm) (hf.trans k2.symm)]
  · rw [if_neg hp] at h
    by_cases hi : st.index r = 0
    · rw [if_pos hi] at h
      cases hA : output2 fuel st r with
      | error e => rw [hA] at h; cases h
      | ok p =>
        rw [hA] at h
        simp only at h
        obtain ⟨k1, k2, k3, k4⟩ := output2_pass U fuel st p.1 r p.2 hinv hcl hU hi hA d rest hd
        by_cases hfo : p.1.forgetting = true
        · rw [if_pos hfo] at h
          cases hB : encode_rule p.1 r KEEPI_DUMMY with
          | error e => rw [hB] at h; cases h
          | ok q =>
            rw [hB] at h
            simp only [pure, Except.pure] at h
            have e := Except.ok.inj h
            have e1 : st1 = delete_body q.1 r := (congrArg Prod.fst e).symm
            have e2 : cs = p.2 ++ q.2 := (congrArg Prod.snd e).symm
            have hne : p.1.index r ≠ 0 := by rw [k2]; have := hinv.1; omega
            obtain ⟨m1, m2, m3, m4⟩ := encode_rule_sync U fuel p.1 q.1 r KEEPI_DUMMY q.2 k1.1 hU
              hne (by decide) hB { d with current_rule := p.1.current_rule } rest rfl
              (by simp only; rw [hf, ← k1.2.2.1]) (0 + p.2.length)
            have k4' := (output2_pass U fuel st p.1 r p.2 hinv hcl hU hi hA d (q.2 ++ rest)
              hd).2.2.2
            refine ⟨2, by omega, ?_⟩
            rw [e2, List.append_assoc, uncompress_passes, k4']
            simp only [bind, Option.bind, List.length_append]
            rw [show p.2.length + (q.2.length + rest.length) - (q.2.length + rest.length) =
              p.2.length by omega, m4]
            simp only [Bool.false_eq_true, if_false]
            rw [keep_positions_append, keep_positions_none p.2 0 k3, List.nil_append, e1]
            simp only [delete_body]
            rw [m1, m2, hfo]
            congr 2
            rw [hf, ← k1.2.2.1, hfo]
        · rw [if_neg hfo] at h
          simp only [pure, Except.pure] at h
          have e := Except.ok.inj h
          have e1 : st1 = delete_body p.1 r := (congrArg Prod.fst e).symm
          have e2 : cs = p.2 := (congrArg Prod.snd e).symm
          refine ⟨1, by omega, ?_⟩
          rw [e2, passes_one _ d _ p.2 rest false k4 0, keep_positions_none p.2 0 k3, e1]
          simp only [Bool.false_eq_true, if_false, delete_body]
          rw [hf, ← k1.2.2.1]
    · rw [if_neg hi] at h
      cases hA : encode_rule st r KEEPI_NO with
      | error e => rw [hA] at h; cases h
      | ok p =>
        rw [hA] at h
        simp only [pure, Except.pure] at h
        have e := Except.ok.inj h
        have e1 : st1 = delete_body p.1 r := (congrArg Prod.fst e).symm
        have e2 : cs = p.2 := (congrArg Prod.snd e).symm
        obtain ⟨k1, k2, _, k4⟩ := encode_rule_sync U fuel st p.1 r KEEPI_NO p.2 hinv hU hi
          (by decide) hA d rest hd hf 0
        refine ⟨1, by omega, ?_⟩
        rw [e2, k4, e1]
        simp only [delete_body]
        rw [← decompressor_eq d _ _ (hd.trans k1.symm) (hf.trans k2.symm)]

/-- The passes of the loop of `uncompress` over the codes of one `forget`. -/
theorem forget_sync (U : Nat → Prop) (fuel : Nat) (st st1 : compressor) (s : gsym)
    (cs : List code) (hinv : codes_ok U st) (hcl : body_closed U st.body)
    (hs : ∀ r, s = gsym.nonterm r → U r) (h : forget fuel st s = Except.ok (st1, cs))
    (d : decompressor) (rest : List code) (hd : d.current_rule = st.current_rule)
    (hf : d.forgetting = st.forgetting) :
    ∃ n, n ≤ 2 ∧ uncompress_passes (fuel + 1) n 0 d (cs ++ rest) =
      some (keep_positions 0 cs,
        { current_rule := st1.current_rule, forgetting := st1.forgetting }, rest) := by
  cases s with
  | term v =>
    unfold forget at h
    simp only at h
    obtain ⟨k1, k2, k3, x, x1, x2, x3, x4⟩ := encode_symbol_spec U st st1 v cs hinv h
    refine ⟨1, by omega, ?_⟩
    rw [passes_one _ d d cs rest false (pass_terminal fuel d x cs rest x1 x2 x3 x4) 0,
      keep_positions_none cs 0 k3]
    simp only [Bool.false_eq_true, if_false]
    rw [← decompressor_eq d _ _ (hd.trans k2.symm) (hf.trans k1.2.2.1.symm)]
  | nonterm r =>
    unfold forget at h
    simp only at h
    exact forget_rule_sync U fuel
      { st with freq := Function.update st.freq r (st.freq r - 1) } st1 r cs hinv hcl
      (hs r rfl) h d rest hd hf

/-- The codes `forget` writes for a non-terminal whose rule stays in use. -/
theorem forget_rule_used (U : Nat → Prop) (fuel : Nat) (st st1 : compressor) (r : Nat)
    (cs : List code) (hinv : codes_ok U st) (hcl : body_closed U st.body) (hU : U r)
    (h : forget_rule fuel st r = Except.ok (st1, cs)) (hfreq : st.freq r > 0) :
    (st.index r ≠ 0 → st.forgetting = true →
      cs = [code.symbol (st.index r), code.keep KEEPI_YES]) ∧
    (st.index r ≠ 0 → st.forgetting = false → cs = [code.symbol (st.index r)]) ∧
    (st.index r = 0 → no_keep cs) := by
  unfold forget_rule at h
  rw [if_pos hfreq] at h
  refine ⟨?_, ?_, ?_⟩
  · intro hi hf
    rw [if_neg hi] at h
    exact (encode_rule_sync U 0 st st1 r KEEPI_YES cs hinv hU hi (by decide) h
      { current_rule := st.current_rule, forgetting := st.forgetting } [] rfl rfl 0).2.2.1 hf
  · intro hi hf
    rw [if_neg hi] at h
    rcases (encode_rule_spec U st st1 r KEEPI_YES cs hinv hU hi h).2.2 with ⟨_, h1, _⟩ | ⟨_, h1, _⟩
    · rw [hf] at h1; cases h1
    · exact h1
  · intro hi
    rw [if_pos hi] at h
    exact (output2_sync U fuel st r st1 cs h hinv hcl hU hi).2.2.1

theorem forget_codes_ok (fuel : Nat) (st : compressor) (s : gsym) (cs : List code) (cr : Int)
    (fg : Bool) (h : forget_codes fuel st s = Except.ok (cs, cr, fg)) :
    ∃ st1, forget fuel st s = Except.ok (st1, cs) ∧ st1.current_rule = cr ∧
      st1.forgetting = fg := by
  unfold forget_codes at h
  cases hA : forget fuel st s with
  | error e => rw [hA] at h; cases h
  | ok p =>
    rw [hA] at h
    simp only [Except.map] at h
    have e := Except.ok.inj h
    have e1 : p.2 = cs := congrArg Prod.fst e
    have e2 : p.1.current_rule = cr := congrArg (fun x => x.2.1) e
    have e3 : p.1.forgetting = fg := congrArg (fun x => x.2.2) e
    exact ⟨p.1, by rw [← e1], e2, e3⟩
/-! ## The decoder follows the encoder -/

/-- The loop `DECODE_RENORMALISE` doubles the range `j` times and shifts the
next `j` bits of the input into `in_D`. -/
theorem decode_renorm_bits (B : Nat) (hB2 : 2 ≤ B) (hB : B ≤ 64) :
    ∀ (j fuel : Nat) (d : decoder), (∀ i, i < j → 2 ^ i * d.in_R ≤ Quarter B) →
      Quarter B < 2 ^ j * d.in_R → j < fuel → j ≤ d.input.length → d.in_D < d.in_R →
      DECODE_RENORMALISE B fuel d =
        Except.ok { d with in_R := 2 ^ j * d.in_R,
                           in_D := d.in_D * 2 ^ j + bits_val (d.input.take j),
                           input := d.input.drop j } := by
  obtain ⟨e1, e2, e3⟩ := half_facts B hB2 hB
  intro j
  induction j with
  | zero =>
    intro fuel d _ hq hf _ _
    obtain ⟨f, rfl⟩ : ∃ f, fuel = f + 1 := ⟨fuel - 1, by omega⟩
    rw [DECODE_RENORMALISE_succ, if_neg (by simpa using hq)]
    cases d
    simp [pure, Except.pure, bits_val]
  | succ j ih =>
    intro fuel d hall hq hf hlen hD
    obtain ⟨f, rfl⟩ : ∃ f, fuel = f + 1 := ⟨fuel - 1, by omega⟩
    have h0 : d.in_R ≤ Quarter B := by simpa using hall 0 (by omega)
    rw [DECODE_RENORMALISE_succ, if_pos h0]
    cases hin : d.input with
    | nil => rw [hin] at hlen; simp at hlen
    | cons b rest =>
      rw [hin] at hlen
      simp only [List.length_cons] at hlen
      simp only [ADD_NEXT_INPUT_BIT, pure, Except.pure, Except.bind]
      have hR2 : (d.in_R * 2) % W = d.in_R * 2 := Nat.mod_eq_of_lt (by omega)
      have hD2 : uadd ((d.in_D * 2) % W) (if b then 1 else 0) =
          d.in_D * 2 + (if b then 1 else 0) := by
        rw [Nat.mod_eq_of_lt (by omega), uadd_of_lt _ _ (by split <;> omega)]
      rw [hR2, hD2]
      rw [ih f _ (fun i hi => by
          have := hall (i + 1) (by omega)
          rw [pow_succ] at this
          simp only
          calc 2 ^ i * (d.in_R * 2) = 2 ^ i * 2 * d.in_R := by ring
            _ ≤ Quarter B := this)
        (by simp only
            rw [pow_succ] at hq
            calc Quarter B < 2 ^ j * 2 * d.in_R := hq
              _ = 2 ^ j * (d.in_R * 2) := by ring)
        (by omega) (by simp only; omega) (by simp only; split <;> omega)]
      congr 1
      simp only [List.take_succ_cons, List.drop_succ_cons, bits_val, List.length_take]
      have hl : min j rest.length = j := Nat.min_eq_left (by omega)
      rw [hl]
      cases d
      simp only [decoder.mk.injEq, and_true, true_and]
      constructor
      · rw [pow_succ]; ring
      · rw [pow_succ]; ring

/-- The code interval of a later state lies inside that of an earlier one. -/
theorem encode_all_nest (B F fuel : Nat) (hF : F + 2 ≤ B) (hB : B ≤ 64) :
    ∀ (triples : List (Nat × Nat × Nat)) (e en : encoder), enc_ok B e →
      valid_triples F triples → encode_all B fuel e triples = Except.ok en →
      enc_ok B en ∧ ∃ m, nshift en = nshift e + m ∧ absval B e * 2 ^ m ≤ absval B en ∧
        absval B en + en.out_R ≤ (absval B e + e.out_R) * 2 ^ m := by
  intro triples
  induction triples with
  | nil =>
    intro e en hok _ h
    rw [encode_all] at h
    have e1 : en = e := (Except.ok.inj h).symm
    subst e1
    exact ⟨hok, 0, by simp, by simp, by simp⟩
  | cons tr rest ih =>
    intro e en hok hv h
    obtain ⟨low, high, total⟩ := tr
    rw [encode_all] at h
    cases hA : arithmetic_encode B fuel e low high total with
    | error err => rw [hA] at h; cases h
    | ok e1 =>
      rw [hA] at h
      simp only [bind, Except.bind] at h
      obtain ⟨v1, v2, v3⟩ := hv (low, high, total) (List.mem_cons_self _ _)
      obtain ⟨hok1, hw, hxw, j, s1, s2, s3, _, _⟩ :=
        arithmetic_encode_spec B F (by omega) hB hF e e1 hok low high total fuel v1 v2 v3 hA
      obtain ⟨hokn, m1, n1, n2, n3⟩ := ih e1 en hok1
        (fun t ht => hv t (List.mem_cons_of_mem _ ht)) h
      refine ⟨hokn, j + m1, by omega, ?_, ?_⟩
      · calc absval B e * 2 ^ (j + m1)
            ≤ (absval B e + (sub_range e.out_R low high total).1) * 2 ^ (j + m1) :=
              Nat.mul_le_mul_right _ (by omega)
          _ = 2 ^ j * (absval B e + (sub_range e.out_R low high total).1) * 2 ^ m1 := by
              rw [pow_add]; ring
          _ = absval B e1 * 2 ^ m1 := by rw [s1]
          _ ≤ absval B en := n2
      · calc absval B en + en.out_R ≤ (absval B e1 + e1.out_R) * 2 ^ m1 := n3
          _ = (absval B e + ((sub_range e.out_R low high total).1 +
                (sub_range e.out_R low high total).2)) * 2 ^ (j + m1) := by
              rw [s1, s2, pow_add]; ring
          _ ≤ (absval B e + e.out_R) * 2 ^ (j + m1) := Nat.mul_le_mul_right _ (by omega)

/-- The target the decoder computes falls into the interval the encoder
coded, when `in_D` lies in the part of the range given to that interval. -/
theorem target_in_interval (R D total low high : Nat) (ht0 : 0 < total) (hr : 1 ≤ R / total)
    (hlh : low < high) (hh : high ≤ total)
    (hx : (sub_range R low high total).1 ≤ D)
    (hw : D < (sub_range R low high total).1 + (sub_range R low high total).2) :
    low ≤ (if D / (R / total) ≥ total then total - 1 else D / (R / total)) ∧
      (if D / (R / total) ≥ total then total - 1 else D / (R / total)) < high := by
  simp only [sub_range] at hx hw
  generalize R / total = r at *
  have hlow : low ≤ D / r := by
    rw [Nat.le_div_iff_mul_le (by omega), Nat.mul_comm]
    exact hx
  by_cases hc : D / r ≥ total
  · rw [if_pos hc]
    refine ⟨by omega, ?_⟩
    by_cases hht : high < total
    · rw [if_pos hht] at hw
      have e : r * low + r * (high - low) = r * high := by
        rw [← Nat.mul_add]; congr 1; omega
      rw [e] at hw
      have : D / r < high := by
        rw [Nat.div_lt_iff_lt_mul (by omega), Nat.mul_comm]
        exact hw
      omega
    · omega
  · rw [if_neg hc]
    refine ⟨hlow, ?_⟩
    by_cases hht : high < total
    · rw [if_pos hht] at hw
      have e : r * low + r * (high - low) = r * high := by
        rw [← Nat.mul_add]; congr 1; omega
      rw [e] at hw
      rw [Nat.div_lt_iff_lt_mul (by omega), Nat.mul_comm]
      exact hw
    · omega

theorem take_add_bits (S : List Bool) (a j : Nat) (h : a + j ≤ S.length) :
    bits_val (S.take (a + j)) = bits_val (S.take a) * 2 ^ j + bits_val ((S.drop a).take j) := by
  have e : S.take (a + j) = S.take a ++ (S.drop a).take j := by
    rw [List.take_add]
  rw [e, bits_val_append, List.length_take, List.length_drop, Nat.min_eq_left (by omega)]

/-- One call of `arithmetic_decode_target` and `arithmetic_decode` on a state
that follows the encoder: the target falls into the interval coded and the new
state follows the next state of the encoder. -/
theorem decode_step_follows (B F fuel : Nat) (hF : F + 2 ≤ B) (hB : B ≤ 64)
    (S pad : List Bool) (e e1 en : encoder) (d : decoder) (low high total : Nat)
    (hok : enc_ok B e) (hlh : low < high) (hh : high ≤ total) (ht : total ≤ 2 ^ F)
    (hA : arithmetic_encode B fuel e low high total = Except.ok e1)
    (hnest : ∃ m1, nshift en = nshift e1 + m1 ∧ absval B e1 * 2 ^ m1 ≤ absval B en ∧
      absval B en + en.out_R ≤ (absval B e1 + e1.out_R) * 2 ^ m1)
    (hRn : 0 < en.out_R) (hS1 : S.length = nshift en + B) (hS2 : bits_val S = absval B en)
    (hfol : follows B S pad e d) :
    ∃ t d1 d2, arithmetic_decode_target d total = Except.ok (t, d1) ∧ low ≤ t ∧ t < high ∧
      arithmetic_decode B fuel d1 low high total = Except.ok d2 ∧ follows B S pad e1 d2 := by
  obtain ⟨hok1, hw, hxw, j, s1, s2, s3, s4, s5⟩ :=
    arithmetic_encode_spec B F (by omega) hB hF e e1 hok low high total fuel hlh hh ht hA
  obtain ⟨m1, n1, n2, n3⟩ := hnest
  obtain ⟨f1, f2, f3⟩ := hfol
  obtain ⟨k1, k2, k3, k4⟩ := hok
  obtain ⟨p1, p2, p3, p4⟩ := pow_facts B (by omega) hB
  have hFQ : 2 ^ F ≤ Quarter B := Nat.pow_le_pow_right (by norm_num) (by omega)
  have ht0 : 0 < total := by omega
  have hRW : e.out_R < W := by omega
  -- the window of the stream read so far
  have hV : bits_val (S.take (B + nshift e)) = absval B en / 2 ^ (j + m1) := by
    rw [bits_val_take, hS2, hS1]
    congr 2
    omega
  have hlo : (absval B e + (sub_range e.out_R low high total).1) * 2 ^ (j + m1) ≤ absval B en := by
    calc (absval B e + (sub_range e.out_R low high total).1) * 2 ^ (j + m1)
        = 2 ^ j * (absval B e + (sub_range e.out_R low high total).1) * 2 ^ m1 := by
          rw [pow_add]; ring
      _ = absval B e1 * 2 ^ m1 := by rw [s1]
      _ ≤ absval B en := n2
  have hhi : absval B en < (absval B e + (sub_range e.out_R low high total).1 +
      (sub_range e.out_R low high total).2) * 2 ^ (j + m1) := by
    calc absval B en < absval B en + en.out_R := by omega
      _ ≤ (absval B e1 + e1.out_R) * 2 ^ m1 := n3
      _ = (absval B e + (sub_range e.out_R low high total).1 +
            (sub_range e.out_R low high total).2) * 2 ^ (j + m1) := by
          rw [s1, s2, pow_add]; ring
  have hp : 0 < 2 ^ (j + m1) := by positivity
  have hVlo : absval B e + (sub_range e.out_R low high total).1 ≤
      bits_val (S.take (B + nshift e)) := by
    rw [hV, Nat.le_div_iff_mul_le hp]
    exact hlo
  have hVhi : bits_val (S.take (B + nshift e)) < absval B e +
      (sub_range e.out_R low high total).1 + (sub_range e.out_R low high total).2 := by
    rw [hV, Nat.div_lt_iff_lt_mul hp]
    exact hhi
  -- the target
  obtain ⟨hr, htW, htarget⟩ := decode_target_spec B F hF hB d total (by rw [f1]; exact k1) ht0 ht
  rw [f1] at hr htarget
  have hx : (sub_range e.out_R low high total).1 ≤ d.in_D := by omega
  have hxw2 : d.in_D < (sub_range e.out_R low high total).1 +
      (sub_range e.out_R low high total).2 := by omega
  obtain ⟨t1, t2⟩ := target_in_interval e.out_R d.in_D total low high ht0 hr hlh hh hx hxw2
  -- the narrowing
  obtain ⟨n1', _, _⟩ := narrow_sub_range 0 e.out_R low high total (by omega) (by omega) hRW
    (by omega) hlh hh
  have hRexp : (if high < total then (e.out_R / total * usub high low) % W
      else usub e.out_R ((e.out_R / total * low) % W)) =
        (sub_range e.out_R low high total).2 := by
    have := congrArg Prod.snd n1'
    simp only [arithmetic_encode_narrow] at this
    exact this
  have hxeq : (e.out_R / total * low) % W = (sub_range e.out_R low high total).1 := by
    simp only [sub_range] at hxw ⊢
    exact Nat.mod_eq_of_lt (by omega)
  have hDsub : usub d.in_D (sub_range e.out_R low high total).1 =
      d.in_D - (sub_range e.out_R low high total).1 := usub_of_le _ _ hx (by omega)
  -- the input
  have hlenS : B + nshift e + (j + m1) = S.length := by omega
  have hdrop : (S.drop (B + nshift e)).length = j + m1 := by
    rw [List.length_drop]; omega
  have hren := decode_renorm_bits B (by omega) hB j fuel
    { in_R := (sub_range e.out_R low high total).2,
      in_D := d.in_D - (sub_range e.out_R low high total).1,
      in_r := e.out_R / total, input := d.input } s4 (by rw [← s2]; exact hok1.1) s5
    (by simp only; rw [f3, List.length_append, hdrop]; omega) (by simp only; omega)
  have hdec : arithmetic_decode B fuel
      { in_R := e.out_R, in_D := d.in_D, in_r := e.out_R / total, input := d.input }
      low high total =
      Except.ok { in_R := 2 ^ j * (sub_range e.out_R low high total).2,
                  in_D := (d.in_D - (sub_range e.out_R low high total).1) * 2 ^ j +
                    bits_val (d.input.take j),
                  in_r := e.out_R / total, input := d.input.drop j } := by
    unfold arithmetic_decode
    dsimp only
    rw [hRexp, hxeq, hDsub]
    exact hren
  refine ⟨_, _, _, htarget, t1, t2, hdec, ?_, ?_, ?_⟩
  · simp only
    exact s2.symm
  · simp only
    rw [f3, List.take_append_of_le_length (by rw [hdrop]; omega), s3, s1,
      show B + (nshift e + j) = (B + nshift e) + j by omega,
      take_add_bits S (B + nshift e) j (by omega), ← f2]
    have e3 : (d.in_D - (sub_range e.out_R low high total).1) * 2 ^ j =
        d.in_D * 2 ^ j - (sub_range e.out_R low high total).1 * 2 ^ j := Nat.sub_mul _ _ _
    have e4 : (sub_range e.out_R low high total).1 * 2 ^ j ≤ d.in_D * 2 ^ j :=
      Nat.mul_le_mul_right _ hx
    have e5 : 2 ^ j * (absval B e + (sub_range e.out_R low high total).1) =
        absval B e * 2 ^ j + (sub_range e.out_R low high total).1 * 2 ^ j := by ring
    have e6 : (d.in_D + absval B e) * 2 ^ j = d.in_D * 2 ^ j + absval B e * 2 ^ j := by ring
    rw [e3, e5, e6]
    omega
  · simp only
    rw [f3, List.drop_append_of_le_length (by rw [hdrop]; omega), List.drop_drop, s3]
    congr 2
    omega

/-- A renormalisation that doubles the range `j` times adds at most `j`
outstanding bits. -/
theorem renorm_outstanding (B : Nat) (hB : 2 ≤ B) (hB64 : B ≤ 64) :
    ∀ fuel : Nat, ∀ e e1 : encoder, ENCODE_RENORMALISE B fuel e = Except.ok e1 →
      0 < e.out_R → e.out_R ≤ Half B → e.out_L + e.out_R ≤ 2 ^ B →
      e.out_bits_outstanding + Half B / e.out_R ≤ W →
      ∃ j, e1.out_R = 2 ^ j * e.out_R ∧
        e1.out_bits_outstanding ≤ e.out_bits_outstanding + j := by
  obtain ⟨h1, h2, h3, h4⟩ := pow_facts B hB hB64
  intro fuel
  induction fuel with
  | zero =>
    intro e e1 h
    cases h
  | succ f ih =>
    intro e e1 h hR hRH hLR ho
    rw [ENCODE_RENORMALISE_succ] at h
    by_cases hq : e.out_R ≤ Quarter B
    · rw [if_pos hq] at h
      obtain ⟨g1, g2⟩ := renorm_budget B e hR (by omega)
      obtain ⟨s1, s2, s3, s4, s5⟩ := encode_step_spec B hB hB64 e hR hq hLR (by omega)
      obtain ⟨j, r1, r2⟩ :=
        ih (encode_step B e) e1 h (by omega) (by omega) s4 (by rw [s2]; omega)
      refine ⟨j + 1, ?_, by omega⟩
      rw [r1, s2, pow_succ]
      ring
    · rw [if_neg hq] at h
      cases h
      exact ⟨0, by simp, by omega⟩

/-- With `B` units of fuel and room for `B` more outstanding bits a call of
`arithmetic_encode` returns. -/
theorem arithmetic_encode_total (B F fuel : Nat) (hF : F + 2 ≤ B) (hB64 : B ≤ 64)
    (hfuel : B ≤ fuel) (e : encoder) (hok : enc_ok B e) (low high total : Nat)
    (hlh : low < high) (hh : high ≤ total) (ht : total ≤ 2 ^ F)
    (ho : e.out_bits_outstanding + B ≤ MAX_BITS_OUTSTANDING) :
    ∃ e1, arithmetic_encode B fuel e low high total = Except.ok e1 ∧
      e1.out_bits_outstanding + 1 ≤ e.out_bits_outstanding + B := by
  have hB : 2 ≤ B := by omega
  obtain ⟨h1, h2, h3, h4⟩ := pow_facts B hB hB64
  obtain ⟨k1, k2, k3, k4⟩ := hok
  have hFQ : 2 ^ F ≤ Quarter B := Nat.pow_le_pow_right (by norm_num) (by omega)
  have hM : MAX_BITS_OUTSTANDING = 2 ^ 31 := rfl
  have hne : ¬ total = 0 := by omega
  obtain ⟨n1, n2, n3⟩ := narrow_sub_range e.out_L e.out_R low high total (by omega) (by omega)
    (by omega) (by omega) hlh hh
  have hW : e.out_bits_outstanding + Half B / (sub_range e.out_R low high total).2 ≤ W := by
    have := Nat.div_le_self (Half B) (sub_range e.out_R low high total).2
    simp only [W] at *
    omega
  have hHalf : Half B = 2 ^ (B - 1) := rfl
  have hk : Quarter B < 2 ^ (B - 1) * (sub_range e.out_R low high total).2 := by
    calc Quarter B < Half B := by omega
      _ = 2 ^ (B - 1) * 1 := by rw [hHalf, Nat.mul_one]
      _ ≤ 2 ^ (B - 1) * (sub_range e.out_R low high total).2 := Nat.mul_le_mul_left _ n2
  obtain ⟨e2, h5⟩ := encode_renorm_total B hB hB64 (B - 1) fuel
    { e with out_L := e.out_L + (sub_range e.out_R low high total).1,
             out_R := (sub_range e.out_R low high total).2 }
    hk (by omega) n2 (by simp only; omega) (by simp only; omega) hW
  obtain ⟨j, r1, r2⟩ := renorm_outstanding B hB hB64 fuel _ e2 h5 n2 (by simp only; omega)
    (by simp only; omega) hW
  obtain ⟨j2, _, q2, _, _, _, q6, _, _⟩ :=
    encode_renorm_spec B hB hB64 fuel _ e2 h5 n2 (by simp only; omega) (by simp only; omega) hW
  simp only at r1 r2
  have hj : j < B := by
    by_contra hc
    have hp : 2 ^ (B - 1) * 2 ≤ 2 ^ j := by
      rw [← pow_succ]
      exact Nat.pow_le_pow_right (by norm_num) (by omega)
    have : 2 ^ j * 1 ≤ 2 ^ j * (sub_range e.out_R low high total).2 := Nat.mul_le_mul_left _ n2
    have hpos : 0 < 2 ^ (B - 1) := by positivity
    omega
  refine ⟨e2, ?_, by omega⟩
  unfold arithmetic_encode
  simp only [if_neg hne, n1]
  rw [h5]
  simp only [bind, Except.bind]
  rw [if_neg (by omega)]
  rfl

/-- With `B` units of fuel per call and room for `B` outstanding bits per
triple the encoder returns on the whole sequence. -/
theorem encode_all_total (B F fuel : Nat) (hF : F + 2 ≤ B) (hB64 : B ≤ 64) (hfuel : B ≤ fuel) :
    ∀ (triples : List (Nat × Nat × Nat)) (e : encoder), enc_ok B e →
      valid_triples F triples →
      e.out_bits_outstanding + triples.length * B ≤ MAX_BITS_OUTSTANDING →
      ∃ en, encode_all B fuel e triples = Except.ok en := by
  intro triples
  induction triples with
  | nil =>
    intro e _ _ _
    exact ⟨e, rfl⟩
  | cons tr rest ih =>
    intro e hok hv ho
    obtain ⟨low, high, total⟩ := tr
    obtain ⟨v1, v2, v3⟩ := hv (low, high, total) (List.mem_cons_self _ _)
    have hl : (List.length ((low, high, total) :: rest)) * B = rest.length * B + B := by
      rw [List.length_cons, Nat.succ_mul]
    rw [hl] at ho
    obtain ⟨e1, hA, hb⟩ := arithmetic_encode_total B F fuel hF hB64 hfuel e hok low high total
      v1 v2 v3 (by omega)
    obtain ⟨hok1, _⟩ :=
      arithmetic_encode_spec B F (by omega) hB64 hF e e1 hok low high total fuel v1 v2 v3 hA
    obtain ⟨en, hen⟩ := ih e1 hok1 (fun t ht => hv t (List.mem_cons_of_mem _ ht)) (by omega)
    refine ⟨en, ?_⟩
    rw [encode_all, hA]
    exact hen

/-- A decoder that follows the encoder at the start of a sequence of triples
returns a target inside each interval coded. -/
theorem decode_all_follows (B F fuel : Nat) (hF : F + 2 ≤ B) (hB : B ≤ 64)
    (S pad : List Bool) (en : encoder) (hS1 : S.length = nshift en + B)
    (hS2 : bits_val S = absval B en) :
    ∀ (triples : List (Nat × Nat × Nat)) (e : encoder) (d : decoder), enc_ok B e →
      valid_triples F triples → encode_all B fuel e triples = Except.ok en →
      follows B S pad e d →
      ∃ ts, decode_all B fuel d triples = Except.ok ts ∧ targets_match ts triples := by
  intro triples
  induction triples with
  | nil =>
    intro e d _ _ _ _
    exact ⟨[], rfl, trivial⟩
  | cons tr rest ih =>
    intro e d hok hv h hfol
    obtain ⟨low, high, total⟩ := tr
    obtain ⟨v1, v2, v3⟩ := hv (low, high, total) (List.mem_cons_self _ _)
    rw [encode_all] at h
    cases hA : arithmetic_encode B fuel e low high total with
    | error err => rw [hA] at h; cases h
    | ok e1 =>
      rw [hA] at h
      simp only [bind, Except.bind] at h
      obtain ⟨hok1, _⟩ :=
        arithmetic_encode_spec B F (by omega) hB hF e e1 hok low high total fuel v1 v2 v3 hA
      have hvr : valid_triples F rest := fun t ht => hv t (List.mem_cons_of_mem _ ht)
      obtain ⟨hokn, hnest⟩ := encode_all_nest B F fuel hF hB rest e1 en hok1 hvr h
      obtain ⟨t, d1, d2, g1, g2, g3, g4, g5⟩ := decode_step_follows B F fuel hF hB S pad e e1 en d
        low high total hok v1 v2 v3 hA hnest (by have := hokn.1; omega) hS1 hS2 hfol
      obtain ⟨ts, i1, i2⟩ := ih e1 d2 hok1 hvr h g5
      refine ⟨t :: ts, ?_, g2, g3, i2⟩
      rw [decode_all, g1]
      simp only [bind, Except.bind]
      rw [g4]
      simp only [i1]
      rfl

/-- The decoder started on the bits of a finished encoder follows the encoder
at its start. -/
theorem start_decode_follows (B F fuel : Nat) (hF : F + 2 ≤ B) (hB : B ≤ 64)
    (triples : List (Nat × Nat × Nat)) (hv : valid_triples F triples) (en : encoder)
    (pad : List Bool) (h : encode_all B fuel (start_encode B) triples = Except.ok en) :
    ∃ d, start_decode B ((finish_encode B en).output ++ pad) = Except.ok d ∧
      follows B (finish_encode B en).output pad (start_encode B) d := by
  have hB2 : 2 ≤ B := by omega
  obtain ⟨p1, p2, p3, p4⟩ := pow_facts B hB2 hB
  obtain ⟨hokn, m, n1, n2, n3⟩ := encode_all_nest B F fuel hF hB triples (start_encode B) en
    (start_encode_inv B hB2 hB).1 hv h
  obtain ⟨q1, q2, q3, q4⟩ := hokn
  obtain ⟨hS2, hS1⟩ := finish_encode_spec B hB2 en (by omega)
  have hs0 : nshift (start_encode B) = 0 := rfl
  have ha0 : absval B (start_encode B) = 0 := by
    simp [absval, start_encode, bits_val]
  have hR0 : (start_encode B).out_R = Half B := rfl
  rw [hs0, Nat.zero_add] at n1
  rw [ha0, hR0, Nat.zero_add] at n3
  have hfill := fill_D_spec B 0 0 ((finish_encode B en).output ++ pad)
    (by rw [List.length_append, hS1]; omega) (by norm_num) (by omega)
  rw [Nat.zero_mul, Nat.zero_add, List.take_append_of_le_length (by omega),
    List.drop_append_of_le_length (by omega)] at hfill
  have hV : bits_val ((finish_encode B en).output.take B) = absval B en / 2 ^ m := by
    rw [bits_val_take, hS2, hS1]
    congr 2
    omega
  have hlt : bits_val ((finish_encode B en).output.take B) < Half B := by
    rw [hV, Nat.div_lt_iff_lt_mul (by positivity)]
    omega
  refine ⟨{ in_R := Half B, in_D := bits_val ((finish_encode B en).output.take B), in_r := 0,
            input := (finish_encode B en).output.drop B ++ pad }, ?_, rfl, ?_, ?_⟩
  · unfold start_decode
    rw [hfill]
    simp only [bind, Except.bind]
    rw [if_neg (by omega)]
    rfl
  · rw [ha0, hs0]
    rfl
  · rw [hs0]
    rfl

/-- The round trip of the coder: when the encoder returns, the decoder
returns a target inside each interval. -/
theorem round_trip_ok (B F fuel : Nat) (hF : F + 2 ≤ B) (hB : B ≤ 64)
    (triples : List (Nat × Nat × Nat)) (hv : valid_triples F triples) (en : encoder)
    (pad : List Bool) (h : encode_all B fuel (start_encode B) triples = Except.ok en) :
    ∃ ts, round_trip B fuel triples pad = Except.ok ts ∧ targets_match ts triples := by
  have hB2 : 2 ≤ B := by omega
  obtain ⟨d, hd, hfol⟩ := start_decode_follows B F fuel hF hB triples hv en pad h
  obtain ⟨hokn, _⟩ := encode_all_nest B F fuel hF hB triples (start_encode B) en
    (start_encode_inv B hB2 hB).1 hv h
  obtain ⟨p1, p2, p3, p4⟩ := pow_facts B hB2 hB
  obtain ⟨hS2, hS1⟩ := finish_encode_spec B hB2 en (by have := hokn.2.2.1; have := hokn.1; omega)
  obtain ⟨ts, i1, i2⟩ := decode_all_follows B F fuel hF hB (finish_encode B en).output pad en
    hS1 hS2 triples (start_encode B) d (start_encode_inv B hB2 hB).1 hv h hfol
  refine ⟨ts, ?_, i2⟩
  unfold round_trip
  rw [h]
  simp only [bind, Except.bind]
  rw [hd]
  exact i1
/-! ## Termination of the probe loop -/

theorem probe_path_closed (cfg : Config) (jump : Nat) (i : Nat)
    (hi : i < cfg.table_size) (k : Nat) :
    probe_path cfg jump i k = (i + k * jump) % cfg.table_size := by
  induction k with
  | zero =>
    rw [Nat.zero_mul, Nat.add_zero, Nat.mod_eq_of_lt hi]
    rfl
  | succ k ih =>
    rw [probe_path_succ, ih, Nat.add_mod, Nat.mod_mod, ← Nat.add_mod]
    congr 1
    ring

/-- A stride that is coprime to the size of the table takes the probe path to
every cell within `table_size` passes. -/
theorem probe_path_onto (cfg : Config) (jump : Nat) (hts : 1 < cfg.table_size)
    (hco : Nat.Coprime jump cfg.table_size) (i : Nat) (hi : i < cfg.table_size)
    (c : Nat) (hc : c < cfg.table_size) :
    ∃ k, k < cfg.table_size ∧ probe_path cfg jump i k = c := by
  obtain ⟨m, hm⟩ := Nat.exists_mul_emod_eq_one_of_coprime hco hts
  refine ⟨((c + cfg.table_size - i) * m) % cfg.table_size, Nat.mod_lt _ (by omega), ?_⟩
  rw [probe_path_closed cfg jump i hi]
  have h1 : (i + (c + cfg.table_size - i) * m % cfg.table_size * jump) ≡
      i + (c + cfg.table_size - i) * (jump * m) [MOD cfg.table_size] := by
    apply Nat.ModEq.add_left
    have : (c + cfg.table_size - i) * (jump * m) = (c + cfg.table_size - i) * m * jump := by ring
    rw [this]
    exact Nat.ModEq.mul_right _ (Nat.mod_modEq _ _)
  have h2 : i + (c + cfg.table_size - i) * (jump * m) ≡
      i + (c + cfg.table_size - i) * 1 [MOD cfg.table_size] := by
    apply Nat.ModEq.add_left
    apply Nat.ModEq.mul_left
    show jump * m % cfg.table_size = 1 % cfg.table_size
    rw [hm, Nat.mod_eq_of_lt hts]
  have h3 : i + (c + cfg.table_size - i) * 1 = c + cfg.table_size := by omega
  have h4 := h1.trans h2
  rw [h3] at h4
  show (i + (c + cfg.table_size - i) * m % cfg.table_size * jump) % cfg.table_size = c
  rw [h4, Nat.add_mod_right, Nat.mod_eq_of_lt hc]

/-- The stride of `find_digram` is coprime to a prime table size above 17. -/
theorem stride_coprime (ts one : Nat) (hp : Nat.Prime ts) (h17 : 17 < ts) :
    Nat.Coprime (17 - one % 17) ts := by
  have h1 : one % 17 < 17 := Nat.mod_lt _ (by norm_num)
  rw [Nat.coprime_comm, Nat.Prime.coprime_iff_not_dvd hp]
  intro hd
  have := Nat.le_of_dvd (by omega) hd
  omega

/-- The probe loop that meets a null cell before its fuel is used up does not
run out of fuel. -/
theorem probe_no_diverge (cfg : Config) (g : Grammar) (one two jump : Nat) :
    ∀ (fuel i : Nat) (ins : Option Nat) (k : Nat), k < fuel →
      g.table (probe_path cfg jump i k) = 0 →
      probe cfg g one two jump fuel i ins ≠ Except.error Fault.diverge := by
  intro fuel
  induction fuel with
  | zero => intro i ins k hk; omega
  | succ fuel ih =>
    intro i ins k hk h0
    rw [probe]
    by_cases hm0 : g.table i = 0
    · simp only [hm0, if_true]
      intro h
      cases h
    · have hkpos : 0 < k := by
        rcases Nat.eq_zero_or_pos k with h | h
        · subst h
          exact absurd h0 hm0
        · exact h
      obtain ⟨k1, rfl⟩ : ∃ k1, k = k1 + 1 := ⟨k - 1, by omega⟩
      rw [probe_path] at h0
      simp only [hm0, if_false]
      by_cases hm1 : g.table i = 1
      · simp only [hm1, if_true]
        exact ih _ _ k1 (by omega) h0
      · simp only [hm1, if_false]
        cases hv : deref g (g.table i) with
        | error e =>
          simp only [bind, Except.bind]
          unfold deref at hv
          split at hv
          · cases hv
          · intro h
            cases hv
            cases h
        | ok v =>
          simp only [bind, Except.bind]
          cases hn : deref g v.n with
          | error e =>
            simp only
            unfold deref at hn
            split at hn
            · cases hn
            · intro h
              cases hn
              cases h
          | ok n =>
            simp only
            split
            · intro h
              cases h
            · exact ih _ _ k1 (by omega) h0

/-- The probe loop returns a cell when it meets a null cell before its fuel is
used up and the cells before it are valid. -/
theorem probe_total (cfg : Config) (g : Grammar) (one two jump : Nat) :
    ∀ (fuel i : Nat) (ins : Option Nat) (k : Nat), k < fuel →
      g.table (probe_path cfg jump i k) = 0 →
      (∀ j, j < k → valid_cell g (g.table (probe_path cfg jump i j))) →
      ∃ r, probe cfg g one two jump fuel i ins = Except.ok r := by
  intro fuel
  induction fuel with
  | zero => intro i ins k hk; omega
  | succ fuel ih =>
    intro i ins k hk h0 hvalid
    rw [probe]
    by_cases hm0 : g.table i = 0
    · simp only [hm0, if_true]
      exact ⟨_, rfl⟩
    · have hkpos : 0 < k := by
        rcases Nat.eq_zero_or_pos k with h | h
        · subst h
          exact absurd h0 hm0
        · exact h
      obtain ⟨k1, rfl⟩ : ∃ k1, k = k1 + 1 := ⟨k - 1, by omega⟩
      have hv0 := hvalid 0 (by omega)
      rw [probe_path] at h0
      have hrest : ∀ j, j < k1 →
          valid_cell g (g.table (probe_path cfg jump ((i + jump) % cfg.table_size) j)) := by
        intro j hj
        have := hvalid (j + 1) (by omega)
        rw [probe_path] at this
        exact this
      simp only [hm0, if_false]
      by_cases hm1 : g.table i = 1
      · simp only [hm1, if_true]
        exact ih _ _ k1 (by omega) h0 hrest
      · simp only [hm1, if_false]
        have h2 : 2 ≤ g.table (probe_path cfg jump i 0) := by
          show 2 ≤ g.table i
          omega
        obtain ⟨ky, hky⟩ := hv0.2 h2
        obtain ⟨v, n, hv, hn, _⟩ := key_of_ok g _ _ hky
        have hv2 : deref g (g.table i) = Except.ok v := hv
        rw [hv2]
        simp only [bind, Except.bind, hn]
        split
        · exact ⟨_, rfl⟩
        · exact ih _ _ k1 (by omega) h0 hrest

theorem hashIndex_lt (cfg : Config) (hK : cfg.K = 1) (hts : 0 < cfg.table_size) (one two : Nat) :
    hashIndex cfg one two < cfg.table_size := by
  unfold hashIndex
  simp only [hK, Nat.mul_one]
  exact Nat.mod_lt _ hts

/-- With `K = 1`, a prime table size above 17 and a null cell in the table,
the probe path of any key meets a null cell within `table_size` passes. -/
theorem probe_meets_null (cfg : Config) (g : Grammar) (hK : cfg.K = 1)
    (hp : Nat.Prime cfg.table_size) (h17 : 17 < cfg.table_size)
    (c : Nat) (hc : c < cfg.table_size) (hnull : g.table c = 0) (one two : Nat) :
    ∃ k, k < cfg.table_size ∧
      g.table (probe_path cfg ((17 - one % 17) * cfg.K) (hashIndex cfg one two) k) = 0 ∧
      ∀ j, j < k →
        g.table (probe_path cfg ((17 - one % 17) * cfg.K) (hashIndex cfg one two) j) ≠ 0 := by
  classical
  have hco : Nat.Coprime ((17 - one % 17) * cfg.K) cfg.table_size := by
    rw [hK, Nat.mul_one]
    exact stride_coprime _ one hp h17
  obtain ⟨k, hk, hkc⟩ := probe_path_onto cfg _ (by omega) hco _
    (hashIndex_lt cfg hK (by omega) one two) c hc
  have hex : ∃ k, g.table
      (probe_path cfg ((17 - one % 17) * cfg.K) (hashIndex cfg one two) k) = 0 :=
    ⟨k, by rw [hkc]; exact hnull⟩
  refine ⟨Nat.find hex, ?_, Nat.find_spec hex, fun j hj => Nat.find_min hex hj⟩
  have := Nat.find_min' hex (show g.table
      (probe_path cfg ((17 - one % 17) * cfg.K) (hashIndex cfg one two) k) = 0 by
    rw [hkc]; exact hnull)
  omega

theorem find_digram_no_diverge (cfg : Config) (g : Grammar) (s : Nat)
    (hprobe : ∀ one two, probe cfg g one two ((17 - one % 17) * cfg.K) (cfg.table_size + 1)
      (hashIndex cfg one two) none ≠ Except.error Fault.diverge) :
    find_digram cfg g s ≠ Except.error Fault.diverge := by
  unfold find_digram
  cases hv : deref g s with
  | error e =>
    unfold deref at hv
    split at hv
    · cases hv
    · cases hv
      intro h
      cases h
  | ok v =>
    simp only [bind, Except.bind]
    cases hn : deref g v.n with
    | error e =>
      unfold deref at hn
      split at hn
      · cases hn
      · cases hn
        intro h
        cases h
    | ok n =>
      simp only
      split
      · intro h
        cases h
      · have := hprobe v.s n.s
        cases hq : probe cfg g v.s n.s ((17 - v.s % 17) * cfg.K) (cfg.table_size + 1)
            (hashIndex cfg v.s n.s) none with
        | error e =>
          rw [hq] at this
          simp only
          intro h
          apply this
          cases h
          rfl
        | ok r =>
          simp only
          intro h
          cases h

theorem no_divisor_range_spec (n : Nat) : ∀ (d lo : Nat), no_divisor_range n lo d = true →
    ∀ k, lo ≤ k → k < lo + 2 ^ d → ¬ k ∣ n := by
  intro d
  induction d with
  | zero =>
    intro lo h k h1 h2 hk
    have e : k = lo := by simp at h2; omega
    subst e
    simp only [no_divisor_range, bne_iff_ne, ne_eq] at h
    exact h (Nat.mod_eq_zero_of_dvd hk)
  | succ d ih =>
    intro lo h k h1 h2
    simp only [no_divisor_range, Bool.and_eq_true] at h
    by_cases hk : k < lo + 2 ^ d
    · exact ih lo h.1 k h1 hk
    · exact ih (lo + 2 ^ d) h.2 k (by omega) (by rw [pow_succ] at h2; omega)

/-- Trial division up to the square root certifies a prime. -/
theorem prime_of_no_divisor (n d : Nat) (h2 : 2 ≤ n) (hd : n < (2 + 2 ^ d) * (2 + 2 ^ d))
    (h : no_divisor_range n 2 d = true) : Nat.Prime n := by
  rw [Nat.prime_def_le_sqrt]
  refine ⟨h2, ?_⟩
  intro m hm1 hm2
  apply no_divisor_range_spec n d 2 h m hm1
  by_contra hge
  have hge2 : 2 + 2 ^ d ≤ m := by omega
  have : (2 + 2 ^ d) * (2 + 2 ^ d) ≤ m * m := Nat.mul_le_mul hge2 hge2
  have : m * m ≤ n := by
    have := Nat.sqrt_le n
    calc m * m ≤ Nat.sqrt n * Nat.sqrt n := Nat.mul_le_mul hm2 hm2
      _ ≤ n := this
  omega
/-! ## The invariant of the binary contexts -/

theorem binary_pow_facts (F : Nat) (hF : 1 ≤ F) (hF62 : F ≤ 62) :
    2 ^ F = 2 * 2 ^ (F - 1) ∧ 1 ≤ 2 ^ (F - 1) ∧ 2 ^ F ≤ 2 ^ 62 := by
  obtain ⟨f, rfl⟩ : ∃ f, F = f + 1 := ⟨F - 1, by omega⟩
  refine ⟨?_, Nat.one_le_two_pow, Nat.pow_le_pow_right (by norm_num) hF62⟩
  rw [Nat.add_sub_cancel, pow_succ]
  ring

theorem create_binary_ok (F : Nat) (hF : 1 ≤ F) (hF62 : F ≤ 62) :
    binary_ok F (create_binary_context F) ∧ (create_binary_context F).incr ≤ 2 ^ (F - 1) := by
  obtain ⟨h1, h2, h3⟩ := binary_pow_facts F hF hF62
  have hW : 2 ^ (F - 1) % W = 2 ^ (F - 1) := Nat.mod_eq_of_lt (by simp only [W]; omega)
  simp only [binary_ok, create_binary_context, hW, MIN_INCR]
  omega

/-- One update of a binary context: the count of the bit grows by `incr`, the
context is halved exactly when the new sum is above `2 ^ F`, and the invariant
is kept. -/
theorem binary_update_spec (F : Nat) (hF : 1 ≤ F) (hF62 : F ≤ 62) (c : binary_context)
    (bit : Int) (hok : binary_ok F c) (hi : c.incr ≤ 2 ^ (F - 1)) :
    binary_update F c bit =
        (if (binary_grown c bit).c0 + (binary_grown c bit).c1 > 2 ^ F
          then binary_halved (binary_grown c bit) else binary_grown c bit) ∧
      binary_ok F (binary_update F c bit) ∧ (binary_update F c bit).incr ≤ 2 ^ (F - 1) := by
  obtain ⟨h1, h2, h3⟩ := binary_pow_facts F hF hF62
  obtain ⟨k1, k2, k3, k4, k5⟩ := hok
  simp only [MIN_INCR] at k3
  have hW : W = 2 ^ 64 := rfl
  have hgrow : (if bit = 0 then ({ c with c0 := uadd c.c0 c.incr } : binary_context)
      else { c with c1 := uadd c.c1 c.incr }) = binary_grown c bit := by
    unfold binary_grown
    by_cases hb : bit = 0
    · rw [if_pos hb, if_pos hb, uadd_of_lt _ _ (by omega)]
    · rw [if_neg hb, if_neg hb, uadd_of_lt _ _ (by omega)]
  have hg : (binary_grown c bit).c0 + (binary_grown c bit).c1 = c.c0 + c.c1 + c.incr ∧
      c.c0 ≤ (binary_grown c bit).c0 ∧ c.c1 ≤ (binary_grown c bit).c1 ∧
      (binary_grown c bit).incr = c.incr := by
    unfold binary_grown
    by_cases hb : bit = 0
    · rw [if_pos hb]
      refine ⟨?_, ?_, ?_, rfl⟩
      · show c.c0 + c.incr + c.c1 = c.c0 + c.c1 + c.incr
        omega
      · show c.c0 ≤ c.c0 + c.incr
        omega
      · exact le_refl _
    · rw [if_neg hb]
      refine ⟨?_, ?_, ?_, rfl⟩
      · show c.c0 + (c.c1 + c.incr) = c.c0 + c.c1 + c.incr
        omega
      · exact le_refl _
      · show c.c1 ≤ c.c1 + c.incr
        omega
  obtain ⟨g1, g2, g3, g4⟩ := hg
  have heq : binary_update F c bit =
      (if (binary_grown c bit).c0 + (binary_grown c bit).c1 > 2 ^ F
        then binary_halved (binary_grown c bit) else binary_grown c bit) := by
    unfold binary_update
    simp only [hgrow, Max_frequency, MIN_INCR]
    rw [uadd_of_lt _ _ (by omega)]
    by_cases hc : (binary_grown c bit).c0 + (binary_grown c bit).c1 > 2 ^ F
    · rw [if_pos hc, if_pos hc, uadd_of_lt _ _ (by omega), uadd_of_lt _ _ (by omega),
        uadd_of_lt _ _ (by omega)]
      rfl
    · rw [if_neg hc, if_neg hc]
  refine ⟨heq, ?_⟩
  rw [heq]
  by_cases hc : (binary_grown c bit).c0 + (binary_grown c bit).c1 > 2 ^ F
  · rw [if_pos hc]
    simp only [binary_ok, binary_halved, MIN_INCR]
    omega
  · rw [if_neg hc]
    simp only [binary_ok, MIN_INCR]
    omega

/-- Every binary context reached by calls of `binary_encode` and
`binary_decode` satisfies the invariant. -/
theorem binary_reachable_ok (B F : Nat) (hF : 1 ≤ F) (hF62 : F ≤ 62) (c : binary_context)
    (hr : binary_reachable B F c) : binary_ok F c ∧ c.incr ≤ 2 ^ (F - 1) := by
  induction hr with
  | create => exact create_binary_ok F hF hF62
  | encode fuel e e1 c c1 bit _ h ih =>
    unfold binary_encode at h
    obtain ⟨e2, _, h2⟩ := bind_ok _ _ _ h
    have e3 : c1 = binary_update F c bit := (congrArg Prod.snd (Except.ok.inj h2)).symm
    rw [e3]
    exact (binary_update_spec F hF hF62 c bit ih.1 ih.2).2
  | decode fuel d d1 c c1 bit _ h ih =>
    unfold binary_decode at h
    obtain ⟨p, _, h2⟩ := bind_ok _ _ _ h
    have e3 : c1 = binary_update F c p.1 :=
      (congrArg (fun q => q.2.2) (Except.ok.inj h2)).symm
    rw [e3]
    exact (binary_update_spec F hF hF62 c p.1 ih.1 ih.2).2
/-! ## Encoder and decoder update the context in the same way -/

/-- The update after the coder call depends on `high` through `high - low`
only. -/
theorem update_coded_congr (c : context) (s low high high1 : Nat)
    (h : usub high low = usub high1 low) :
    update_coded c s low high = update_coded c s low high1 := by
  simp only [update_coded, incr_symbol_prob, incr_symbol_prob_mps, h]

/-- The loop of `decode` over `mid` keeps `low` equal to the cumulative count of
the slot it stands on, whatever the target. -/
theorem descend_cum (c : context) (target : Nat) :
    ∀ e fuel q : Nat, e < fuel →
      ∃ s0, descend c.tree target fuel (2 ^ e) (2 ^ (e + 1) * q) (cum c (2 ^ (e + 1) * q))
            = (s0, cum c s0) := by
  intro e
  induction e with
  | zero =>
    intro fuel q hf
    obtain ⟨f, hf1⟩ : ∃ f, fuel = f + 1 := ⟨fuel - 1, by omega⟩
    subst hf1
    have hs := cum_step c 0 q
    simp only [Nat.zero_add, pow_one, pow_zero] at hs ⊢
    by_cases hc : uadd (c.tree (2 * q + 1)) (cum c (2 * q)) ≤ target
    · refine ⟨2 * q + 1, ?_⟩
      simp only [descend, Nat.lt_one_iff, Nat.one_pos, if_true, hc, Nat.reduceDiv,
        descend_zero]
      rw [hs]
      simp only [uadd, Nat.add_comm]
    · refine ⟨2 * q, ?_⟩
      simp only [descend, Nat.one_pos, if_true, hc, if_false, Nat.reduceDiv, descend_zero]
  | succ e ih =>
    intro fuel q hf
    obtain ⟨f, hf1⟩ : ∃ f, fuel = f + 1 := ⟨fuel - 1, by omega⟩
    subst hf1
    have hs := cum_step c (e + 1) q
    have hp : 0 < 2 ^ (e + 1) := by positivity
    have hhalf : 2 ^ (e + 1) / 2 = 2 ^ e := by
      rw [pow_succ]
      omega
    have ea : 2 ^ (e + 1 + 1) * q + 2 ^ (e + 1) = 2 ^ (e + 1) * (2 * q + 1) := by ring
    have eb : 2 ^ (e + 1 + 1) * q = 2 ^ (e + 1) * (2 * q) := by ring
    by_cases hc : uadd (c.tree (2 ^ (e + 1 + 1) * q + 2 ^ (e + 1))) (cum c (2 ^ (e + 1 + 1) * q))
        ≤ target
    · have hlow : uadd (cum c (2 ^ (e + 1 + 1) * q)) (c.tree (2 ^ (e + 1 + 1) * q + 2 ^ (e + 1)))
          = cum c (2 ^ (e + 1) * (2 * q + 1)) := by
        rw [← ea, hs]
        simp only [uadd, Nat.add_comm]
      obtain ⟨s0, r1⟩ := ih f (2 * q + 1) (by omega)
      refine ⟨s0, ?_⟩
      rw [descend, if_pos hp, if_pos hc, hhalf, hlow, ea]
      exact r1
    · obtain ⟨s0, r1⟩ := ih f (2 * q) (by omega)
      refine ⟨s0, ?_⟩
      rw [descend, if_pos hp, if_neg hc, hhalf, eb]
      exact r1

/-- Whatever the target, `decode` updates the context for the slot it selects
with the bounds of that slot. -/
theorem decode_core_update (c : context) (k : Nat) (hM : c.max_length = 2 ^ (k + 1))
    (hk : k < 32) (hmps : mps_ok c) (t : Nat) (rd : coded)
    (hd : decode_core c t = Except.ok rd) (hs0 : 0 < rd.slot) (hs : rd.slot < c.max_length) :
    update_coded c rd.slot (cum c (rd.slot - 1)) (cum c rd.slot) = Except.ok rd.ctx := by
  unfold decode_core at hd
  by_cases ht : t ≥ usub c.total c.most_freq_count
  · simp only [ht, if_true, bind, Except.bind] at hd
    cases hu : update_coded c c.most_freq_symbol.toNat c.most_freq_pos
        (uadd c.most_freq_pos c.most_freq_count) with
    | error e => rw [hu] at hd; cases hd
    | ok c1 =>
      rw [hu] at hd
      have hrd := (Except.ok.inj hd).symm
      subst hrd
      simp only at hs0 hs ⊢
      rcases hmps with ⟨m1, _⟩ | ⟨m1, m2, m3, m4⟩
      · rw [m1] at hs0
        exact absurd hs0 (by decide)
      · rw [← hu, ← m3]
        apply update_coded_congr
        have hlt := count_lt c c.most_freq_symbol.toNat
        have hc1 := cum_lt c c.most_freq_symbol.toNat
        have hc0 := cum_lt c (c.most_freq_symbol.toNat - 1)
        rw [m3, m4]
        unfold count at hlt ⊢
        simp only [usub, uadd, W] at *
        omega
  · simp only [ht, if_false] at hd
    have hhalf : c.max_length / 2 = 2 ^ k := by
      rw [hM, pow_succ]
      omega
    obtain ⟨s0, r1⟩ := descend_cum c
      (if t ≥ c.most_freq_pos then uadd t c.most_freq_count else t) k 64 0 (by omega)
    simp only [Nat.mul_zero, cum_zero] at r1
    rw [hhalf, r1] at hd
    simp only at hd
    have hmax : c.max_length ≤ 2 ^ 32 := by
      rw [hM]
      exact Nat.pow_le_pow_right (by norm_num) (by omega)
    by_cases hodd : (s0 + 1) % 2 = 1
    · rw [if_pos hodd] at hd
      simp only [bind, Except.bind, pure, Except.pure] at hd
      cases hu : update_coded c (s0 + 1) (cum c s0) (uadd (cum c s0) (c.tree (s0 + 1))) with
      | error e => rw [hu] at hd; cases hd
      | ok c1 =>
        rw [hu] at hd
        have hrd := (Except.ok.inj hd).symm
        subst hrd
        simp only at hs ⊢
        have hh := decode_high c (s0 + 1) (by omega) (by omega)
        rw [if_pos hodd, Nat.add_sub_cancel] at hh
        have hy : uadd (cum c s0) (c.tree (s0 + 1)) = cum c (s0 + 1) := by
          simpa [pure, Except.pure] using hh
        rw [Nat.add_sub_cancel, ← hy]
        exact hu
    · rw [if_neg hodd] at hd
      cases hp : high_path c.tree (BACK (s0 + 1)) 64 (s0 + 1 - 1) (cum c s0) with
      | error e =>
        rw [hp] at hd
        cases hd
      | ok v =>
        rw [hp] at hd
        simp only [bind, Except.bind, pure, Except.pure] at hd
        cases hu : update_coded c (s0 + 1) (cum c s0) (uadd v (c.tree (s0 + 1))) with
        | error e => rw [hu] at hd; cases hd
        | ok c1 =>
          rw [hu] at hd
          have hrd := (Except.ok.inj hd).symm
          subst hrd
          simp only at hs ⊢
          have hh := decode_high c (s0 + 1) (by omega) (by omega)
          rw [if_neg hodd, Nat.add_sub_cancel] at hh
          rw [Nat.add_sub_cancel] at hp
          rw [hp] at hh
          have hy : uadd v (c.tree (s0 + 1)) = cum c (s0 + 1) := by
            simpa [bind, Except.bind, pure, Except.pure] using hh
          rw [Nat.add_sub_cancel, ← hy]
          exact hu

/-- What `encode` does to the context: it updates it for the slot it codes,
with the bounds of that slot; a slot other than the escape slot is the slot of
the symbol. -/
theorem encode_core_update (c : context) (symbol : Int) (re : coded) (h1 : 1 < c.max_length)
    (hmax : c.max_length ≤ 2 ^ 32) (hmps : mps_ok c)
    (he : encode_core c symbol = Except.ok re) :
    0 < re.slot ∧ re.slot < c.max_length ∧
      update_coded c re.slot (cum c (re.slot - 1)) (cum c re.slot) = Except.ok re.ctx ∧
      (re.slot ≠ 1 → (re.slot : Int) - 2 = symbol) := by
  by_cases hknown : (symbol + 2 > 0 ∧ symbol + 2 < c.max_length) ∧
      cum c ((symbol + 2).toNat - 1) ≠ cum c (symbol + 2).toNat
  · obtain ⟨e, h, hslot, _, _, _, hu⟩ :=
      encode_core_known c symbol h1 hmax hmps hknown.1 hknown.2
    rw [he] at h
    have hre := Except.ok.inj h
    subst hre
    rw [hslot]
    have hpos := hknown.1.1
    have hlt := hknown.1.2
    refine ⟨by omega, by omega, hu, fun _ => by omega⟩
  · have hout : ¬ (symbol + 2 > 0 ∧ symbol + 2 < c.max_length) ∨
        cum c ((symbol + 2).toNat - 1) = cum c (symbol + 2).toNat := by
      by_cases hin : symbol + 2 > 0 ∧ symbol + 2 < c.max_length
      · right
        by_contra hne
        exact hknown ⟨hin, hne⟩
      · exact Or.inl hin
    by_cases hns : c.nSingletons = 0
    · rw [encode_core_abort c symbol hmax hmps hns hout] at he
      cases he
    · obtain ⟨e, h, hslot, _, _, _, hu⟩ := encode_core_escape c symbol h1 hmax hmps hns hout
      rw [he] at h
      have hre := Except.ok.inj h
      subst hre
      rw [hslot]
      exact ⟨by omega, h1, hu, fun h => absurd rfl h⟩

theorem decode_eq (F fuel : Nat) (c : context) (t : Nat) (e : coded)
    (h : decode_core c t = Except.ok e) :
    decode F fuel c t =
      Except.map (fun c1 => (if e.slot = 1 then NOT_KNOWN else (e.slot : Int) - 2,
          (e.low_w, e.high_w, e.total), c1))
        (halve_loop F fuel e.ctx) := by
  simp only [decode, h, bind, Except.bind]
  cases halve_loop F fuel e.ctx with
  | error x => rfl
  | ok c2 => rfl

theorem map_args_ok (x : M coded) (a : Nat × Nat × Nat × Nat)
    (h : Except.map coded.args x = Except.ok a) : ∃ e, x = Except.ok e ∧ e.args = a := by
  cases x with
  | error err => cases h
  | ok e => exact ⟨e, rfl, Except.ok.inj h⟩
/-! ## The count of the escape slot -/

theorem incr_symbol_prob_scalars (c c1 : context) (i low high inc : Nat)
    (h : incr_symbol_prob c i low high inc = Except.ok c1) :
    c1.nSingletons = c.nSingletons ∧ c1.type = c.type ∧ c1.incr = c.incr ∧
      c1.max_length = c.max_length := by
  unfold incr_symbol_prob at h
  obtain ⟨c2, h2, h3⟩ := bind_ok _ _ _ h
  unfold incr_symbol_prob_actual at h2
  obtain ⟨t, _, h5⟩ := bind_ok _ _ _ h2
  have e2 := (Except.ok.inj h5).symm
  have e3 := (Except.ok.inj h3).symm
  subst e2
  subst e3
  unfold incr_symbol_prob_mps
  refine ⟨?_, ?_, ?_, ?_⟩ <;> (split <;> [rfl; (split <;> [rfl; (split <;> rfl)])])

/-- After `adjust_zero_freq` the count of the escape slot is `nSingletons`. -/
theorem adjust_escape (c c1 : context) (h1 : 1 < c.max_length) (hmax : c.max_length ≤ 2 ^ 32)
    (h : adjust_zero_freq c = Except.ok c1) (hn : c.nSingletons < W) :
    count c1 1 = c1.nSingletons ∧ c1.nSingletons = c.nSingletons ∧ c1.type = c.type ∧
      c1.incr = c.incr ∧ c1.max_length = c.max_length ∧
      (∀ j, 1 < j → j < c.max_length → count c1 j = count c j) := by
  obtain ⟨c2, h2, _, a1, _, a3, a4, a5, _, _, _, a9, a10⟩ := adjust_zero_freq_spec c h1 hmax
  rw [h] at h2
  have e := Except.ok.inj h2
  subst e
  refine ⟨?_, a3, a5, a4, a1, a10⟩
  rw [a9, a3, Nat.mod_eq_of_lt hn]

theorem escape_of_adjust (c c1 : context) (h1 : 1 < c.max_length)
    (hmax : c.max_length ≤ 2 ^ 32)
    (h : adjust_zero_freq c = Except.ok c1) (hn : c.nSingletons < W)
    (hs : c.type = STATIC → c.nSingletons = 0) (hi : c.incr < W) : escape_ok c1 := by
  obtain ⟨a1, a2, a3, a4, _, _⟩ := adjust_escape c c1 h1 hmax h hn
  refine ⟨a1, ?_, by rw [a4]; exact hi⟩
  intro ht
  rw [a2]
  exact hs (by rw [← a3]; exact ht)

theorem update_coded_escape (c c1 : context) (s low high : Nat) (hs0 : 0 < s)
    (hs : s < c.max_length) (hl : low = cum c (s - 1)) (hh : usub high low = count c s)
    (hinv : ctx_inv c) (hesc : escape_ok c)
    (h : update_coded c s low high = Except.ok c1) : escape_ok c1 := by
  obtain ⟨e1, e2, e3⟩ := hesc
  have hnW : c.nSingletons < W := by
    rw [← e1]
    exact count_lt c 1
  unfold update_coded at h
  by_cases hs1 : s ≠ 1
  · simp only [if_pos hs1] at h
    obtain ⟨c2, h2, h3⟩ := bind_ok _ _ _ h
    by_cases hd : c.type = DYNAMIC ∧ usub high low = c.incr
    · rw [if_pos hd] at h2
      have hinv2 : ctx_inv { c with nSingletons := usub c.nSingletons c.incr } :=
        ctx_inv_congr c _ rfl rfl rfl rfl rfl rfl hinv
      have hinv3 := incr_inv { c with nSingletons := usub c.nSingletons c.incr } c2 s low high _
        hs0 hs hl hh hinv2 h2
      obtain ⟨b1, b2, b3, _⟩ := incr_symbol_prob_scalars
        { c with nSingletons := usub c.nSingletons c.incr } c2 _ _ _ _ h2
      refine escape_of_adjust c2 c1 hinv3.2.1 hinv3.2.2.1 h3 (by rw [b1]; exact usub_lt _ _) ?_
        (by rw [b3]; exact e3)
      intro ht
      rw [b2] at ht
      have : c.type = STATIC := ht
      rw [hd.1] at this
      exact absurd this (by decide)
    · rw [if_neg hd] at h2
      have hinv3 := incr_inv c c2 s low high _ hs0 hs hl hh hinv h2
      obtain ⟨b1, b2, b3, _⟩ := incr_symbol_prob_scalars c c2 _ _ _ _ h2
      refine escape_of_adjust c2 c1 hinv3.2.1 hinv3.2.2.1 h3 (by rw [b1]; exact hnW) ?_ (by rw [b3]; exact e3)
      intro ht
      rw [b1]
      exact e2 (by rw [← b2]; exact ht)
  · simp only [if_neg hs1] at h
    obtain ⟨c2, h2, h3⟩ := bind_ok _ _ _ h
    cases h2
    exact escape_of_adjust _ c1 hinv.2.1 hinv.2.2.1 h3 hnW e2 e3

theorem halve_steps_singletons_lt (incr : Nat) :
    ∀ n i : Nat, ∀ h : halve_state, h.nSingletons < W →
      (halve_steps incr n i h).nSingletons < W := by
  intro n
  induction n with
  | zero =>
    intro i h hh
    exact hh
  | succ n ih =>
    intro i h hh
    simp only [halve_steps]
    apply ih
    simp only [halve_step]
    split
    · exact uadd_lt _ _
    · exact hh

theorem halve_main_singletons_lt (c : context) (hi : c.incr < W) :
    (halve_main c).nSingletons < W ∧ (halve_main c).incr < W ∧ 1 ≤ (halve_main c).incr := by
  have hM : MIN_INCR = 1 := rfl
  have hW : W = 2 ^ 64 := rfl
  have hinc : (if (c.incr + MIN_INCR) / 2 < MIN_INCR then MIN_INCR else (c.incr + MIN_INCR) / 2)
      < W ∧ 1 ≤ (if (c.incr + MIN_INCR) / 2 < MIN_INCR then MIN_INCR
        else (c.incr + MIN_INCR) / 2) := by
    split <;> omega
  refine ⟨?_, hinc.1, hinc.2⟩
  unfold halve_main
  simp only
  split
  · rw [hW]
    positivity
  · exact halve_steps_singletons_lt _ _ _ _ hinc.1

theorem halve_context_escape (c c1 : context) (hinv : ctx_inv c) (hi : c.incr < W)
    (h : halve_context c = Except.ok c1) : escape_ok c1 := by
  have hpost := halve_context_post c c1 h hinv.2.1 hinv.2.2.1
  obtain ⟨q1, _, _, q4, _, q6, _, q8, _, _⟩ := hpost
  obtain ⟨r1, r2, _⟩ := halve_main_singletons_lt c hi
  obtain ⟨_, _, _, m4, _, _, _, _, _, _, m11⟩ :=
    halve_main_spec c (by have := hinv.2.1; omega) hinv.2.2.1
  refine ⟨?_, ?_, by rw [q1]; exact r2⟩
  · rw [q8, q6, Nat.mod_eq_of_lt r1]
  · intro ht
    rw [q6]
    exact m11 (by rw [← m4, ← q4]; exact ht)

theorem halve_loop_escape (F fuel : Nat) (c c1 : context) (hinv : ctx_inv c)
    (hesc : escape_ok c) (h : halve_loop F fuel c = Except.ok c1) : escape_ok c1 := by
  have := halve_loop_induct F (fun x => ctx_inv x ∧ escape_ok x)
    (fun a b ha hb => ⟨halve_context_inv a b ha.1 hb, halve_context_escape a b ha.1 ha.2.2.2 hb⟩)
    fuel c c1 h ⟨hinv, hesc⟩
  exact this.2

theorem init_zero_freq_fields (c : context) :
    (init_zero_freq c).nSingletons = (if c.type = DYNAMIC then uadd c.nSingletons c.incr else 0) ∧
      (init_zero_freq c).type = c.type ∧ (init_zero_freq c).incr = c.incr ∧
      (init_zero_freq c).max_length = c.max_length := by
  unfold init_zero_freq
  split
  · rename_i h
    simp only [h, if_true, and_self]
  · rename_i h
    simp only [h, if_false, and_self]

theorem create_context_escape (F length type : Nat) (c : context) (hl : length + 2 ≤ 2 ^ 31)
    (h : create_context F length type = Except.ok c) : escape_ok c := by
  obtain ⟨k, h1, h2, h3, h4⟩ := round_up_spec (length + 2) (length + 2) 1 0 (by simp)
  have hW : W = 2 ^ 64 := rfl
  unfold create_context at h
  refine escape_of_adjust _ c ?_ ?_ h ?_ ?_ ?_
  · rw [(init_zero_freq_fields _).2.2.2]
    have := h4 (by omega) (by omega)
    simp only
    omega
  · rw [(init_zero_freq_fields _).2.2.2]
    simp only
    omega
  · rw [(init_zero_freq_fields _).1]
    split
    · exact uadd_lt _ _
    · omega
  · intro ht
    rw [(init_zero_freq_fields _).2.1] at ht
    rw [(init_zero_freq_fields _).1]
    simp only at ht ⊢
    rw [if_neg]
    rw [ht]
    decide
  · rw [(init_zero_freq_fields _).2.2.1]
    exact Nat.mod_lt _ (by rw [hW]; positivity)

theorem install_core_escape (F : Nat) (c cg : context) (o : Option context) (symbol : Int)
    (h0 : 0 < symbol + 2) (h1 : symbol + 2 < 2 ^ 31) (hinv : ctx_inv c) (hesc : escape_ok c)
    (h : install_core F c symbol = Except.ok (cg, o)) :
    escape_ok cg ∧ ∀ c1, o = some c1 → escape_ok c1 := by
  obtain ⟨e1, e2, e3⟩ := hesc
  have hnW : c.nSingletons < W := by
    rw [← e1]
    exact count_lt c 1
  have hneg : ¬ symbol + 2 < 0 := by omega
  rw [install_core_eq, if_neg hneg] at h
  obtain ⟨cg1, hg, h2⟩ := bind_ok _ _ _ h
  have hginv := grow_inv c cg1 (symbol + 2).toNat (by omega) hinv hg
  obtain ⟨⟨k, hk⟩, p2, p3, p4, p5, p6⟩ := hinv
  have hpk : 0 < 2 ^ k := by positivity
  have hfuel : (symbol + 2).toNat < 2 ^ k * 2 ^ 63 := by
    have h3 : 1 * 2 ^ 63 ≤ 2 ^ k * 2 ^ 63 := Nat.mul_le_mul_right _ hpk
    omega
  obtain ⟨cx, k1, hg2, _, _, _, _, _, hsc, htree, _⟩ :=
    grow_pow2 (symbol + 2).toNat 63 c k hk p5 hfuel
  rw [hg] at hg2
  have e : cg1 = cx := Except.ok.inj hg2
  rw [← e] at hsc htree
  obtain ⟨_, _, s3, s4, s5, _⟩ := hsc
  have hgesc : escape_ok cg1 := by
    refine ⟨?_, ?_, by rw [s4]; exact e3⟩
    · rw [s3, ← e1]
      exact count_congr c cg1 1 (fun j hj => htree j (by omega))
    · intro ht
      rw [s3]
      exact e2 (by rw [← s5]; exact ht)
  by_cases hcap : (cg1.nSymbols + 1) * 2 ≥ Max_frequency F
  · rw [if_pos hcap] at h2
    cases h2
    exact ⟨hgesc, fun c1 hc => by cases hc⟩
  · rw [if_neg hcap] at h2
    obtain ⟨lh, h3, h4⟩ := bind_ok _ _ _ h2
    obtain ⟨c3, h5, h6⟩ := bind_ok _ _ _ h4
    obtain ⟨c4, h7, h8⟩ := bind_ok _ _ _ h6
    cases h8
    refine ⟨hgesc, ?_⟩
    intro c1 hc
    rw [← Option.some.inj hc]
    obtain ⟨q1, q2, q3, q4, q5, q6, _⟩ := install_prep_fields cg (symbol + 2).toNat
    obtain ⟨b1, b2, b3, b4⟩ := incr_symbol_prob_scalars _ c3 _ _ _ _ h5
    obtain ⟨f1, f2, f3, f4, f5, f6, f7⟩ := install_bump_fields c3
    refine escape_of_adjust _ c4 ?_ ?_ h7 ?_ ?_ ?_
    · rw [f2, b4, q2]
      exact hginv.2.1
    · rw [f2, b4, q2]
      exact hginv.2.2.1
    · rw [f7]
      split
      · exact uadd_lt _ _
      · rw [b1, q6, s3]
        exact hnW
    · intro ht
      rw [f5, b2, q5] at ht
      rw [f7, if_neg (by rw [b2, q5, ht]; decide), b1, q6]
      exact hgesc.2.1 ht
    · rw [f4, b3, q4]
      exact hgesc.2.2

theorem install_symbol_escape (F fuel : Nat) (c c1 : context) (symbol r : Int)
    (h0 : 0 < symbol + 2) (h1 : symbol + 2 < 2 ^ 31) (hinv : ctx_inv c) (hesc : escape_ok c)
    (h : install_symbol F fuel c symbol = Except.ok (r, c1)) : escape_ok c1 := by
  unfold install_symbol at h
  obtain ⟨⟨cg, o⟩, h2, h3⟩ := bind_ok _ _ _ h
  obtain ⟨hg, ho⟩ := install_core_escape F c cg o symbol h0 h1 hinv hesc h2
  obtain ⟨_, hoinv⟩ := install_core_inv F c cg o symbol h0 h1 hinv h2
  cases o with
  | none =>
    simp only [pure, Except.pure, Except.ok.injEq, Prod.mk.injEq] at h3
    rw [← h3.2]
    exact hg
  | some c2 =>
    simp only at h3
    obtain ⟨c3, h4, h5⟩ := bind_ok _ _ _ h3
    simp only [pure, Except.pure, Except.ok.injEq, Prod.mk.injEq] at h5
    rw [← h5.2]
    exact halve_loop_escape F fuel c2 c3 (hoinv c2 rfl) (ho c2 rfl) h4

theorem encode_escape (F fuel : Nat) (c c1 : context) (symbol r : Int) (a : Nat × Nat × Nat)
    (hinv : ctx_inv c) (hesc : escape_ok c)
    (h : encode F fuel c symbol = Except.ok (r, a, c1)) : escape_ok c1 := by
  unfold encode at h
  obtain ⟨e, h2, h3⟩ := bind_ok _ _ _ h
  obtain ⟨c2, h4, h5⟩ := bind_ok _ _ _ h3
  simp only [pure, Except.pure, Except.ok.injEq, Prod.mk.injEq] at h5
  rw [← h5.2.2]
  obtain ⟨u1, u2, u3, _⟩ := encode_core_update c symbol e hinv.2.1 hinv.2.2.1 hinv.2.2.2.2.2 h2
  exact halve_loop_escape F fuel e.ctx c2 (encode_core_inv c symbol e hinv h2)
    (update_coded_escape c e.ctx e.slot _ _ u1 u2 rfl rfl hinv hesc u3) h4

theorem decode_core_escape (c : context) (t : Nat) (e : coded)
    (hinv : ctx_inv c) (hesc : escape_ok c) (hmono : cum_mono c) (ht : t < c.total)
    (h2 : decode_core c t = Except.ok e) : escape_ok e.ctx := by
  obtain ⟨⟨k, hk⟩, p2, p3, p4, p5, p6⟩ := hinv
  obtain ⟨k1, hk1⟩ : ∃ k1, k = k1 + 1 := by
    refine ⟨k - 1, ?_⟩
    rcases Nat.eq_zero_or_pos k with h0 | h0
    · subst h0
      rw [hk] at p2
      exact absurd p2 (by decide)
    · omega
  have hk32 : k1 < 32 := by
    by_contra hc
    have : 2 ^ 33 ≤ 2 ^ k := Nat.pow_le_pow_right (by norm_num) (by omega)
    have h2 : (2 : Nat) ^ 32 < 2 ^ 33 := by decide
    omega
  rw [hk1] at hk
  obtain ⟨s, hs0, hs, h1, h2'⟩ := remapped_cover c p2 hmono p5 p4 p6 t ht
  obtain ⟨e1, low, high, he1, _, hu, hl, hh⟩ :=
    decode_core_ctx c k1 hk hk32 hmono p5 p4 p6 s t hs0 hs h1 h2'
  have e2 : e1 = e := by
    rw [he1] at h2
    exact Except.ok.inj h2
  subst e2
  exact update_coded_escape c e1.ctx s low high hs0 hs hl hh ⟨⟨k1 + 1, hk⟩, p2, p3, p4, p5, p6⟩
    hesc hu

theorem decode_escape (F fuel : Nat) (c c1 : context) (t : Nat) (r : Int) (a : Nat × Nat × Nat)
    (hinv : ctx_inv c) (hesc : escape_ok c) (hmono : cum_mono c) (ht : t < c.total)
    (h : decode F fuel c t = Except.ok (r, a, c1)) : escape_ok c1 := by
  unfold decode at h
  obtain ⟨e, h2, h3⟩ := bind_ok _ _ _ h
  obtain ⟨c2, h4, h5⟩ := bind_ok _ _ _ h3
  simp only [pure, Except.pure, Except.ok.injEq, Prod.mk.injEq] at h5
  rw [← h5.2.2]
  exact halve_loop_escape F fuel e.ctx c2 (decode_core_inv c t e hinv hmono ht h2)
    (decode_core_escape c t e hinv hesc hmono ht h2) h4

theorem delete_symbol_escape (c c1 : context) (symbol : Int) (hsym : 0 ≤ symbol)
    (hinv : ctx_inv c) (hesc : escape_ok c)
    (h : delete_symbol_ctx c symbol = Except.ok c1) : escape_ok c1 := by
  unfold delete_symbol_ctx at h
  have hneg : ¬ symbol + 2 < 0 := by omega
  simp only [if_neg hneg] at h
  obtain ⟨lh, h2, h3⟩ := bind_ok _ _ _ h
  obtain ⟨hs0, hs⟩ := get_interval_ok c _ lh h2
  obtain ⟨b1, b2, b3, _⟩ := incr_symbol_prob_scalars c c1 _ _ _ _ h3
  obtain ⟨c2, hc2, _, _, _, _, _, _, _, _, hcount⟩ :=
    incr_symbol_prob_spec c (symbol + 2).toNat lh.1 lh.2 (usub lh.1 lh.2) hs0 hs hinv.2.2.1
  rw [h3] at hc2
  have e := Except.ok.inj hc2
  subst e
  obtain ⟨e1, e2, e3⟩ := hesc
  refine ⟨?_, ?_, by rw [b3]; exact e3⟩
  · rw [hcount 1 (by omega) hinv.2.1, if_neg (by omega), b1]
    exact e1
  · intro ht
    rw [b1]
    exact e2 (by rw [← b2]; exact ht)

theorem user_reachable_reachable (F : Nat) (c : context) (h : user_reachable F c) :
    reachable F c := by
  induction h with
  | create length type c hl hc => exact reachable.create length type c hl hc
  | install fuel c c1 symbol r _ h0 h1 hi ih =>
    exact reachable.install fuel c c1 symbol r ih (by omega) h1 hi
  | encode fuel c c1 symbol r a _ he ih => exact reachable.encode fuel c c1 symbol r a ih he
  | decode fuel c c1 t r a _ hm ht hd ih => exact reachable.decode fuel c c1 t r a ih hm ht hd
  | delete c c1 symbol _ _ hd ih => exact reachable.delete c c1 symbol ih hd
  | halve c c1 _ hh ih => exact reachable.halve c c1 ih hh

theorem user_reachable_escape (F : Nat) (c : context) (h : user_reachable F c) :
    escape_ok c := by
  induction h with
  | create length type c hl hc => exact create_context_escape F length type c hl hc
  | install fuel c c1 symbol r hr h0 h1 hi ih =>
    exact install_symbol_escape F fuel c c1 symbol r (by omega) h1
      (reachable_inv F c (user_reachable_reachable F c hr)) ih hi
  | encode fuel c c1 symbol r a hr he ih =>
    exact encode_escape F fuel c c1 symbol r a
      (reachable_inv F c (user_reachable_reachable F c hr)) ih he
  | decode fuel c c1 t r a hr hm ht hd ih =>
    exact decode_escape F fuel c c1 t r a
      (reachable_inv F c (user_reachable_reachable F c hr)) ih hm ht hd
  | delete c c1 symbol hr hs hd ih =>
    exact delete_symbol_escape c c1 symbol hs
      (reachable_inv F c (user_reachable_reachable F c hr)) ih hd
  | halve c c1 hr hh ih =>
    exact halve_context_escape c c1 (reachable_inv F c (user_reachable_reachable F c hr))
      ih.2.2 hh

theorem nsing_single_slots (c c1 : context) (incr : Nat) (hi : c1.incr = incr) :
    ∀ n, (∀ j, 1 < j → j ≤ n → count c1 j = halved (count c j)) →
      nsing c incr n = incr * (1 + single_slots c1 n) := by
  intro n
  induction n with
  | zero =>
    intro _
    simp [nsing, single_slots]
  | succ n ih =>
    intro hc
    have ih2 := ih (fun j h1 h2 => hc j h1 (by omega))
    rw [nsing, single_slots]
    by_cases hn : 2 ≤ n + 1
    · have hcn := hc (n + 1) (by omega) (le_refl _)
      by_cases hv : halved (count c (n + 1)) = incr
      · rw [if_pos ⟨hv, by omega⟩, if_pos ⟨hn, by rw [hcn, hv, hi]⟩, ih2]
        ring
      · rw [if_neg (fun h => hv h.1), if_neg (fun h => hv (by rw [← hcn, h.2, hi])), ih2]
    · rw [if_neg (fun h => h.2 (by omega)), if_neg (fun h => hn h.1), ih2]

/-- A halving pass of a context that is not static leaves `nSingletons` equal
to `incr` times one plus the number of user slots whose count is `incr`. -/
theorem halve_context_singles (c c1 : context) (hinv : ctx_inv c) (hi : c.incr < W)
    (ht : c.type ≠ STATIC) (h : halve_context c = Except.ok c1) :
    c1.nSingletons = c1.incr * (1 + single_slots c1 (c1.max_length - 1)) % W := by
  have hpost := halve_context_post c c1 h hinv.2.1 hinv.2.2.1
  obtain ⟨q1, q2, _, _, _, q6, q7, _, _, _⟩ := hpost
  obtain ⟨r1, _, _⟩ := halve_main_singletons_lt c hi
  obtain ⟨_, m2, _, _, _, _, _, m8, _, m10, _⟩ :=
    halve_main_spec c (by have := hinv.2.1; omega) hinv.2.2.1
  have hn := m10 ht
  rw [Nat.mod_eq_of_lt r1] at hn
  have key := nsing_single_slots c c1 (halve_main c).incr q1 (c.max_length - 1) (by
    intro j h1 h2
    have hlt : j < c.max_length := by
      have := hinv.2.1
      omega
    rw [q7 j h1 (by rw [m2]; exact hlt), m8 j (by omega) hlt])
  rw [q6, hn, q2, m2, key, q1]
/-! ## The halving loop ends -/

theorem csum_le_parts (c : context) :
    ∀ n, csum c n ≤ count c 1 + excess c n + nonzero_slots c n := by
  intro n
  induction n with
  | zero => simp [csum]
  | succ n ih =>
    rw [csum, excess, nonzero_slots]
    by_cases h2 : 2 ≤ n + 1
    · rw [if_pos h2]
      by_cases hz : count c (n + 1) ≠ 0
      · rw [if_pos ⟨h2, hz⟩]
        omega
      · rw [if_neg (fun h => hz h.2)]
        have : count c (n + 1) = 0 := by omega
        omega
    · rw [if_neg h2, if_neg (fun h => h2 h.1)]
      have hn : n = 0 := by omega
      subst hn
      show 0 + count c 1 ≤ count c 1 + excess c 0 + nonzero_slots c 0
      omega

theorem single_le_nonzero (c : context) (hi : 1 ≤ c.incr) :
    ∀ n, single_slots c n ≤ nonzero_slots c n := by
  intro n
  induction n with
  | zero => simp [single_slots, nonzero_slots]
  | succ n ih =>
    rw [single_slots, nonzero_slots]
    by_cases hs : 2 ≤ n + 1 ∧ count c (n + 1) = c.incr
    · rw [if_pos hs, if_pos ⟨hs.1, by rw [hs.2]; omega⟩]
      omega
    · rw [if_neg hs]
      split <;> omega

theorem excess_le (c : context) : ∀ n, excess c n ≤ n * W := by
  intro n
  induction n with
  | zero => simp [excess]
  | succ n ih =>
    rw [excess]
    have := count_lt c (n + 1)
    have e : (n + 1) * W = n * W + W := by ring
    split <;> omega

/-- A pass that replaces every count of a user slot by its half, rounded up,
keeps the number of non-zero slots and halves the excess. -/
theorem halved_measures (c c1 : context) :
    ∀ n, (∀ j, 1 < j → j ≤ n → count c1 j = halved (count c j)) →
      nonzero_slots c1 n = nonzero_slots c n ∧ 2 * excess c1 n ≤ excess c n := by
  intro n
  induction n with
  | zero =>
    intro _
    simp [nonzero_slots, excess]
  | succ n ih =>
    intro hc
    obtain ⟨ih1, ih2⟩ := ih (fun j h1 h2 => hc j h1 (by omega))
    rw [nonzero_slots, nonzero_slots, excess, excess]
    by_cases h2 : 2 ≤ n + 1
    · have hcn := hc (n + 1) (by omega) (le_refl _)
      have hlt := count_lt c (n + 1)
      rw [halved_eq _ hlt] at hcn
      rw [if_pos h2, if_pos h2]
      constructor
      · by_cases hz : count c (n + 1) ≠ 0
        · rw [if_pos ⟨h2, by rw [hcn]; omega⟩, if_pos ⟨h2, hz⟩, ih1]
        · rw [if_neg (fun h => hz (by
            have := h.2
            rw [hcn] at this
            omega)), if_neg (fun h => hz h.2), ih1]
      · rw [hcn]
        omega
    · rw [if_neg h2, if_neg h2, if_neg (fun h => h2 h.1), if_neg (fun h => h2 h.1)]
      exact ⟨ih1, ih2⟩

/-- The function `halve_context` returns on a context that satisfies the
invariant. -/
theorem halve_context_returns (c : context) (hinv : ctx_inv c) :
    ∃ c1, halve_context c = Except.ok c1 := by
  obtain ⟨p1, p2, p3, p4, p5, p6⟩ := hinv
  obtain ⟨_, m2, _, _, _, m6, _, _, _, _, _⟩ := halve_main_spec c (by omega) p3
  rw [halve_context_eq]
  by_cases hm : (halve_main c).most_freq_symbol ≠ -1
  · simp only [if_pos hm]
    have hv : 1 ≤ c.most_freq_symbol ∧ c.most_freq_symbol < c.max_length := by
      rcases p6 with ⟨a, _⟩ | ⟨a, b, _, _⟩
      · rw [m6] at hm
        exact absurd a hm
      · exact ⟨a, b⟩
    have hg := get_interval_eq (halve_main c) c.most_freq_symbol.toNat (by omega)
      (by rw [m2]; omega) (by omega)
    rw [m6, hg]
    simp only [bind, Except.bind, pure, Except.pure]
    obtain ⟨c2, h2, _⟩ := adjust_zero_freq_spec
      { halve_main c with
        most_freq_count := usub (cum (halve_main c) c.most_freq_symbol.toNat)
          (cum (halve_main c) (c.most_freq_symbol.toNat - 1)),
        most_freq_pos := cum (halve_main c) (c.most_freq_symbol.toNat - 1) }
      (by show 1 < (halve_main c).max_length; rw [m2]; exact p2)
      (by show (halve_main c).max_length ≤ 2 ^ 32; rw [m2]; exact p3)
    exact ⟨c2, h2⟩
  · simp only [if_neg hm, bind, Except.bind, pure, Except.pure]
    obtain ⟨c2, h2, _⟩ := adjust_zero_freq_spec (halve_main c) (by rw [m2]; exact p2)
      (by rw [m2]; exact p3)
    exact ⟨c2, h2⟩

/-- What one halving pass does to the measures of the loop. -/
theorem halve_pass_facts (c c1 : context) (hinv : ctx_inv c) (hi : c.incr < W)
    (h : halve_context c = Except.ok c1) :
    ctx_inv c1 ∧ c1.incr < W ∧ 1 ≤ c1.incr ∧ c1.max_length = c.max_length ∧
      nonzero_slots c1 (c.max_length - 1) = nonzero_slots c (c.max_length - 1) ∧
      2 * excess c1 (c.max_length - 1) ≤ excess c (c.max_length - 1) ∧
      2 * (c1.incr - 1) ≤ c.incr - 1 ∧
      count c1 1 ≤ c1.incr * (1 + single_slots c1 (c1.max_length - 1)) := by
  have hinv1 := halve_context_inv c c1 hinv h
  obtain ⟨e1, e2, e3⟩ := halve_context_escape c c1 hinv hi h
  have hpost := halve_context_post c c1 h hinv.2.1 hinv.2.2.1
  obtain ⟨q1, q2, _, q4, _, _, q7, _, _, _⟩ := hpost
  obtain ⟨_, r2, r3⟩ := halve_main_singletons_lt c hi
  obtain ⟨m1, m2, _, m4, _, _, _, m8, _, _, _⟩ :=
    halve_main_spec c (by have := hinv.2.1; omega) hinv.2.2.1
  have hcounts : ∀ j, 1 < j → j ≤ c.max_length - 1 → count c1 j = halved (count c j) := by
    intro j h1 h2
    have hlt : j < c.max_length := by
      have := hinv.2.1
      omega
    rw [q7 j h1 (by rw [m2]; exact hlt), m8 j (by omega) hlt]
  obtain ⟨n1, n2⟩ := halved_measures c c1 (c.max_length - 1) hcounts
  have hM : MIN_INCR = 1 := rfl
  refine ⟨hinv1, e3, by rw [q1]; exact r3, by rw [q2, m2], n1, n2, ?_, ?_⟩
  · rw [q1, m1, hM]
    split <;> omega
  · by_cases ht : c.type = STATIC
    · rw [e1, e2 (by rw [q4, m4]; exact ht)]
      exact Nat.zero_le _
    · rw [e1, halve_context_singles c c1 hinv hi ht h]
      exact Nat.mod_le _ _

theorem total_le_csum (c : context) (hinv : ctx_inv c) : c.total ≤ csum c (c.max_length - 1) := by
  obtain ⟨_, _, _, p4, p5, _⟩ := hinv
  unfold total_ok at p5
  rw [Nat.mod_eq_of_lt p4, cum_eq_csum] at p5
  rw [p5]
  exact Nat.mod_le _ _

/-- The halving loop returns within `k + 1` tests on a context left by a
halving pass whose excess and increment are below `2 ^ k`. -/
theorem halve_loop_returns_post (F : Nat) :
    ∀ (k : Nat) (c : context), ctx_inv c → c.incr < W → 1 ≤ c.incr →
      count c 1 ≤ c.incr * (1 + single_slots c (c.max_length - 1)) →
      2 * nonzero_slots c (c.max_length - 1) + 1 ≤ 2 ^ F →
      excess c (c.max_length - 1) < 2 ^ k → c.incr - 1 < 2 ^ k →
      ∃ c1, halve_loop F (k + 1) c = Except.ok c1 := by
  intro k
  induction k with
  | zero =>
    intro c hinv hi h1 hesc hnz hex hincr
    have hone : c.incr = 1 := by
      simp only [pow_zero] at hincr
      omega
    have hzero : excess c (c.max_length - 1) = 0 := by
      simp only [pow_zero] at hex
      omega
    have hs := single_le_nonzero c h1 (c.max_length - 1)
    have hsum := csum_le_parts c (c.max_length - 1)
    have ht := total_le_csum c hinv
    rw [hone, Nat.one_mul] at hesc
    rw [halve_loop, if_neg (by simp only [Max_frequency]; omega)]
    exact ⟨c, rfl⟩
  | succ k ih =>
    intro c hinv hi h1 hesc hnz hex hincr
    rw [halve_loop]
    by_cases ht : c.total > Max_frequency F
    · rw [if_pos ht]
      obtain ⟨c2, h2⟩ := halve_context_returns c hinv
      obtain ⟨f1, f2, f3, f4, f5, f6, f7, f8⟩ := halve_pass_facts c c2 hinv hi h2
      rw [h2]
      simp only [bind, Except.bind]
      have hp : 2 ^ (k + 1) = 2 * 2 ^ k := by rw [pow_succ]; ring
      apply ih c2 f1 f2 f3 f8
      · rw [f4, f5]
        exact hnz
      · rw [f4]
        omega
      · omega
    · rw [if_neg ht]
      exact ⟨c, rfl⟩

/-- The halving loop returns within 98 tests on every context that satisfies
the invariant and has few enough slots with a count. -/
theorem halve_loop_returns (F : Nat) (c : context) (hinv : ctx_inv c) (hi : c.incr < W)
    (hnz : 2 * nonzero_slots c (c.max_length - 1) + 1 ≤ 2 ^ F) :
    ∃ c1, halve_loop F 98 c = Except.ok c1 := by
  rw [halve_loop]
  by_cases ht : c.total > Max_frequency F
  · rw [if_pos ht]
    obtain ⟨c2, h2⟩ := halve_context_returns c hinv
    obtain ⟨f1, f2, f3, f4, f5, f6, f7, f8⟩ := halve_pass_facts c c2 hinv hi h2
    rw [h2]
    simp only [bind, Except.bind]
    have hW : W = 2 ^ 64 := rfl
    have hmax := f1.2.2.1
    have hex := excess_le c2 (c2.max_length - 1)
    have hb : (c2.max_length - 1) * W < 2 ^ 96 := by
      have h32 : c2.max_length - 1 < 2 ^ 32 := by omega
      calc (c2.max_length - 1) * W < 2 ^ 32 * W :=
            Nat.mul_lt_mul_of_pos_right h32 (by rw [hW]; positivity)
        _ = 2 ^ 96 := by rw [hW, ← pow_add]
    have h96 : (2 : Nat) ^ 64 ≤ 2 ^ 96 := Nat.pow_le_pow_right (by norm_num) (by norm_num)
    apply halve_loop_returns_post F 96 c2 f1 f2 f3 f8
    · rw [f4, f5]
      exact hnz
    · omega
    · omega
  · rw [if_neg ht]
    exact ⟨c, rfl⟩
/-! ## The number of slots with a count -/

theorem nonzero_mono (c c1 : context) :
    ∀ n, (∀ j, 1 < j → j ≤ n → count c1 j ≠ 0 → count c j ≠ 0) →
      nonzero_slots c1 n ≤ nonzero_slots c n := by
  intro n
  induction n with
  | zero => intro _; simp [nonzero_slots]
  | succ n ih =>
    intro hc
    have ih2 := ih (fun j h1 h2 => hc j h1 (by omega))
    rw [nonzero_slots, nonzero_slots]
    by_cases h1 : 2 ≤ n + 1 ∧ count c1 (n + 1) ≠ 0
    · rw [if_pos h1, if_pos ⟨h1.1, hc (n + 1) (by omega) (le_refl _) h1.2⟩]
      omega
    · rw [if_neg h1]
      split <;> omega

theorem nonzero_one_more (c c1 : context) (s : Nat) :
    ∀ n, (∀ j, 1 < j → j ≤ n → j ≠ s → count c1 j ≠ 0 → count c j ≠ 0) →
      nonzero_slots c1 n ≤ nonzero_slots c n + (if 1 < s ∧ s ≤ n then 1 else 0) := by
  intro n
  induction n with
  | zero => intro _; simp [nonzero_slots]
  | succ n ih =>
    intro hc
    have ih2 := ih (fun j h1 h2 => hc j h1 (by omega))
    rw [nonzero_slots, nonzero_slots]
    by_cases hs : n + 1 = s
    · have e1 : (if 1 < s ∧ s ≤ n then 1 else 0) = 0 := if_neg (by omega)
      rw [e1] at ih2
      split <;> split <;> split <;> omega
    · have e1 : (if 1 < s ∧ s ≤ n + 1 then 1 else 0) = (if 1 < s ∧ s ≤ n then 1 else 0) := by
        by_cases hx : 1 < s ∧ s ≤ n
        · rw [if_pos hx, if_pos ⟨hx.1, by omega⟩]
        · rw [if_neg hx, if_neg (by omega)]
      rw [e1]
      by_cases h1 : 2 ≤ n + 1 ∧ count c1 (n + 1) ≠ 0
      · rw [if_pos h1, if_pos ⟨h1.1, hc (n + 1) (by omega) (le_refl _) hs h1.2⟩]
        omega
      · rw [if_neg h1]
        split <;> omega

theorem nonzero_extend (c : context) (s n : Nat) :
    ∀ d, (∀ j, n < j → j ≤ n + d → j ≠ s → count c j = 0) →
      nonzero_slots c (n + d) ≤ nonzero_slots c n + (if n < s ∧ s ≤ n + d then 1 else 0) := by
  intro d
  induction d with
  | zero => intro _; simp
  | succ d ih =>
    intro hc
    have ih2 := ih (fun j h1 h2 => hc j h1 (by omega))
    rw [show n + (d + 1) = (n + d) + 1 by omega, nonzero_slots]
    by_cases hs : n + d + 1 = s
    · have e1 : (if n < s ∧ s ≤ n + d then 1 else 0) = 0 := if_neg (by omega)
      have e2 : (if n < s ∧ s ≤ n + d + 1 then 1 else 0) = 1 := if_pos (by omega)
      rw [e1] at ih2
      rw [e2]
      split <;> omega
    · have hz := hc (n + d + 1) (by omega) (by omega) hs
      rw [if_neg (fun h => h.2 hz)]
      have e1 : (if n < s ∧ s ≤ n + d + 1 then 1 else 0) =
          (if n < s ∧ s ≤ n + d then 1 else 0) := by
        by_cases hx : n < s ∧ s ≤ n + d
        · rw [if_pos hx, if_pos ⟨hx.1, by omega⟩]
        · rw [if_neg hx, if_neg (by omega)]
      rw [e1]
      exact ih2

/-- A context that agrees with `c` on the old slots but for the slot `s`, and
is empty on the new slots but for `s`, has at most one more slot with a count. -/
theorem nonzero_grown (c c1 : context) (s n n1 : Nat) (h1n : 1 ≤ n) (hn : n ≤ n1)
    (hold : ∀ j, 1 < j → j ≤ n → j ≠ s → count c1 j = count c j)
    (hnew : ∀ j, n < j → j ≤ n1 → j ≠ s → count c1 j = 0) :
    nonzero_slots c1 n1 ≤ nonzero_slots c n + (if 1 < s then 1 else 0) := by
  have h1 := nonzero_one_more c c1 s n (fun j a b d e => by rw [← hold j a b d]; exact e)
  obtain ⟨d, rfl⟩ : ∃ d, n1 = n + d := ⟨n1 - n, by omega⟩
  have h2 := nonzero_extend c1 s n d hnew
  by_cases hs : s ≤ n
  · rw [if_neg (by omega)] at h2
    have : (if 1 < s ∧ s ≤ n then 1 else 0) ≤ (if 1 < s then 1 else 0) := by
      split <;> split <;> omega
    omega
  · rw [if_neg (by omega)] at h1
    have : (if n < s ∧ s ≤ n + d then 1 else 0) ≤ (if 1 < s then 1 else 0) := by
      split <;> split <;> omega
    omega

theorem incr_symbol_prob_nSymbols (c c1 : context) (i low high inc : Nat)
    (h : incr_symbol_prob c i low high inc = Except.ok c1) : c1.nSymbols = c.nSymbols := by
  unfold incr_symbol_prob at h
  obtain ⟨c2, h2, h3⟩ := bind_ok _ _ _ h
  unfold incr_symbol_prob_actual at h2
  obtain ⟨t, _, h5⟩ := bind_ok _ _ _ h2
  have e2 := (Except.ok.inj h5).symm
  have e3 := (Except.ok.inj h3).symm
  subst e2
  subst e3
  unfold incr_symbol_prob_mps
  split <;> [rfl; (split <;> [rfl; (split <;> rfl)])]

theorem adjust_slots (c c1 : context) (h1 : 1 < c.max_length) (hmax : c.max_length ≤ 2 ^ 32)
    (h : adjust_zero_freq c = Except.ok c1) :
    c1.nSymbols = c.nSymbols ∧ c1.max_length = c.max_length ∧
      nonzero_slots c1 (c1.max_length - 1) = nonzero_slots c (c.max_length - 1) := by
  obtain ⟨c2, h2, _, a1, a2, _, _, _, _, _, _, _, a10⟩ := adjust_zero_freq_spec c h1 hmax
  rw [h] at h2
  have e := Except.ok.inj h2
  subst e
  refine ⟨a2, a1, ?_⟩
  rw [a1]
  apply Nat.le_antisymm
  · exact nonzero_mono c c1 _ (fun j x y z => by rw [← a10 j x (by omega)]; exact z)
  · exact nonzero_mono c1 c _ (fun j x y z => by rw [a10 j x (by omega)]; exact z)

/-- The update after the coder call, for the escape slot or a slot with a
count, adds no slot with a count. -/
theorem update_coded_slots (c c1 : context) (s low high : Nat) (hs0 : 0 < s)
    (hs : s < c.max_length) (h1 : 1 < c.max_length) (hmax : c.max_length ≤ 2 ^ 32)
    (hcnt : s = 1 ∨ count c s ≠ 0)
    (h : update_coded c s low high = Except.ok c1) :
    c1.nSymbols = c.nSymbols ∧ c1.max_length = c.max_length ∧
      nonzero_slots c1 (c1.max_length - 1) ≤ nonzero_slots c (c.max_length - 1) := by
  obtain ⟨c2, h2, m2, _, hc⟩ := update_coded_spec c s low high hs0 hs h1 hmax
  rw [h] at h2
  have e := Except.ok.inj h2
  subst e
  have hn : c1.nSymbols = c.nSymbols := by
    unfold update_coded at h
    by_cases hne : s ≠ 1
    · simp only [if_pos hne] at h
      obtain ⟨c3, h3, h4⟩ := bind_ok _ _ _ h
      have e1 := incr_symbol_prob_nSymbols _ c3 _ _ _ _ h3
      obtain ⟨b1, b2, b3, b4⟩ := incr_symbol_prob_scalars _ c3 _ _ _ _ h3
      have hm3 : c3.max_length = c.max_length := by
        rw [b4]
        split <;> rfl
      obtain ⟨a1, _, _⟩ := adjust_slots c3 c1 (by omega) (by omega) h4
      rw [a1, e1]
      split <;> rfl
    · simp only [if_neg hne] at h
      obtain ⟨c3, h3, h4⟩ := bind_ok _ _ _ h
      cases h3
      exact (adjust_slots c c1 h1 hmax h4).1
  refine ⟨hn, m2, ?_⟩
  rw [m2]
  apply nonzero_mono
  intro j x y z
  rw [hc j x (by omega)] at z
  by_cases hj : j = s
  · rcases hcnt with hs1 | hnz
    · omega
    · rw [hj]
      exact hnz
  · rw [if_neg hj] at z
    exact z

theorem nonzero_none (c : context) :
    ∀ n, (∀ j, 1 < j → j ≤ n → count c j = 0) → nonzero_slots c n = 0 := by
  intro n
  induction n with
  | zero => intro _; rfl
  | succ n ih =>
    intro hc
    rw [nonzero_slots]
    by_cases h2 : 2 ≤ n + 1
    · rw [if_neg (fun h => h.2 (hc (n + 1) (by omega) (le_refl _)))]
      exact ih (fun j h1 h2 => hc j h1 (by omega))
    · rw [if_neg (fun h => h2 h.1)]
      exact ih (fun j h1 h2 => hc j h1 (by omega))

theorem init_zero_freq_more (c : context) :
    (init_zero_freq c).tree = c.tree ∧ (init_zero_freq c).nSymbols = c.nSymbols := by
  unfold init_zero_freq
  split <;> exact ⟨rfl, rfl⟩

theorem create_context_slots (F length type : Nat) (hF : 2 ≤ F) (c : context)
    (hl : length + 2 ≤ 2 ^ 31) (h : create_context F length type = Except.ok c) :
    slots_ok F c := by
  obtain ⟨k, h1, h2, h3, h4⟩ := round_up_spec (length + 2) (length + 2) 1 0 (by simp)
  unfold create_context at h
  obtain ⟨a1, a2, a3⟩ := adjust_slots _ c
    (by rw [(init_zero_freq_fields _).2.2.2]
        have := h4 (by omega) (by omega)
        simp only
        omega)
    (by rw [(init_zero_freq_fields _).2.2.2]
        simp only
        omega) h
  have hz : nonzero_slots (init_zero_freq
      { initial_size := round_up (length + 2) (length + 2) 1,
        max_length := round_up (length + 2) (length + 2) 1, length := 1, nSingletons := 0,
        type := type, nSymbols := 1, total := 0, tree := fun _ => 0,
        incr := 2 ^ F % W, most_freq_symbol := -1, most_freq_count := 0,
        most_freq_pos := 0 }) ((init_zero_freq
      { initial_size := round_up (length + 2) (length + 2) 1,
        max_length := round_up (length + 2) (length + 2) 1, length := 1, nSingletons := 0,
        type := type, nSymbols := 1, total := 0, tree := fun _ => 0,
        incr := 2 ^ F % W, most_freq_symbol := -1, most_freq_count := 0,
        most_freq_pos := 0 }).max_length - 1) = 0 := by
    apply nonzero_none
    intro j _ _
    unfold count cum
    rw [(init_zero_freq_more _).1]
    simp only [psum_const_zero]
    decide
  have h4F : 4 ≤ 2 ^ F := by
    calc 4 = 2 ^ 2 := by norm_num
      _ ≤ 2 ^ F := Nat.pow_le_pow_right (by norm_num) hF
  refine ⟨?_, ?_⟩
  · rw [a3, hz, a1, (init_zero_freq_more _).2]
    exact Nat.one_pos
  · rw [a1, (init_zero_freq_more _).2]
    simp only
    omega

theorem halve_context_slots (F : Nat) (c c1 : context) (hinv : ctx_inv c) (hi : c.incr < W)
    (hs : slots_ok F c) (h : halve_context c = Except.ok c1) : slots_ok F c1 := by
  obtain ⟨_, _, _, f4, f5, _, _, _⟩ := halve_pass_facts c c1 hinv hi h
  have hpost := halve_context_post c c1 h hinv.2.1 hinv.2.2.1
  obtain ⟨_, _, q3, _⟩ := hpost
  obtain ⟨_, _, m3, _⟩ := halve_main_spec c (by have := hinv.2.1; omega) hinv.2.2.1
  unfold slots_ok
  rw [f4, f5, q3, m3]
  exact hs

theorem halve_loop_slots (F fuel : Nat) (c c1 : context) (hinv : ctx_inv c)
    (hesc : escape_ok c) (hs : slots_ok F c) (h : halve_loop F fuel c = Except.ok c1) :
    slots_ok F c1 := by
  have := halve_loop_induct F (fun x => ctx_inv x ∧ escape_ok x ∧ slots_ok F x)
    (fun a b ha hb => ⟨halve_context_inv a b ha.1 hb,
      halve_context_escape a b ha.1 ha.2.1.2.2 hb,
      halve_context_slots F a b ha.1 ha.2.1.2.2 ha.2.2 hb⟩)
    fuel c c1 h ⟨hinv, hesc, hs⟩
  exact this.2.2

theorem encode_core_slot_count (c : context) (symbol : Int) (re : coded)
    (h1 : 1 < c.max_length) (hmax : c.max_length ≤ 2 ^ 32) (hmps : mps_ok c)
    (he : encode_core c symbol = Except.ok re) : re.slot = 1 ∨ count c re.slot ≠ 0 := by
  by_cases hknown : (symbol + 2 > 0 ∧ symbol + 2 < c.max_length) ∧
      cum c ((symbol + 2).toNat - 1) ≠ cum c (symbol + 2).toNat
  · obtain ⟨e, h, hslot, _⟩ := encode_core_known c symbol h1 hmax hmps hknown.1 hknown.2
    rw [he] at h
    have hre := Except.ok.inj h
    subst hre
    right
    rw [hslot]
    exact (count_ne_zero_iff c _).mpr hknown.2
  · have hout : ¬ (symbol + 2 > 0 ∧ symbol + 2 < c.max_length) ∨
        cum c ((symbol + 2).toNat - 1) = cum c (symbol + 2).toNat := by
      by_cases hin : symbol + 2 > 0 ∧ symbol + 2 < c.max_length
      · right
        by_contra hne
        exact hknown ⟨hin, hne⟩
      · exact Or.inl hin
    by_cases hns : c.nSingletons = 0
    · rw [encode_core_abort c symbol hmax hmps hns hout] at he
      cases he
    · obtain ⟨e, h, hslot, _⟩ := encode_core_escape c symbol h1 hmax hmps hns hout
      rw [he] at h
      have hre := Except.ok.inj h
      subst hre
      exact Or.inl hslot

/-- The context `encode` hands to its halving loop has no more slots with a
count than the context it started from. -/
theorem encode_core_slots (F : Nat) (c : context) (symbol : Int) (e : coded) (hinv : ctx_inv c)
    (hs : slots_ok F c) (h : encode_core c symbol = Except.ok e) : slots_ok F e.ctx := by
  obtain ⟨u1, u2, u3, _⟩ := encode_core_update c symbol e hinv.2.1 hinv.2.2.1 hinv.2.2.2.2.2 h
  have hc := encode_core_slot_count c symbol e hinv.2.1 hinv.2.2.1 hinv.2.2.2.2.2 h
  obtain ⟨a1, a2, a3⟩ := update_coded_slots c e.ctx e.slot _ _ u1 u2 hinv.2.1 hinv.2.2.1 hc u3
  unfold slots_ok at hs ⊢
  rw [a1]
  omega

/-- The context `decode` hands to its halving loop has no more slots with a
count than the context it started from. -/
theorem decode_core_slots (F : Nat) (c : context) (t : Nat) (e : coded) (hinv : ctx_inv c)
    (hmono : cum_mono c) (ht : t < c.total) (hs : slots_ok F c)
    (h : decode_core c t = Except.ok e) : slots_ok F e.ctx := by
  obtain ⟨⟨k, hk⟩, p2, p3, p4, p5, p6⟩ := hinv
  obtain ⟨k1, hk1⟩ : ∃ k1, k = k1 + 1 := by
    refine ⟨k - 1, ?_⟩
    rcases Nat.eq_zero_or_pos k with h0 | h0
    · subst h0
      rw [hk] at p2
      exact absurd p2 (by decide)
    · omega
  have hk32 : k1 < 32 := by
    by_contra hc
    have : 2 ^ 33 ≤ 2 ^ k := Nat.pow_le_pow_right (by norm_num) (by omega)
    have h2 : (2 : Nat) ^ 32 < 2 ^ 33 := by decide
    omega
  rw [hk1] at hk
  obtain ⟨s, hs0, hsm, h1, h2⟩ := remapped_cover c p2 hmono p5 p4 p6 t ht
  obtain ⟨e1, low, high, he1, _, hu, hl, hh⟩ :=
    decode_core_ctx c k1 hk hk32 hmono p5 p4 p6 s t hs0 hsm h1 h2
  have e2 : e1 = e := by
    rw [he1] at h
    exact Except.ok.inj h
  subst e2
  have hne : count c s ≠ 0 :=
    (count_ne_zero_iff c s).mpr (remapped_nonempty c p4 p6 s (by omega))
  obtain ⟨a1, a2, a3⟩ := update_coded_slots c e1.ctx s low high hs0 hsm p2 p3 (Or.inr hne) hu
  unfold slots_ok at hs ⊢
  rw [a1]
  omega

theorem delete_symbol_slots (F : Nat) (c c1 : context) (symbol : Int) (hinv : ctx_inv c)
    (hs : slots_ok F c) (h : delete_symbol_ctx c symbol = Except.ok c1) : slots_ok F c1 := by
  unfold delete_symbol_ctx at h
  by_cases hneg : symbol + 2 < 0
  · simp only [if_pos hneg] at h
    cases h
  · simp only [if_neg hneg] at h
    obtain ⟨lh, h2, h3⟩ := bind_ok _ _ _ h
    obtain ⟨hs0, hsm⟩ := get_interval_ok c _ lh h2
    rw [get_interval_eq c _ hs0 hsm (by have := hinv.2.2.1; omega)] at h2
    have elh := (Except.ok.inj h2).symm
    subst elh
    have hn := incr_symbol_prob_nSymbols c c1 _ _ _ _ h3
    obtain ⟨c2, hc2, _, m2, _, _, _, _, _, _, hcount⟩ :=
      incr_symbol_prob_spec c (symbol + 2).toNat (cum c ((symbol + 2).toNat - 1))
        (cum c (symbol + 2).toNat)
        (usub (cum c ((symbol + 2).toNat - 1)) (cum c (symbol + 2).toNat)) hs0 hsm hinv.2.2.1
    rw [h3] at hc2
    have e := Except.ok.inj hc2
    subst e
    unfold slots_ok at hs ⊢
    rw [hn, m2]
    have hle : nonzero_slots c1 (c.max_length - 1) ≤ nonzero_slots c (c.max_length - 1) := by
      apply nonzero_mono
      intro j x y z
      rw [hcount j (by omega) (by have := hinv.2.1; omega)] at z
      by_cases hj : j = (symbol + 2).toNat
      · exfalso
        apply z
        rw [if_pos hj, hj]
        have a := cum_lt c (symbol + 2).toNat
        have b := cum_lt c ((symbol + 2).toNat - 1)
        unfold count
        simp only [usub, uadd, W] at *
        omega
      · rw [if_neg hj] at z
        exact z
    omega

theorem grow_slots (c cg : context) (s : Nat) (hs : s < 2 ^ 31) (hinv : ctx_inv c)
    (h : grow s 64 c = Except.ok cg) :
    cg.nSymbols = c.nSymbols ∧
      nonzero_slots cg (cg.max_length - 1) ≤ nonzero_slots c (c.max_length - 1) := by
  obtain ⟨⟨k, hk⟩, p2, p3, p4, p5, p6⟩ := hinv
  have hpk : 0 < 2 ^ k := by positivity
  have hfuel : s < 2 ^ k * 2 ^ 63 := by
    have h3 : 1 * 2 ^ 63 ≤ 2 ^ k * 2 ^ 63 := Nat.mul_le_mul_right _ hpk
    omega
  obtain ⟨cx, k1, hg2, hM1, hsk, hid, _, _, hsc, htree, hzero⟩ := grow_pow2 s 63 c k hk p5 hfuel
  rw [h] at hg2
  have e : cg = cx := Except.ok.inj hg2
  rw [← e] at hsc htree hzero hM1 hid
  obtain ⟨_, s2, _⟩ := hsc
  refine ⟨s2, ?_⟩
  have hle : c.max_length ≤ cg.max_length := by
    by_cases hlt : s < 2 ^ k
    · rw [hid hlt]
    · rw [hk, hM1]
      have : 2 ^ k ≤ s := by omega
      omega
  have := nonzero_grown c cg 0 (c.max_length - 1) (cg.max_length - 1) (by omega) (by omega)
    (fun j _ hj _ => count_congr c cg j (fun i hi => htree i (by omega)))
    (fun j h1 h2 _ => hzero j (by omega) (by omega))
  rw [if_neg (by omega)] at this
  exact this

theorem install_core_slots (F : Nat) (c cg : context) (o : Option context) (symbol : Int)
    (h0 : 0 ≤ symbol) (h1 : symbol + 2 < 2 ^ 31) (hinv : ctx_inv c) (hs : slots_ok F c)
    (h : install_core F c symbol = Except.ok (cg, o)) :
    slots_ok F cg ∧ ∀ c1, o = some c1 → slots_ok F c1 := by
  have hneg : ¬ symbol + 2 < 0 := by omega
  have h' := h
  rw [install_core_eq, if_neg hneg] at h'
  obtain ⟨cg1, hg, h2⟩ := bind_ok _ _ _ h'
  obtain ⟨g1, g2⟩ := grow_slots c cg1 (symbol + 2).toNat (by omega) hinv hg
  have hcg : cg1 = cg := by
    by_cases hcap : (cg1.nSymbols + 1) * 2 ≥ Max_frequency F
    · rw [if_pos hcap] at h2
      exact congrArg Prod.fst (Except.ok.inj h2)
    · rw [if_neg hcap] at h2
      obtain ⟨lh, h3, h4⟩ := bind_ok _ _ _ h2
      obtain ⟨c3, h5, h6⟩ := bind_ok _ _ _ h4
      obtain ⟨c4, h7, h8⟩ := bind_ok _ _ _ h6
      exact congrArg Prod.fst (Except.ok.inj h8)
  rw [hcg] at g1 g2
  have hsg : slots_ok F cg := by
    unfold slots_ok at hs ⊢
    rw [g1]
    omega
  refine ⟨hsg, ?_⟩
  intro c1 ho
  by_cases hcap : (c.nSymbols + 1) * 2 ≥ Max_frequency F
  · exfalso
    rw [hcg, if_pos (by rw [g1]; exact hcap)] at h2
    have := congrArg Prod.snd (Except.ok.inj h2)
    rw [ho] at this
    cases this
  · obtain ⟨⟨k, hk⟩, p2, p3, p4, p5, p6⟩ := hinv
    obtain ⟨cg2, c2, k1, hi, _, hle, hmax1, hsl, _, _, hn, _, _, _, hold, hnew⟩ :=
      install_core_spec F c symbol k h0 h1 hk p2 p3 p5 hcap
    rw [h] at hi
    have e2 : o = some c2 := congrArg Prod.snd (Except.ok.inj hi)
    rw [ho] at e2
    have e3 : c1 = c2 := Option.some.inj e2
    rw [← e3] at hle hn hold hnew
    have hgr := nonzero_grown c c1 (symbol + 2).toNat (c.max_length - 1) (c1.max_length - 1)
      (by omega) (by omega)
      (fun j x y z => by rw [hold j x (by omega), if_neg z])
      (fun j x y z => by rw [hnew j (by omega) (by omega), if_neg z])
    have hle1 : (if 1 < (symbol + 2).toNat then 1 else 0) ≤ 1 := by split <;> omega
    unfold slots_ok at hs ⊢
    rw [hn]
    simp only [Max_frequency] at hcap
    omega

theorem install_symbol_slots (F fuel : Nat) (c c1 : context) (symbol r : Int)
    (h0 : 0 ≤ symbol) (h1 : symbol + 2 < 2 ^ 31) (hinv : ctx_inv c) (hesc : escape_ok c)
    (hs : slots_ok F c)
    (h : install_symbol F fuel c symbol = Except.ok (r, c1)) : slots_ok F c1 := by
  unfold install_symbol at h
  obtain ⟨⟨cg, o⟩, h2, h3⟩ := bind_ok _ _ _ h
  obtain ⟨hg, ho⟩ := install_core_slots F c cg o symbol h0 h1 hinv hs h2
  obtain ⟨_, hoesc⟩ := install_core_escape F c cg o symbol (by omega) h1 hinv hesc h2
  obtain ⟨_, hoinv⟩ := install_core_inv F c cg o symbol (by omega) h1 hinv h2
  cases o with
  | none =>
    simp only [pure, Except.pure, Except.ok.injEq, Prod.mk.injEq] at h3
    rw [← h3.2]
    exact hg
  | some c2 =>
    simp only at h3
    obtain ⟨c3, h4, h5⟩ := bind_ok _ _ _ h3
    simp only [pure, Except.pure, Except.ok.injEq, Prod.mk.injEq] at h5
    rw [← h5.2]
    exact halve_loop_slots F fuel c2 c3 (hoinv c2 rfl) (hoesc c2 rfl) (ho c2 rfl) h4

/-- Every context built with user symbols has fewer slots with a count than
`nSymbols`, and `nSymbols` has passed the cap test. -/
theorem user_reachable_slots (F : Nat) (hF : 2 ≤ F) (c : context) (h : user_reachable F c) :
    slots_ok F c := by
  induction h with
  | create length type c hl hc => exact create_context_slots F length type hF c hl hc
  | install fuel c c1 symbol r hr h0 h1 hi ih =>
    exact install_symbol_slots F fuel c c1 symbol r h0 h1
      (reachable_inv F c (user_reachable_reachable F c hr)) (user_reachable_escape F c hr) ih hi
  | encode fuel c c1 symbol r a hr he ih =>
    have hinv := reachable_inv F c (user_reachable_reachable F c hr)
    unfold encode at he
    obtain ⟨e, h2, h3⟩ := bind_ok _ _ _ he
    obtain ⟨c2, h4, h5⟩ := bind_ok _ _ _ h3
    simp only [pure, Except.pure, Except.ok.injEq, Prod.mk.injEq] at h5
    rw [← h5.2.2]
    obtain ⟨u1, u2, u3, _⟩ := encode_core_update c symbol e hinv.2.1 hinv.2.2.1 hinv.2.2.2.2.2 h2
    exact halve_loop_slots F fuel e.ctx c2 (encode_core_inv c symbol e hinv h2)
      (update_coded_escape c e.ctx e.slot _ _ u1 u2 rfl rfl hinv (user_reachable_escape F c hr) u3)
      (encode_core_slots F c symbol e hinv ih h2) h4
  | decode fuel c c1 t r a hr hm ht hd ih =>
    have hinv := reachable_inv F c (user_reachable_reachable F c hr)
    unfold decode at hd
    obtain ⟨e, h2, h3⟩ := bind_ok _ _ _ hd
    obtain ⟨c2, h4, h5⟩ := bind_ok _ _ _ h3
    simp only [pure, Except.pure, Except.ok.injEq, Prod.mk.injEq] at h5
    rw [← h5.2.2]
    exact halve_loop_slots F fuel e.ctx c2 (decode_core_inv c t e hinv hm ht h2)
      (decode_core_escape c t e hinv (user_reachable_escape F c hr) hm ht h2)
      (decode_core_slots F c t e hinv hm ht ih h2) h4
  | delete c c1 symbol hr hs hd ih =>
    exact delete_symbol_slots F c c1 symbol
      (reachable_inv F c (user_reachable_reachable F c hr)) ih hd
  | halve c c1 hr hh ih =>
    exact halve_context_slots F c c1 (reachable_inv F c (user_reachable_reachable F c hr))
      (user_reachable_escape F c hr).2.2 ih hh

/-- The halving loop returns, with `total` at most `Max_frequency`, on every
context that satisfies the invariants. -/
theorem halve_loop_ends (F : Nat) (c : context) (hinv : ctx_inv c) (hesc : escape_ok c)
    (hs : slots_ok F c) :
    ∃ c1, halve_loop F 98 c = Except.ok c1 ∧ c1.total ≤ Max_frequency F := by
  obtain ⟨c1, h⟩ := halve_loop_returns F c hinv hesc.2.2 (by
    unfold slots_ok at hs
    omega)
  exact ⟨c1, h, halve_loop_total F 98 c c1 h⟩

/-! ## A probe loop that passes over every cell it visits never returns -/

theorem probe_never_returns (cfg : Config) (g : Grammar) (one two jump i : Nat)
    (h : ∀ k, passes_cell g (one, two) (g.table (probe_path cfg jump i k))) :
    ∀ (fuel : Nat) (ins : Option Nat),
      probe cfg g one two jump fuel i ins = Except.error Fault.diverge := by
  intro fuel ins
  have e := probe_skip cfg g one two jump fuel 0 i ins (fun j _ => h j)
  rw [Nat.zero_add] at e
  rw [e]
  rfl

/-- A failure of `find_digram` is a failure of `check`. -/
theorem check_find_error (cfg : Config) (g : Grammar) (x fuel : Nat) (v : symbols) (e : Fault)
    (hg : is_guard g x = Except.ok false) (hv : deref g x = Except.ok v)
    (hg2 : is_guard g v.n = Except.ok false) (hf : find_digram cfg g x = Except.error e) :
    check cfg (fuel + 1) g x = Except.error e := by
  unfold check
  simp only [hg, hv, hg2, hf, bind, Except.bind, pure, Except.pure]
  rfl

/-! ## The tree holds the counts that the calls define -/

theorem halved_zero : halved 0 = 0 := by
  simp only [halved, usub, W]
  decide

theorem counts_agree_create (F length type : Nat) (c : context) (hl : length + 2 ≤ 2 ^ 31)
    (h : create_context F length type = Except.ok c) : counts_agree c (fun _ => 0) := by
  obtain ⟨k, h1, h2, h3, h4⟩ := round_up_spec (length + 2) (length + 2) 1 0 (by simp)
  unfold create_context at h
  have hW : W = 2 ^ 64 := rfl
  obtain ⟨_, _, _, _, a5, a6⟩ := adjust_escape _ c
    (by rw [(init_zero_freq_fields _).2.2.2]
        have := h4 (by omega) (by omega)
        simp only
        omega)
    (by rw [(init_zero_freq_fields _).2.2.2]
        simp only
        omega) h
    (by rw [(init_zero_freq_fields _).1]
        split
        · exact uadd_lt _ _
        · omega)
  refine ⟨?_, fun _ _ => rfl⟩
  intro j hj1 hj2
  rw [a5] at hj2
  rw [a6 j hj1 hj2]
  unfold count cum
  rw [(init_zero_freq_more _).1]
  simp only [psum_const_zero]
  decide

theorem counts_agree_halve (c c1 : context) (f : Nat → Nat) (hinv : ctx_inv c)
    (h : halve_context c = Except.ok c1) (ha : counts_agree c f) :
    counts_agree c1 (halve_counts c.max_length f) := by
  have hpost := halve_context_post c c1 h hinv.2.1 hinv.2.2.1
  obtain ⟨_, q2, _, _, _, _, q7, _⟩ := hpost
  obtain ⟨_, m2, _, _, _, _, _, m8, _⟩ :=
    halve_main_spec c (by have := hinv.2.1; omega) hinv.2.2.1
  rw [m2] at q2
  refine ⟨?_, ?_⟩
  · intro j hj1 hj2
    rw [q2] at hj2
    rw [q7 j hj1 (by rw [m2]; exact hj2), m8 j (by omega) hj2, ha.1 j hj1 hj2]
    simp only [halve_counts, hj1, hj2, and_self, if_true]
  · intro j hj
    rw [q2] at hj
    simp only [halve_counts]
    rw [if_neg (by omega)]
    exact ha.2 j hj

theorem counts_agree_halve_loop (F : Nat) :
    ∀ (fuel : Nat) (c c1 : context) (f f1 : Nat → Nat), ctx_inv c →
      halve_loop F fuel c = Except.ok c1 → halve_loop_counts F fuel c f = Except.ok f1 →
      counts_agree c f → counts_agree c1 f1 := by
  intro fuel
  induction fuel with
  | zero =>
    intro c c1 f f1 _ h
    cases h
  | succ n ih =>
    intro c c1 f f1 hinv h hg ha
    unfold halve_loop at h
    unfold halve_loop_counts at hg
    by_cases ht : c.total > Max_frequency F
    · simp only [if_pos ht] at h hg
      obtain ⟨c2, h2, h3⟩ := bind_ok _ _ _ h
      obtain ⟨c3, g2, g3⟩ := bind_ok _ _ _ hg
      rw [h2] at g2
      have e := Except.ok.inj g2
      rw [← e] at g3
      exact ih c2 c1 _ f1 (halve_context_inv c c2 hinv h2) h3 g3
        (counts_agree_halve c c2 f hinv h2 ha)
    · simp only [if_neg ht] at h hg
      have e1 := Except.ok.inj h
      have e2 := Except.ok.inj hg
      rw [← e1, ← e2]
      exact ha

theorem counts_agree_update (c c1 : context) (f : Nat → Nat) (s low high : Nat) (hs0 : 0 < s)
    (hs : s < c.max_length) (hinv : ctx_inv c)
    (h : update_coded c s low high = Except.ok c1) (ha : counts_agree c f) :
    counts_agree c1 (if s = 1 then f else bump f s c.incr) := by
  obtain ⟨c2, h2, hm, _, hc⟩ := update_coded_spec c s low high hs0 hs hinv.2.1 hinv.2.2.1
  rw [h] at h2
  have e := Except.ok.inj h2
  rw [← e] at hm hc
  refine ⟨?_, ?_⟩
  · intro j hj1 hj2
    rw [hm] at hj2
    rw [hc j hj1 hj2, ha.1 j hj1 hj2]
    by_cases h1 : s = 1
    · rw [if_pos h1, if_neg (by omega)]
    · rw [if_neg h1]
      rfl
  · intro j hj
    rw [hm] at hj
    by_cases h1 : s = 1
    · rw [if_pos h1]
      exact ha.2 j hj
    · rw [if_neg h1]
      simp only [bump]
      rw [if_neg (by omega)]
      exact ha.2 j hj

theorem counts_agree_delete (c c1 : context) (f : Nat → Nat) (symbol : Int) (h0 : 0 ≤ symbol)
    (h1 : symbol + 2 < c.max_length) (hinv : ctx_inv c)
    (h : delete_symbol_ctx c symbol = Except.ok c1) (ha : counts_agree c f) :
    counts_agree c1 (delete_counts f symbol) := by
  have hs0 : 0 < (symbol + 2).toNat := by omega
  have hs1 : (symbol + 2).toNat < c.max_length := by omega
  have hneg : ¬ symbol + 2 < 0 := by omega
  have hmax := hinv.2.2.1
  have hg := get_interval_eq c (symbol + 2).toNat hs0 hs1 (by omega)
  obtain ⟨c2, hc2, _, hm, _, _, _, _, _, _, hcount⟩ :=
    incr_symbol_prob_spec c (symbol + 2).toNat (cum c ((symbol + 2).toNat - 1))
      (cum c (symbol + 2).toNat)
      (usub (cum c ((symbol + 2).toNat - 1)) (cum c (symbol + 2).toNat)) hs0 hs1 hmax
  have hd : delete_symbol_ctx c symbol = Except.ok c2 := by
    simp only [delete_symbol_ctx, hneg, if_false, hg, bind, Except.bind]
    exact hc2
  rw [h] at hd
  have e := Except.ok.inj hd
  rw [← e] at hm hcount
  refine ⟨?_, ?_⟩
  · intro j hj1 hj2
    rw [hm] at hj2
    simp only [delete_counts]
    rw [hcount j (by omega) hj2]
    by_cases hj : j = (symbol + 2).toNat
    · rw [if_pos hj, if_pos hj, hj]
      unfold count
      simp only [usub, uadd, W]
      omega
    · rw [if_neg hj, if_neg hj]
      exact ha.1 j hj1 hj2
  · intro j hj
    rw [hm] at hj
    simp only [delete_counts]
    split
    · rfl
    · exact ha.2 j hj

theorem delete_symbol_range (c c1 : context) (symbol : Int) (h0 : 0 ≤ symbol)
    (h : delete_symbol_ctx c symbol = Except.ok c1) : symbol + 2 < c.max_length := by
  unfold delete_symbol_ctx at h
  have hneg : ¬ symbol + 2 < 0 := by omega
  simp only [if_neg hneg] at h
  obtain ⟨lh, h2, _⟩ := bind_ok _ _ _ h
  obtain ⟨_, hs⟩ := get_interval_ok c _ lh h2
  omega

theorem counts_agree_install (F : Nat) (c cg : context) (o : Option context) (symbol : Int)
    (f : Nat → Nat) (h0 : 0 ≤ symbol) (h1 : symbol + 2 < 2 ^ 31) (hinv : ctx_inv c)
    (ha : counts_agree c f) (h : install_core F c symbol = Except.ok (cg, o)) :
    (o = none → counts_agree cg f) ∧
      ∀ c1, o = some c1 → counts_agree c1 (bump f (symbol + 2).toNat c.incr) := by
  have hneg : ¬ symbol + 2 < 0 := by omega
  have h' := h
  rw [install_core_eq, if_neg hneg] at h'
  obtain ⟨cg1, hg, h2⟩ := bind_ok _ _ _ h'
  obtain ⟨g1, _⟩ := grow_slots c cg1 (symbol + 2).toNat (by omega) hinv hg
  have hcg : cg1 = cg := by
    by_cases hcap : (cg1.nSymbols + 1) * 2 ≥ Max_frequency F
    · rw [if_pos hcap] at h2
      exact congrArg Prod.fst (Except.ok.inj h2)
    · rw [if_neg hcap] at h2
      obtain ⟨lh, h3, h4⟩ := bind_ok _ _ _ h2
      obtain ⟨c3, h5, h6⟩ := bind_ok _ _ _ h4
      obtain ⟨c4, h7, h8⟩ := bind_ok _ _ _ h6
      exact congrArg Prod.fst (Except.ok.inj h8)
  rw [hcg] at g1 hg
  obtain ⟨⟨k, hk⟩, p2, p3, p4, p5, p6⟩ := hinv
  refine ⟨?_, ?_⟩
  · intro _
    have hpk : 0 < 2 ^ k := by positivity
    have hfuel : (symbol + 2).toNat < 2 ^ k * 2 ^ 63 := by
      have h3 : 1 * 2 ^ 63 ≤ 2 ^ k * 2 ^ 63 := Nat.mul_le_mul_right _ hpk
      omega
    obtain ⟨cx, k1, hg2, hM1, hsk, hid, _, _, _, htree, hzero⟩ :=
      grow_pow2 (symbol + 2).toNat 63 c k hk p5 hfuel
    rw [hg] at hg2
    have e : cg = cx := Except.ok.inj hg2
    rw [← e] at htree hzero hM1 hid
    have hle : c.max_length ≤ cg.max_length := by
      by_cases hlt : (symbol + 2).toNat < 2 ^ k
      · rw [hid hlt]
      · rw [hk, hM1]
        have : 2 ^ k ≤ (symbol + 2).toNat := by omega
        omega
    refine ⟨?_, ?_⟩
    · intro j hj1 hj2
      by_cases hj : j < c.max_length
      · rw [count_congr c cg j (fun i hi => htree i (by omega))]
        exact ha.1 j hj1 hj
      · rw [hzero j (by omega) (by omega)]
        exact (ha.2 j (by omega)).symm
    · intro j hj
      exact ha.2 j (by omega)
  · intro c1 ho
    by_cases hcap : (c.nSymbols + 1) * 2 ≥ Max_frequency F
    · exfalso
      rw [hcg, if_pos (by rw [g1]; exact hcap)] at h2
      have := congrArg Prod.snd (Except.ok.inj h2)
      rw [ho] at this
      cases this
    · obtain ⟨cg2, c2, k1, hi, _, hle, _, hsl, _, _, _, _, _, _, hold, hnew⟩ :=
        install_core_spec F c symbol k h0 h1 hk p2 p3 p5 hcap
      rw [h] at hi
      have e2 : o = some c2 := congrArg Prod.snd (Except.ok.inj hi)
      rw [ho] at e2
      have e3 : c1 = c2 := Option.some.inj e2
      rw [← e3] at hle hold hnew hsl
      refine ⟨?_, ?_⟩
      · intro j hj1 hj2
        simp only [bump]
        by_cases hj : j < c.max_length
        · rw [hold j hj1 hj, ha.1 j hj1 hj]
        · rw [hnew j (by omega) hj2, ha.2 j (by omega)]
          split
          · simp only [uadd, Nat.zero_add]
          · rfl
      · intro j hj
        simp only [bump]
        rw [if_neg (by omega)]
        exact ha.2 j (by omega)

theorem counts_agree_coded (F fuel : Nat) (c c1 : context) (f f1 : Nat → Nat) (e : coded)
    (hinv : ctx_inv c) (hinv1 : ctx_inv e.ctx) (low high : Nat) (hs0 : 0 < e.slot)
    (hs : e.slot < c.max_length) (hu : update_coded c e.slot low high = Except.ok e.ctx)
    (hl : halve_loop F fuel e.ctx = Except.ok c1)
    (hf : coded_counts F fuel c f e = Except.ok f1) (ha : counts_agree c f) :
    counts_agree c1 f1 := by
  unfold coded_counts at hf
  exact counts_agree_halve_loop F fuel e.ctx c1 _ f1 hinv1 hl hf
    (counts_agree_update c e.ctx f e.slot low high hs0 hs hinv hu ha)

theorem counted_user_reachable (F : Nat) (c : context) (f : Nat → Nat) (h : counted F c f) :
    user_reachable F c := by
  induction h with
  | create length type c hl hc => exact user_reachable.create length type c hl hc
  | install fuel c c1 symbol r f f1 _ h0 h1 hi _ ih =>
    exact user_reachable.install fuel c c1 symbol r ih h0 h1 hi
  | encode fuel c c1 symbol r a f f1 _ he _ ih =>
    exact user_reachable.encode fuel c c1 symbol r a ih he
  | decode fuel c c1 t r a f f1 _ hm ht hd _ ih =>
    exact user_reachable.decode fuel c c1 t r a ih hm ht hd
  | delete c c1 symbol f _ h0 hd ih => exact user_reachable.delete c c1 symbol ih h0 hd
  | halve c c1 f _ hh ih => exact user_reachable.halve c c1 ih hh

theorem counted_agree (F : Nat) (c : context) (f : Nat → Nat) (h : counted F c f) :
    counts_agree c f := by
  induction h with
  | create length type c hl hc => exact counts_agree_create F length type c hl hc
  | install fuel c c1 symbol r f f1 hc h0 h1 hi hf ih =>
    have hinv := reachable_inv F c (user_reachable_reachable F c (counted_user_reachable F c f hc))
    unfold install_symbol at hi
    unfold install_counts at hf
    obtain ⟨⟨cg, o⟩, h2, h3⟩ := bind_ok _ _ _ hi
    obtain ⟨⟨cg1, o1⟩, g2, g3⟩ := bind_ok _ _ _ hf
    rw [h2] at g2
    have e := Except.ok.inj g2
    rw [← e] at g3
    obtain ⟨a1, a2⟩ := counts_agree_install F c cg o symbol f h0 h1 hinv ih h2
    obtain ⟨_, hoinv⟩ := install_core_inv F c cg o symbol (by omega) h1 hinv h2
    cases o with
    | none =>
      simp only [pure, Except.pure, Except.ok.injEq, Prod.mk.injEq] at h3 g3
      rw [← h3.2, ← g3]
      exact a1 rfl
    | some c2 =>
      simp only at h3 g3
      obtain ⟨c3, h4, h5⟩ := bind_ok _ _ _ h3
      simp only [pure, Except.pure, Except.ok.injEq, Prod.mk.injEq] at h5
      rw [← h5.2]
      exact counts_agree_halve_loop F fuel c2 c3 _ f1 (hoinv c2 rfl) h4 g3 (a2 c2 rfl)
  | encode fuel c c1 symbol r a f f1 hc he hf ih =>
    have hinv := reachable_inv F c (user_reachable_reachable F c (counted_user_reachable F c f hc))
    unfold encode at he
    unfold encode_counts at hf
    obtain ⟨e, h2, h3⟩ := bind_ok _ _ _ he
    obtain ⟨e1, g2, g3⟩ := bind_ok _ _ _ hf
    rw [h2] at g2
    have ee := Except.ok.inj g2
    rw [← ee] at g3
    obtain ⟨c2, h4, h5⟩ := bind_ok _ _ _ h3
    simp only [pure, Except.pure, Except.ok.injEq, Prod.mk.injEq] at h5
    rw [← h5.2.2]
    obtain ⟨u1, u2, u3, _⟩ := encode_core_update c symbol e hinv.2.1 hinv.2.2.1 hinv.2.2.2.2.2 h2
    exact counts_agree_coded F fuel c c2 f f1 e hinv (encode_core_inv c symbol e hinv h2) _ _
      u1 u2 u3 h4 g3 ih
  | decode fuel c c1 t r a f f1 hc hm ht hd hf ih =>
    have hinv := reachable_inv F c (user_reachable_reachable F c (counted_user_reachable F c f hc))
    unfold decode at hd
    unfold decode_counts at hf
    obtain ⟨e, h2, h3⟩ := bind_ok _ _ _ hd
    obtain ⟨e1, g2, g3⟩ := bind_ok _ _ _ hf
    rw [h2] at g2
    have ee := Except.ok.inj g2
    rw [← ee] at g3
    obtain ⟨c2, h4, h5⟩ := bind_ok _ _ _ h3
    simp only [pure, Except.pure, Except.ok.injEq, Prod.mk.injEq] at h5
    rw [← h5.2.2]
    have hinv1 := decode_core_inv c t e hinv hm ht h2
    obtain ⟨⟨k, hk⟩, p2, p3, p4, p5, p6⟩ := hinv
    obtain ⟨k1, hk1⟩ : ∃ k1, k = k1 + 1 := by
      refine ⟨k - 1, ?_⟩
      rcases Nat.eq_zero_or_pos k with z | z
      · subst z
        rw [hk] at p2
        exact absurd p2 (by decide)
      · omega
    have hk32 : k1 < 32 := by
      by_contra hcon
      have : 2 ^ 33 ≤ 2 ^ k := Nat.pow_le_pow_right (by norm_num) (by omega)
      have h2 : (2 : Nat) ^ 32 < 2 ^ 33 := by decide
      omega
    rw [hk1] at hk
    obtain ⟨s, hs0, hs, q1, q2⟩ := remapped_cover c p2 hm p5 p4 p6 t ht
    obtain ⟨e2, low, high, he2, harg, hu, _, _⟩ :=
      decode_core_ctx c k1 hk hk32 hm p5 p4 p6 s t hs0 hs q1 q2
    have e3 : e2 = e := by
      rw [he2] at h2
      exact Except.ok.inj h2
    subst e3
    have hslot : e2.slot = s := congrArg Prod.fst harg
    rw [← hslot] at hs0 hs hu
    exact counts_agree_coded F fuel c c2 f f1 e2 ⟨⟨k1 + 1, hk⟩, p2, p3, p4, p5, p6⟩ hinv1
      low high hs0 hs hu h4 g3 ih
  | delete c c1 symbol f hc h0 hd ih =>
    have hinv := reachable_inv F c (user_reachable_reachable F c (counted_user_reachable F c f hc))
    exact counts_agree_delete c c1 f symbol h0 (delete_symbol_range c c1 symbol h0 hd) hinv hd ih
  | halve c c1 f hc hh ih =>
    have hinv := reachable_inv F c (user_reachable_reachable F c (counted_user_reachable F c f hc))
    exact counts_agree_halve c c1 f hinv hh ih

theorem count_slot_count (c : context) (f : Nat → Nat) (he : count c 1 = c.nSingletons)
    (ha : counts_agree c f) (i : Nat) (h1 : 1 ≤ i) (h2 : i < c.max_length) :
    count c i = slot_count c f i := by
  unfold slot_count
  by_cases hi : i = 1
  · rw [if_pos hi, hi]
    exact he
  · rw [if_neg hi]
    exact ha.1 i (by omega) h2

theorem csum_slot_sum (c : context) (f : Nat → Nat) (he : count c 1 = c.nSingletons)
    (ha : counts_agree c f) : ∀ n, n < c.max_length → csum c n = slot_sum c f n := by
  intro n
  induction n with
  | zero => intro _; rfl
  | succ m ih =>
    intro h
    simp only [csum, slot_sum]
    rw [ih (by omega), count_slot_count c f he ha (m + 1) (by omega) h]

theorem ok_result_or {α : Type} (x : M α) (d : α) (h : x.toBool = true) :
    x = Except.ok (result_or x d) := by
  cases x with
  | error e => cases h
  | ok p => rfl
/-- C3: digram uniqueness fails at quiescence.  After the thirteen symbols of
`clash_input` the start rule is `R3 R3 R4 1 R4` and rule `R3` is `1 R4 2`: the
digram `(1, R4)` occurs at the symbol 33 of the start rule and at the first
symbol 10 of `R3`, two distinct occurrences that do not overlap. -/
theorem digram_uniqueness_broken :
    grammar_of default_config 64 clash_input =
      Except.ok
        [(default_config.addr 0, 0,
            [default_config.addr 3, default_config.addr 3, default_config.addr 4, 3,
             default_config.addr 4]),
         (default_config.addr 3, 2, [3, default_config.addr 4, 5]),
         (default_config.addr 4, 3, [3, 148332799])] ∧
    (build default_config 64 clash_input).bind (fun Sg => digram_clash Sg.2 33 10) =
      Except.ok true := by
  decide!

/-- C4: rule utility fails at quiescence.  After the twenty-one symbols of
`underused_input` the rule `R5` with body `R4 1` has use count 1: its only
reference is the last symbol of `R6`, which `check` never tests. -/
theorem rule_utility_broken :
    grammar_of default_config 64 underused_input =
      Except.ok
        [(default_config.addr 0, 0,
            [default_config.addr 2, default_config.addr 6, default_config.addr 3,
             default_config.addr 2, default_config.addr 3, default_config.addr 4,
             148332799, default_config.addr 6]),
         (default_config.addr 2, 2, [148332799, 5, 3]),
         (default_config.addr 3, 2, [7, 148332799]),
         (default_config.addr 4, 2, [3, 148332799]),
         (default_config.addr 5, 1, [default_config.addr 4, 3]),
         (default_config.addr 6, 2, [3, default_config.addr 5])] := by
  decide!

/-- C14: coverage of the digram index fails at quiescence.  After
`clash_input` the symbol 10 (first of `R3`, followed by `R4`) starts a digram
whose cell holds the other occurrence 33, and that occurrence does not overlap
it: the digram at 10 is neither recorded nor the unrecorded side of a triple. -/
theorem index_coverage_broken :
    (build default_config 64 clash_input).bind (fun Sg => do
      let d ← is_digram Sg.2 10
      let c ← index_covers default_config Sg.2 10
      let i ← find_digram default_config Sg.2 10
      pure (d, c, i.map Sg.2.table)) = Except.ok (true, false, some 33) := by
  decide!

/-- C15: for the input `a b c a b c a b c` the grammar is the start rule with
body `A A A` and one other rule `A` with body `a b c` and use count 3. -/
theorem grammar_abcabcabc :
    grammar_of default_config 64 [97, 98, 99, 97, 98, 99, 97, 98, 99] =
      Except.ok
        [(default_config.addr 0, 0,
            [default_config.addr 2, default_config.addr 2, default_config.addr 2]),
         (default_config.addr 2, 3, [2 * 97 + 1, 2 * 98 + 1, 2 * 99 + 1])] := by
  decide!

/-- C16: for the input `a a a a` the grammar is the start rule with body `R R`
and one other rule `R` with body `a a` and use count 2. -/
theorem grammar_aaaa :
    grammar_of default_config 64 [97, 97, 97, 97] =
      Except.ok
        [(default_config.addr 0, 0, [default_config.addr 1, default_config.addr 1]),
         (default_config.addr 1, 2, [2 * 97 + 1, 2 * 97 + 1])] := by
  decide!

/-- C18: with `-m 72` the memory budget is 72000000 and the first candidate is
8999999; its `max_factor` is 2999, the integer square root; the loop tests the
odd numbers below 2999 only, so the table size is 8999999, which is
`2999 * 3001` and not a prime. -/
theorem table_size_not_prime :
    first_size 72000000 1 = 8999999 ∧
    2999 * 2999 ≤ 8999999 ∧ 8999999 < 3000 * 3000 ∧
    table_size_of 2999 72000000 1 = 8999999 ∧
    8999999 = 2999 * 3001 ∧ ¬ Nat.Prime (table_size_of 2999 72000000 1) := by
  have h : table_size_of 2999 72000000 1 = 8999999 := by decide!
  refine ⟨by decide!, by decide, by decide, h, by decide, ?_⟩
  rw [h]
  intro hp
  have h2 : (2999 : Nat) ∣ 8999999 := ⟨3001, by decide⟩
  rcases (Nat.dvd_prime hp).1 h2 with h3 | h3
  · exact absurd h3 (by decide)
  · exact absurd h3 (by decide)

theorem uadd_usub_usub (a b : Nat) : uadd (usub a b) (usub b a) = 0 := by
  simp only [usub, uadd, W]
  omega

theorem uadd_usub_swap (t a b : Nat) : uadd t (usub a b) = usub t (usub b a) := by
  simp only [usub, uadd, W]
  omega

/-- C17: `delete_symbol` on a slot of the tree returns; afterwards the count of
the slot is 0, `total` is the old `total` minus the old count of the slot (in
`unsigned long` arithmetic, and exactly when the count does not exceed
`total`), and the count of every other slot of the tree is unchanged. -/
theorem delete_symbol_frame (c : context) (symbol : Int) (h0 : 0 < symbol + 2)
    (h1 : symbol + 2 < c.max_length) (hmax : c.max_length ≤ 2 ^ 32) :
    ∃ c1, delete_symbol_ctx c symbol = Except.ok c1 ∧
      count c1 (symbol + 2).toNat = 0 ∧
      c1.total = usub c.total (count c (symbol + 2).toNat) ∧
      (count c (symbol + 2).toNat ≤ c.total → c.total < W →
        c1.total = c.total - count c (symbol + 2).toNat) ∧
      ∀ j, 0 < j → j < c.max_length → j ≠ (symbol + 2).toNat → count c1 j = count c j := by
  have hs0 : 0 < (symbol + 2).toNat := by omega
  have hs1 : (symbol + 2).toNat < c.max_length := by omega
  have hneg : ¬ symbol + 2 < 0 := by omega
  have hg := get_interval_eq c (symbol + 2).toNat hs0 hs1 (by omega)
  obtain ⟨c1, hc1, ht, _, _, _, _, _, _, _, hcount⟩ :=
    incr_symbol_prob_spec c (symbol + 2).toNat (cum c ((symbol + 2).toNat - 1))
      (cum c (symbol + 2).toNat)
      (usub (cum c ((symbol + 2).toNat - 1)) (cum c (symbol + 2).toNat)) hs0 hs1 hmax
  have hcnt : count c1 (symbol + 2).toNat = 0 := by
    rw [hcount _ hs0 hs1]
    simp only [if_true]
    exact uadd_usub_usub _ _
  have htot : c1.total = usub c.total (count c (symbol + 2).toNat) := by
    rw [ht]
    exact uadd_usub_swap _ _ _
  refine ⟨c1, ?_, hcnt, htot, ?_, ?_⟩
  · simp only [delete_symbol_ctx, hneg, if_false, hg, bind, Except.bind]
    exact hc1
  · intro hle hW
    rw [htot]
    have hc := usub_lt (cum c (symbol + 2).toNat) (cum c ((symbol + 2).toNat - 1))
    unfold count at hle ⊢
    generalize usub (cum c (symbol + 2).toNat) (cum c ((symbol + 2).toNat - 1)) = k at *
    simp only [usub, W] at *
    omega
  · intro j hj0 hj hne
    rw [hcount j hj0 hj]
    simp [hne]

/-- Witness for C17: deleting the escape slot of a fresh context. -/
theorem delete_symbol_frame_witness :
    ∃ c1, delete_symbol_ctx fresh_context (-1) = Except.ok c1 ∧
      count c1 ((-1 : Int) + 2).toNat = 0 ∧
      c1.total = usub fresh_context.total (count fresh_context ((-1 : Int) + 2).toNat) ∧
      (count fresh_context ((-1 : Int) + 2).toNat ≤ fresh_context.total →
        fresh_context.total < W →
        c1.total = fresh_context.total - count fresh_context ((-1 : Int) + 2).toNat) ∧
      ∀ j, 0 < j → j < fresh_context.max_length → j ≠ ((-1 : Int) + 2).toNat →
        count c1 j = count fresh_context j :=
  delete_symbol_frame fresh_context (-1) (by decide) (by decide) (by decide)

/-- C11: `install_symbol` returns `TOO_MANY_SYMBOLS` exactly when
`2 * (nSymbols + 1) >= 2 ^ F` for the `nSymbols` before the call, and then
`total`, `nSymbols`, `nSingletons` and the count of every slot of the tree are
as before the call. -/
theorem install_symbol_too_many (F fuel : Nat) (c : context) (symbol : Int)
    (h0 : 0 ≤ symbol + 2) (h1 : symbol + 2 < 2 ^ 31) (hm : 0 < c.max_length) :
    ((∃ c1, install_symbol F fuel c symbol = Except.ok (TOO_MANY_SYMBOLS, c1)) ↔
        (c.nSymbols + 1) * 2 ≥ Max_frequency F) ∧
    ((c.nSymbols + 1) * 2 ≥ Max_frequency F →
      ∃ c1, install_symbol F fuel c symbol = Except.ok (TOO_MANY_SYMBOLS, c1) ∧
        c1.total = c.total ∧ c1.nSymbols = c.nSymbols ∧ c1.nSingletons = c.nSingletons ∧
        ∀ j, 0 < j → j < c.max_length → count c1 j = count c j) := by
  have hneg : ¬ symbol + 2 < 0 := by omega
  have hs : (symbol + 2).toNat < c.max_length * 2 ^ 63 := by
    have : (symbol + 2).toNat < 2 ^ 31 := by omega
    have h2 : (2 : Nat) ^ 31 ≤ 1 * 2 ^ 63 := by norm_num
    have h3 : 1 * 2 ^ 63 ≤ c.max_length * 2 ^ 63 := Nat.mul_le_mul_right _ hm
    omega
  obtain ⟨c1, hg, _, _, ht, hn, hsing, _, _, _, htree⟩ := grow_spec (symbol + 2).toNat 63 c hm hs
  have hyes : (c.nSymbols + 1) * 2 ≥ Max_frequency F →
      install_symbol F fuel c symbol = Except.ok (TOO_MANY_SYMBOLS, c1) := by
    intro hc
    have hc1 : (c1.nSymbols + 1) * 2 ≥ Max_frequency F := by rw [hn]; exact hc
    simp only [install_symbol, install_core, hneg, if_false, hg, bind, Except.bind, hc1, if_true,
      pure, Except.pure]
  refine ⟨⟨?_, fun hc => ⟨c1, hyes hc⟩⟩, fun hc => ⟨c1, hyes hc, ht, hn, hsing, ?_⟩⟩
  · rintro ⟨c2, hc2⟩
    by_contra hc
    have hc1 : ¬ (c1.nSymbols + 1) * 2 ≥ Max_frequency F := by rw [hn]; exact hc
    simp only [install_symbol, install_core, hneg, if_false, hg, bind, Except.bind, hc1,
      pure, Except.pure] at hc2
    revert hc2
    generalize get_interval _ _ = g
    cases g with
    | error e => simp
    | ok lh =>
      simp only
      generalize incr_symbol_prob _ _ _ _ _ = g2
      cases g2 with
      | error e => simp
      | ok c3 =>
        simp only
        generalize adjust_zero_freq _ = g3
        cases g3 with
        | error e => simp
        | ok c4 =>
          simp only
          generalize halve_loop F fuel c4 = g4
          cases g4 with
          | error e => simp
          | ok c5 => simp [TOO_MANY_SYMBOLS]
  · intro j _ hj
    exact count_congr c c1 j (fun k hk => htree k (by omega))

/-- Witness for C11: a fresh context is far from the cap for `F = 27`. -/
theorem install_symbol_too_many_witness :
    ((∃ c1, install_symbol 27 100 fresh_context 0 = Except.ok (TOO_MANY_SYMBOLS, c1)) ↔
        (fresh_context.nSymbols + 1) * 2 ≥ Max_frequency 27) ∧
    ((fresh_context.nSymbols + 1) * 2 ≥ Max_frequency 27 →
      ∃ c1, install_symbol 27 100 fresh_context 0 = Except.ok (TOO_MANY_SYMBOLS, c1) ∧
        c1.total = fresh_context.total ∧ c1.nSymbols = fresh_context.nSymbols ∧
        c1.nSingletons = fresh_context.nSingletons ∧
        ∀ j, 0 < j → j < fresh_context.max_length → count c1 j = count fresh_context j) :=
  install_symbol_too_many 27 100 fresh_context 0 (by decide) (by decide) (by decide)

/-- C13, counterexample: in `install_symbol(ctx, 0)` on a fresh dynamic context
(`F = 27`) the first call of `halve_context` is entered with `total = 3 * 2 ^ 27`
and returns with `total = 3 * 2 ^ 26`, which is above `2 ^ 27`. -/
theorem halve_context_total_above :
    (do
      let c0 ← create_context 27 3 DYNAMIC
      let r ← install_core 27 c0 0
      match r.2 with
      | some c1 => do
        let c2 ← halve_context c1
        pure (c1.total, c2.total, decide (c2.total > Max_frequency 27))
      | none => throw Fault.abort) = Except.ok (402653184, 201326592, true) := by
  decide!

/-- C13, amended: when `install_symbol` (with return value 0), `encode` or
`decode` return, `total` is at most `2 ^ F`, because they repeat
`halve_context` until it is. -/
theorem total_after_halving (F fuel : Nat) (c : context) (n : Nat)
    (h : (∃ s, Except.map (fun r => (r.1, r.2.total)) (install_symbol F fuel c s)
              = Except.ok (0, n)) ∨
         (∃ s, Except.map (fun r => r.2.2.total) (encode F fuel c s) = Except.ok n) ∨
         (∃ t, Except.map (fun r => r.2.2.total) (decode F fuel c t) = Except.ok n)) :
    n ≤ Max_frequency F := by
  rcases h with ⟨s, h⟩ | ⟨s, h⟩ | ⟨t, h⟩
  · simp only [install_symbol, bind, Except.bind] at h
    revert h
    cases install_core F c s with
    | error e => intro h; cases h
    | ok r =>
      obtain ⟨c0, o⟩ := r
      cases o with
      | none =>
        intro h
        simp [Except.map, pure, Except.pure, TOO_MANY_SYMBOLS] at h
      | some c1 =>
        simp only
        generalize hg : halve_loop F fuel c1 = g
        cases g with
        | error e => intro h; cases h
        | ok c2 =>
          intro h
          simp only [Except.map, pure, Except.pure, Except.ok.injEq, Prod.mk.injEq] at h
          rw [← h.2]
          exact halve_loop_total F fuel c1 c2 hg
  · simp only [encode, bind, Except.bind] at h
    revert h
    cases encode_core c s with
    | error e => intro h; cases h
    | ok r =>
      simp only
      generalize hg : halve_loop F fuel r.ctx = g
      cases g with
      | error e => intro h; cases h
      | ok c2 =>
        intro h
        simp only [Except.map, pure, Except.pure, Except.ok.injEq] at h
        rw [← h]
        exact halve_loop_total F fuel r.ctx c2 hg
  · simp only [decode, bind, Except.bind] at h
    revert h
    cases decode_core c t with
    | error e => intro h; cases h
    | ok r =>
      simp only
      generalize hg : halve_loop F fuel r.ctx = g
      cases g with
      | error e => intro h; cases h
      | ok c2 =>
        intro h
        simp only [Except.map, pure, Except.pure, Except.ok.injEq] at h
        rw [← h]
        exact halve_loop_total F fuel r.ctx c2 hg

/-- Witness for C13: installing symbol 0 in a fresh context (`F = 27`) halves
twice and leaves `total = 3 * 2 ^ 25`. -/
theorem total_after_halving_witness :
    Except.map (fun r => (r.1, r.2.total)) (install_symbol 27 100 fresh_context 0)
        = Except.ok (0, 100663296) ∧
      100663296 ≤ Max_frequency 27 :=
  ⟨by decide!, total_after_halving 27 100 fresh_context 100663296 (Or.inl ⟨0, by decide!⟩)⟩

/-- C19, counterexample: installing symbol 0 a second time (`F = 27`) returns 0
and leaves slot 2 with twice the increment of the context. -/
theorem install_twice_count :
    (do
      let c0 ← create_context 27 3 DYNAMIC
      let r1 ← install_symbol 27 100 c0 0
      let r2 ← install_symbol 27 100 r1.2 0
      let w ← interval_width r2.2 2
      pure (r1.1, r2.1, w, count r2.2 2, r2.2.incr)) =
      Except.ok (0, 0, 33554432, 33554432, 16777216) := by
  decide!

/-- C19, amended: for a context whose tree has a power of two as size, whose
`total` agrees with the tree and whose `incr` is at least `MIN_INCR`, and a
symbol `s >= 0` whose slot has count zero or lies outside the tree, after
`install_symbol(ctx, s)` has returned 0 the count of the slot of `s` equals the
`incr` of the context. -/
theorem install_symbol_count (F fuel : Nat) (c : context) (symbol : Int) (k v n : Nat)
    (hsym : 0 ≤ symbol) (hs : symbol + 2 < 2 ^ 31) (hM : c.max_length = 2 ^ k)
    (h1 : 1 < c.max_length) (hmax : c.max_length ≤ 2 ^ 32) (hok : total_ok c)
    (hincr : MIN_INCR ≤ c.incr) (hincrW : c.incr < W)
    (hzero : (symbol + 2).toNat < c.max_length → count c (symbol + 2).toNat = 0)
    (hres : Except.map (fun r => (r.1, count r.2 (symbol + 2).toNat, r.2.incr))
        (install_symbol F fuel c symbol) = Except.ok (0, v, n)) : v = n := by
  have hneg : ¬ symbol + 2 < 0 := by omega
  have hs1 : 1 < (symbol + 2).toNat := by omega
  by_cases hcap : (c.nSymbols + 1) * 2 ≥ Max_frequency F
  · have hs31 : (symbol + 2).toNat < c.max_length * 2 ^ 63 := by
      have h3 : 1 * 2 ^ 63 ≤ c.max_length * 2 ^ 63 := Nat.mul_le_mul_right _ (by omega)
      omega
    obtain ⟨cg, hg, _, _, _, hn, _⟩ := grow_spec (symbol + 2).toNat 63 c (by omega) hs31
    rw [install_cap_yes F fuel c cg symbol hneg hg (by rw [hn]; exact hcap)] at hres
    simp [Except.map, TOO_MANY_SYMBOLS] at hres
  · obtain ⟨cg, c1, k1, hc, e1, e2, e3, e4, e5, _, _, _, _, _, e6, e7⟩ :=
      install_core_spec F c symbol k hsym hs hM h1 hmax hok hcap
    rw [install_symbol_ok F fuel c cg c1 symbol hc] at hres
    revert hres
    generalize hg : halve_loop F fuel c1 = g
    cases g with
    | error e => intro h; cases h
    | ok c2 =>
      intro h
      simp only [Except.map, Except.ok.injEq, Prod.mk.injEq] at h
      have hcnt : count c1 (symbol + 2).toNat = c1.incr := by
        rw [e5]
        by_cases hin : (symbol + 2).toNat < c.max_length
        · rw [e6 _ hs1 hin, if_pos rfl, hzero hin]
          simp only [uadd, Nat.zero_add]
          exact Nat.mod_eq_of_lt hincrW
        · rw [e7 _ (by omega) e4, if_pos rfl]
          exact Nat.mod_eq_of_lt hincrW
      have hP := halve_loop_induct F
        (fun x => 1 < x.max_length ∧ x.max_length ≤ 2 ^ 32 ∧ 1 < (symbol + 2).toNat ∧
          (symbol + 2).toNat < x.max_length ∧ 1 ≤ x.incr ∧ x.incr < W ∧
          count x (symbol + 2).toNat = x.incr)
        (halve_keeps_incr (symbol + 2).toNat) fuel c1 c2 hg
        ⟨by omega, e3, hs1, e4, by rw [e5]; exact hincr, by rw [e5]; exact hincrW, hcnt⟩
      rw [← h.2.1, ← h.2.2]
      exact hP.2.2.2.2.2.2

/-- Witness for C19: the first installation of symbol 0 in a fresh context. -/
theorem install_symbol_count_witness :
    Except.map (fun r => (r.1, count r.2 ((0 : Int) + 2).toNat, r.2.incr))
        (install_symbol 27 100 fresh_context 0) = Except.ok (0, 33554432, 33554432) ∧
      (33554432 : Nat) = 33554432 :=
  ⟨by decide!,
    install_symbol_count 27 100 fresh_context 0 3 33554432 33554432 (by decide) (by decide)
      (by decide) (by decide) (by decide) (by decide!) (by decide) (by decide!)
      (fun _ => by decide!) (by decide!)⟩

/-- C20: for an encoder state `(L, R)` that does not wrap around, a total with
`1 <= total <= R` and cut points `0 = c 0 < c 1 < ... < c m = total`, the
ranges that the narrowing step of `arithmetic_encode` produces for the
intervals `[c j, c (j + 1))` are `[L + r * c j, L + r * c (j + 1))`, and
`[L + r * c j, L + R)` for the last one, with `r = R / total`; they are
non-empty, pairwise disjoint, and their union is `[L, L + R)`. -/
theorem narrow_partition (L R total m : Nat) (c : Nat → Nat) (ht : 1 ≤ total) (htR : total ≤ R)
    (hR : R < W) (hLR : L + R ≤ W) (h0 : c 0 = 0) (hm : c m = total)
    (hc : ∀ j, j < m → c j < c (j + 1)) :
    (∀ j x, j < m →
      (in_code_range (arithmetic_encode_narrow L R (c j) (c (j + 1)) total) x ↔
        L + R / total * c j ≤ x ∧
          x < (if c (j + 1) < total then L + R / total * c (j + 1) else L + R))) ∧
    (∀ j, j < m → 0 < (arithmetic_encode_narrow L R (c j) (c (j + 1)) total).2) ∧
    (∀ x, (L ≤ x ∧ x < L + R) ↔
      ∃ j, j < m ∧ in_code_range (arithmetic_encode_narrow L R (c j) (c (j + 1)) total) x) ∧
    (∀ i j x, i < m → j < m →
      in_code_range (arithmetic_encode_narrow L R (c i) (c (i + 1)) total) x →
      in_code_range (arithmetic_encode_narrow L R (c j) (c (j + 1)) total) x → i = j) := by
  have hle : ∀ j, j < m → c (j + 1) ≤ total := by
    intro j hj
    rw [← hm]
    exact chain_le c m hc m (j + 1) (by omega) (le_refl _)
  have hlt : ∀ j, j < m → c j < total := by
    intro j hj
    have := hle j hj
    have := hc j hj
    omega
  have hb0 : (if c 0 < total then L + R / total * c 0 else L + R) = L := by
    rw [h0, if_pos (by omega)]
    simp
  have hbm : (if c m < total then L + R / total * c m else L + R) = L + R := by
    rw [hm, if_neg (by omega)]
  have hn : ∀ j, j < m →
      arithmetic_encode_narrow L R (c j) (c (j + 1)) total =
        ((if c j < total then L + R / total * c j else L + R),
          (if c (j + 1) < total then L + R / total * c (j + 1) else L + R) -
            (if c j < total then L + R / total * c j else L + R)) ∧
      (if c j < total then L + R / total * c j else L + R) <
        (if c (j + 1) < total then L + R / total * c (j + 1) else L + R) := by
    intro j hj
    rw [if_pos (hlt j hj)]
    exact narrow_eq L R (c j) (c (j + 1)) total ht htR hR hLR (hc j hj) (hle j hj)
  have hin : ∀ j x, j < m →
      (in_code_range (arithmetic_encode_narrow L R (c j) (c (j + 1)) total) x ↔
        (if c j < total then L + R / total * c j else L + R) ≤ x ∧
          x < (if c (j + 1) < total then L + R / total * c (j + 1) else L + R)) := by
    intro j x hj
    obtain ⟨e, hlt1⟩ := hn j hj
    rw [e]
    simp only [in_code_range]
    omega
  have hchain := fun j hj => (hn j hj).2
  refine ⟨?_, ?_, ?_, ?_⟩
  · intro j x hj
    rw [hin j x hj, if_pos (hlt j hj)]
  · intro j hj
    obtain ⟨e, hlt1⟩ := hn j hj
    rw [e]
    simp only
    omega
  · intro x
    constructor
    · rintro ⟨h1, h2⟩
      obtain ⟨j, hj, h3, h4⟩ := chain_cover
        (fun j => if c j < total then L + R / total * c j else L + R) m hchain x
        (by simp only; rw [hb0]; exact h1) (by simp only; rw [hbm]; exact h2)
      exact ⟨j, hj, (hin j x hj).mpr ⟨h3, h4⟩⟩
    · rintro ⟨j, hj, h⟩
      obtain ⟨h3, h4⟩ := (hin j x hj).mp h
      have h5 := chain_le
        (fun j => if c j < total then L + R / total * c j else L + R) m hchain j 0
        (by omega) (by omega)
      have h6 := chain_le
        (fun j => if c j < total then L + R / total * c j else L + R) m hchain m (j + 1)
        (by omega) (by omega)
      simp only at h5 h6
      rw [hb0] at h5
      rw [hbm] at h6
      omega
  · intro i j x hi hj h1 h2
    obtain ⟨h3, h4⟩ := (hin i x hi).mp h1
    obtain ⟨h5, h6⟩ := (hin j x hj).mp h2
    exact chain_unique (fun j => if c j < total then L + R / total * c j else L + R) m hchain
      i j x hi hj h3 h4 h5 h6

/-- Witness for C20: the state `(5, 10)` and the split of `[0, 3)` into `[0, 1)`
and `[1, 3)`. -/
theorem narrow_partition_witness :
    (∀ j x, j < 2 →
      (in_code_range
          (arithmetic_encode_narrow 5 10 (sample_cuts j) (sample_cuts (j + 1)) 3) x ↔
        5 + 10 / 3 * sample_cuts j ≤ x ∧
          x < (if sample_cuts (j + 1) < 3 then 5 + 10 / 3 * sample_cuts (j + 1)
            else 5 + 10))) ∧
    (∀ j, j < 2 →
      0 < (arithmetic_encode_narrow 5 10 (sample_cuts j) (sample_cuts (j + 1)) 3).2) ∧
    (∀ x, (5 ≤ x ∧ x < 5 + 10) ↔
      ∃ j, j < 2 ∧
        in_code_range
          (arithmetic_encode_narrow 5 10 (sample_cuts j) (sample_cuts (j + 1)) 3) x) ∧
    (∀ i j x, i < 2 → j < 2 →
      in_code_range
        (arithmetic_encode_narrow 5 10 (sample_cuts i) (sample_cuts (i + 1)) 3) x →
      in_code_range
        (arithmetic_encode_narrow 5 10 (sample_cuts j) (sample_cuts (j + 1)) 3) x → i = j) :=
  narrow_partition 5 10 3 2 sample_cuts (by decide) (by decide) (by decide) (by decide)
    (by decide) (by decide) (by decide)

/-- C12: for a context whose tree has a power of two as size, whose cumulative
counts do not wrap, whose `total` is the sum of the counts and whose cache of
the most frequent symbol agrees with the tree: `encode` codes a slot `s` of
non-zero count with the remapped interval `remapped c s` out of `total`; for
every target `t` in that interval `decode` selects the same slot and hands the
same three values to `arithmetic_decode`; the remapped intervals of the slots
of non-zero count are non-empty, lie in `[0, total)`, cover it, and no target
lies in two of them. -/
theorem decode_inverts_encode (c : context) (k : Nat) (hM : c.max_length = 2 ^ (k + 1))
    (hk : k < 32) (hmono : cum_mono c) (hok : total_ok c) (hW : c.total < W)
    (hmps : mps_ok c) :
    (∀ s, 0 < s → s < c.max_length → count c s ≠ 0 →
      Except.map coded.args (encode_core c ((s : Int) - 2)) =
          Except.ok (s, (remapped c s).1, (remapped c s).2, c.total) ∧
        (remapped c s).1 < (remapped c s).2 ∧ (remapped c s).2 ≤ c.total ∧
        ∀ t, (remapped c s).1 ≤ t → t < (remapped c s).2 →
          Except.map coded.args (decode_core c t) =
            Except.ok (s, (remapped c s).1, (remapped c s).2, c.total)) ∧
    (∀ t, t < c.total →
      ∃ s, 0 < s ∧ s < c.max_length ∧ count c s ≠ 0 ∧
        (remapped c s).1 ≤ t ∧ t < (remapped c s).2) ∧
    (∀ s1 s2 t, 0 < s1 → s1 < c.max_length → 0 < s2 → s2 < c.max_length →
      (remapped c s1).1 ≤ t → t < (remapped c s1).2 →
      (remapped c s2).1 ≤ t → t < (remapped c s2).2 → s1 = s2) := by
  have hp : 0 < 2 ^ k := by positivity
  have hmax : c.max_length ≤ 2 ^ 32 := by
    rw [hM]
    exact Nat.pow_le_pow_right (by norm_num) (by omega)
  have hone : 1 < c.max_length := by
    rw [hM, pow_succ]
    omega
  refine ⟨?_, ?_, ?_⟩
  · intro s hs0 hs hcnt
    have hne := (count_ne_zero_iff c s).mp hcnt
    obtain ⟨b1, b2⟩ := remapped_bounds c hmono hok hW hmps s hs0 hs hne
    exact ⟨encode_core_args c s hs0 hs hone hmax hmps hne, b1, b2,
      fun t h1 h2 => decode_core_args c k hM hk hmono hok hW hmps s t hs0 hs h1 h2⟩
  · intro t ht
    obtain ⟨s, hs0, hs, h1, h2⟩ := remapped_cover c hone hmono hok hW hmps t ht
    exact ⟨s, hs0, hs,
      (count_ne_zero_iff c s).mpr (remapped_nonempty c hW hmps s (by omega)), h1, h2⟩
  · intro s1 s2 t a0 a1 b0 b1 h1 h2 h3 h4
    have e1 := decode_core_args c k hM hk hmono hok hW hmps s1 t a0 a1 h1 h2
    have e2 := decode_core_args c k hM hk hmono hok hW hmps s2 t b0 b1 h3 h4
    rw [e1] at e2
    simp only [Except.ok.injEq, Prod.mk.injEq] at e2
    exact e2.1

theorem small_context_mono : cum_mono small_context := by
  intro j h0 h
  have h4 : j < 4 := h
  interval_cases j <;> decide!

theorem small_context_mps : mps_ok small_context :=
  Or.inr ⟨by decide, by decide, by decide!, by decide!⟩

/-- Witness for C12: a context of four cells with the counts 2, 5 and 3, whose
most frequent slot 2 gets `[5, 10)` while slot 3 moves down to `[2, 5)`. -/
theorem decode_inverts_encode_witness :
    (remapped small_context 3 = (2, 5) ∧
      Except.map coded.args (encode_core small_context 1) = Except.ok (3, 2, 5, 10) ∧
      Except.map coded.args (decode_core small_context 4) = Except.ok (3, 2, 5, 10)) ∧
    (∀ s, 0 < s → s < small_context.max_length → count small_context s ≠ 0 →
      Except.map coded.args (encode_core small_context ((s : Int) - 2)) =
          Except.ok (s, (remapped small_context s).1, (remapped small_context s).2,
            small_context.total) ∧
        (remapped small_context s).1 < (remapped small_context s).2 ∧
        (remapped small_context s).2 ≤ small_context.total ∧
        ∀ t, (remapped small_context s).1 ≤ t → t < (remapped small_context s).2 →
          Except.map coded.args (decode_core small_context t) =
            Except.ok (s, (remapped small_context s).1, (remapped small_context s).2,
              small_context.total)) ∧
    (∀ t, t < small_context.total →
      ∃ s, 0 < s ∧ s < small_context.max_length ∧ count small_context s ≠ 0 ∧
        (remapped small_context s).1 ≤ t ∧ t < (remapped small_context s).2) ∧
    (∀ s1 s2 t, 0 < s1 → s1 < small_context.max_length → 0 < s2 →
      s2 < small_context.max_length →
      (remapped small_context s1).1 ≤ t → t < (remapped small_context s1).2 →
      (remapped small_context s2).1 ≤ t → t < (remapped small_context s2).2 → s1 = s2) :=
  ⟨by decide!,
    decode_inverts_encode small_context 1 (by decide) (by decide) small_context_mono
      (by decide!) (by decide) small_context_mps⟩

/-- C10, counterexample: on the context of `create_context(3, DYNAMIC)`
(`F = 27`) `encode(ctx, -1)` returns `NOT_KNOWN`, although the slot of `-1`,
slot 1, lies inside the tree of 8 cells and has the count `2 ^ 27`. -/
theorem encode_escape_not_known :
    (do
      let c0 ← create_context 27 3 DYNAMIC
      let w ← interval_width c0 1
      let r ← encode 27 100 c0 (-1)
      pure (r.1, r.2.1, w, count c0 1, c0.max_length, c0.nSingletons)) =
      Except.ok (NOT_KNOWN, (0, 134217728, 134217728), 134217728, 134217728, 8, 134217728) := by
  decide!

/-- C10, amended: for a context with a non-zero escape count whose cache of the
most frequent symbol agrees with the tree, and a symbol `s` other than `-1`:
`encode` returns `NOT_KNOWN` exactly when the slot of `s` lies outside the tree
or has count zero; then the escape slot's interval is handed to the coder and
the count of `s` is unchanged; otherwise `encode` returns 0, the interval of
the slot is handed to the coder and the count of `s` grows by `incr` (before
the halving loop). -/
theorem encode_not_known (c : context) (symbol : Int) (hsym : symbol ≠ -1)
    (h1 : 1 < c.max_length) (hmax : c.max_length ≤ 2 ^ 32) (hmps : mps_ok c)
    (hns : c.nSingletons ≠ 0) :
    ∃ e, encode_core c symbol = Except.ok e ∧
      (∀ F fuel, encode F fuel c symbol =
        Except.map (fun c1 =>
          (if ¬ (0 < symbol + 2 ∧ symbol + 2 < c.max_length) ∨ count c (symbol + 2).toNat = 0
            then NOT_KNOWN else 0, (e.low_w, e.high_w, c.total), c1))
          (halve_loop F fuel e.ctx)) ∧
      (¬ (0 < symbol + 2 ∧ symbol + 2 < c.max_length) ∨ count c (symbol + 2).toNat = 0 →
        (e.low_w, e.high_w) = remapped c 1 ∧
        (0 < symbol + 2 ∧ symbol + 2 < c.max_length →
          count e.ctx (symbol + 2).toNat = count c (symbol + 2).toNat)) ∧
      ((0 < symbol + 2 ∧ symbol + 2 < c.max_length) ∧ count c (symbol + 2).toNat ≠ 0 →
        (e.low_w, e.high_w) = remapped c (symbol + 2).toNat ∧
        count e.ctx (symbol + 2).toNat = uadd (count c (symbol + 2).toNat) c.incr) := by
  by_cases hP : ¬ (0 < symbol + 2 ∧ symbol + 2 < c.max_length) ∨ count c (symbol + 2).toNat = 0
  · have hout : ¬ (symbol + 2 > 0 ∧ symbol + 2 < c.max_length) ∨
        cum c ((symbol + 2).toNat - 1) = cum c (symbol + 2).toNat := by
      rcases hP with h | h
      · exact Or.inl h
      · right
        by_contra hne
        exact (count_ne_zero_iff c _).mpr hne h
    obtain ⟨e, he, hslot, htot, hw, hcnt, _⟩ := encode_core_escape c symbol h1 hmax hmps hns hout
    refine ⟨e, he, ?_, ?_, ?_⟩
    · intro F fuel
      rw [encode_eq F fuel c symbol e he, if_pos hslot, if_pos hP, htot]
    · intro _
      refine ⟨hw, ?_⟩
      intro hin
      exact hcnt _ (by omega) (by omega)
    · intro h
      rcases hP with h2 | h2
      · exact absurd h.1 h2
      · exact absurd h2 h.2
  · have hin : 0 < symbol + 2 ∧ symbol + 2 < c.max_length := by
      by_contra h
      exact hP (Or.inl h)
    have hcz : count c (symbol + 2).toNat ≠ 0 := fun h => hP (Or.inr h)
    obtain ⟨e, he, hslot, htot, hw, hcnt, _⟩ := encode_core_known c symbol h1 hmax hmps hin
      ((count_ne_zero_iff c _).mp hcz)
    have hs1 : ¬ e.slot = 1 := by
      rw [hslot]
      omega
    refine ⟨e, he, ?_, ?_, ?_⟩
    · intro F fuel
      rw [encode_eq F fuel c symbol e he, if_neg hs1, if_neg hP, htot]
    · intro h
      exact absurd h hP
    · intro _
      refine ⟨hw, ?_⟩
      rw [hcnt _ (by omega) (by omega), if_pos rfl]

theorem fresh_context_mps : mps_ok fresh_context :=
  Or.inr ⟨by decide, by decide, by decide!, by decide!⟩

/-- Witness for C10: symbol 0 in a fresh context, whose slot 2 has count zero. -/
theorem encode_not_known_witness :
    ∃ e, encode_core fresh_context 0 = Except.ok e ∧
      (∀ F fuel, encode F fuel fresh_context 0 =
        Except.map (fun c1 =>
          (if ¬ (0 < (0 : Int) + 2 ∧ (0 : Int) + 2 < fresh_context.max_length) ∨
              count fresh_context ((0 : Int) + 2).toNat = 0
            then NOT_KNOWN else 0, (e.low_w, e.high_w, fresh_context.total), c1))
          (halve_loop F fuel e.ctx)) ∧
      (¬ (0 < (0 : Int) + 2 ∧ (0 : Int) + 2 < fresh_context.max_length) ∨
          count fresh_context ((0 : Int) + 2).toNat = 0 →
        (e.low_w, e.high_w) = remapped fresh_context 1 ∧
        (0 < (0 : Int) + 2 ∧ (0 : Int) + 2 < fresh_context.max_length →
          count e.ctx ((0 : Int) + 2).toNat = count fresh_context ((0 : Int) + 2).toNat)) ∧
      ((0 < (0 : Int) + 2 ∧ (0 : Int) + 2 < fresh_context.max_length) ∧
          count fresh_context ((0 : Int) + 2).toNat ≠ 0 →
        (e.low_w, e.high_w) = remapped fresh_context ((0 : Int) + 2).toNat ∧
        count e.ctx ((0 : Int) + 2).toNat =
          uadd (count fresh_context ((0 : Int) + 2).toNat) fresh_context.incr) :=
  encode_not_known fresh_context 0 (by decide) (by decide) (by decide) fresh_context_mps
    (by decide)

/-- C8: in every context the code builds (by `create_context`, `install_symbol`,
`encode`, `decode`, `delete_symbol`, `halve_context` and `adjust_zero_freq`) the
field `total` is the sum of the individual counts of the slots
`1 .. max_length - 1`, as an `unsigned long`. -/
theorem total_is_sum (F : Nat) (c : context) (h : reachable F c) :
    c.total = csum c (c.max_length - 1) % W := by
  obtain ⟨_, _, _, p4, p5, _⟩ := reachable_inv F c h
  unfold total_ok at p5
  rw [← cum_eq_csum, ← p5]
  exact (Nat.mod_eq_of_lt p4).symm

/-- Witness for C8: the context of `create_context(3, DYNAMIC)` for `F = 27`. -/
theorem total_is_sum_witness :
    reachable 27 fresh_context ∧
      fresh_context.total = csum fresh_context (fresh_context.max_length - 1) % W :=
  ⟨reachable.create 3 DYNAMIC fresh_context (by decide) create_fresh,
    total_is_sum 27 fresh_context
      (reachable.create 3 DYNAMIC fresh_context (by decide) create_fresh)⟩

/-- C6: take the counts of the user slots as the calls define them (zero
after `create_context`; `install_symbol` and a coded symbol add `incr` to the
slot; `delete_symbol` clears the slot; every halving pass halves every slot;
tree growth adds slots without a count) and `nSingletons` as the count of the
escape slot 1.  In every context built by `create_context`, `install_symbol`,
`encode`, `decode`, `delete_symbol` and `halve_context` in any order,
`get_interval` returns for every slot `i` with `1 <= i < max_length` the sum of
these counts over the slots `1 .. i - 1` as `low` and `low` plus the count of
slot `i` as `high` (as `unsigned long` values). -/
theorem get_interval_sums_counts (F : Nat) (c : context) (f : Nat → Nat)
    (h : counted F c f) (i : Nat) (h1 : 1 ≤ i) (h2 : i < c.max_length) :
    get_interval c i =
      Except.ok (slot_sum c f (i - 1) % W,
        uadd (slot_sum c f (i - 1) % W) (slot_count c f i)) := by
  have hu := counted_user_reachable F c f h
  obtain ⟨he, _, _⟩ := user_reachable_escape F c hu
  have ha := counted_agree F c f h
  rw [← csum_slot_sum c f he ha (i - 1) (by omega), ← count_slot_count c f he ha i h1 h2]
  rw [get_interval_eq c i (by omega) h2
    (by have := (reachable_inv F c (user_reachable_reachable F c hu)).2.2.1; omega),
    ← cum_eq_csum]
  obtain ⟨n, hn⟩ : ∃ n, i = n + 1 := ⟨i - 1, by omega⟩
  subst hn
  rw [Nat.add_sub_cancel, cum_succ]

/-- Witness for C6: the slot of the symbol 0 after `create_context(3, DYNAMIC)`
and `install_symbol` of the symbol 0 for `F = 27`: the slot has the count
`2 ^ 25`, the escape slot before it `2 ^ 26`. -/
theorem get_interval_sums_counts_witness :
    counted 27 installed_context installed_counts ∧ 1 ≤ 2 ∧ 2 < installed_context.max_length ∧
      installed_context.nSingletons = 2 ^ 26 ∧ installed_counts 2 = 2 ^ 25 ∧
      get_interval installed_context 2 =
        Except.ok (slot_sum installed_context installed_counts (2 - 1) % W,
          uadd (slot_sum installed_context installed_counts (2 - 1) % W)
            (slot_count installed_context installed_counts 2)) :=
  have hc : counted 27 installed_context installed_counts :=
    counted.install 8 fresh_context installed_context 0
      (result_or (install_symbol 27 8 fresh_context 0) (0, fresh_context)).1
      (fun _ => 0) installed_counts
      (counted.create 3 DYNAMIC fresh_context (by decide) create_fresh) (by decide) (by decide)
      (ok_result_or (install_symbol 27 8 fresh_context 0) (0, fresh_context) (by decide!))
      (ok_result_or (install_counts 27 8 fresh_context (fun _ => 0) 0) (fun _ => 0)
        (by decide!))
  ⟨hc, by decide, by decide!, by decide!, by decide!,
    get_interval_sums_counts 27 installed_context installed_counts hc 2 (by decide)
      (by decide!)⟩
/-! ## The probe loop of `find_digram` (C27, C28, C29) -/

/-- C27: lookup correctness of `find_digram`.  A returned cell that holds a
symbol pointer holds a digram with the queried key; and if, with no delimiter
involved, the probe path reaches a cell holding a digram with the queried key
before any null cell (the cells before it holding the tombstone or pointers to
allocated digrams), the result is a cell holding a digram with that key. -/
theorem find_digram_lookup (cfg : Config) (g : Grammar) (s : Nat) (hts : 0 < cfg.table_size) :
    (∀ i, find_digram cfg g s = Except.ok (some i) → 2 ≤ g.table i →
      ∃ ky, key_of g s = Except.ok ky ∧ key_of g (g.table i) = Except.ok ky) ∧
    (∀ (ky : Nat × Nat) (k : Nat), key_of g s = Except.ok ky →
      has_delimiter cfg g s = Except.ok false →
      (∀ j, j < k → valid_cell g
        (g.table (probe_path cfg ((17 - ky.1 % 17) * cfg.K) (hashIndex cfg ky.1 ky.2) j))) →
      matches_cell g ky
        (g.table (probe_path cfg ((17 - ky.1 % 17) * cfg.K) (hashIndex cfg ky.1 ky.2) k)) →
      ∃ i, find_digram cfg g s = Except.ok (some i) ∧ matches_cell g ky (g.table i)) := by
  constructor
  · intro i h hi
    obtain ⟨ky, hk, hp⟩ := find_digram_some cfg g s i h
    refine ⟨ky, hk, ?_⟩
    exact (probe_live cfg g ky.1 ky.2 _ _ _ none i (fun j hj => by cases hj) hp hi).2
  · intro ky k hk hd hvalid hmatch
    classical
    have hex : ∃ j, matches_cell g ky
        (g.table (probe_path cfg ((17 - ky.1 % 17) * cfg.K) (hashIndex cfg ky.1 ky.2) j)) :=
      ⟨k, hmatch⟩
    have hfirst := Nat.find_spec hex
    have hmin := fun j (hj : j < Nat.find hex) => Nat.find_min hex hj
    have hle : Nat.find hex ≤ k := Nat.find_min' hex hmatch
    generalize Nat.find hex = k1 at hfirst hmin hle
    have hpass : ∀ j, j < k1 → passes_cell g (ky.1, ky.2)
        (g.table (probe_path cfg ((17 - ky.1 % 17) * cfg.K) (hashIndex cfg ky.1 ky.2) j)) := by
      intro j hj
      obtain ⟨h0, hv⟩ := hvalid j (by omega)
      by_cases h1 : g.table (probe_path cfg ((17 - ky.1 % 17) * cfg.K)
          (hashIndex cfg ky.1 ky.2) j) = 1
      · exact Or.inl h1
      · right
        have h2 : 2 ≤ g.table (probe_path cfg ((17 - ky.1 % 17) * cfg.K)
            (hashIndex cfg ky.1 ky.2) j) := by omega
        obtain ⟨ky', hk'⟩ := hv h2
        refine ⟨h2, ky', hk', ?_⟩
        intro he
        apply hmin j hj
        exact ⟨h2, by rw [hk', he]⟩
    have hend : ¬ passes_cell g (ky.1, ky.2)
        (g.table (probe_path cfg ((17 - ky.1 % 17) * cfg.K) (hashIndex cfg ky.1 ky.2) k1)) := by
      rintro (h1 | ⟨_, ky', hk', hne⟩)
      · have := hfirst.1
        omega
      · rw [hfirst.2] at hk'
        exact hne (Except.ok.inj hk').symm
    obtain ⟨_, hrun⟩ := probe_reach cfg g ky.1 ky.2 _ _ k1 hts hpass hend
    refine ⟨probe_path cfg ((17 - ky.1 % 17) * cfg.K) (hashIndex cfg ky.1 ky.2) k1, ?_, hfirst⟩
    rw [find_digram_eq cfg g s ky hk hd, hrun, probe_match cfg g ky.1 ky.2 _ _ _ _ hfirst]
    rfl

theorem find_digram_lookup_witness :
    0 < default_config.table_size ∧
      ∃ i, find_digram default_config lookup_state 6 = Except.ok (some i) ∧
        matches_cell lookup_state (3, 5) (lookup_state.table i) :=
  ⟨by decide,
    (find_digram_lookup default_config lookup_state 6 (by decide)).2 (3, 5) 0
      (by decide!) (by decide!) (fun j hj => absurd hj (Nat.not_lt_zero j))
      ⟨by decide!, by decide!⟩⟩

/-- C28 (as stated, refuted): when the digram `(1, 2)` is looked up after
`tombstone_input`, the probe path is 32264389, 32264403, 32264417; the first
two cells are tombstones and the third is null; `find_digram` returns the
second cell, 32264403, not the earliest tombstone. -/
theorem earliest_tombstone_not_returned :
    (before_check default_config 64 tombstone_input 2).bind (fun lg => do
      let i ← find_digram default_config lg.2 lg.1
      let i0 ← probe_start default_config lg.2 lg.1
      let jump ← probe_jump default_config lg.2 lg.1
      pure (i, (List.range 3).map (fun k =>
        (probe_path default_config jump i0 k,
          lg.2.table (probe_path default_config jump i0 k))))) =
      Except.ok (some 32264403, [(32264389, 1), (32264403, 1), (32264417, 0)]) := by
  decide!

/-- C28 (amended): when `find_digram` finds no matching digram on the probe
path and the path passes over tombstones before it reaches a null cell, the
cell returned as insertion target is the last tombstone passed. -/
theorem find_digram_last_tombstone (cfg : Config) (g : Grammar) (s : Nat) (ky : Nat × Nat)
    (n m : Nat) (hts : 0 < cfg.table_size) (hk : key_of g s = Except.ok ky)
    (hd : has_delimiter cfg g s = Except.ok false)
    (hpass : ∀ j, j < n → passes_cell g ky
      (g.table (probe_path cfg ((17 - ky.1 % 17) * cfg.K) (hashIndex cfg ky.1 ky.2) j)))
    (hnull : g.table (probe_path cfg ((17 - ky.1 % 17) * cfg.K) (hashIndex cfg ky.1 ky.2) n) = 0)
    (hm : m < n)
    (htomb : g.table (probe_path cfg ((17 - ky.1 % 17) * cfg.K) (hashIndex cfg ky.1 ky.2) m) = 1)
    (hlast : ∀ j, m < j → j < n →
      g.table (probe_path cfg ((17 - ky.1 % 17) * cfg.K) (hashIndex cfg ky.1 ky.2) j) ≠ 1) :
    find_digram cfg g s = Except.ok
      (some (probe_path cfg ((17 - ky.1 % 17) * cfg.K) (hashIndex cfg ky.1 ky.2) m)) := by
  have hend : ¬ passes_cell g (ky.1, ky.2)
      (g.table (probe_path cfg ((17 - ky.1 % 17) * cfg.K) (hashIndex cfg ky.1 ky.2) n)) := by
    rw [hnull]
    rintro (h1 | ⟨h2, _⟩)
    · exact absurd h1 (by decide)
    · exact absurd h2 (by decide)
  obtain ⟨_, hrun⟩ := probe_reach cfg g ky.1 ky.2 _ _ n hts hpass hend
  rw [find_digram_eq cfg g s ky hk hd, hrun, probe_null cfg g ky.1 ky.2 _ _ _ _ hnull,
    last_insert_spec cfg g _ n _ m none hm htomb hlast]
  rfl

theorem find_digram_last_tombstone_witness :
    find_digram default_config tombstone_state 14 = Except.ok
      (some (probe_path default_config ((17 - 3 % 17) * default_config.K)
        (hashIndex default_config 3 5) 1)) :=
  find_digram_last_tombstone default_config tombstone_state 14 (3, 5) 2 1 (by decide)
    (by decide!) (by decide!)
    (fun j hj => Or.inl (by
      have h : j = 0 ∨ j = 1 := by omega
      rcases h with h | h
      · rw [h]; decide!
      · rw [h]; decide!))
    (by decide!) (by decide) (by decide!)
    (fun j h1 h2 => absurd h2 (by omega))

/-- C29: with `-k 3` (`K = 2`, table size 62499971) and the numeric input
`1 2 196610`, the digrams `(1, 2)` and `(2, 196610)` share the first index
64559060; the lookup of the second steps to `(64559060 + 24) % 62499971`, which
is 2059113: the step is taken modulo `table_size`, not `table_size * K`, and
the returned index is odd, not the base of a group. -/
theorem probe_index_not_group_base :
    table_size_of 7905 1000000000 2 = wide_config.table_size ∧
    (before_check wide_config 64 [1, 2] 196610).bind (fun lg => do
      let i ← find_digram wide_config lg.2 lg.1
      let i0 ← probe_start wide_config lg.2 lg.1
      let jump ← probe_jump wide_config lg.2 lg.1
      pure (i0, jump, (i0 + jump) % (wide_config.table_size * wide_config.K), i,
        i.map (fun x => x % wide_config.K))) =
      Except.ok (64559060, 24, 64559084, some 2059113, some 1) := by
  constructor
  · decide!
  · decide!
/-! ## Shift/add arithmetic (C23) -/

/-- C23: for `Quarter < R ≤ Half`, `2 ^ (F - 1) < total ≤ 2 ^ F` and
`low ≤ high ≤ total` (with `F + 2 ≤ B ≤ 64`) the shift/add loop of
`arithmetic_encode` yields `temp = (R / total) * low` and
`temp2 = (R / total) * high`, so it narrows the interval as the
multiply/divide code does; and the loops of `arithmetic_decode_target` yield
`in_r = R / total` and the target of the multiply/divide code, for a code value
below the range or small enough for its shifts not to overflow. -/
theorem shift_add_eq_mult_div (B F R total low high : Nat) (hF : F + 2 ≤ B) (hB : B ≤ 64)
    (hRQ : Quarter B < R) (hRH : R ≤ Half B) (ht1 : 2 ^ (F - 1) < total)
    (ht2 : total ≤ 2 ^ F) (hlh : low ≤ high) (hh : high ≤ total) :
    encode_shift_temps B F R low high total = (R / total * low, R / total * high) ∧
    (∀ L, arithmetic_encode_shift_narrow B F L R low high total =
      arithmetic_encode_narrow L R low high total) ∧
    (∀ d : decoder, d.in_R = R → (d.in_D < R ∨ d.in_D * 2 ^ F < W) →
      arithmetic_decode_target d total =
          Except.ok (arithmetic_decode_target_shift B F d total) ∧
        (arithmetic_decode_target_shift B F d total).2.in_r = R / total) := by
  have ht := encode_shift_temps_eq B F R total low high hF hB hRQ hRH ht1 ht2 hlh hh
  refine ⟨ht, ?_, ?_⟩
  · intro L
    obtain ⟨_, _, _, _, _, _, _, _, hdiv, hRW⟩ :=
      shift_divisor B F R total hF hB hRQ hRH ht1 ht2
    have b1 : R / total * high ≤ R / total * total := Nat.mul_le_mul_left _ hh
    have b2 : R / total * low ≤ R / total * high := Nat.mul_le_mul_left _ hlh
    have b3 : R / total * (high - low) = R / total * high - R / total * low :=
      Nat.mul_sub (R / total) high low
    have b4 : total ≤ R := by
      by_contra hc
      have h0 : R / total = 0 := Nat.div_eq_of_lt (by omega)
      obtain ⟨_, _, _, _, _, _, h1, _⟩ := shift_divisor B F R total hF hB hRQ hRH ht1 ht2
      omega
    unfold arithmetic_encode_shift_narrow arithmetic_encode_narrow
    simp only
    rw [ht]
    simp only
    rw [Nat.mod_eq_of_lt (show R / total * low < W by omega),
      usub_of_le high low hlh (by omega), b3,
      Nat.mod_eq_of_lt (show R / total * high - R / total * low < W by omega),
      usub_of_le _ _ b2 (by omega)]
  · intro d hd hD
    subst hd
    exact decode_target_shift_eq B F d total hF hB hRQ hRH ht1 ht2 hD

theorem shift_add_eq_mult_div_witness :
    encode_shift_temps 32 27 (2 ^ 31) 5 9 (2 ^ 26 + 1) =
        (2 ^ 31 / (2 ^ 26 + 1) * 5, 2 ^ 31 / (2 ^ 26 + 1) * 9) ∧
    (∀ L, arithmetic_encode_shift_narrow 32 27 L (2 ^ 31) 5 9 (2 ^ 26 + 1) =
      arithmetic_encode_narrow L (2 ^ 31) 5 9 (2 ^ 26 + 1)) ∧
    (∀ d : decoder, d.in_R = 2 ^ 31 → (d.in_D < 2 ^ 31 ∨ d.in_D * 2 ^ 27 < W) →
      arithmetic_decode_target d (2 ^ 26 + 1) =
          Except.ok (arithmetic_decode_target_shift 32 27 d (2 ^ 26 + 1)) ∧
        (arithmetic_decode_target_shift 32 27 d (2 ^ 26 + 1)).2.in_r =
          2 ^ 31 / (2 ^ 26 + 1)) :=
  shift_add_eq_mult_div 32 27 (2 ^ 31) (2 ^ 26 + 1) 5 9 (by decide) (by decide)
    (by decide) (by decide) (by decide) (by decide) (by decide) (by decide)
/-! ## The frugal end of the code (C25) -/

/-- C25: for an encoder state with `Quarter < R` and `L + R ≤ 2 ^ B`
(`2 ≤ B ≤ 32`) the search loop of `finish_encode` with `FRUGAL_BITS` stops at
the smallest `n ≥ 1` for which some prefix `p` of `n` bits names a block inside
the interval, `L ≤ p * 2 ^ (B - n)` and
`p * 2 ^ (B - n) + 2 ^ (B - n) - 1 ≤ L + R - 1`; that `n` is 1, 2 or 3 and at
most `B`, and `bits` is such a prefix. -/
theorem frugal_finish_nbits (B L R : Nat) (hB2 : 2 ≤ B) (hB : B ≤ 32) (hRQ : Quarter B < R)
    (hLR : L + R ≤ 2 ^ B) :
    ∃ n p, frugal_bits B L R = (n, p) ∧ 1 ≤ n ∧ n ≤ 3 ∧ n ≤ B ∧ has_prefix B L R n ∧
      (∀ m, 1 ≤ m → m < n → ¬ has_prefix B L R m) ∧
      p < 2 ^ n ∧ L ≤ p * 2 ^ (B - n) ∧ p * 2 ^ (B - n) + 2 ^ (B - n) - 1 ≤ L + R - 1 := by
  classical
  have hR : 1 ≤ R := by omega
  have hex : ∃ m, 1 ≤ m ∧ has_prefix B L R m :=
    ⟨min 3 B, by omega, has_prefix_three B L R hB2 hRQ⟩
  have hfirst := Nat.find_spec hex
  have hmin := fun m (hm : m < Nat.find hex) => Nat.find_min hex hm
  have hle : Nat.find hex ≤ min 3 B :=
    Nat.find_min' hex ⟨by omega, has_prefix_three B L R hB2 hRQ⟩
  generalize Nat.find hex = n at hfirst hmin hle
  have hnot : ∀ m, 1 ≤ m → m < n → ¬ has_prefix B L R m := fun m h1 h2 h3 => hmin m h2 ⟨h1, h3⟩
  have hfit := (has_prefix_iff B L R n).1 hfirst.2
  have hge : L ≤ (L + 2 ^ (B - n) - 1) / 2 ^ (B - n) * 2 ^ (B - n) := by
    have hs : 0 < 2 ^ (B - n) := by positivity
    generalize 2 ^ (B - n) = s at hs
    have h1 := Nat.div_add_mod (L + s - 1) s
    have h2 := Nat.mod_lt (L + s - 1) hs
    have h3 : s * ((L + s - 1) / s) = (L + s - 1) / s * s := Nat.mul_comm _ _
    omega
  refine ⟨n, (L + 2 ^ (B - n) - 1) / 2 ^ (B - n), ?_, hfirst.1, by omega, by omega, hfirst.2,
    hnot, ?_, hge, hfit⟩
  · unfold frugal_bits
    exact frugal_loop_spec B L R hB hR hLR n hfirst.2 B 1 0 hfirst.1 (by omega) hnot
  · have hs : 0 < 2 ^ (B - n) := by positivity
    have e : 2 ^ B = 2 ^ n * 2 ^ (B - n) := by
      rw [← pow_add]
      congr 1
      omega
    have h1 : ((L + 2 ^ (B - n) - 1) / 2 ^ (B - n) + 1) * 2 ^ (B - n) ≤ 2 ^ n * 2 ^ (B - n) := by
      rw [Nat.add_mul, one_mul, ← e]
      omega
    have h2 := Nat.le_of_mul_le_mul_right h1 hs
    omega

theorem frugal_finish_nbits_witness :
    ∃ n p, frugal_bits 32 (2 ^ 29 + 1) (2 ^ 30 + 1) = (n, p) ∧ 1 ≤ n ∧ n ≤ 3 ∧ n ≤ 32 ∧
      has_prefix 32 (2 ^ 29 + 1) (2 ^ 30 + 1) n ∧
      (∀ m, 1 ≤ m → m < n → ¬ has_prefix 32 (2 ^ 29 + 1) (2 ^ 30 + 1) m) ∧
      p < 2 ^ n ∧ 2 ^ 29 + 1 ≤ p * 2 ^ (32 - n) ∧
      p * 2 ^ (32 - n) + 2 ^ (32 - n) - 1 ≤ 2 ^ 29 + 1 + (2 ^ 30 + 1) - 1 :=
  frugal_finish_nbits 32 (2 ^ 29 + 1) (2 ^ 30 + 1) (by decide) (by decide) (by decide)
    (by decide)
/-! ## The state of the decoder (C22) -/

/-- C22: the decoder invariant.  If `D < R` and `Quarter < R ≤ Half` hold,
`0 < total ≤ 2 ^ F` and `F + 2 ≤ B ≤ 64`, then `arithmetic_decode_target`
returns a target `t < total`; and when `arithmetic_decode` is called with
`low ≤ t < high ≤ total`, the subtraction `D - r * low` does not underflow,
`D < R` and `Quarter < R ≤ Half` hold again in the state it returns, whatever
the input bits are, and it does return when the input has `B` more bits. -/
theorem decoder_invariant (B F : Nat) (hF : F + 2 ≤ B) (hB : B ≤ 64) (d : decoder)
    (total : Nat) (hD : d.in_D < d.in_R) (hRQ : Quarter B < d.in_R) (hRH : d.in_R ≤ Half B)
    (ht0 : 0 < total) (ht : total ≤ 2 ^ F) :
    ∃ t d1, arithmetic_decode_target d total = Except.ok (t, d1) ∧ t < total ∧
      d1.input = d.input ∧
      ∀ low high fuel, low ≤ t → t < high → high ≤ total →
        d1.in_r * low ≤ d1.in_D ∧
        (∀ d2, arithmetic_decode B fuel d1 low high total = Except.ok d2 →
          d2.in_D < d2.in_R ∧ Quarter B < d2.in_R ∧ d2.in_R ≤ Half B) ∧
        (B ≤ fuel → B ≤ d.input.length →
          ∃ d2, arithmetic_decode B fuel d1 low high total = Except.ok d2) := by
  obtain ⟨hr, htW, htarget⟩ := decode_target_spec B F hF hB d total hRQ ht0 ht
  obtain ⟨e1, e2, e3⟩ := half_facts B (by omega) hB
  refine ⟨_, _, htarget, ?_, rfl, ?_⟩
  · split <;> omega
  · intro low high fuel hl hh hht
    obtain ⟨h1, h2, h3⟩ := decode_narrow_spec d.in_R d.in_D total low high _ hD (by omega)
      ht0 hr rfl hl hh hht
    refine ⟨h1, ?_, ?_⟩
    · intro d2 hd2
      unfold arithmetic_decode at hd2
      exact decode_renorm_spec B (by omega) hB fuel _ d2 hd2 (by simp only; omega)
        (by simp only; exact h2)
    · intro hfuel hlen
      unfold arithmetic_decode
      apply decode_renorm_total B (by omega) hB (B - 1) fuel _ ?_ (by omega)
        (by simp only; omega) (by simp only; omega)
      simp only
      have hpos : 1 ≤ (if high < total then (d.in_R / total * usub high low) % W
          else usub d.in_R ((d.in_R / total * low) % W)) := by omega
      have hq : Quarter B < 2 ^ (B - 1) := by
        unfold Quarter
        exact Nat.pow_lt_pow_right (by decide) (by omega)
      calc Quarter B < 2 ^ (B - 1) * 1 := by omega
        _ ≤ _ := Nat.mul_le_mul_left _ hpos

theorem decoder_invariant_witness :
    ∃ t d1, arithmetic_decode_target
        { in_R := 2 ^ 31, in_D := 12345, in_r := 0, input := List.replicate 32 true } 100 =
          Except.ok (t, d1) ∧ t < 100 ∧ d1.input = List.replicate 32 true ∧
      ∀ low high fuel, low ≤ t → t < high → high ≤ 100 →
        d1.in_r * low ≤ d1.in_D ∧
        (∀ d2, arithmetic_decode 32 fuel d1 low high 100 = Except.ok d2 →
          d2.in_D < d2.in_R ∧ Quarter 32 < d2.in_R ∧ d2.in_R ≤ Half 32) ∧
        (32 ≤ fuel → 32 ≤ (List.replicate 32 true).length →
          ∃ d2, arithmetic_decode 32 fuel d1 low high 100 = Except.ok d2) :=
  decoder_invariant 32 27
    (by decide) (by decide)
    { in_R := 2 ^ 31, in_D := 12345, in_r := 0, input := List.replicate 32 true } 100
    (by decide) (by decide) (by decide) (by decide) (by decide)
/-! ## The state of the encoder (C21) and the first bit of the code (C26) -/

/-- C21: the encoder invariant.  After `start_encode` and after every call of
`arithmetic_encode` with `low < high ≤ total ≤ 2 ^ F` and of
`binary_arithmetic_encode` with `1 ≤ c0`, `1 ≤ c1`, `c0 + c1 ≤ 2 ^ F` that
returns (`F + 2 ≤ B ≤ 64`), `Quarter < R ≤ Half` and `L + R ≤ 2 ^ B` hold; and
from such a state the renormalisation loop of a further call ends within `B`
passes: the call returns, or exits at the test of the outstanding bits. -/
theorem encoder_invariant (B F : Nat) (hB64 : B ≤ 64) (hF : F + 2 ≤ B) (e : encoder)
    (hr : enc_reachable B F e) :
    (Quarter B < e.out_R ∧ e.out_R ≤ Half B ∧ e.out_L + e.out_R ≤ 2 ^ B) ∧
    (∀ low high total fuel, low < high → high ≤ total → total ≤ 2 ^ F → B ≤ fuel →
      (∃ e1, arithmetic_encode B fuel e low high total = Except.ok e1) ∨
        arithmetic_encode B fuel e low high total = Except.error Fault.abort) ∧
    (∀ c0 c1 bit fuel, 1 ≤ c0 → 1 ≤ c1 → c0 + c1 ≤ 2 ^ F → B ≤ fuel →
      (∃ e1, binary_arithmetic_encode B fuel e c0 c1 bit = Except.ok e1) ∨
        binary_arithmetic_encode B fuel e c0 c1 bit = Except.error Fault.abort) := by
  have hB : 2 ≤ B := by omega
  have hinv := enc_reachable_inv B F hB hB64 hF e hr
  refine ⟨⟨hinv.1.1, hinv.1.2.1, hinv.1.2.2.1⟩, ?_, ?_⟩
  · intro low high total fuel hlh hh ht hfuel
    obtain ⟨x, w, _, _, hw, hxw, heq⟩ :=
      arithmetic_encode_eq B F hB hB64 hF e hinv.1 low high total fuel hlh hh ht
    rw [heq]
    exact renorm_call_total B hB hB64 e hinv.1 x w fuel hw hxw hfuel
  · intro c0 c1 bit fuel h0 h1 hs hfuel
    obtain ⟨x, w, hw, hxw, heq⟩ :=
      binary_encode_eq B F hB hB64 hF e hinv.1 c0 c1 bit fuel h0 h1 hs
    rw [heq]
    exact renorm_call_total B hB hB64 e hinv.1 x w fuel hw hxw hfuel

theorem encoder_invariant_witness :
    (Quarter 32 < (start_encode 32).out_R ∧ (start_encode 32).out_R ≤ Half 32 ∧
      (start_encode 32).out_L + (start_encode 32).out_R ≤ 2 ^ 32) ∧
    (∀ low high total fuel, low < high → high ≤ total → total ≤ 2 ^ 27 → 32 ≤ fuel →
      (∃ e1, arithmetic_encode 32 fuel (start_encode 32) low high total = Except.ok e1) ∨
        arithmetic_encode 32 fuel (start_encode 32) low high total =
          Except.error Fault.abort) ∧
    (∀ c0 c1 bit fuel, 1 ≤ c0 → 1 ≤ c1 → c0 + c1 ≤ 2 ^ 27 → 32 ≤ fuel →
      (∃ e1, binary_arithmetic_encode 32 fuel (start_encode 32) c0 c1 bit = Except.ok e1) ∨
        binary_arithmetic_encode 32 fuel (start_encode 32) c0 c1 bit =
          Except.error Fault.abort) :=
  encoder_invariant 32 27 (by decide) (by decide) (start_encode 32) enc_reachable.start

/-- C26: without `FRUGAL_BITS` the first bit the coder writes is 0: for every
state of a coding run the output ended by `finish_encode` starts with a 0 bit;
so `start_decode`, fed that output (followed by anything), reads a `D` below
`Half` and does not take the branch for a corrupt input. -/
theorem first_bit_zero (B F : Nat) (hB64 : B ≤ 64) (hF : F + 2 ≤ B) (e : encoder)
    (hr : enc_reachable B F e) :
    (finish_encode B e).output.head? = some false ∧
    ∀ pad, ∃ d, start_decode B ((finish_encode B e).output ++ pad) = Except.ok d ∧
      d.in_D < Half B ∧ d.in_R = Half B := by
  have hB : 2 ≤ B := by omega
  obtain ⟨h1, h2, h3, h4⟩ := pow_facts B hB hB64
  obtain ⟨⟨k1, k2, k3, k4⟩, hpos⟩ := enc_reachable_inv B F hB hB64 hF e hr
  obtain ⟨f1, f2⟩ := finish_encode_spec B hB e (by omega)
  have hlt : bits_val (finish_encode B e).output < Half B * 2 ^ nshift e := by
    rw [f1]; omega
  constructor
  · cases hout : (finish_encode B e).output with
    | nil => rw [hout] at f2; simp at f2; omega
    | cons b rest =>
      rw [hout] at hlt f2
      cases b with
      | false => rfl
      | true =>
        exfalso
        simp only [bits_val, if_true, one_mul, List.length_cons] at hlt f2
        have e1 : rest.length = B - 1 + nshift e := by omega
        rw [e1, pow_add] at hlt
        unfold Half at hlt
        omega
  · intro pad
    have hlen : B ≤ ((finish_encode B e).output ++ pad).length := by
      rw [List.length_append, f2]; omega
    have hfill := fill_D_spec B 0 0 ((finish_encode B e).output ++ pad) hlen (by norm_num)
      (by omega)
    have htake : List.take B ((finish_encode B e).output ++ pad) =
        List.take B (finish_encode B e).output := by
      rw [List.take_append_of_le_length (by omega)]
    have hD : bits_val (List.take B (finish_encode B e).output) < Half B := by
      rw [bits_val_take, f2, show nshift e + B - B = nshift e by omega,
        Nat.div_lt_iff_lt_mul (by positivity)]
      exact hlt
    unfold start_decode
    rw [hfill]
    simp only [zero_mul, zero_add, htake, bind, Except.bind]
    rw [if_neg (by omega)]
    exact ⟨_, rfl, hD, rfl⟩

theorem first_bit_zero_witness :
    (finish_encode 32 (start_encode 32)).output.head? = some false ∧
    ∀ pad, ∃ d, start_decode 32 ((finish_encode 32 (start_encode 32)).output ++ pad) =
      Except.ok d ∧ d.in_D < Half 32 ∧ d.in_R = Half 32 :=
  first_bit_zero 32 27 (by decide) (by decide) (start_encode 32) enc_reachable.start
/-! ## Partial normalisation of the total (C24) -/

/-- C24: in a static context (`F = 27`) with the symbols 0, 1, 2, 3 installed
and 0, 1, 2 deleted again, `encode` of the symbol 3 returns 0 and hands the
interval `[0, 2 ^ 25)` out of a total of `2 ^ 25` to `arithmetic_encode`: the
total is not above `2 ^ (F - 1)`. -/
theorem total_not_normalised :
    (after_deletes 27).bind (fun c =>
      (encode 27 64 c 3).map (fun r => (c.total, r.1, r.2.1))) =
      Except.ok (2 ^ 25, 0, (0, 2 ^ 25, 2 ^ 25)) ∧ ¬ (2 ^ (27 - 1) < 2 ^ 25) := by
  constructor
  · decide!
  · decide
/-! ## The keep indices in the compressed stream (C30) -/

/-- C30 (as stated, refuted): while forgetting, `forget` processes a
non-terminal whose rule 2 has no index yet and is still in use after the
decrement; the codes written are `START_RULE`, the length 2 and the body, and
no code of the `keep` context follows the body. -/
theorem first_emission_without_keep :
    sample_compressor.forgetting = true ∧ sample_compressor.index 2 = 0 ∧
    sample_compressor.freq 2 - 1 > 0 ∧
    forget_codes 5 sample_compressor (gsym.nonterm 2) =
      Except.ok ([code.symbol START_RULE, code.lengths 2, code.symbol 4,
        code.symbol NOT_KNOWN, code.direct 201], 8, true) := by
  decide

/-- C30 (amended): in a state whose codes are in order, `forget` of a
non-terminal whose rule is still in use after the decrement writes, while
forgetting, the index of the rule followed by `KEEPI_YES` when the rule has an
index, and no code of the `keep` context when the rule is sent for the first
time; and for every symbol forgotten, the decompressor, started with the same
`current_rule` and `forgetting`, reads the codes written in at most two passes
of its loop, reads a keep index at exactly the positions of the codes of the
`keep` context, and ends with the `current_rule` and `forgetting` of the
compressor. -/
theorem forget_keep_codes (U : Nat → Prop) (fuel : Nat) (st : compressor) (s : gsym)
    (cs : List code) (cr : Int) (fg : Bool) (hinv : codes_ok U st)
    (hcl : body_closed U st.body) (hs : ∀ r, s = gsym.nonterm r → U r)
    (h : forget_codes fuel st s = Except.ok (cs, cr, fg)) :
    (∀ r, s = gsym.nonterm r → st.forgetting = true → st.freq r - 1 > 0 →
      (st.index r ≠ 0 → cs = [code.symbol (st.index r), code.keep KEEPI_YES]) ∧
      (st.index r = 0 → no_keep cs)) ∧
    (∀ (d : decompressor) (rest : List code), d.current_rule = st.current_rule →
      d.forgetting = st.forgetting →
      ∃ n, n ≤ 2 ∧ uncompress_passes (fuel + 1) n 0 d (cs ++ rest) =
        some (keep_positions 0 cs, { current_rule := cr, forgetting := fg }, rest)) := by
  obtain ⟨st1, h1, h2, h3⟩ := forget_codes_ok fuel st s cs cr fg h
  constructor
  · intro r hr hf hfreq
    subst hr
    unfold forget at h1
    simp only at h1
    have hfr : ({ st with freq := Function.update st.freq r (st.freq r - 1) } :
        compressor).freq r > 0 := by
      simp only [Function.update_same]
      exact hfreq
    obtain ⟨a1, _, a3⟩ := forget_rule_used U fuel
      { st with freq := Function.update st.freq r (st.freq r - 1) } st1 r cs hinv hcl
      (hs r rfl) h1 hfr
    exact ⟨fun hi => a1 hi hf, a3⟩
  · intro d rest hd hf
    rw [← h2, ← h3]
    exact forget_sync U fuel st st1 s cs hinv hcl hs h1 d rest hd hf

theorem forget_keep_codes_witness :
    (∀ r, gsym.nonterm 1 = gsym.nonterm r → sample_compressor.forgetting = true →
      sample_compressor.freq r - 1 > 0 →
      (sample_compressor.index r ≠ 0 →
        [code.symbol 4, code.keep KEEPI_YES] =
          [code.symbol (sample_compressor.index r), code.keep KEEPI_YES]) ∧
      (sample_compressor.index r = 0 → no_keep [code.symbol 4, code.keep KEEPI_YES])) ∧
    (∀ (d : decompressor) (rest : List code),
      d.current_rule = sample_compressor.current_rule →
      d.forgetting = sample_compressor.forgetting →
      ∃ n, n ≤ 2 ∧
        uncompress_passes (5 + 1) n 0 d ([code.symbol 4, code.keep KEEPI_YES] ++ rest) =
          some (keep_positions 0 [code.symbol 4, code.keep KEEPI_YES],
            { current_rule := 6, forgetting := true }, rest)) :=
  forget_keep_codes (fun _ => True) 5 sample_compressor (gsym.nonterm 1)
    [code.symbol 4, code.keep KEEPI_YES] 6 true
    ⟨by decide, by decide, by decide, fun r _ hne => by
      have hr : r = 1 := by
        by_contra hc
        apply hne
        simp [sample_compressor, hc]
      subst hr
      exact ⟨by decide, by decide, by decide, by decide⟩⟩
    (fun _ _ _ _ => trivial) (fun _ _ => trivial) (by decide)
/-! ## The round trip of the arithmetic coder (C5) -/

/-- C5 (counterexample): the triple `(1, 2 ^ 31 + 1, 2 ^ 31 + 1)` has
`low < high ≤ total`; with `B = 32` the encoder returns with its state
unchanged (`out_R / total = 0`), and in the decoder `arithmetic_decode_target`
divides by `in_r = 0`: no target is returned. -/
theorem round_trip_wide_total :
    (1 < 2 ^ 31 + 1 ∧ 2 ^ 31 + 1 ≤ 2 ^ 31 + 1) ∧
      (encode_all 32 8 (start_encode 32) [(1, 2 ^ 31 + 1, 2 ^ 31 + 1)]).map
          (fun e => (e.out_L, e.out_R, e.out_bits_outstanding, e.output)) =
        Except.ok (0, Half 32, 0, []) ∧
      round_trip 32 8 [(1, 2 ^ 31 + 1, 2 ^ 31 + 1)] [] = Except.error Fault.abort := by
  refine ⟨by decide, ?_, ?_⟩
  · decide!
  · decide!

/-- C5 (amended): for triples with `low < high ≤ total ≤ 2 ^ F`, where
`F + 2 ≤ B ≤ 64`, and at least `B` units of fuel for each renormalisation:
the encoder returns when the limit of outstanding bits leaves room for `B`
bits per triple; and whenever the encoder returns, the decoder started on the
bits written by `finish_encode` (whatever follows them) returns for each
triple in order a target `t` with `low ≤ t < high`. -/
theorem coder_round_trip (B F fuel : Nat) (hF : F + 2 ≤ B) (hB : B ≤ 64) (hfuel : B ≤ fuel)
    (triples : List (Nat × Nat × Nat)) (pad : List Bool) (hv : valid_triples F triples) :
    (triples.length * B ≤ MAX_BITS_OUTSTANDING →
        ∃ en, encode_all B fuel (start_encode B) triples = Except.ok en) ∧
      (∀ en, encode_all B fuel (start_encode B) triples = Except.ok en →
        ∃ ts, round_trip B fuel triples pad = Except.ok ts ∧ targets_match ts triples) := by
  refine ⟨fun hlen => ?_, fun en h => round_trip_ok B F fuel hF hB triples hv en pad h⟩
  exact encode_all_total B F fuel hF hB hfuel triples (start_encode B)
    (start_encode_inv B (by omega) hB).1 hv (by
      have e : (start_encode B).out_bits_outstanding = 0 := rfl
      rw [e]; omega)

theorem coder_round_trip_witness :
    valid_triples 27 [(0, 1, 4), (1, 3, 4), (3, 4, 4)] ∧
      ((List.length [(0, 1, 4), (1, 3, 4), (3, 4, 4)] * 32 ≤ MAX_BITS_OUTSTANDING →
        ∃ en, encode_all 32 32 (start_encode 32) [(0, 1, 4), (1, 3, 4), (3, 4, 4)] =
          Except.ok en) ∧
      (∀ en, encode_all 32 32 (start_encode 32) [(0, 1, 4), (1, 3, 4), (3, 4, 4)] =
          Except.ok en →
        ∃ ts, round_trip 32 32 [(0, 1, 4), (1, 3, 4), (3, 4, 4)] [] = Except.ok ts ∧
          targets_match ts [(0, 1, 4), (1, 3, 4), (3, 4, 4)])) :=
  ⟨by simp [valid_triples],
    coder_round_trip 32 27 32 (by decide) (by decide) (by decide)
      [(0, 1, 4), (1, 3, 4), (3, 4, 4)] [] (by simp [valid_triples])⟩
/-! ## The assertion of `join` (C32) and the use counts for `-k 3` (C35) -/

/-- C32: with the delimiter `x` (option `-e x`) and the input `xxx` the start
rule is `x x x`, all terminals; when `forget` deletes the first symbol, as the
loop at the end of a compressing run does, `join` finds the second `x` between
two symbols of the same value, `find_digram` returns the null result for a
digram with the delimiter, and the assertion fails. -/
theorem join_assertion_fails :
    grammar_of delimiter_config 64 delimiter_triple =
      Except.ok [(delimiter_config.addr 0, 0, [241, 241, 241])] ∧
    (build delimiter_config 64 delimiter_triple).bind (fun Sg =>
      (first Sg.2 Sg.1).bind (fun f =>
        (find_digram delimiter_config Sg.2 f).map (fun x => x.isSome))) = Except.ok false ∧
    (build delimiter_config 64 delimiter_triple).bind (fun Sg =>
      (first Sg.2 Sg.1).bind (fun f =>
        (forget_grammar delimiter_config 64 Sg.2 f).map (fun g => g.num_symbols))) =
      Except.error Fault.assertFail := by
  decide!

/-- C35 (counterexample): with the threshold 3 (option `-k 3`, so `K = 2`)
the input `abababababab` ends in the grammar `S -> R2 R1 a b R2`, `R1 -> a b`,
`R2 -> R1 R1`: the rule `R2` has use count 2, less than the threshold. -/
theorem rule_below_threshold :
    wide_config.K + 1 = 3 ∧
    grammar_of wide_config 64 six_pairs =
      Except.ok
        [(wide_config.addr 0, 0,
            [wide_config.addr 2, wide_config.addr 1, 195, 197, wide_config.addr 2]),
         (wide_config.addr 1, 3, [195, 197]),
         (wide_config.addr 2, 2, [wide_config.addr 1, wide_config.addr 1])] := by
  decide!

/-- C35 (amended): the use count that `check` enforces does not depend on the
threshold.  The test that follows a substitution by the rule `r` looks at the
first symbol of `r` only: a terminal, or a non-terminal whose rule has a use
count other than 1, leaves the grammar as it is, whatever `K` is (so a rule
with a use count from 2 to `K` stays); a non-terminal whose rule has use count
exactly 1 is expanded. -/
theorem utility_test_threshold (cfg : Config) (fuel : Nat) (g : Grammar) (r f : Nat)
    (fv : symbols) (hf : first g r = Except.ok f) (hv : deref g f = Except.ok fv) :
    (fv.non_terminal = false → expand_underused cfg fuel g r = Except.ok g) ∧
    (∀ R, fv.non_terminal = true → derefRule g fv.s = Except.ok R →
      (R.count ≠ 1 → expand_underused cfg fuel g r = Except.ok g) ∧
      (2 ≤ R.count → R.count ≤ cfg.K → expand_underused cfg fuel g r = Except.ok g) ∧
      (R.count = 1 → expand_underused cfg fuel g r = expand cfg fuel g f)) := by
  refine ⟨?_, ?_⟩
  · intro hnt
    unfold expand_underused
    simp only [hf, hv, bind, Except.bind, hnt]
    rfl
  · intro R hnt hR
    have key : R.count ≠ 1 → expand_underused cfg fuel g r = Except.ok g := by
      intro hc
      unfold expand_underused
      simp only [hf, hv, hR, bind, Except.bind, hnt, if_true, if_neg hc]
      rfl
    refine ⟨key, fun h2 _ => key (by omega), ?_⟩
    intro hc
    unfold expand_underused
    simp only [hf, hv, hR, bind, Except.bind, hnt, if_true, if_pos hc]

/-- Witness for C35: at the end of the run with `-k 3` on `abababababab` the
first symbol of the start rule is a non-terminal of `R2`, whose use count 2 is
not above `K = 2`; the test leaves the grammar as it is. -/
theorem utility_test_threshold_witness :
    first pairs_state (wide_config.addr 0) = Except.ok 26 ∧
    deref pairs_state 26 = Except.ok { n := 14, p := 2, s := wide_config.addr 2 } ∧
    derefRule pairs_state (wide_config.addr 2) =
      Except.ok { guard := 23, count := 2, Usage := 0, number := 0 } ∧
    expand_underused wide_config 64 pairs_state (wide_config.addr 0) =
      Except.ok pairs_state :=
  ⟨by decide!, by decide!, by decide!,
    ((utility_test_threshold wide_config 64 pairs_state (wide_config.addr 0) 26
      { n := 14, p := 2, s := wide_config.addr 2 } (by decide!) (by decide!)).2
      { guard := 23, count := 2, Usage := 0, number := 0 } (by decide!) (by decide!)).2.1
      (by decide) (by decide)⟩
/-! ## Termination of the probe loop (C40) -/

/-- C40: with `K = 1`, a prime table size above 17 and a null cell in the
table: the stride of any key is coprime to the table size, its probe path
reaches every cell within `table_size` passes, the probe loop does not run on
for ever (neither alone nor inside `find_digram`), and if the cells that are
not null hold the tombstone or pointers to allocated digrams, `find_digram`
returns for every allocated digram. -/
theorem probe_loop_terminates (cfg : Config) (g : Grammar) (hK : cfg.K = 1)
    (hp : Nat.Prime cfg.table_size) (h17 : 17 < cfg.table_size)
    (c : Nat) (hc : c < cfg.table_size) (hnull : g.table c = 0) :
    (∀ one, Nat.Coprime ((17 - one % 17) * cfg.K) cfg.table_size) ∧
    (∀ one two cell, cell < cfg.table_size → ∃ k, k < cfg.table_size ∧
      probe_path cfg ((17 - one % 17) * cfg.K) (hashIndex cfg one two) k = cell) ∧
    (∀ one two ins, probe cfg g one two ((17 - one % 17) * cfg.K) (cfg.table_size + 1)
      (hashIndex cfg one two) ins ≠ Except.error Fault.diverge) ∧
    (∀ s, find_digram cfg g s ≠ Except.error Fault.diverge) ∧
    ((∀ i, i < cfg.table_size → g.table i = 0 ∨ valid_cell g (g.table i)) →
      ∀ s ky, key_of g s = Except.ok ky → ∃ x, find_digram cfg g s = Except.ok x) := by
  have hts : 0 < cfg.table_size := by omega
  have hco : ∀ one, Nat.Coprime ((17 - one % 17) * cfg.K) cfg.table_size := by
    intro one
    rw [hK, Nat.mul_one]
    exact stride_coprime _ one hp h17
  have hnd : ∀ one two ins, probe cfg g one two ((17 - one % 17) * cfg.K)
      (cfg.table_size + 1) (hashIndex cfg one two) ins ≠ Except.error Fault.diverge := by
    intro one two ins
    obtain ⟨k, hk, h0, _⟩ := probe_meets_null cfg g hK hp h17 c hc hnull one two
    exact probe_no_diverge cfg g one two _ _ _ ins k (by omega) h0
  refine ⟨hco, ?_, hnd, ?_, ?_⟩
  · intro one two cell hcell
    exact probe_path_onto cfg _ (by omega) (hco one) _ (hashIndex_lt cfg hK hts one two)
      cell hcell
  · intro s
    exact find_digram_no_diverge cfg g s (fun one two => hnd one two none)
  · intro hvalid s ky hky
    by_cases hd : has_delimiter cfg g s = Except.ok false
    · rw [find_digram_eq cfg g s ky hky hd]
      obtain ⟨k, hk, h0, hmin⟩ := probe_meets_null cfg g hK hp h17 c hc hnull ky.1 ky.2
      obtain ⟨r, hr⟩ := probe_total cfg g ky.1 ky.2 ((17 - ky.1 % 17) * cfg.K)
        (cfg.table_size + 1) (hashIndex cfg ky.1 ky.2) none k (by omega) h0 (by
          intro j hj
          have hlt : probe_path cfg ((17 - ky.1 % 17) * cfg.K) (hashIndex cfg ky.1 ky.2) j <
              cfg.table_size := by
            cases j with
            | zero => exact hashIndex_lt cfg hK hts _ _
            | succ j => exact probe_path_lt cfg _ hts j _
          rcases hvalid _ hlt with h | h
          · exact absurd h (hmin j hj)
          · exact h)
      rw [hr]
      exact ⟨_, rfl⟩
    · obtain ⟨v, n, hv, hn, _⟩ := key_of_ok g s ky hky
      unfold has_delimiter at hd
      rw [hv] at hd
      simp only [bind, Except.bind, hn, pure, Except.pure] at hd
      unfold find_digram
      rw [hv]
      simp only [bind, Except.bind, hn]
      split
      · exact ⟨_, rfl⟩
      · rename_i hcond
        exfalso
        apply hd
        simp only [hcond, decide_False]

theorem probe_loop_terminates_witness :
    default_config.K = 1 ∧ Nat.Prime default_config.table_size ∧
      17 < default_config.table_size ∧ lookup_state.table 0 = 0 ∧
    ((∀ one, Nat.Coprime ((17 - one % 17) * default_config.K) default_config.table_size) ∧
    (∀ one two cell, cell < default_config.table_size → ∃ k, k < default_config.table_size ∧
      probe_path default_config ((17 - one % 17) * default_config.K)
        (hashIndex default_config one two) k = cell) ∧
    (∀ one two ins, probe default_config lookup_state one two
      ((17 - one % 17) * default_config.K) (default_config.table_size + 1)
      (hashIndex default_config one two) ins ≠ Except.error Fault.diverge) ∧
    (∀ s, find_digram default_config lookup_state s ≠ Except.error Fault.diverge) ∧
    ((∀ i, i < default_config.table_size →
        lookup_state.table i = 0 ∨ valid_cell lookup_state (lookup_state.table i)) →
      ∀ s ky, key_of lookup_state s = Except.ok ky →
        ∃ x, find_digram default_config lookup_state s = Except.ok x)) := by
  have hp : Nat.Prime default_config.table_size := by
    show Nat.Prime 124999991
    exact prime_of_no_divisor 124999991 14 (by decide) (by decide) (by decide!)
  have h0 : lookup_state.table 0 = 0 := by decide!
  exact ⟨rfl, hp, by decide, h0,
    probe_loop_terminates default_config lookup_state rfl hp (by decide) 0 (by decide) h0⟩
/-! ## The binary contexts (C36) -/

/-- C36: for `1 ≤ F ≤ 62` (64-bit counts), every binary context `c` that calls
of `binary_encode` and `binary_decode` produce from the result of
`create_binary_context` has `c0 ≥ 1`, `c1 ≥ 1`, `incr ≥ MIN_INCR` and
`2 ^ (F - 1) < c0 + c1 ≤ 2 ^ F`; and the next call, whatever its bit, adds
`incr` to the count of the bit and halves both counts and the increment,
rounding up, exactly when the new sum is above `2 ^ F`. -/
theorem binary_context_invariant (B F : Nat) (hF : 1 ≤ F) (hF62 : F ≤ 62) (c : binary_context)
    (hr : binary_reachable B F c) :
    binary_ok F c ∧
      ∀ bit : Int, binary_update F c bit =
        (if (binary_grown c bit).c0 + (binary_grown c bit).c1 > 2 ^ F
          then binary_halved (binary_grown c bit) else binary_grown c bit) := by
  obtain ⟨hok, hi⟩ := binary_reachable_ok B F hF hF62 c hr
  exact ⟨hok, fun bit => (binary_update_spec F hF hF62 c bit hok hi).1⟩

theorem binary_context_invariant_witness :
    binary_reachable 32 27 (create_binary_context 27) ∧
      (binary_ok 27 (create_binary_context 27) ∧
        ∀ bit : Int, binary_update 27 (create_binary_context 27) bit =
          (if (binary_grown (create_binary_context 27) bit).c0 +
              (binary_grown (create_binary_context 27) bit).c1 > 2 ^ 27
            then binary_halved (binary_grown (create_binary_context 27) bit)
            else binary_grown (create_binary_context 27) bit)) :=
  ⟨binary_reachable.create,
    binary_context_invariant 32 27 (by decide) (by decide) (create_binary_context 27)
      binary_reachable.create⟩
/-! ## Encoder and decoder in lockstep (C37) -/

/-- C37: for a context that satisfies the invariant `ctx_inv` (so its cache of
the most frequent symbol agrees with the tree), any symbol and any target: if
`encode` codes a slot and `decode`, on the same context, selects the same slot,
then the contexts they leave before the halving loop are equal, so the two
calls end with the same context (equal in every field) or fail alike; `encode`
returns `NOT_KNOWN` for the escape slot and 0 otherwise, and `decode` returns
`NOT_KNOWN` for the escape slot and the symbol otherwise. -/
theorem encode_decode_lockstep (F fuel : Nat) (c : context) (hinv : ctx_inv c) (symbol : Int)
    (t : Nat) (re rd : coded) (he : encode_core c symbol = Except.ok re)
    (hd : decode_core c t = Except.ok rd) (hslot : rd.slot = re.slot) :
    rd.ctx = re.ctx ∧
    encode F fuel c symbol =
      Except.map (fun c1 => (if re.slot = 1 then NOT_KNOWN else 0,
        (re.low_w, re.high_w, re.total), c1)) (halve_loop F fuel re.ctx) ∧
    decode F fuel c t =
      Except.map (fun c1 => (if re.slot = 1 then NOT_KNOWN else symbol,
        (rd.low_w, rd.high_w, rd.total), c1)) (halve_loop F fuel re.ctx) := by
  obtain ⟨⟨k, hk⟩, h1, hmax, _, _, hmps⟩ := hinv
  obtain ⟨k1, rfl⟩ : ∃ k1, k = k1 + 1 := by
    refine ⟨k - 1, ?_⟩
    rcases Nat.eq_zero_or_pos k with h | h
    · subst h
      rw [hk] at h1
      exact absurd h1 (by decide)
    · omega
  have hk32 : k1 < 32 := by
    by_contra hc
    have : 2 ^ 33 ≤ 2 ^ (k1 + 1) := Nat.pow_le_pow_right (by norm_num) (by omega)
    rw [hk] at hmax
    have h2 : (2 : Nat) ^ 32 < 2 ^ 33 := by decide
    omega
  obtain ⟨e1, e2, e3, e4⟩ := encode_core_update c symbol re h1 hmax hmps he
  have d1 := decode_core_update c k1 hk hk32 hmps t rd hd (by rw [hslot]; exact e1)
    (by rw [hslot]; exact e2)
  rw [hslot, e3] at d1
  have hctx : rd.ctx = re.ctx := (Except.ok.inj d1).symm
  refine ⟨hctx, encode_eq F fuel c symbol re he, ?_⟩
  rw [decode_eq F fuel c t rd hd, hctx, hslot]
  by_cases hs : re.slot = 1
  · simp only [hs, if_true]
  · simp only [hs, if_false, e4 hs]

theorem encode_decode_lockstep_witness :
    ctx_inv small_context ∧
      ∃ re rd, encode_core small_context 1 = Except.ok re ∧
        decode_core small_context 4 = Except.ok rd ∧ rd.slot = re.slot ∧
        (rd.ctx = re.ctx ∧
          encode 27 8 small_context 1 =
            Except.map (fun c1 => (if re.slot = 1 then NOT_KNOWN else 0,
              (re.low_w, re.high_w, re.total), c1)) (halve_loop 27 8 re.ctx) ∧
          decode 27 8 small_context 4 =
            Except.map (fun c1 => (if re.slot = 1 then NOT_KNOWN else 1,
              (rd.low_w, rd.high_w, rd.total), c1)) (halve_loop 27 8 re.ctx)) := by
  have hinv : ctx_inv small_context :=
    ⟨⟨2, rfl⟩, by decide, by decide, by decide, by decide!, small_context_mps⟩
  obtain ⟨re, he, ha⟩ := map_args_ok (encode_core small_context 1) (3, 2, 5, 10) (by decide!)
  obtain ⟨rd, hd, hb⟩ := map_args_ok (decode_core small_context 4) (3, 2, 5, 10) (by decide!)
  have hs : rd.slot = re.slot := by
    have h1 : rd.slot = 3 := congrArg Prod.fst hb
    have h2 : re.slot = 3 := congrArg Prod.fst ha
    rw [h1, h2]
  exact ⟨hinv, re, rd, he, hd, hs,
    encode_decode_lockstep 27 8 small_context hinv 1 4 re rd he hd hs⟩
/-! ## The escape slot and the count of singletons (C38) -/

/-- C38: `delete_symbol` leaves `nSingletons` stale.  In the dynamic context of
`create_context(3, DYNAMIC)` with `F = 27`, after `install_symbol` and
`delete_symbol` of the symbol 0 the increment is `2 ^ 25`, no user slot has a
count equal to it (the slot of the symbol has count 0 again), and `nSingletons`
and the count of the escape slot are still `2 ^ 26`, not `incr * (1 + 0)`:
`delete_symbol` removes a singleton from the tree and does not touch
`nSingletons`, which `install_symbol`, `encode`, `decode` and `halve_context`
keep in step with the singletons. -/
theorem stale_singleton_count :
    deleted_singleton.map (fun c =>
        (c.type, c.nSingletons, c.incr, count c 1, count c 2,
          single_slots c (c.max_length - 1))) =
      Except.ok (DYNAMIC, 2 ^ 26, 2 ^ 25, 2 ^ 26, 0, 0) ∧
    (2 : Nat) ^ 26 ≠ 2 ^ 25 * (1 + 0) := by
  constructor
  · decide!
  · decide

/-- What the operations other than the deletion of a singleton do keep: in
every context built by `create_context`, `encode`, `decode`, `halve_context`,
and `install_symbol` and `delete_symbol` of user symbols (index at least 0), the
count of the escape slot 1 equals `nSingletons`; in a static context both are
0; and a halving pass of a context that is not static sets `nSingletons` to
`incr * (1 + k)` (as an `unsigned long`), where `k` is the number of user slots
whose count equals `incr`. -/
theorem escape_count_invariant (F : Nat) (c : context) (h : user_reachable F c) :
    count c 1 = c.nSingletons ∧
    (c.type = STATIC → c.nSingletons = 0 ∧ count c 1 = 0) ∧
    (∀ c1, c.type ≠ STATIC → halve_context c = Except.ok c1 →
      count c1 1 = c1.nSingletons ∧
      c1.nSingletons = c1.incr * (1 + single_slots c1 (c1.max_length - 1)) % W) := by
  obtain ⟨e1, e2, e3⟩ := user_reachable_escape F c h
  have hinv := reachable_inv F c (user_reachable_reachable F c h)
  refine ⟨e1, fun ht => ⟨e2 ht, by rw [e1]; exact e2 ht⟩, ?_⟩
  intro c1 ht hh
  exact ⟨(halve_context_escape c c1 hinv e3 hh).1, halve_context_singles c c1 hinv e3 ht hh⟩

theorem escape_count_invariant_witness :
    user_reachable 27 fresh_context ∧
    (count fresh_context 1 = fresh_context.nSingletons ∧
    (fresh_context.type = STATIC →
      fresh_context.nSingletons = 0 ∧ count fresh_context 1 = 0) ∧
    (∀ c1, fresh_context.type ≠ STATIC → halve_context fresh_context = Except.ok c1 →
      count c1 1 = c1.nSingletons ∧
      c1.nSingletons = c1.incr * (1 + single_slots c1 (c1.max_length - 1)) % W)) :=
  ⟨user_reachable.create 3 DYNAMIC fresh_context (by decide) create_fresh,
    escape_count_invariant 27 fresh_context
      (user_reachable.create 3 DYNAMIC fresh_context (by decide) create_fresh)⟩
/-! ## Termination of the halving loop (C34) -/

/-- C34: for `F ≥ 2`, in every context built by `create_context`, `encode`,
`decode`, `halve_context`, and `install_symbol` and `delete_symbol` of user
symbols, the number of user slots with a count is below `nSymbols` and
`2 * nSymbols < 2 ^ F` (the cap test of `install_symbol`); and the loop
`while (total > Max_frequency) halve_context` returns within 98 tests, leaving
`total ≤ Max_frequency`, when it is run on such a context and when it is run
inside `install_symbol`, `encode` and `decode` on the context they have
updated. -/
theorem halving_terminates (F : Nat) (hF : 2 ≤ F) (c : context) (h : user_reachable F c) :
    slots_ok F c ∧
    (∃ c1, halve_loop F 98 c = Except.ok c1 ∧ c1.total ≤ Max_frequency F) ∧
    (∀ (symbol : Int) (cg c1 : context), 0 ≤ symbol → symbol + 2 < 2 ^ 31 →
      install_core F c symbol = Except.ok (cg, some c1) →
      ∃ c2, halve_loop F 98 c1 = Except.ok c2 ∧ c2.total ≤ Max_frequency F) ∧
    (∀ (symbol : Int) (e : coded), encode_core c symbol = Except.ok e →
      ∃ c1, halve_loop F 98 e.ctx = Except.ok c1 ∧ c1.total ≤ Max_frequency F) ∧
    (∀ (t : Nat) (e : coded), cum_mono c → t < c.total → decode_core c t = Except.ok e →
      ∃ c1, halve_loop F 98 e.ctx = Except.ok c1 ∧ c1.total ≤ Max_frequency F) := by
  have hinv := reachable_inv F c (user_reachable_reachable F c h)
  have hesc := user_reachable_escape F c h
  have hs := user_reachable_slots F hF c h
  refine ⟨hs, halve_loop_ends F c hinv hesc hs, ?_, ?_, ?_⟩
  · intro symbol cg c1 h0 h1 hi
    exact halve_loop_ends F c1
      ((install_core_inv F c cg _ symbol (by omega) h1 hinv hi).2 c1 rfl)
      ((install_core_escape F c cg _ symbol (by omega) h1 hinv hesc hi).2 c1 rfl)
      ((install_core_slots F c cg _ symbol h0 h1 hinv hs hi).2 c1 rfl)
  · intro symbol e he
    obtain ⟨u1, u2, u3, _⟩ := encode_core_update c symbol e hinv.2.1 hinv.2.2.1 hinv.2.2.2.2.2 he
    exact halve_loop_ends F e.ctx (encode_core_inv c symbol e hinv he)
      (update_coded_escape c e.ctx e.slot _ _ u1 u2 rfl rfl hinv hesc u3)
      (encode_core_slots F c symbol e hinv hs he)
  · intro t e hm ht hd
    exact halve_loop_ends F e.ctx (decode_core_inv c t e hinv hm ht hd)
      (decode_core_escape c t e hinv hesc hm ht hd)
      (decode_core_slots F c t e hinv hm ht hs hd)

theorem halving_terminates_witness :
    2 ≤ 27 ∧ user_reachable 27 fresh_context ∧
    (slots_ok 27 fresh_context ∧
    (∃ c1, halve_loop 27 98 fresh_context = Except.ok c1 ∧ c1.total ≤ Max_frequency 27) ∧
    (∀ (symbol : Int) (cg c1 : context), 0 ≤ symbol → symbol + 2 < 2 ^ 31 →
      install_core 27 fresh_context symbol = Except.ok (cg, some c1) →
      ∃ c2, halve_loop 27 98 c1 = Except.ok c2 ∧ c2.total ≤ Max_frequency 27) ∧
    (∀ (symbol : Int) (e : coded), encode_core fresh_context symbol = Except.ok e →
      ∃ c1, halve_loop 27 98 e.ctx = Except.ok c1 ∧ c1.total ≤ Max_frequency 27) ∧
    (∀ (t : Nat) (e : coded), cum_mono fresh_context → t < fresh_context.total →
      decode_core fresh_context t = Except.ok e →
      ∃ c1, halve_loop 27 98 e.ctx = Except.ok c1 ∧ c1.total ≤ Max_frequency 27)) :=
  ⟨by decide, user_reachable.create 3 DYNAMIC fresh_context (by decide) create_fresh,
    halving_terminates 27 (by decide) fresh_context
      (user_reachable.create 3 DYNAMIC fresh_context (by decide) create_fresh)⟩

/-- C33: the cascade started by `check` does not terminate in a table that has
free cells.  With `-k 354 -m 1` the table has 353 groups of 353 cells, and the
stride of the probe loop, a multiple of `K = 353`, is reduced modulo the number
of groups, so that every pass after the first looks at cell 0.  On the input
`GJW` both digrams start at cell 0: `(G, J)` is stored there, and the lookup
of `(J, W)` by `check` passes over cell 0 for ever, while every other cell of
the table is free. -/
theorem check_never_returns :
    table_size_of 18 1000000 353 = narrow_config.table_size ∧
    (before_check narrow_config 64 [71, 74] 87).map (fun lg => lg.1) = Except.ok 4 ∧
    key_of stuck_state 4 = Except.ok (149, 175) ∧
    stuck_state.occupied = 1 ∧ stuck_state.table 1 = 0 ∧ stuck_state.table 353 = 0 ∧
    (∀ k, probe_path narrow_config ((17 - 149 % 17) * narrow_config.K)
      (hashIndex narrow_config 149 175) k = 0) ∧
    passes_cell stuck_state (149, 175) (stuck_state.table 0) ∧
    (∀ fuel ins, probe narrow_config stuck_state 149 175 ((17 - 149 % 17) * narrow_config.K)
      fuel (hashIndex narrow_config 149 175) ins = Except.error Fault.diverge) ∧
    (∀ fuel, check narrow_config (fuel + 1) stuck_state 4 = Except.error Fault.diverge) ∧
    (build narrow_config 64 stuck_input).map (fun Sg => Sg.1) =
      Except.error Fault.diverge := by
  have hh : hashIndex narrow_config 149 175 = 0 := by decide!
  have hpath : ∀ k, probe_path narrow_config ((17 - 149 % 17) * narrow_config.K) 0 k = 0 := by
    intro k
    induction k with
    | zero => rfl
    | succ k ih =>
      rw [probe_path_succ, ih]
      decide
  have hk4 : key_of stuck_state 4 = Except.ok (149, 175) := by decide!
  have hk3 : key_of stuck_state 3 = Except.ok (143, 149) := by decide!
  have h0 : stuck_state.table 0 = 3 := by decide!
  have hpass : passes_cell stuck_state (149, 175) (stuck_state.table 0) := by
    rw [h0]
    exact Or.inr ⟨by decide, (143, 149), hk3, by decide⟩
  have hprobe : ∀ fuel ins, probe narrow_config stuck_state 149 175
      ((17 - 149 % 17) * narrow_config.K) fuel 0 ins = Except.error Fault.diverge :=
    probe_never_returns narrow_config stuck_state 149 175 _ 0
      (fun k => by rw [hpath k]; exact hpass)
  have hfind : find_digram narrow_config stuck_state 4 = Except.error Fault.diverge := by
    rw [find_digram_eq narrow_config stuck_state 4 (149, 175) hk4 (by decide!)]
    show (probe narrow_config stuck_state 149 175 ((17 - 149 % 17) * narrow_config.K)
      (narrow_config.table_size + 1) (hashIndex narrow_config 149 175) none).map some = _
    rw [hh, hprobe]
    rfl
  refine ⟨by decide!, by decide!, hk4, by decide!, by decide!, by decide!, ?_, hpass, ?_, ?_,
    by decide!⟩
  · rw [hh]; exact hpath
  · rw [hh]; exact hprobe
  · intro fuel
    exact check_find_error narrow_config stuck_state 4 fuel { n := 5, p := 3, s := 149 }
      Fault.diverge (by decide!) (by decide!) (by decide!) hfind

/-- C1: with the parameter `K` of a run with `-k 3` the grammar that is handed
to the compressor does not expand to the input, so that no decoder can return
the input from it.  With `-k 3 -m 3` the digrams `df` and `uc` have the same
group of two cells.  On the input `zdfdfzdzducuc` the first `df` leaves the
group when `zd` becomes a rule, the first `uc` takes its cell, and the second
`df` stays in the other cell of the group (after the eleven bytes `zdfdfzdzduc`
the cells 93740 and 93741 hold the symbols 18 and 6, the digrams `uc` and
`df`).  `find_digram` compares the key of the first cell only, so when the
second `uc` arrives `check` replaces the digram `df` at symbol 6 by the rule
of `uc`: the grammar is `S -> R1 f R2 R1 R1 R2 R2`, `R1 -> z d`, `R2 -> u c`,
and it expands to `zdfuczdzducuc`.  With `-k 3` and the default memory the
input `bbbabaaaaabbbabab` gives a grammar that expands to the sixteen bytes
`bbbabaaaaababbab`. -/
theorem expansion_differs_from_input :
    table_size_of 433 3000000 2 = small_wide_config.table_size ∧
    hashIndex small_wide_config 201 205 = 93740 ∧
    hashIndex small_wide_config 235 199 = 93740 ∧
    expansion_of small_wide_config 64 (crossed_input.take 11) =
      Except.ok [122, 100, 102, 100, 102, 122, 100, 122, 100, 117, 99] ∧
    crossed_state.table 93740 = 18 ∧ crossed_state.table 93741 = 6 ∧
    key_of crossed_state 18 = Except.ok (235, 199) ∧
    key_of crossed_state 6 = Except.ok (201, 205) ∧
    grammar_of small_wide_config 64 crossed_input =
      Except.ok
        [(small_wide_config.addr 0, 0,
            [small_wide_config.addr 1, 205, small_wide_config.addr 2,
             small_wide_config.addr 1, small_wide_config.addr 1,
             small_wide_config.addr 2, small_wide_config.addr 2]),
         (small_wide_config.addr 1, 3, [245, 201]),
         (small_wide_config.addr 2, 3, [235, 199])] ∧
    expansion_of small_wide_config 64 crossed_input =
      Except.ok [122, 100, 102, 117, 99, 122, 100, 122, 100, 117, 99, 117, 99] ∧
    expansion_of small_wide_config 64 crossed_input ≠
      Except.ok (crossed_input.map toUlong) ∧
    expansion_of wide_config 64 plain_input =
      Except.ok [98, 98, 98, 97, 98, 97, 97, 97, 97, 97, 98, 97, 98, 98, 97, 98] ∧
    expansion_of wide_config 64 plain_input ≠ Except.ok (plain_input.map toUlong) := by
  decide!
end Sequitur
